import Mathlib

/-!
# mel: the editing core of `mel.c`

A shallow embedding of the row store, the highlight scanner and the undo log of
`src/mel.c`, followed by theorems about them.

Conventions of the embedding.

* A `char` is modelled by its value promoted to `int` (an `Int`); a C string or a
  byte buffer is the list of its bytes, without the terminator.  `strlen` is the
  length of the list and `*s` is its head (`0` for the empty string).
* `ec.row` lists the entries of the row array; between two calls its length is
  `ec.num_rows`, which stays a field of its own because `editorInsertRow` scans the
  new row before it increments `num_rows`.  `size` and `render_size` are the lengths
  of `chars` and `render`; a `NULL` highlight buffer is the empty list.
* `malloc` and `realloc` succeed.
* A function returns `none` where the C code has no defined result: a read or a
  write outside the row array or outside a row, a `NULL` string passed to `strlen`,
  or a loop of the model that runs out of fuel.
* The log is the chain of its actions from `head` to `tail`; `current` is the
  position of the current node in that chain (`none` for `NULL`); `size` is the
  counter of the C structure, kept as the code computes it.
* `ACTIONS_LIST_MAX_SIZE` is the argument `cap` of the log functions.
-/

namespace Mel

/-! ## Data -/

/-- Bytes of a string literal. -/
def cs (s : String) : List Int := s.toList.map (fun c => (c.toNat : Int))

def MEL_TAB_STOP : Nat := 4
def HL_HIGHLIGHT_NUMBERS : Nat := 1
def HL_HIGHLIGHT_STRINGS : Nat := 2
def ACTIONS_LIST_MAX_SIZE : Int := 80

inductive editor_highlight where
  | HL_NORMAL
  | HL_SL_COMMENT
  | HL_ML_COMMENT
  | HL_KEYWORD_1
  | HL_KEYWORD_2
  | HL_STRING
  | HL_NUMBER
  | HL_MATCH
  deriving DecidableEq, Repr

open editor_highlight

structure editor_row where
  idx : Int
  chars : List Int
  render : List Int
  highlight : List editor_highlight
  hl_open_comment : Bool
  deriving DecidableEq, Repr

structure editor_syntax where
  file_type : List Int
  file_match : List (List Int)
  keywords : List (List Int)
  singleline_comment_start : Option (List Int)
  multiline_comment_start : Option (List Int)
  multiline_comment_end : Option (List Int)
  flags : Nat
  deriving DecidableEq, Repr

inductive ActionType where
  | CutLine
  | PasteLine
  | FlipUp
  | FlipDown
  | NewLine
  | InsertChar
  | DelChar
  deriving DecidableEq, Repr

structure Action where
  t : ActionType
  cpos_x : Int
  cpos_y : Int
  cursor_on_tilde : Bool
  string : Option (List Int)
  deriving DecidableEq, Repr

structure ActionList where
  nodes : List Action
  current : Option Nat
  size : Int
  deriving DecidableEq, Repr

structure editor_config where
  cursor_x : Int
  cursor_y : Int
  num_rows : Int
  row : List editor_row
  dirty : Int
  copied_char_buffer : Option (List Int)
  syntax_ : Option editor_syntax
  actions : ActionList
  deriving DecidableEq, Repr

/-- The entry `ec.row[y]`, when `y` lies inside the array. -/
def rowAt (ec : editor_config) (y : Int) : Option editor_row :=
  if 0 ≤ y then ec.row[y.toNat]? else none

/-- Store `r` at `ec.row[k]`. -/
def setRow (ec : editor_config) (k : Nat) (r : editor_row) : editor_config :=
  { ec with row := ec.row.set k r }

/-! ## Filetypes -/

def C_HL_extensions : List (List Int) :=
  [cs ".c", cs ".h", cs ".cpp", cs ".hpp", cs ".cc"]

def C_HL_keywords : List (List Int) :=
  [cs "switch", cs "if", cs "while", cs "for", cs "break", cs "continue", cs "return",
   cs "else", cs "struct", cs "union", cs "typedef", cs "static", cs "enum", cs "case",
   cs "#include", cs "volatile", cs "register", cs "sizeof", cs "typedef", cs "union",
   cs "goto", cs "const", cs "auto", cs "#define", cs "#if", cs "#endif", cs "#error",
   cs "#ifdef", cs "#ifndef", cs "#undef", cs "asm", cs "bool", cs "true", cs "fasle",
   cs "inline", cs "class", cs "namespace", cs "using", cs "catch", cs "delete",
   cs "explicit", cs "export", cs "friend", cs "mutable", cs "new", cs "public",
   cs "protected", cs "private", cs "operator", cs "this", cs "template", cs "virtual",
   cs "throw", cs "try", cs "typeid", cs "int|", cs "long|", cs "double|", cs "float|",
   cs "char|", cs "unsigned|", cs "signed|", cs "void|", cs "bool|"]

/-- The entry `HL_DB[0]`, the C profile. -/
def HL_DB_c : editor_syntax :=
  { file_type := cs "c"
    file_match := C_HL_extensions
    keywords := C_HL_keywords
    singleline_comment_start := some (cs "//")
    multiline_comment_start := some (cs "/*")
    multiline_comment_end := some (cs "*/")
    flags := HL_HIGHLIGHT_NUMBERS ||| HL_HIGHLIGHT_STRINGS }

/-! ## Syntax highlighting -/

def isspace (c : Int) : Bool := c == 32 || (9 ≤ c && c ≤ 13)

def isdigit (c : Int) : Bool := 48 ≤ c && c ≤ 57

def isSeparator (c : Int) : Bool :=
  isspace c || c == 0 || (cs ",.()+-/*=~%<>[]:;").contains c

def isAlsoNumber (c : Int) : Bool :=
  c == 46 || c == 120 || c == 97 || c == 98 || c == 99 || c == 100 || c == 101 || c == 102

/-- The test `!strncmp(&render[i], pat, strlen(pat))` for a pattern without a zero byte:
the bytes of `render` from `i` on start with `pat`. -/
def strncmpEq (render : List Int) (i : Nat) (pat : List Int) : Bool :=
  pat.isPrefixOf (render.drop i)

/-- The call `memset(&hl[i], v, n)`, on the positions of the buffer. -/
def memset {α : Type} : List α → Nat → Nat → α → List α
  | [], _, _, _ => []
  | h :: t, 0, 0, _ => h :: t
  | _ :: t, 0, n + 1, v => v :: memset t 0 n v
  | h :: t, i + 1, n, v => h :: memset t i n v

/-- The local variables of the loop of `editorUpdateSyntax`. -/
structure scan_state where
  i : Nat
  prev_sep : Bool
  in_string : Int
  in_comment : Bool
  highlight : List editor_highlight
  deriving DecidableEq, Repr

/-- The `for` loop over the keywords: the length and the class of the first keyword
that stands at `i` and is followed by a separator. -/
def findKeyword (render : List Int) (i : Nat) : List (List Int) → Option (Nat × Bool)
  | [] => none
  | kw :: rest =>
    let kw_flag : Bool := kw.getLast? == some 124
    let klen : Nat := if kw_flag then kw.length - 1 else kw.length
    if strncmpEq render i (kw.take klen) && isSeparator (render.getD (i + klen) 0) then
      some (klen, kw_flag)
    else findKeyword render i rest

/-- Lines 941-958: the keyword rule and the end of the loop body. -/
def stepKeyword ( s : editor_syntax) (render : List Int) (st : scan_state) :
    scan_state × Bool :=
  let c := render.getD st.i 0
  let st1 : scan_state :=
    if st.prev_sep then
      match findKeyword render st.i s.keywords with
      | some (klen, kw_flag) =>
        { st with
          highlight := memset st.highlight st.i klen
            (if kw_flag then HL_KEYWORD_2 else HL_KEYWORD_1)
          i := st.i + klen
          prev_sep := false }
      | none => st
    else st
  ({ st1 with prev_sep := isSeparator c, i := st1.i + 1 }, false)

/-- Lines 931-939: the number rule. -/
def stepNumber ( s : editor_syntax) (render : List Int) (st : scan_state) :
    scan_state × Bool :=
  let c := render.getD st.i 0
  let prev_hl := if st.i > 0 then st.highlight.getD (st.i - 1) HL_NORMAL else HL_NORMAL
  if s.flags &&& HL_HIGHLIGHT_NUMBERS ≠ 0 ∧
      ((isdigit c ∧ (st.prev_sep ∨ prev_hl = HL_NUMBER)) ∨ (c = 46 ∧ prev_hl = HL_NUMBER)) then
    ({ st with highlight := st.highlight.set st.i HL_NUMBER, i := st.i + 1, prev_sep := false },
      false)
  else stepKeyword s render st

/-- Lines 909-929: the string rule. -/
def stepString ( s : editor_syntax) (render : List Int) (st : scan_state) :
    scan_state × Bool :=
  let c := render.getD st.i 0
  if s.flags &&& HL_HIGHLIGHT_STRINGS ≠ 0 then
    if st.in_string ≠ 0 then
      let hl := st.highlight.set st.i HL_STRING
      if c = 92 ∧ st.i + 1 < render.length then
        ({ st with highlight := hl.set (st.i + 1) HL_STRING, i := st.i + 2 }, false)
      else
        ({ st with
           highlight := hl
           in_string := if c = st.in_string then 0 else st.in_string
           i := st.i + 1
           prev_sep := true }, false)
    else if c = 34 ∨ c = 39 then
      ({ st with in_string := c, highlight := st.highlight.set st.i HL_STRING, i := st.i + 1 },
        false)
    else stepNumber s render st
  else stepNumber s render st

/-- Lines 888-907: the block comment rule. -/
def stepMlComment ( s : editor_syntax) (render : List Int) (st : scan_state) :
    scan_state × Bool :=
  let mcs := s.multiline_comment_start.getD []
  let mce := s.multiline_comment_end.getD []
  if mcs.length ≠ 0 ∧ mce.length ≠ 0 ∧ st.in_string = 0 then
    if st.in_comment then
      let hl := st.highlight.set st.i HL_ML_COMMENT
      if strncmpEq render st.i mce then
        ({ st with
           highlight := memset hl st.i mce.length HL_ML_COMMENT
           i := st.i + mce.length
           in_comment := false
           prev_sep := true }, false)
      else ({ st with highlight := hl, i := st.i + 1 }, false)
    else if strncmpEq render st.i mcs then
      ({ st with
         highlight := memset st.highlight st.i mcs.length HL_ML_COMMENT
         i := st.i + mcs.length
         in_comment := true }, false)
    else stepString s render st
  else stepString s render st

/-- One pass through the body of the `while` loop of `editorUpdateSyntax` (lines 878-958);
the second component tells that the body left the loop by `break`. -/
def scanStep ( s : editor_syntax) (render : List Int) (st : scan_state) :
    scan_state × Bool :=
  let scs := s.singleline_comment_start.getD []
  if scs.length ≠ 0 ∧ st.in_string = 0 ∧ st.in_comment = false ∧
      strncmpEq render st.i scs = true then
    ({ st with highlight := memset st.highlight st.i (render.length - st.i) HL_SL_COMMENT },
      true)
  else stepMlComment s render st

/-- The loop `while (i < row->render_size)`; `none` when the fuel is used up before
the loop ends. -/
def scanLoop ( s : editor_syntax) (render : List Int) : Nat → scan_state → Option scan_state
  | 0, st => if st.i < render.length then none else some st
  | fuel + 1, st =>
    if st.i < render.length then
      match scanStep s render st with
      | (st1, true) => some st1
      | (st1, false) => scanLoop s render fuel st1
    else some st

/-- The function `editorUpdateSyntax(&ec.row[k])`, with the depth of the recursion
bounded by the fuel. -/
def editorUpdateSyntaxFuel : Nat → editor_config → Nat → Option editor_config
  | 0, _, _ => none
  | fuel + 1, ec, k =>
    match ec.row[k]? with
    | none => none
    | some row =>
      if row.render.length = 0 then some (setRow ec k { row with highlight := [] })
      else
        let hl0 := List.replicate row.render.length HL_NORMAL
        match ec.syntax_ with
        | none => some (setRow ec k { row with highlight := hl0 })
        | some s =>
          let prev : Option Bool :=
            if row.idx > 0 then (rowAt ec (row.idx - 1)).map (fun r => r.hl_open_comment)
            else some false
          match prev with
          | none => none
          | some in_comment =>
            match scanLoop s row.render row.render.length
                { i := 0, prev_sep := true, in_string := 0, in_comment := in_comment,
                  highlight := hl0 } with
            | none => none
            | some st =>
              let changed : Bool := row.hl_open_comment != st.in_comment
              let ec1 := setRow ec k
                { row with highlight := st.highlight, hl_open_comment := st.in_comment }
              if changed = true ∧ row.idx + 1 < ec.num_rows then
                editorUpdateSyntaxFuel fuel ec1 (row.idx + 1).toNat
              else some ec1

/-- The function `editorUpdateSyntax(&ec.row[k])` together with the rows on which it is
entered, in the order of the calls: the row `k` and then the rows of the recursive calls.
The state is computed as in `editorUpdateSyntaxFuel`. -/
def editorUpdateSyntaxCalls : Nat → editor_config → Nat → Option (editor_config × List Nat)
  | 0, _, _ => none
  | fuel + 1, ec, k =>
    match ec.row[k]? with
    | none => none
    | some row =>
      if row.render.length = 0 then some (setRow ec k { row with highlight := [] }, [k])
      else
        let hl0 := List.replicate row.render.length HL_NORMAL
        match ec.syntax_ with
        | none => some (setRow ec k { row with highlight := hl0 }, [k])
        | some s =>
          let prev : Option Bool :=
            if row.idx > 0 then (rowAt ec (row.idx - 1)).map (fun r => r.hl_open_comment)
            else some false
          match prev with
          | none => none
          | some in_comment =>
            match scanLoop s row.render row.render.length
                { i := 0, prev_sep := true, in_string := 0, in_comment := in_comment,
                  highlight := hl0 } with
            | none => none
            | some st =>
              let changed : Bool := row.hl_open_comment != st.in_comment
              let ec1 := setRow ec k
                { row with highlight := st.highlight, hl_open_comment := st.in_comment }
              if changed = true ∧ row.idx + 1 < ec.num_rows then
                match editorUpdateSyntaxCalls fuel ec1 (row.idx + 1).toNat with
                | none => none
                | some (ec2, calls) => some (ec2, k :: calls)
              else some (ec1, [k])

/-- The function `editorUpdateSyntax(&ec.row[k])`: one call for each row of the array
is enough fuel. -/
def editorUpdateSyntax (ec : editor_config) (k : Nat) : Option editor_config :=
  editorUpdateSyntaxFuel ec.row.length ec k

/-- The loop `for (row = 0; row < ec.num_rows; row++) editorUpdateSyntax(&ec.row[row])`. -/
def rescanFrom : Nat → Nat → editor_config → Option editor_config
  | 0, _, ec => some ec
  | n + 1, k, ec =>
    if (k : Int) < ec.num_rows then
      match editorUpdateSyntax ec k with
      | none => none
      | some ec1 => rescanFrom n (k + 1) ec1
    else some ec

def editorApplySyntaxHighlight (ec : editor_config) : Option editor_config :=
  match ec.syntax_ with
  | none => some ec
  | some _ => rescanFrom ec.num_rows.toNat 0 ec

/-! ## Row operations -/

/-- The loop of `editorRowCursorXToRenderX` over the bytes before `cursor_x`. -/
def cursorXToRenderXLoop : List Int → Nat → Nat
  | [], render_x => render_x
  | c :: rest, render_x =>
    let render_x1 :=
      if c = 9 then render_x + ((MEL_TAB_STOP - 1) - (render_x % MEL_TAB_STOP)) else render_x
    cursorXToRenderXLoop rest (render_x1 + 1)

def editorRowCursorXToRenderX (row : editor_row) (cursor_x : Int) : Int :=
  cursorXToRenderXLoop (row.chars.take cursor_x.toNat) 0

/-- The loop of `editorRowRenderXToCursorX` from column `cursor_x` on. -/
def renderXToCursorXLoop (render_x : Int) : List Int → Nat → Nat → Nat
  | [], _, cursor_x => cursor_x
  | c :: rest, cur_render_x, cursor_x =>
    let cur1 :=
      if c = 9 then cur_render_x + ((MEL_TAB_STOP - 1) - (cur_render_x % MEL_TAB_STOP))
      else cur_render_x
    if ((cur1 + 1 : Nat) : Int) > render_x then cursor_x
    else renderXToCursorXLoop render_x rest (cur1 + 1) (cursor_x + 1)

def editorRowRenderXToCursorX (row : editor_row) (render_x : Int) : Int :=
  renderXToCursorXLoop render_x row.chars 0 0

/-- The inner loop `while (idx % MEL_TAB_STOP != 0 && idx < render_size - 1)` of
`editorUpdateRow`; `out` is `render[0..idx)`. -/
def padTab (render_size : Nat) : Nat → List Int → List Int
  | 0, out => out
  | fuel + 1, out =>
    if out.length % MEL_TAB_STOP ≠ 0 ∧ out.length < render_size - 1 then
      padTab render_size fuel (out ++ [32])
    else out

/-- The rendering loop of `editorUpdateRow`; `out` is `render[0..idx)`. -/
def renderLoop (render_size : Nat) : List Int → List Int → List Int
  | [], out => out
  | c :: rest, out =>
    if c = 9 then renderLoop render_size rest (padTab render_size MEL_TAB_STOP (out ++ [32]))
    else if out.length < render_size - 1 then renderLoop render_size rest (out ++ [c])
    else renderLoop render_size rest out

def editorUpdateRow (ec : editor_config) (k : Nat) : Option editor_config :=
  match ec.row[k]? with
  | none => none
  | some row =>
    let tabs := row.chars.count 9
    let render_size := row.chars.length + tabs * (MEL_TAB_STOP - 1) + 1
    editorUpdateSyntax
      (setRow ec k { row with render := renderLoop render_size row.chars [] }) k

/-- The loop `for (j = at + 1; j <= ec.num_rows; j++) ec.row[j].idx = j` over the
entries moved by `memmove`. -/
def setIdxFrom : Int → List editor_row → List editor_row
  | _, [] => []
  | j, r :: rs => { r with idx := j } :: setIdxFrom (j + 1) rs

def editorInsertRow (ec : editor_config) (at_ : Int) (s : List Int) : Option editor_config :=
  if at_ < 0 ∨ at_ > ec.num_rows then some ec
  else
    let k := at_.toNat
    let new_row : editor_row :=
      { idx := at_, chars := s, render := [], highlight := [], hl_open_comment := false }
    let ec1 : editor_config :=
      { ec with row := ec.row.take k ++ new_row :: setIdxFrom (at_ + 1) (ec.row.drop k) }
    match editorUpdateRow ec1 k with
    | none => none
    | some ec2 => some { ec2 with num_rows := ec2.num_rows + 1, dirty := ec2.dirty + 1 }

def editorDelRow (ec : editor_config) (at_ : Int) : editor_config :=
  if at_ < 0 ∨ at_ ≥ ec.num_rows then ec
  else
    let k := at_.toNat
    { ec with
      row := ec.row.take k ++ (ec.row.drop (k + 1)).map (fun r => { r with idx := r.idx - 1 })
      num_rows := ec.num_rows - 1
      dirty := ec.dirty + 1 }

def editorFlipRow (ec : editor_config) (dir : Int) : Option editor_config :=
  match rowAt ec ec.cursor_y, rowAt ec (ec.cursor_y - dir) with
  | some c_row, some o_row =>
    let y := ec.cursor_y.toNat
    let o := (ec.cursor_y - dir).toNat
    let rows1 := (ec.row.set y o_row).set o c_row
    let rows2 := rows1.set y { o_row with idx := o_row.idx + dir }
    let rows3 := rows2.set o { c_row with idx := c_row.idx - dir }
    let ec1 : editor_config := { ec with row := rows3 }
    let first : Int := if dir = 1 then ec.cursor_y - 1 else ec.cursor_y
    if first < 0 then none
    else
      match editorUpdateSyntax ec1 first.toNat with
      | none => none
      | some ec2 =>
        match editorUpdateSyntax ec2 (first.toNat + 1) with
        | none => none
        | some ec3 =>
          let ec4 : Option editor_config :=
            if ec3.num_rows - ec3.cursor_y > 2 then editorUpdateSyntax ec3 (first.toNat + 2)
            else some ec3
          match ec4 with
          | none => none
          | some ec5 =>
            some { ec5 with cursor_y := ec5.cursor_y - dir, dirty := ec5.dirty + 1 }
  | _, _ => none

def editorRowAppendString (ec : editor_config) (y : Int) (s : List Int) :
    Option editor_config :=
  match rowAt ec y with
  | none => none
  | some row =>
    match editorUpdateRow (setRow ec y.toNat { row with chars := row.chars ++ s }) y.toNat with
    | none => none
    | some ec1 => some { ec1 with dirty := ec1.dirty + 1 }

def editorCut (ec : editor_config) : Option editor_config :=
  let ec1 := editorDelRow ec ec.cursor_y
  let ec2 : Option editor_config :=
    if ec1.num_rows - ec1.cursor_y > 0 then
      (if ec1.cursor_y < 0 then none else editorUpdateSyntax ec1 ec1.cursor_y.toNat)
    else some ec1
  match ec2 with
  | none => none
  | some ec3 =>
    let ec4 : Option editor_config :=
      if ec3.num_rows - ec3.cursor_y > 1 then
        (if ec3.cursor_y + 1 < 0 then none else editorUpdateSyntax ec3 (ec3.cursor_y + 1).toNat)
      else some ec3
    match ec4 with
    | none => none
    | some ec5 =>
      if ec5.cursor_y = ec5.num_rows then some { ec5 with cursor_x := 0 }
      else
        match rowAt ec5 ec5.cursor_y with
        | none => none
        | some row => some { ec5 with cursor_x := row.chars.length }

def editorPaste (ec : editor_config) : Option editor_config :=
  match ec.copied_char_buffer with
  | none => some ec
  | some buf =>
    let r : Option editor_config :=
      if ec.cursor_y = ec.num_rows then editorInsertRow ec ec.cursor_y buf
      else editorRowAppendString ec ec.cursor_y buf
    match r with
    | none => none
    | some ec1 => some { ec1 with cursor_x := ec1.cursor_x + buf.length }

/-- The stored byte is `c` itself: every caller passes a value read from a `char`. -/
def editorRowInsertChar (ec : editor_config) (y : Int) (at_ : Int) (c : Int) :
    Option editor_config :=
  match rowAt ec y with
  | none => none
  | some row =>
    if at_ < 0 ∨ at_ > row.chars.length then some ec
    else
      editorUpdateRow
        (setRow ec y.toNat
          { row with chars := row.chars.take at_.toNat ++ c :: row.chars.drop at_.toNat })
        y.toNat

def editorInsertNewline (ec : editor_config) : Option editor_config :=
  let r : Option editor_config :=
    if ec.cursor_x = 0 then editorInsertRow ec ec.cursor_y []
    else
      match rowAt ec ec.cursor_y with
      | none => none
      | some row =>
        if ec.cursor_x < 0 ∨ ec.cursor_x > row.chars.length then none
        else
          match editorInsertRow ec (ec.cursor_y + 1) (row.chars.drop ec.cursor_x.toNat) with
          | none => none
          | some ec1 =>
            if ec1.cursor_y + 1 < ec1.num_rows then
              match rowAt ec1 ec1.cursor_y with
              | none => none
              | some row1 =>
                editorUpdateRow
                  (setRow ec1 ec1.cursor_y.toNat
                    { row1 with chars := row1.chars.take ec1.cursor_x.toNat })
                  ec1.cursor_y.toNat
            else some ec1
  match r with
  | none => none
  | some ec2 => some { ec2 with cursor_y := ec2.cursor_y + 1, cursor_x := 0 }

def editorRowDelChar (ec : editor_config) (y : Int) (at_ : Int) : Option editor_config :=
  match rowAt ec y with
  | none => none
  | some row =>
    if at_ < 0 ∨ at_ ≥ row.chars.length then some ec
    else
      match editorUpdateRow
          (setRow ec y.toNat
            { row with chars := row.chars.take at_.toNat ++ row.chars.drop (at_.toNat + 1) })
          y.toNat with
      | none => none
      | some ec1 => some { ec1 with dirty := ec1.dirty + 1 }

/-- The function `editorRowDelString(&ec.row[y], at, len)`.  The guard lets a negative
`len` through; `memmove` then copies `size - (at + len) + 1` bytes to `chars + at`, which
ends past the `size + 1` bytes of the buffer, so the call has no defined result. -/
def editorRowDelString (ec : editor_config) (y : Int) (at_ : Int) (len : Int) :
    Option editor_config :=
  match rowAt ec y with
  | none => none
  | some row =>
    if at_ < 0 ∨ at_ + len - 1 ≥ row.chars.length then some ec
    else if len < 0 then none
    else
      match editorUpdateRow
          (setRow ec y.toNat
            { row with
              chars := row.chars.take at_.toNat ++ row.chars.drop (at_.toNat + len.toNat) })
          y.toNat with
      | none => none
      | some ec1 => some { ec1 with dirty := ec1.dirty + len }

def editorRowInsertString (ec : editor_config) (y : Int) (at_ : Int) (str : List Int) :
    Option editor_config :=
  match rowAt ec y with
  | none => none
  | some row =>
    if at_ < 0 ∨ at_ > row.chars.length then some ec
    else
      match editorUpdateRow
          (setRow ec y.toNat
            { row with
              chars := row.chars.take at_.toNat ++ str ++ row.chars.drop at_.toNat })
          y.toNat with
      | none => none
      | some ec1 => some { ec1 with dirty := ec1.dirty + str.length }

/-! ## Editor operations -/

def editorInsertChar (ec : editor_config) (c : Int) : Option editor_config :=
  if c ≤ 0 then some ec
  else
    let r : Option editor_config :=
      if ec.cursor_y = ec.num_rows then editorInsertRow ec ec.num_rows [] else some ec
    match r with
    | none => none
    | some ec1 =>
      if ec.cursor_y = ec.num_rows ∧ ec1.cursor_y ≠ ec1.num_rows - 1 then some ec1
      else
        match rowAt ec1 ec1.cursor_y with
        | none => none
        | some row =>
          if ec1.cursor_x < 0 ∨ ec1.cursor_x > row.chars.length then none
          else
            match editorUpdateRow
                (setRow ec1 ec1.cursor_y.toNat
                  { row with
                    chars := row.chars.take ec1.cursor_x.toNat ++
                      c :: row.chars.drop ec1.cursor_x.toNat })
                ec1.cursor_y.toNat with
            | none => none
            | some ec2 =>
              some { ec2 with cursor_x := ec2.cursor_x + 1, dirty := ec2.dirty + 1 }

def editorDelChar (ec : editor_config) : Option editor_config :=
  if ec.cursor_y = ec.num_rows then some ec
  else if ec.cursor_x = 0 ∧ ec.cursor_y = 0 then some ec
  else if ec.cursor_x > 0 then
    match editorRowDelChar ec ec.cursor_y (ec.cursor_x - 1) with
    | none => none
    | some ec1 => some { ec1 with cursor_x := ec1.cursor_x - 1 }
  else
    match rowAt ec ec.cursor_y, rowAt ec (ec.cursor_y - 1) with
    | some row, some prev =>
      let ec1 : editor_config := { ec with cursor_x := prev.chars.length }
      match editorRowAppendString ec1 (ec1.cursor_y - 1) row.chars with
      | none => none
      | some ec2 =>
        let ec3 := editorDelRow ec2 ec2.cursor_y
        some { ec3 with cursor_y := ec3.cursor_y - 1 }
    | _, _ => none

/-- The function `editorRowsToString`: the buffer and the length stored in `*buf_len`. -/
def editorRowsToString (ec : editor_config) : List Int × Int :=
  let rows := ec.row.take ec.num_rows.toNat
  ((rows.map (fun r => r.chars ++ [10])).flatten,
    (rows.map (fun r => (r.chars.length : Int) + 1)).sum)

/-! ## Actions -/

def createAction (ec : editor_config) (str : Option (List Int)) (t : ActionType) : Action :=
  { t := t
    cpos_x := ec.cursor_x
    cpos_y := ec.cursor_y
    cursor_on_tilde := decide (ec.cursor_y = ec.num_rows)
    string := str }

def execute (ec0 : editor_config) (action : Action) : Option editor_config :=
  let ec : editor_config := { ec0 with cursor_x := action.cpos_x, cursor_y := action.cpos_y }
  match action.t with
  | ActionType.InsertChar =>
    match action.string with
    | none => none
    | some s =>
      if ec.cursor_y < ec.num_rows then
        match editorRowInsertString ec ec.cursor_y ec.cursor_x s with
        | none => none
        | some ec1 => some { ec1 with cursor_x := ec1.cursor_x + s.length }
      else editorInsertChar ec (s.headD 0)
  | ActionType.DelChar => editorDelChar ec
  | ActionType.PasteLine =>
    match editorPaste { ec with copied_char_buffer := action.string } with
    | none => none
    | some ec1 => some { ec1 with copied_char_buffer := ec0.copied_char_buffer }
  | ActionType.CutLine => editorCut ec
  | ActionType.FlipDown => editorFlipRow ec (-1)
  | ActionType.FlipUp => editorFlipRow ec 1
  | ActionType.NewLine => editorInsertNewline ec

def revert (ec0 : editor_config) (action : Action) : Option editor_config :=
  match action.t with
  | ActionType.InsertChar =>
    let ec : editor_config := { ec0 with cursor_x := action.cpos_x, cursor_y := action.cpos_y }
    match action.string with
    | none => none
    | some s =>
      match editorRowDelString ec ec.cursor_y ec.cursor_x s.length with
      | none => none
      | some ec1 =>
        if action.cursor_on_tilde then some (editorDelRow ec1 ec1.cursor_y) else some ec1
  | ActionType.DelChar =>
    match action.string with
    | some s =>
      editorInsertChar { ec0 with cursor_x := action.cpos_x - 1, cursor_y := action.cpos_y }
        (s.headD 0)
    | none => editorInsertNewline ec0
  | ActionType.PasteLine =>
    let ec : editor_config := { ec0 with cursor_x := action.cpos_x, cursor_y := action.cpos_y }
    match action.string with
    | some s =>
      match editorRowDelString ec ec.cursor_y ec.cursor_x s.length with
      | none => none
      | some ec1 =>
        if action.cursor_on_tilde then some (editorDelRow ec1 ec1.cursor_y) else some ec1
    | none => some ec
  | ActionType.CutLine =>
    let ec : editor_config := { ec0 with cursor_x := 0, cursor_y := action.cpos_y }
    match editorInsertRow ec ec.cursor_y [] with
    | none => none
    | some ec1 =>
      match editorPaste { ec1 with copied_char_buffer := action.string } with
      | none => none
      | some ec2 => some { ec2 with copied_char_buffer := ec1.copied_char_buffer }
  | ActionType.FlipDown =>
    editorFlipRow { ec0 with cursor_x := action.cpos_x, cursor_y := action.cpos_y + 1 } 1
  | ActionType.FlipUp =>
    editorFlipRow { ec0 with cursor_x := action.cpos_x, cursor_y := action.cpos_y - 1 } (-1)
  | ActionType.NewLine =>
    editorDelChar { ec0 with cursor_x := 0, cursor_y := action.cpos_y + 1 }

def actionListInit : ActionList := { nodes := [], current := none, size := 0 }

/-- The number of nodes that `clearAlistFrom` frees when it starts at position `start`
of the chain. -/
def clearAlistFrom (list : ActionList) (start : Nat) : Int :=
  ((list.nodes.drop start).length : Int)

/-- Lines 1866-1888 of `addAction`: the nodes after `current` are freed and the new node
is linked after `current`; the counter follows. -/
def addActionLink (list : ActionList) (action : Action) : ActionList :=
  let l1 : ActionList :=
    if list.nodes = [] then { list with nodes := [action], current := some 0 }
    else if list.current = some (list.nodes.length - 1) then
      { list with nodes := list.nodes ++ [action], current := some list.nodes.length }
    else
      match list.current with
      | none =>
        { nodes := [action], current := some 0, size := list.size - clearAlistFrom list 0 }
      | some c =>
        { nodes := list.nodes.take (c + 1) ++ [action]
          current := some (c + 1)
          size := list.size - clearAlistFrom list (c + 1) }
  { l1 with size := l1.size + 1 }

/-- Lines 1890-1901 of `addAction`: the head is removed when the list holds more than
`cap` actions.  A `current` that pointed to the removed head would dangle; the model
gives `none` there. -/
def addActionTruncate (cap : Int) (l2 : ActionList) : ActionList :=
  if l2.size > cap ∧ cap ≠ -1 then
    let size1 := l2.size - 1
    { nodes := l2.nodes.drop 1
      current :=
        if size1 = 0 then none
        else
          match l2.current with
          | some (c + 1) => some c
          | _ => none
      size := size1 }
  else l2

def addAction (cap : Int) (list : ActionList) (action : Action) : ActionList :=
  if cap = 0 then list else addActionTruncate cap (addActionLink list action)

/-- The function `concatWithLastAction`: its result and the state it leaves. -/
def concatWithLastAction (cap : Int) (ec : editor_config) (t : ActionType)
    (str : Option (List Int)) : Option (Bool × editor_config) :=
  if t = ActionType.InsertChar ∧ cap ≠ 0 then
    match ec.actions.current with
    | none => some (false, ec)
    | some c =>
      if c + 1 = ec.actions.nodes.length then
        match ec.actions.nodes[c]? with
        | none => none
        | some a =>
          if a.t = t ∧ a.cpos_y = ec.cursor_y then
            match a.string with
            | none => none
            | some s =>
              if a.cpos_x + s.length = ec.cursor_x then
                match str with
                | none => none
                | some p =>
                  if p.length ≤ 1 then
                    match editorInsertChar ec (p.headD 0) with
                    | none => none
                    | some ec1 =>
                      some (true,
                        { ec1 with
                          actions :=
                            { ec1.actions with
                              nodes := ec1.actions.nodes.set c { a with string := some (s ++ p) } } })
                  else none
              else some (false, ec)
          else some (false, ec)
      else some (false, ec)
  else some (false, ec)

def makeAction (cap : Int) (ec : editor_config) (t : ActionType) (str : Option (List Int)) :
    Option editor_config :=
  match concatWithLastAction cap ec t str with
  | none => none
  | some (true, ec1) => some ec1
  | some (false, ec1) =>
    let newAction := createAction ec1 str t
    let ec2 : editor_config :=
      if cap ≠ 0 then { ec1 with actions := addAction cap ec1.actions newAction } else ec1
    execute ec2 newAction

def undo (cap : Int) (ec : editor_config) : Option editor_config :=
  if cap = 0 then some ec
  else
    match ec.actions.current with
    | some c =>
      match ec.actions.nodes[c]? with
      | none => none
      | some a =>
        match revert ec a with
        | none => none
        | some ec1 =>
          let cur : Option Nat := if c = 0 then none else some (c - 1)
          let ec2 : editor_config := { ec1 with actions := { ec1.actions with current := cur } }
          if cur = none then some { ec2 with dirty := 0 } else some ec2
    | none => some { ec with dirty := 0 }

def redo (cap : Int) (ec : editor_config) : Option editor_config :=
  if cap = 0 then some ec
  else
    match ec.actions.current with
    | some c =>
      match ec.actions.nodes[c + 1]? with
      | some a =>
        match execute ec a with
        | none => none
        | some ec1 => some { ec1 with actions := { ec1.actions with current := some (c + 1) } }
      | none => some ec
    | none =>
      match ec.actions.nodes[0]? with
      | some a =>
        match execute { ec with actions := { ec.actions with current := some 0 } } a with
        | none => none
        | some ec1 => some ec1
      | none => some ec

/-- The loop of `editorOpen` over the lines read from the file: each line is inserted
after the last row. -/
def editorOpenRows : editor_config → List (List Int) → Option editor_config
  | ec, [] => some ec
  | ec, line :: rest =>
    match editorInsertRow ec ec.num_rows line with
    | none => none
    | some ec1 => editorOpenRows ec1 rest

/-- The function `editorSelectSyntaxHighlight`; `found` is the entry of `HL_DB` on which
the search by file name stops, if there is one. -/
def editorSelectSyntaxHighlight (ec : editor_config) (found : Option editor_syntax) :
    Option editor_config :=
  match found with
  | none => some { ec with syntax_ := none }
  | some s => rescanFrom ec.num_rows.toNat 0 { ec with syntax_ := some s }

/-- The case `CTRL_KEY('e')` of `editorProcessKeypress` (lines 2344-2347): the flip up is
requested only when there is a row above the row of the cursor. -/
def editorProcessKeypressFlipUp (cap : Int) (ec : editor_config) : Option editor_config :=
  if ec.cursor_y > 0 ∧ ec.cursor_y ≤ ec.num_rows - 1 then makeAction cap ec ActionType.FlipUp none
  else some ec

/-- The case `CTRL_KEY('d')` of `editorProcessKeypress` (lines 2348-2351): the flip down is
requested only when there is a row below the row of the cursor. -/
def editorProcessKeypressFlipDown (cap : Int) (ec : editor_config) : Option editor_config :=
  if ec.cursor_y < ec.num_rows - 1 then makeAction cap ec ActionType.FlipDown none
  else some ec

def initEditor : editor_config :=
  { cursor_x := 0, cursor_y := 0, num_rows := 0, row := [], dirty := 0,
    copied_char_buffer := none, syntax_ := none, actions := actionListInit }


/-! ## Projections and invariants -/

def texts (rows : List editor_row) : List (List Int) := rows.map (fun r => r.chars)

def renders (rows : List editor_row) : List (List Int) := rows.map (fun r => r.render)

def idxFrom : Int → List editor_row → Bool
  | _, [] => true
  | j, r :: rs => decide (r.idx = j) && idxFrom (j + 1) rs

def strip (r : editor_row) : editor_row := { r with highlight := [], hl_open_comment := false }

def WF (ec : editor_config) : Prop := ec.num_rows = ec.row.length ∧ idxFrom 0 ec.row = true

instance (ec : editor_config) : Decidable (WF ec) := by unfold WF; infer_instance

/-- The render buffer that `editorUpdateRow` builds from the bytes of a row. -/
def renderOf (chars : List Int) : List Int :=
  renderLoop (chars.length + chars.count 9 * (MEL_TAB_STOP - 1) + 1) chars []


/-- The text, the row count and the cursor of `ec2` are those of `ec`, with the cursor
at `(x, y)`, and `ec2` is well formed. -/
def Restored (ec ec2 : editor_config) (x y : Int) : Prop :=
  WF ec2 ∧ texts ec2.row = texts ec.row ∧ ec2.num_rows = ec.num_rows ∧
    ec2.cursor_x = x ∧ ec2.cursor_y = y

/-- Running `execute` and then `revert` on `a` succeeds and restores the text and the row
count of `ec`, leaving the cursor at `(x, y)`. -/
def RoundTrip (ec : editor_config) (a : Action) (x y : Int) : Prop :=
  ∃ ec1 ec2, execute ec a = some ec1 ∧ revert ec1 a = some ec2 ∧ Restored ec ec2 x y

/-- The cursor is on a row, at a column of that row, or at column 0 of the line after the
last row. -/
def CursorOk (ec : editor_config) : Prop :=
  0 ≤ ec.cursor_x ∧ 0 ≤ ec.cursor_y ∧ ec.cursor_y ≤ ec.num_rows ∧
    (ec.cursor_y = ec.num_rows → ec.cursor_x = 0) ∧
    (∀ r ∈ rowAt ec ec.cursor_y, ec.cursor_x ≤ r.chars.length)

instance (ec : editor_config) : Decidable (CursorOk ec) := by unfold CursorOk; infer_instance

/-- The actions of the input layer for which `revert` undoes `execute`: the type and the
payload passed to `makeAction` with the cursor where `ec` has it. -/
def Revertible (ec : editor_config) (t : ActionType) (str : Option (List Int)) : Prop :=
  match t with
  | ActionType.InsertChar => ∃ c, str = some [c] ∧ (ec.cursor_y = ec.num_rows → 0 < c)
  | ActionType.DelChar =>
    ec.cursor_y < ec.num_rows ∧ ¬ (ec.cursor_x = 0 ∧ ec.cursor_y = 0) ∧
      (ec.cursor_x = 0 → str = none) ∧
      (ec.cursor_x ≠ 0 → ∃ r c, rowAt ec ec.cursor_y = some r ∧
        r.chars[(ec.cursor_x - 1).toNat]? = some c ∧ 0 < c ∧ str = some [c])
  | ActionType.NewLine => ec.cursor_y < ec.num_rows ∧ str = none
  | ActionType.CutLine => ∃ r, rowAt ec ec.cursor_y = some r ∧ str = some r.chars
  | ActionType.PasteLine =>
    str = none ∨ ec.cursor_y = ec.num_rows ∨
      ∃ r, rowAt ec ec.cursor_y = some r ∧ ec.cursor_x = r.chars.length
  | ActionType.FlipUp => 1 ≤ ec.cursor_y ∧ ec.cursor_y ≤ ec.num_rows - 1 ∧ str = none
  | ActionType.FlipDown => ec.cursor_y < ec.num_rows - 1 ∧ str = none

/-! ## States used in the examples -/

/-- A row with text `s`, as `editorInsertRow` leaves it when no profile is active and `s`
has no tab. -/
def plainRow (idx : Int) (s : String) : editor_row :=
  { idx := idx, chars := cs s, render := cs s,
    highlight := List.replicate (cs s).length editor_highlight.HL_NORMAL,
    hl_open_comment := false }

/-- The rows of a buffer that holds the lines `ls`, numbered from `j`. -/
def plainRows : Int → List String → List editor_row
  | _, [] => []
  | j, s :: rest => plainRow j s :: plainRows (j + 1) rest

/-- A buffer that holds the lines `ls`, with the cursor at `(x, y)`, no profile and an
empty log. -/
def plainBuffer (ls : List String) (x y : Int) : editor_config :=
  { cursor_x := x, cursor_y := y, num_rows := ls.length, row := plainRows 0 ls, dirty := 0,
    copied_char_buffer := none, syntax_ := none, actions := actionListInit }

/-- Tab expansion in the words of the specification: bytes other than a tab are copied
in order, and each tab is replaced by 1 to 4 spaces, so that the length of the render
after it is the next multiple of `MEL_TAB_STOP`; `out` is the render so far. -/
def tabExpansionFrom (out : List Int) : List Int → List Int
  | [] => out
  | c :: rest =>
    if c = 9 then
      tabExpansionFrom (out ++ List.replicate (MEL_TAB_STOP - out.length % MEL_TAB_STOP) 32) rest
    else tabExpansionFrom (out ++ [c]) rest

/-- Tab expansion of the content of a row. -/
def tabExpansion (chars : List Int) : List Int := tabExpansionFrom [] chars

/-- Row `y` exists and its render is the tab expansion of its content. -/
def RowRendered (ec : editor_config) (y : Int) : Prop :=
  ∃ r, rowAt ec y = some r ∧ r.render = tabExpansion r.chars

/-- The counter of the log is the length of its chain, and `current`, when it is not
`NULL`, is a node of the chain. -/
def LogWF (l : ActionList) : Prop :=
  l.size = l.nodes.length ∧ ∀ c, l.current = some c → c < l.nodes.length

instance (l : ActionList) : Decidable (LogWF l) := by
  unfold LogWF
  cases l.current with
  | none => exact decidable_of_iff (l.size = l.nodes.length) (by simp)
  | some c => exact decidable_of_iff (l.size = l.nodes.length ∧ c < l.nodes.length) (by simp)

/-- A history capacity that records actions: a positive bound, or -1 for no bound. -/
def CapOk (cap : Int) : Prop := 1 ≤ cap ∨ cap = -1

instance (cap : Int) : Decidable (CapOk cap) := by unfold CapOk; infer_instance

/-- The chain from `head` to `current`: what `addAction` keeps of the log. -/
def keptChain (l : ActionList) : List Action :=
  match l.current with
  | none => []
  | some c => l.nodes.take (c + 1)

/-- The chain `K` without its head when one more node would exceed the capacity. -/
def evictHead (cap : Int) (K : List Action) : List Action :=
  if (K.length : Int) + 1 > cap ∧ cap ≠ -1 then K.drop 1 else K

/-- The InsertChar action recorded at `(x, y)` on an existing row, with payload `s`. -/
def insAction (x y : Int) (s : List Int) : Action :=
  { t := ActionType.InsertChar, cpos_x := x, cpos_y := y, cursor_on_tilde := false,
    string := some s }

/-- The input layer typing the characters `cs` one after the other: one call of
`makeAction(InsertChar, strndup(&c, 1))` for each of them. -/
def typeChars (cap : Int) : editor_config → List Int → Option editor_config
  | ec, [] => some ec
  | ec, c :: rest =>
    match makeAction cap ec ActionType.InsertChar (some [c]) with
    | none => none
    | some ec1 => typeChars cap ec1 rest

/-- The input layer moving the cursor to `(x, y)` and typing the character `c` there:
`makeAction(InsertChar, strndup(&c, 1))` with the cursor at `(x, y)`. -/
def typeAt (cap : Int) (ec : editor_config) (x y : Int) (c : Int) : Option editor_config :=
  makeAction cap { ec with cursor_x := x, cursor_y := y } ActionType.InsertChar (some [c])

/-- Column `x` is a column of the existing row `y` of `ec`. -/
def OnRow (ec : editor_config) (x y : Int) : Prop :=
  0 ≤ x ∧ ∃ r, rowAt ec y = some r ∧ x ≤ r.chars.length

instance (ec : editor_config) (x y : Int) : Decidable (OnRow ec x y) := by
  unfold OnRow
  cases rowAt ec y with
  | none => exact decidable_of_iff False (by simp)
  | some r => exact decidable_of_iff (0 ≤ x ∧ x ≤ r.chars.length) (by simp)

/-! ## The scan of the rows -/

/-- The loop of `editorUpdateSyntax` run on one render buffer, entered with `in_comment`
taken from the row above. -/
def scanRow ( s : editor_syntax) (render : List Int) (in_comment : Bool) : Option scan_state :=
  scanLoop s render render.length
    { i := 0, prev_sep := true, in_string := 0, in_comment := in_comment,
      highlight := List.replicate render.length HL_NORMAL }

/-- The rows with the highlight and the continuation flag that a scan of each row in
order gives them, every row being entered with the flag of the row above (`p` for the
first one). -/
def canonRows ( s : editor_syntax) : Bool → List editor_row → List editor_row
  | _, [] => []
  | p, r :: rest =>
    match scanRow s r.render p with
    | none => r :: canonRows s p rest
    | some st =>
      { r with highlight := st.highlight, hl_open_comment := st.in_comment }
        :: canonRows s st.in_comment rest

/-- What one pass through the loop body keeps: the length of the highlight buffer and
its entries before `i`, and `i` does not go back. -/
def StepInv (st st1 : scan_state) : Prop :=
  st1.highlight.length = st.highlight.length ∧ st.i ≤ st1.i ∧
    ∀ j, j < st.i → st1.highlight[j]? = st.highlight[j]?

/-! ## Sequences of calls on the log -/

/-- A call on the log: `addAction(a)`, `undo()` or `redo()`. -/
inductive LogCall where
  | add (a : Action)
  | undo
  | redo
  deriving DecidableEq, Repr

/-- The calls `calls` made one after the other; `addAction` works on `ec.actions`. -/
def runLogCalls (cap : Int) : editor_config → List LogCall → Option editor_config
  | ec, [] => some ec
  | ec, LogCall.add a :: rest =>
    runLogCalls cap { ec with actions := addAction cap ec.actions a } rest
  | ec, LogCall.undo :: rest =>
    match undo cap ec with
    | none => none
    | some ec1 => runLogCalls cap ec1 rest
  | ec, LogCall.redo :: rest =>
    match redo cap ec with
    | none => none
    | some ec1 => runLogCalls cap ec1 rest

/-- The invariant of the log for the capacity `cap`: the counter is the number of nodes of
the chain, the chain holds at most `cap` nodes, and `current`, when it is not `NULL`, is a
node of the chain. -/
def LogInv (cap : Int) (l : ActionList) : Prop :=
  l.size = l.nodes.length ∧ (l.nodes.length : Int) ≤ cap ∧
    ∀ i, l.current = some i → i < l.nodes.length

instance (cap : Int) (l : ActionList) : Decidable (LogInv cap l) := by
  unfold LogInv
  cases l.current with
  | none =>
    exact decidable_of_iff (l.size = l.nodes.length ∧ (l.nodes.length : Int) ≤ cap) (by simp)
  | some c =>
    exact decidable_of_iff
      (l.size = l.nodes.length ∧ (l.nodes.length : Int) ≤ cap ∧ c < l.nodes.length) (by simp)

/-! ## The highlight buffer -/

/-- The tags that the scanner writes. -/
def scannerTags : List editor_highlight :=
  [HL_NORMAL, HL_SL_COMMENT, HL_ML_COMMENT, HL_KEYWORD_1, HL_KEYWORD_2, HL_STRING, HL_NUMBER]

/-- The highlight of the row has `render_size` entries, each one a tag of the scanner. -/
def HlOk (r : editor_row) : Prop :=
  r.highlight.length = r.render.length ∧ ∀ h ∈ r.highlight, h ∈ scannerTags

instance (r : editor_row) : Decidable (HlOk r) := by unfold HlOk; infer_instance

/-- A buffer that holds the lines `ls` under the profile `s`, with the cursor at `(x, y)`
and an empty log; the rows have not been scanned yet. -/
def profiledBuffer ( s : editor_syntax) (ls : List String) (x y : Int) : editor_config :=
  { plainBuffer ls x y with syntax_ := some s }

/-- The state of the scan with further cells `extra` behind the highlight buffer. -/
def padHl (st : scan_state) (extra : List editor_highlight) : scan_state :=
  { st with highlight := st.highlight ++ extra }

/-- The continuation flag of the row `j`, when there is such a row. -/
def flagAt (rows : List editor_row) (j : Nat) : Option Bool :=
  (rows[j]?).map (fun r => r.hl_open_comment)

/-- The state `e` with the log `l` in which `current` is `cur`. -/
def withCurrent (e : editor_config) (l : ActionList) (cur : Option Nat) : editor_config :=
  { e with actions := { l with current := cur } }

/-! ## Keywords and numbers -/

/-- The text of an entry of the keyword table: the entry without the marker '|' at its
end, if it has one. -/
def kwText (kw : List Int) : List Int :=
  if kw.getLast? == some 124 then kw.take (kw.length - 1) else kw

/-- The text of the entry `kw` stands at position `i` of `render` and is followed there
by a separator or by the end of the row. -/
def kwMatches (render : List Int) (i : Nat) (kw : List Int) : Bool :=
  strncmpEq render i (kwText kw) && isSeparator (render.getD (i + (kwText kw).length) 0)

/-- Every position tagged `HL_NUMBER` holds a decimal digit or a '.'. -/
def NumOk (render : List Int) (hl : List editor_highlight) : Prop :=
  ∀ (j : Nat), hl[j]? = some HL_NUMBER → isdigit (render.getD j 0) = true ∨ render.getD j 0 = 46

/-! ## Index invariant: helper lemmas -/

theorem idxFrom_append (j : Int) (a b : List editor_row) :
    idxFrom j (a ++ b) = (idxFrom j a && idxFrom (j + a.length) b) := by
  induction a generalizing j with
  | nil => simp [idxFrom]
  | cons r rs ih =>
    show (decide (r.idx = j) && idxFrom (j + 1) (rs ++ b)) = _
    have : j + 1 + (rs.length : Int) = j + ((rs.length + 1 : Nat) : Int) := by push_cast; ring
    simp only [List.cons_append, idxFrom, ih, List.length_cons, Bool.and_assoc, this]

theorem idxFrom_getElem? {j : Int} {l : List editor_row} (h : idxFrom j l = true)
    {k : Nat} {r : editor_row} (hk : l[k]? = some r) : r.idx = j + k := by
  induction l generalizing j k with
  | nil => simp at hk
  | cons a rs ih =>
    simp only [idxFrom, Bool.and_eq_true, decide_eq_true_eq] at h
    cases k with
    | zero => simp at hk; subst hk; simpa using h.1
    | succ k =>
      simp at hk
      have := ih h.2 hk
      rw [this]; push_cast; ring

theorem idxFrom_congr {j : Int} {l l1 : List editor_row}
    (h : l.map (fun r => r.idx) = l1.map (fun r => r.idx)) : idxFrom j l = idxFrom j l1 := by
  induction l generalizing j l1 with
  | nil => cases l1 with
    | nil => rfl
    | cons a b => simp at h
  | cons a rs ih =>
    cases l1 with
    | nil => simp at h
    | cons b bs =>
      simp only [List.map_cons, List.cons.injEq] at h
      simp only [idxFrom, h.1, ih h.2]

theorem idxFrom_setIdxFrom (j : Int) (l : List editor_row) : idxFrom j (setIdxFrom j l) = true := by
  induction l generalizing j with
  | nil => rfl
  | cons a rs ih => simp [setIdxFrom, idxFrom, ih]

theorem idxFrom_map_dec {j : Int} {l : List editor_row} (h : idxFrom (j + 1) l = true) :
    idxFrom j (l.map (fun r => { r with idx := r.idx - 1 })) = true := by
  induction l generalizing j with
  | nil => rfl
  | cons a rs ih =>
    simp only [idxFrom, Bool.and_eq_true, decide_eq_true_eq] at h
    simp only [List.map_cons, idxFrom, Bool.and_eq_true, decide_eq_true_eq]
    exact ⟨by omega, ih h.2⟩

theorem idxFrom_take_drop {l : List editor_row} (h : idxFrom 0 l = true) (k : Nat) (hk : k ≤ l.length) :
    idxFrom 0 (l.take k) = true ∧ idxFrom k (l.drop k) = true := by
  have h2 := idxFrom_append 0 (l.take k) (l.drop k)
  rw [List.take_append_drop, h] at h2
  have h3 := h2.symm
  simp only [Bool.and_eq_true, List.length_take, zero_add] at h3
  rw [Nat.min_eq_left hk] at h3
  exact h3

@[simp] theorem setIdxFrom_length (j : Int) (l : List editor_row) :
    (setIdxFrom j l).length = l.length := by
  induction l generalizing j with
  | nil => rfl
  | cons a rs ih => simp [setIdxFrom, ih]

@[simp] theorem map_chars_setIdxFrom (j : Int) (l : List editor_row) :
    (setIdxFrom j l).map (fun r => r.chars) = l.map (fun r => r.chars) := by
  induction l generalizing j with
  | nil => rfl
  | cons a rs ih => simp [setIdxFrom, ih]

@[simp] theorem map_render_setIdxFrom (j : Int) (l : List editor_row) :
    (setIdxFrom j l).map (fun r => r.render) = l.map (fun r => r.render) := by
  induction l generalizing j with
  | nil => rfl
  | cons a rs ih => simp [setIdxFrom, ih]

/-! ## The scanner terminates -/

theorem stepKeyword_adv ( s : editor_syntax) (render : List Int) (st : scan_state) :
    st.i < (stepKeyword s render st).1.i := by
  unfold stepKeyword
  simp only
  split_ifs
  · split
    · simp; omega
    · simp
  · simp

theorem stepNumber_adv ( s : editor_syntax) (render : List Int) (st : scan_state) :
    st.i < (stepNumber s render st).1.i := by
  unfold stepNumber
  simp only
  split_ifs
  all_goals first
    | exact stepKeyword_adv s render st
    | simp

theorem stepString_adv ( s : editor_syntax) (render : List Int) (st : scan_state) :
    st.i < (stepString s render st).1.i := by
  unfold stepString
  simp only
  split_ifs
  all_goals first
    | exact stepNumber_adv s render st
    | simp

theorem stepMlComment_adv ( s : editor_syntax) (render : List Int) (st : scan_state) :
    st.i < (stepMlComment s render st).1.i := by
  unfold stepMlComment
  simp only
  split_ifs with h1
  all_goals first
    | exact stepString_adv s render st
    | (simp; omega)
    | simp

theorem scanStep_advances ( s : editor_syntax) (render : List Int) (st st1 : scan_state)
    (h : scanStep s render st = (st1, false)) : st.i < st1.i := by
  unfold scanStep at h
  simp only at h
  split_ifs at h with h1
  · simp at h
  · have := stepMlComment_adv s render st
    rw [h] at this
    exact this

theorem scanLoop_some ( s : editor_syntax) (render : List Int) (fuel : Nat) (st : scan_state)
    (hf : render.length - st.i ≤ fuel) : ∃ st1, scanLoop s render fuel st = some st1 := by
  induction fuel generalizing st with
  | zero =>
    simp only [scanLoop]
    split_ifs with h
    · omega
    · exact ⟨_, rfl⟩
  | succ n ih =>
    simp only [scanLoop]
    split_ifs with h
    · rcases hstep : scanStep s render st with ⟨st1, b⟩
      cases b with
      | true => exact ⟨_, rfl⟩
      | false =>
        have := scanStep_advances s render st st1 hstep
        exact ih st1 (by omega)
    · exact ⟨_, rfl⟩

/-! ## Frame of the highlighter -/

theorem set_self {α : Type} {l : List α} {k : Nat} {a : α} (h : l[k]? = some a) :
    l.set k a = l := by
  induction l generalizing k with
  | nil => rfl
  | cons b t ih =>
    cases k with
    | zero => simp at h; simp [h]
    | succ k => simp at h; simp [ih h]

theorem map_strip_set {rows : List editor_row} {k : Nat} {row r1 : editor_row}
    (hk : rows[k]? = some row) (h : strip r1 = strip row) :
    (rows.set k r1).map strip = rows.map strip := by
  rw [List.map_set, h]
  exact set_self (by simp [hk])

theorem strip_idx {a b : List editor_row} (h : a.map strip = b.map strip) :
    a.map (fun r => r.idx) = b.map (fun r => r.idx) := by
  have := congrArg (List.map (fun r : editor_row => r.idx)) h
  simpa [List.map_map, Function.comp_def, strip] using this

theorem strip_texts {a b : List editor_row} (h : a.map strip = b.map strip) :
    texts a = texts b := by
  have := congrArg (List.map (fun r : editor_row => r.chars)) h
  simpa [List.map_map, Function.comp_def, strip, texts] using this

theorem strip_renders {a b : List editor_row} (h : a.map strip = b.map strip) :
    renders a = renders b := by
  have := congrArg (List.map (fun r : editor_row => r.render)) h
  simpa [List.map_map, Function.comp_def, strip, renders] using this

theorem strip_length {a b : List editor_row} (h : a.map strip = b.map strip) :
    a.length = b.length := by
  have := congrArg List.length h
  simpa using this

theorem editorUpdateSyntaxFuel_frame (fuel : Nat) (ec : editor_config) (k : Nat)
    (hidx : idxFrom 0 ec.row = true) (hn : ec.num_rows ≤ ec.row.length)
    (hk : k < ec.row.length) (hf : ec.row.length - k ≤ fuel) :
    ∃ rows, editorUpdateSyntaxFuel fuel ec k = some { ec with row := rows } ∧
      rows.map strip = ec.row.map strip := by
  induction fuel generalizing ec k with
  | zero => omega
  | succ n ih =>
    have hrow : ec.row[k]? = some ec.row[k] := List.getElem?_eq_getElem hk
    generalize ec.row[k] = row at hrow
    have hri : row.idx = k := by simpa using idxFrom_getElem? hidx hrow
    simp only [editorUpdateSyntaxFuel, hrow]
    by_cases hr : row.render.length = 0
    · simp only [hr, if_true]
      exact ⟨ec.row.set k { row with highlight := [] }, rfl, map_strip_set hrow rfl⟩
    · simp only [hr, if_false]
      cases hs : ec.syntax_ with
      | none =>
        simp only
        exact ⟨ec.row.set k { row with highlight := List.replicate row.render.length HL_NORMAL },
          by simp [setRow, hs], map_strip_set hrow rfl⟩
      | some s =>
        simp only
        have hprev : ∃ b, (if row.idx > 0 then
            (rowAt ec (row.idx - 1)).map (fun r => r.hl_open_comment) else some false) = some b := by
          split_ifs with h0
          · have h1 : (row.idx - 1).toNat < ec.row.length := by omega
            have h2 : 0 ≤ row.idx - 1 := by omega
            simp only [rowAt, h2, if_true, List.getElem?_eq_getElem h1]
            exact ⟨_, rfl⟩
          · exact ⟨_, rfl⟩
        obtain ⟨b, hb⟩ := hprev
        rw [hb]
        simp only
        obtain ⟨st, hst⟩ := scanLoop_some s row.render row.render.length
          { i := 0, prev_sep := true, in_string := 0, in_comment := b,
            highlight := List.replicate row.render.length HL_NORMAL } (by simp)
        rw [hst]
        simp only
        have hset : (ec.row.set k
            { row with highlight := st.highlight, hl_open_comment := st.in_comment }).map strip
            = ec.row.map strip := map_strip_set hrow rfl
        split_ifs with hc
        · have hk1 : (row.idx + 1).toNat = k + 1 := by omega
          rw [hk1]
          have hlen : (setRow ec k
              { row with highlight := st.highlight, hl_open_comment := st.in_comment }).row.length
              = ec.row.length := by
            simp [setRow]
          obtain ⟨rows, h1, h2⟩ := ih
            (setRow ec k { row with highlight := st.highlight, hl_open_comment := st.in_comment })
            (k + 1)
            (by rw [← hidx]; exact idxFrom_congr (strip_idx hset))
            (by rw [hlen]; exact hn)
            (by rw [hlen]; have := hc.2; omega)
            (by rw [hlen]; omega)
          exact ⟨rows, by rw [h1]; simp [setRow, hs], by rw [h2]; exact hset⟩
        · exact ⟨ec.row.set k
            { row with highlight := st.highlight, hl_open_comment := st.in_comment },
            by simp [setRow, hs], hset⟩

theorem editorUpdateSyntax_spec (ec : editor_config) (k : Nat)
    (hidx : idxFrom 0 ec.row = true) (hn : ec.num_rows ≤ ec.row.length)
    (hk : k < ec.row.length) :
    ∃ rows, editorUpdateSyntax ec k = some { ec with row := rows } ∧
      idxFrom 0 rows = true ∧ texts rows = texts ec.row ∧ renders rows = renders ec.row := by
  obtain ⟨rows, h1, h2⟩ := editorUpdateSyntaxFuel_frame ec.row.length ec k hidx hn hk (by omega)
  exact ⟨rows, h1, by rw [idxFrom_congr (strip_idx h2)]; exact hidx, strip_texts h2,
    strip_renders h2⟩

theorem editorUpdateRow_spec0 (ec : editor_config) (k : Nat) (row : editor_row)
    (hidx : idxFrom 0 ec.row = true) (hn : ec.num_rows ≤ ec.row.length)
    (hrow : ec.row[k]? = some row) :
    ∃ rows, editorUpdateRow ec k = some { ec with row := rows } ∧
      idxFrom 0 rows = true ∧
      texts rows = texts ec.row ∧
      renders rows = (renders ec.row).set k (renderOf row.chars) := by
  have hk : k < ec.row.length := by
    rcases Nat.lt_or_ge k ec.row.length with h | h
    · exact h
    · rw [List.getElem?_eq_none h] at hrow; cases hrow
  have hidx1 : (ec.row.set k { row with render := renderOf row.chars }).map (fun r => r.idx)
      = ec.row.map (fun r => r.idx) := by
    rw [List.map_set]
    exact set_self (by simp [hrow])
  obtain ⟨rows, h1, h2, h3, h4⟩ := editorUpdateSyntax_spec
    (setRow ec k { row with render := renderOf row.chars }) k
    (by simp only [setRow]; rw [← hidx]; exact idxFrom_congr hidx1)
    (by simpa [setRow] using hn)
    (by simpa [setRow] using hk)
  refine ⟨rows, ?_, h2, ?_, ?_⟩
  · simp only [editorUpdateRow, hrow]
    simp only [renderOf] at h1
    rw [h1]
    rfl
  · rw [h3]
    simp only [setRow, texts, List.map_set]
    exact set_self (by simp [hrow])
  · rw [h4]
    simp [setRow, renders, List.map_set]

theorem editorUpdateRow_spec (ec : editor_config) (k : Nat) (row : editor_row)
    (new : List Int)
    (hidx : idxFrom 0 ec.row = true) (hn : ec.num_rows ≤ ec.row.length)
    (hrow : ec.row[k]? = some row) :
    ∃ rows, editorUpdateRow (setRow ec k { row with chars := new }) k
        = some { ec with row := rows } ∧
      idxFrom 0 rows = true ∧
      texts rows = (texts ec.row).set k new ∧
      renders rows = (renders ec.row).set k (renderOf new) := by
  have hk : k < ec.row.length := by
    rcases Nat.lt_or_ge k ec.row.length with h | h
    · exact h
    · rw [List.getElem?_eq_none h] at hrow; cases hrow
  have hidx1 : (ec.row.set k { row with chars := new }).map (fun r => r.idx)
      = ec.row.map (fun r => r.idx) := by
    rw [List.map_set]
    exact set_self (by simp [hrow])
  obtain ⟨rows, h1, h2, h3, h4⟩ := editorUpdateRow_spec0
    (setRow ec k { row with chars := new }) k { row with chars := new }
    (by simp only [setRow]; rw [← hidx]; exact idxFrom_congr hidx1)
    (by simpa [setRow] using hn)
    (by simp [setRow, hk])
  refine ⟨rows, ?_, h2, ?_, ?_⟩
  · rw [h1]; rfl
  · rw [h3]; simp [setRow, texts, List.map_set]
  · rw [h4]; simp [setRow, renders, List.map_set]

theorem rowAt_nat {ec : editor_config} {y : Int} {k : Nat} (hy : y = k) :
    rowAt ec y = ec.row[k]? := by
  subst hy; simp [rowAt]

theorem texts_getElem? {rows : List editor_row} {k : Nat} {old : List Int}
    (h : (texts rows)[k]? = some old) : ∃ row, rows[k]? = some row ∧ row.chars = old := by
  simp only [texts, List.getElem?_map, Option.map_eq_some'] at h
  exact h

theorem getElem?_texts {rows : List editor_row} {k : Nat} {row : editor_row}
    (h : rows[k]? = some row) : (texts rows)[k]? = some row.chars := by
  simp [texts, h]

/-! ## Row operations: what they do to the text -/

theorem editorInsertRow_spec (ec : editor_config) (at_ : Int) (k : Nat) (s : List Int)
    (hidx : idxFrom 0 ec.row = true) (hlen : ec.num_rows = ec.row.length)
    (hat : at_ = k) (hk : k ≤ ec.row.length) :
    ∃ rows, editorInsertRow ec at_ s
        = some { ec with row := rows, num_rows := ec.num_rows + 1, dirty := ec.dirty + 1 } ∧
      idxFrom 0 rows = true ∧
      texts rows = (texts ec.row).take k ++ s :: (texts ec.row).drop k ∧
      renders rows = (renders ec.row).take k ++ renderOf s :: (renders ec.row).drop k := by
  subst hat
  have hg : ¬ ((k : Int) < 0 ∨ (k : Int) > ec.num_rows) := by omega
  obtain ⟨h1, h2⟩ := idxFrom_take_drop hidx k hk
  have hlt : (ec.row.take k).length = k := by simp [hk]
  have hidx1 : idxFrom 0 (ec.row.take k ++
      ({ idx := (k : Int), chars := s, render := [], highlight := [], hl_open_comment := false }
        : editor_row) :: setIdxFrom ((k : Int) + 1) (ec.row.drop k)) = true := by
    rw [idxFrom_append, h1]
    simp [idxFrom, hlt, idxFrom_setIdxFrom]
  obtain ⟨rows, e1, e2, e3, e4⟩ := editorUpdateRow_spec0
    { ec with row := ec.row.take k ++
      ({ idx := (k : Int), chars := s, render := [], highlight := [], hl_open_comment := false }
        : editor_row) :: setIdxFrom ((k : Int) + 1) (ec.row.drop k) } k
    { idx := (k : Int), chars := s, render := [], highlight := [], hl_open_comment := false }
    hidx1
    (by simp; omega)
    (by rw [List.getElem?_append_right (by omega)]; simp [hlt])
  refine ⟨rows, ?_, e2, ?_, ?_⟩
  · simp only [editorInsertRow, hg, if_false, Int.toNat_ofNat, e1]
  · rw [e3]
    simp [texts, List.map_take, List.map_drop]
  · rw [e4]
    have : renders (ec.row.take k ++
      ({ idx := (k : Int), chars := s, render := [], highlight := [], hl_open_comment := false }
        : editor_row) :: setIdxFrom ((k : Int) + 1) (ec.row.drop k))
        = (renders ec.row).take k ++ [] :: (renders ec.row).drop k := by
      simp [renders, List.map_take, List.map_drop]
    simp only [this]
    have hl2 : ((renders ec.row).take k).length = k := by simp [renders, hk]
    rw [List.set_append_right _ _ (by omega)]
    simp [hl2]

theorem editorDelRow_spec (ec : editor_config) (at_ : Int) (k : Nat)
    (hidx : idxFrom 0 ec.row = true) (hlen : ec.num_rows = ec.row.length)
    (hat : at_ = k) (hk : k < ec.row.length) :
    ∃ rows, editorDelRow ec at_
        = { ec with row := rows, num_rows := ec.num_rows - 1, dirty := ec.dirty + 1 } ∧
      idxFrom 0 rows = true ∧
      texts rows = (texts ec.row).take k ++ (texts ec.row).drop (k + 1) ∧
      renders rows = (renders ec.row).take k ++ (renders ec.row).drop (k + 1) := by
  subst hat
  have hg : ¬ ((k : Int) < 0 ∨ (k : Int) ≥ ec.num_rows) := by omega
  obtain ⟨h1, h2⟩ := idxFrom_take_drop hidx k (by omega)
  obtain ⟨_, h3⟩ := idxFrom_take_drop hidx (k + 1) (by omega)
  have hlt : (ec.row.take k).length = k := by simp; omega
  refine ⟨ec.row.take k ++ (ec.row.drop (k + 1)).map (fun r => { r with idx := r.idx - 1 }),
    by simp only [editorDelRow, hg, if_false, Int.toNat_ofNat], ?_, ?_, ?_⟩
  · rw [idxFrom_append, h1, hlt]
    simp only [Bool.true_and, zero_add]
    exact idxFrom_map_dec (by simpa using h3)
  · simp [texts, List.map_take, List.map_drop, Function.comp_def]
  · simp [renders, List.map_take, List.map_drop, Function.comp_def]

theorem editorRowInsertString_spec (ec : editor_config) (y at_ : Int) (k a : Nat)
    (row : editor_row) (str : List Int)
    (hidx : idxFrom 0 ec.row = true) (hlen : ec.num_rows = ec.row.length)
    (hy : y = k) (hrow : ec.row[k]? = some row) (hat : at_ = a) (ha : a ≤ row.chars.length) :
    ∃ rows, editorRowInsertString ec y at_ str
        = some { ec with row := rows, dirty := ec.dirty + str.length } ∧
      idxFrom 0 rows = true ∧
      texts rows = (texts ec.row).set k (row.chars.take a ++ str ++ row.chars.drop a) ∧
      renders rows
        = (renders ec.row).set k (renderOf (row.chars.take a ++ str ++ row.chars.drop a)) := by
  subst hy; subst hat
  have hg : ¬ (((a : Int) < 0) ∨ (a : Int) > row.chars.length) := by omega
  obtain ⟨rows, e1, e2, e3, e4⟩ := editorUpdateRow_spec ec k row
    (row.chars.take a ++ str ++ row.chars.drop a) hidx (by omega) hrow
  refine ⟨rows, ?_, e2, e3, e4⟩
  simp only [editorRowInsertString, rowAt_nat rfl, hrow, hg, if_false, Int.toNat_ofNat, e1]

theorem editorRowDelString_spec (ec : editor_config) (y at_ len : Int) (k a n : Nat)
    (row : editor_row)
    (hidx : idxFrom 0 ec.row = true) (hlen : ec.num_rows = ec.row.length)
    (hy : y = k) (hrow : ec.row[k]? = some row) (hat : at_ = a) (hl : len = n)
    (ha : a + n ≤ row.chars.length) :
    ∃ rows, editorRowDelString ec y at_ len
        = some { ec with row := rows, dirty := ec.dirty + len } ∧
      idxFrom 0 rows = true ∧
      texts rows = (texts ec.row).set k (row.chars.take a ++ row.chars.drop (a + n)) ∧
      renders rows
        = (renders ec.row).set k (renderOf (row.chars.take a ++ row.chars.drop (a + n))) := by
  subst hy; subst hat; subst hl
  have hg : ¬ (((a : Int) < 0) ∨ (a : Int) + (n : Int) - 1 ≥ row.chars.length) := by omega
  have hg2 : ¬ ((n : Int) < 0) := by omega
  obtain ⟨rows, e1, e2, e3, e4⟩ := editorUpdateRow_spec ec k row
    (row.chars.take a ++ row.chars.drop (a + n)) hidx (by omega) hrow
  refine ⟨rows, ?_, e2, e3, e4⟩
  simp only [editorRowDelString, rowAt_nat rfl, hrow, hg, hg2, if_false, Int.toNat_ofNat, e1]

theorem editorRowAppendString_spec (ec : editor_config) (y : Int) (k : Nat)
    (row : editor_row) (s : List Int)
    (hidx : idxFrom 0 ec.row = true) (hlen : ec.num_rows = ec.row.length)
    (hy : y = k) (hrow : ec.row[k]? = some row) :
    ∃ rows, editorRowAppendString ec y s
        = some { ec with row := rows, dirty := ec.dirty + 1 } ∧
      idxFrom 0 rows = true ∧
      texts rows = (texts ec.row).set k (row.chars ++ s) ∧
      renders rows = (renders ec.row).set k (renderOf (row.chars ++ s)) := by
  subst hy
  obtain ⟨rows, e1, e2, e3, e4⟩ := editorUpdateRow_spec ec k row
    (row.chars ++ s) hidx (by omega) hrow
  refine ⟨rows, ?_, e2, e3, e4⟩
  simp only [editorRowAppendString, rowAt_nat rfl, hrow, Int.toNat_ofNat, e1]

theorem editorRowDelChar_spec (ec : editor_config) (y at_ : Int) (k a : Nat)
    (row : editor_row)
    (hidx : idxFrom 0 ec.row = true) (hlen : ec.num_rows = ec.row.length)
    (hy : y = k) (hrow : ec.row[k]? = some row) (hat : at_ = a) (ha : a < row.chars.length) :
    ∃ rows, editorRowDelChar ec y at_
        = some { ec with row := rows, dirty := ec.dirty + 1 } ∧
      idxFrom 0 rows = true ∧
      texts rows = (texts ec.row).set k (row.chars.take a ++ row.chars.drop (a + 1)) ∧
      renders rows
        = (renders ec.row).set k (renderOf (row.chars.take a ++ row.chars.drop (a + 1))) := by
  subst hy; subst hat
  have hg : ¬ (((a : Int) < 0) ∨ (a : Int) ≥ row.chars.length) := by omega
  obtain ⟨rows, e1, e2, e3, e4⟩ := editorUpdateRow_spec ec k row
    (row.chars.take a ++ row.chars.drop (a + 1)) hidx (by omega) hrow
  refine ⟨rows, ?_, e2, e3, e4⟩
  simp only [editorRowDelChar, rowAt_nat rfl, hrow, hg, if_false, Int.toNat_ofNat, e1]

theorem editorRowInsertChar_spec (ec : editor_config) (y at_ : Int) (k a : Nat)
    (row : editor_row) (c : Int)
    (hidx : idxFrom 0 ec.row = true) (hlen : ec.num_rows = ec.row.length)
    (hy : y = k) (hrow : ec.row[k]? = some row) (hat : at_ = a) (ha : a ≤ row.chars.length) :
    ∃ rows, editorRowInsertChar ec y at_ c = some { ec with row := rows } ∧
      idxFrom 0 rows = true ∧
      texts rows = (texts ec.row).set k (row.chars.take a ++ c :: row.chars.drop a) ∧
      renders rows
        = (renders ec.row).set k (renderOf (row.chars.take a ++ c :: row.chars.drop a)) := by
  subst hy; subst hat
  have hg : ¬ (((a : Int) < 0) ∨ (a : Int) > row.chars.length) := by omega
  obtain ⟨rows, e1, e2, e3, e4⟩ := editorUpdateRow_spec ec k row
    (row.chars.take a ++ c :: row.chars.drop a) hidx (by omega) hrow
  refine ⟨rows, ?_, e2, e3, e4⟩
  simp only [editorRowInsertChar, rowAt_nat rfl, hrow, hg, if_false, Int.toNat_ofNat, e1]

/-! ## Editor operations: what they do to the text -/

theorem editorInsertChar_spec_row (ec : editor_config) (c : Int) (k a : Nat) (row : editor_row)
    (hidx : idxFrom 0 ec.row = true) (hlen : ec.num_rows = ec.row.length)
    (hc : 0 < c) (hy : ec.cursor_y = k) (hrow : ec.row[k]? = some row)
    (hx : ec.cursor_x = a) (ha : a ≤ row.chars.length) :
    ∃ rows, editorInsertChar ec c
        = some { ec with row := rows, cursor_x := ec.cursor_x + 1, dirty := ec.dirty + 1 } ∧
      idxFrom 0 rows = true ∧
      texts rows = (texts ec.row).set k (row.chars.take a ++ c :: row.chars.drop a) ∧
      renders rows
        = (renders ec.row).set k (renderOf (row.chars.take a ++ c :: row.chars.drop a)) := by
  have hk : k < ec.row.length := by
    rcases Nat.lt_or_ge k ec.row.length with h | h
    · exact h
    · rw [List.getElem?_eq_none h] at hrow; cases hrow
  have hc0 : ¬ c ≤ 0 := by omega
  have hne : ¬ ec.cursor_y = ec.num_rows := by omega
  have hg : ¬ (ec.cursor_x < 0 ∨ ec.cursor_x > row.chars.length) := by omega
  obtain ⟨rows, e1, e2, e3, e4⟩ := editorUpdateRow_spec ec k row
    (row.chars.take a ++ c :: row.chars.drop a) hidx (by omega) hrow
  refine ⟨rows, ?_, e2, e3, e4⟩
  simp only [editorInsertChar, hc0, hne, if_false, false_and, rowAt_nat hy, hrow, hg]
  simp only [hy, hx, Int.toNat_ofNat, e1]

theorem editorInsertChar_spec_tilde (ec : editor_config) (c : Int)
    (hidx : idxFrom 0 ec.row = true) (hlen : ec.num_rows = ec.row.length)
    (hc : 0 < c) (hy : ec.cursor_y = ec.num_rows) (hx : ec.cursor_x = 0) :
    ∃ rows, editorInsertChar ec c
        = some { ec with row := rows, num_rows := ec.num_rows + 1, cursor_x := 1,
                         dirty := ec.dirty + 1 + 1 } ∧
      idxFrom 0 rows = true ∧
      texts rows = texts ec.row ++ [[c]] ∧
      renders rows = renders ec.row ++ [renderOf [c]] := by
  have hc0 : ¬ c ≤ 0 := by omega
  obtain ⟨rows1, e1, e2, e3, e4⟩ := editorInsertRow_spec ec ec.num_rows ec.row.length []
    hidx hlen hlen (le_refl _)
  have ht1 : texts rows1 = texts ec.row ++ [[]] := by
    rw [e3, List.take_of_length_le (by simp [texts]), List.drop_of_length_le (by simp [texts])]
  have hr1 : renders rows1 = renders ec.row ++ [renderOf []] := by
    rw [e4, List.take_of_length_le (by simp [renders]),
      List.drop_of_length_le (by simp [renders])]
  have hget : (texts rows1)[ec.row.length]? = some [] := by
    rw [ht1, List.getElem?_append_right (by simp [texts])]; simp [texts]
  obtain ⟨row1, hrow1, hch⟩ := texts_getElem? hget
  have hl1 : rows1.length = ec.row.length + 1 := by
    have := congrArg List.length ht1
    simpa [texts] using this
  obtain ⟨rows, f1, f2, f3, f4⟩ := editorUpdateRow_spec
    { ec with row := rows1, num_rows := ec.num_rows + 1, dirty := ec.dirty + 1 }
    ec.row.length row1 (row1.chars.take 0 ++ c :: row1.chars.drop 0) e2
    (by simp only [hl1, hlen]; push_cast; omega) hrow1
  refine ⟨rows, ?_, f2, ?_, ?_⟩
  · simp only [editorInsertChar, hc0, if_false, hy, if_true, e1]
    have hn : ¬ (True ∧ ec.num_rows ≠ ec.num_rows + 1 - 1) := by simp
    simp only [hn, if_false, rowAt_nat hlen, hrow1, hx]
    have hg : ¬ ((0 : Int) < 0 ∨ (0 : Int) > row1.chars.length) := by omega
    simp only [hg, if_false, hlen, Int.toNat_ofNat, Int.toNat_zero]
    simp only [hy, hlen, hx] at f1
    simp only [f1, zero_add]
  · rw [f3, ht1, hch]
    simp [texts]
  · rw [f4, hr1, hch]
    simp [renders]

/-! ## List identities used below -/

theorem take_succ_of_getElem? {α : Type} {l : List α} {k : Nat} {x : α} (h : l[k]? = some x) :
    l.take (k + 1) = l.take k ++ [x] := by
  rw [List.take_succ, h]; rfl

theorem drop_of_getElem? {α : Type} {l : List α} {k : Nat} {x : α} (h : l[k]? = some x) :
    l.drop k = x :: l.drop (k + 1) := by
  induction l generalizing k with
  | nil => simp at h
  | cons a t ih =>
    cases k with
    | zero => simp at h; simp [h]
    | succ k => simp at h; simpa using ih h

theorem lt_of_getElem? {α : Type} {l : List α} {k : Nat} {x : α} (h : l[k]? = some x) :
    k < l.length := by
  rcases Nat.lt_or_ge k l.length with h1 | h1
  · exact h1
  · rw [List.getElem?_eq_none h1] at h; cases h

theorem take_append_set {α : Type} (l X : List α) (k : Nat) (v x : α) (h : l[k]? = some x) :
    (l.take (k + 1) ++ X).set k v = l.take k ++ v :: X := by
  have hk := lt_of_getElem? h
  rw [take_succ_of_getElem? h, List.append_assoc, List.set_append_right _ _ (by simp)]
  simp [Nat.min_eq_left (Nat.le_of_lt hk)]

theorem set_eq_take_cons_drop {α : Type} (l : List α) (k : Nat) (v : α) (hk : k < l.length) :
    l.set k v = l.take k ++ v :: l.drop (k + 1) := by
  induction l generalizing k with
  | nil => simp at hk
  | cons a t ih =>
    cases k with
    | zero => simp
    | succ k => simp at hk; simp [ih k hk]

theorem take_cons_drop_self {α : Type} {l : List α} {k : Nat} {x : α} (h : l[k]? = some x) :
    l.take k ++ x :: l.drop (k + 1) = l := by
  rw [← drop_of_getElem? h, List.take_append_drop]

theorem set_take_drop_join {α : Type} (T : List α) (k : Nat) (v : α) (hk : k + 1 < T.length) :
    (T.set k v).take (k + 1) ++ (T.set k v).drop (k + 1 + 1) = T.take k ++ v :: T.drop (k + 2) := by
  induction T generalizing k with
  | nil => simp at hk
  | cons a t ih =>
    cases k with
    | zero => simp
    | succ k =>
      simp only [List.length_cons, Nat.add_lt_add_iff_right] at hk
      simpa using ih k hk

/-! ## Newline and backspace -/

theorem editorInsertNewline_spec_col0 (ec : editor_config) (k : Nat)
    (hidx : idxFrom 0 ec.row = true) (hlen : ec.num_rows = ec.row.length)
    (hy : ec.cursor_y = k) (hk : k ≤ ec.row.length) (hx : ec.cursor_x = 0) :
    ∃ rows, editorInsertNewline ec
        = some { ec with row := rows, num_rows := ec.num_rows + 1, dirty := ec.dirty + 1,
                         cursor_y := ec.cursor_y + 1, cursor_x := 0 } ∧
      idxFrom 0 rows = true ∧
      texts rows = (texts ec.row).take k ++ [] :: (texts ec.row).drop k ∧
      renders rows = (renders ec.row).take k ++ renderOf [] :: (renders ec.row).drop k := by
  obtain ⟨rows, e1, e2, e3, e4⟩ := editorInsertRow_spec ec ec.cursor_y k [] hidx hlen hy hk
  refine ⟨rows, ?_, e2, e3, e4⟩
  simp only [editorInsertNewline, hx, if_true, e1]

theorem editorInsertNewline_spec_split (ec : editor_config) (k a : Nat) (row : editor_row)
    (hidx : idxFrom 0 ec.row = true) (hlen : ec.num_rows = ec.row.length)
    (hy : ec.cursor_y = k) (hrow : ec.row[k]? = some row)
    (hx : ec.cursor_x = a) (ha0 : 0 < a) (ha : a ≤ row.chars.length) :
    ∃ rows, editorInsertNewline ec
        = some { ec with row := rows, num_rows := ec.num_rows + 1, dirty := ec.dirty + 1,
                         cursor_y := ec.cursor_y + 1, cursor_x := 0 } ∧
      idxFrom 0 rows = true ∧
      texts rows = (texts ec.row).take k ++
        row.chars.take a :: row.chars.drop a :: (texts ec.row).drop (k + 1) ∧
      renders rows = (renders ec.row).take k ++
        renderOf (row.chars.take a) :: renderOf (row.chars.drop a) ::
          (renders ec.row).drop (k + 1) := by
  have hk := lt_of_getElem? hrow
  obtain ⟨cx, cy, n, rows0, d, cp, sy, ac⟩ := ec
  simp only at hidx hlen hy hx hrow hk
  subst hy hx hlen
  obtain ⟨rows1, e1, e2, e3, e4⟩ := editorInsertRow_spec
    { cursor_x := (a : Int), cursor_y := (k : Int), num_rows := (rows0.length : Int),
      row := rows0, dirty := d, copied_char_buffer := cp, syntax_ := sy, actions := ac }
    ((k : Int) + 1) (k + 1) (row.chars.drop a) hidx rfl (by push_cast; rfl) (by simpa using hk)
  simp only at e1 e3 e4
  have ht : (texts rows0)[k]? = some row.chars := getElem?_texts hrow
  have hget : (texts rows1)[k]? = some row.chars := by
    rw [e3, List.getElem?_append_left (by simp [texts]; omega), List.getElem?_take]
    simp [ht]
  obtain ⟨row1, hrow1, hch⟩ := texts_getElem? hget
  have hl1 : rows1.length = rows0.length + 1 := by
    have := congrArg List.length e3
    simp [texts] at this
    omega
  obtain ⟨rows, f1, f2, f3, f4⟩ := editorUpdateRow_spec
    { cursor_x := (a : Int), cursor_y := (k : Int), num_rows := (rows0.length : Int) + 1,
      row := rows1, dirty := d + 1, copied_char_buffer := cp, syntax_ := sy, actions := ac }
    k row1 (row1.chars.take a) e2 (by simp only [hl1]; push_cast; omega) hrow1
  simp only at f1 f3 f4
  refine ⟨rows, ?_, f2, ?_, ?_⟩
  · have hx0 : ¬ ((a : Int) = 0) := by omega
    have hg : ¬ ((a : Int) < 0 ∨ (a : Int) > row.chars.length) := by omega
    have hlt : (k : Int) + 1 < (rows0.length : Int) + 1 := by omega
    simp only [editorInsertNewline, hx0, if_false, rowAt_nat rfl, hrow, hg, Int.toNat_ofNat, e1,
      hlt, if_true, hrow1, f1]
  · rw [f3, e3, hch]
    exact take_append_set _ _ _ _ _ ht
  · rw [f4, e4, hch]
    have hr : (renders rows0)[k]? = some row.render := by simp [renders, hrow]
    exact take_append_set _ _ _ _ _ hr

theorem editorDelChar_spec_del (ec : editor_config) (k a : Nat) (row : editor_row)
    (hidx : idxFrom 0 ec.row = true) (hlen : ec.num_rows = ec.row.length)
    (hy : ec.cursor_y = k) (hrow : ec.row[k]? = some row)
    (hx : ec.cursor_x = (a : Int) + 1) (ha : a < row.chars.length) :
    ∃ rows, editorDelChar ec
        = some { ec with row := rows, dirty := ec.dirty + 1, cursor_x := ec.cursor_x - 1 } ∧
      idxFrom 0 rows = true ∧
      texts rows = (texts ec.row).set k (row.chars.take a ++ row.chars.drop (a + 1)) ∧
      renders rows
        = (renders ec.row).set k (renderOf (row.chars.take a ++ row.chars.drop (a + 1))) := by
  have hk := lt_of_getElem? hrow
  obtain ⟨rows, e1, e2, e3, e4⟩ := editorRowDelChar_spec ec ec.cursor_y (ec.cursor_x - 1) k a row
    hidx hlen hy hrow (by omega) ha
  refine ⟨rows, ?_, e2, e3, e4⟩
  have h1 : ¬ ec.cursor_y = ec.num_rows := by omega
  have h2 : ¬ (ec.cursor_x = 0 ∧ ec.cursor_y = 0) := by omega
  have h3 : ec.cursor_x > 0 := by omega
  simp only [editorDelChar, h1, h2, h3, if_false, if_true, e1]

theorem editorDelChar_spec_join (ec : editor_config) (k : Nat) (row prev : editor_row)
    (hidx : idxFrom 0 ec.row = true) (hlen : ec.num_rows = ec.row.length)
    (hy : ec.cursor_y = (k : Int) + 1) (hrow : ec.row[k + 1]? = some row)
    (hprev : ec.row[k]? = some prev) (hx : ec.cursor_x = 0) :
    ∃ rows, editorDelChar ec
        = some { ec with row := rows, num_rows := ec.num_rows - 1, dirty := ec.dirty + 1 + 1,
                         cursor_x := prev.chars.length, cursor_y := ec.cursor_y - 1 } ∧
      idxFrom 0 rows = true ∧
      texts rows = (texts ec.row).take k ++ (prev.chars ++ row.chars) ::
        (texts ec.row).drop (k + 2) ∧
      renders rows = (renders ec.row).take k ++ renderOf (prev.chars ++ row.chars) ::
        (renders ec.row).drop (k + 2) := by
  have hk := lt_of_getElem? hrow
  obtain ⟨cx, cy, n, rows0, d, cp, sy, ac⟩ := ec
  simp only at hidx hlen hy hx hrow hprev hk
  subst hy hx hlen
  obtain ⟨rows1, e1, e2, e3, e4⟩ := editorRowAppendString_spec
    { cursor_x := (prev.chars.length : Int), cursor_y := (k : Int) + 1,
      num_rows := (rows0.length : Int),
      row := rows0, dirty := d, copied_char_buffer := cp, syntax_ := sy, actions := ac }
    ((k : Int) + 1 - 1) k prev row.chars hidx rfl (by omega) hprev
  simp only at e1 e3 e4
  have hl1 : rows1.length = rows0.length := by
    have := congrArg List.length e3
    simpa [texts] using this
  obtain ⟨rows, f1, f2, f3, f4⟩ := editorDelRow_spec
    { cursor_x := (prev.chars.length : Int), cursor_y := (k : Int) + 1,
      num_rows := (rows0.length : Int),
      row := rows1, dirty := d + 1, copied_char_buffer := cp, syntax_ := sy, actions := ac }
    ((k : Int) + 1) (k + 1) e2 (by simp [hl1]) (by push_cast; rfl) (by simp only [hl1]; exact hk)
  simp only at f1 f3 f4
  refine ⟨rows, ?_, f2, ?_, ?_⟩
  · have h1 : ¬ ((k : Int) + 1 = (rows0.length : Int)) := by omega
    have h2 : ¬ (True ∧ (k : Int) + 1 = 0) := by omega
    have h3 : ¬ ((0 : Int) > 0) := by omega
    have hz1 : (0 : Int) ≤ (k : Int) + 1 := by omega
    have ht1 : ((k : Int) + 1).toNat = k + 1 := by omega
    have hz2 : (0 : Int) ≤ (k : Int) + 1 - 1 := by omega
    have ht2 : ((k : Int) + 1 - 1).toNat = k := by omega
    simp only [editorDelChar, h1, h2, h3, if_false, rowAt, hz1, ht1, hz2, ht2, if_true, hrow,
      hprev, e1, f1]
  · rw [f3, e3]
    exact set_take_drop_join _ _ _ (by simp [texts]; omega)
  · rw [f4, e4]
    exact set_take_drop_join _ _ _ (by simp [renders]; omega)

/-! ## Swapping, cutting and pasting rows -/

theorem set_set_set_set {α : Type} (l : List α) (k m : Nat) (a b a1 b1 : α) (hkm : k ≠ m) :
    (((l.set k a).set m b).set k a1).set m b1 = (l.set k a1).set m b1 := by
  rw [List.set_comm _ _ _ (Ne.symm hkm), List.set_set, List.set_set]

theorem editorFlipRow_spec (ec : editor_config) (dir : Int) (k m : Nat)
    (c_row o_row : editor_row)
    (hidx : idxFrom 0 ec.row = true) (hlen : ec.num_rows = ec.row.length)
    (hd : dir = 1 ∨ dir = -1) (hy : ec.cursor_y = k) (hm : ec.cursor_y - dir = m)
    (hc : ec.row[k]? = some c_row) (ho : ec.row[m]? = some o_row) :
    ∃ rows, editorFlipRow ec dir
        = some { ec with row := rows, cursor_y := ec.cursor_y - dir, dirty := ec.dirty + 1 } ∧
      idxFrom 0 rows = true ∧
      texts rows = ((texts ec.row).set k o_row.chars).set m c_row.chars ∧
      renders rows = ((renders ec.row).set k o_row.render).set m c_row.render := by
  have hk := lt_of_getElem? hc
  have hml := lt_of_getElem? ho
  have hci : c_row.idx = k := by simpa using idxFrom_getElem? hidx hc
  have hoi : o_row.idx = m := by simpa using idxFrom_getElem? hidx ho
  obtain ⟨cx, cy, n, rows0, d, cp, sy, ac⟩ := ec
  simp only at hidx hlen hy hm hc ho hk hml
  subst hy hlen
  have hkm : k ≠ m := by rcases hd with h | h <;> omega
  -- the array after the swap and the two index updates
  have hrows : (((rows0.set k o_row).set m c_row).set k { o_row with idx := o_row.idx + dir }).set m
      { c_row with idx := c_row.idx - dir }
      = (rows0.set k { o_row with idx := o_row.idx + dir }).set m
          { c_row with idx := c_row.idx - dir } := set_set_set_set _ _ _ _ _ _ _ hkm
  have hidx3 : idxFrom 0 ((rows0.set k { o_row with idx := o_row.idx + dir }).set m
      { c_row with idx := c_row.idx - dir }) = true := by
    rw [← hidx]
    apply idxFrom_congr
    rw [List.map_set, List.map_set]
    have e1 : (rows0.map (fun r => r.idx)).set k (o_row.idx + dir) = rows0.map (fun r => r.idx) :=
      set_self (by simp only [List.getElem?_map, hc, Option.map_some']; congr 1; omega)
    simp only [e1]
    exact set_self (by simp only [List.getElem?_map, ho, Option.map_some']; congr 1; omega)
  -- the position of the first rescanned row
  obtain ⟨f, hf1, hf2, hf3⟩ : ∃ f : Nat, (if dir = 1 then (k : Int) - 1 else (k : Int)) = f ∧
      f + 1 < rows0.length ∧ ((rows0.length : Int) - k > 2 → f + 2 < rows0.length) := by
    rcases hd with h | h
    · subst h
      exact ⟨m, by simp only [if_true]; omega, by omega, by omega⟩
    · subst h
      exact ⟨k, by simp, by omega, by omega⟩
  have hl3 : ((rows0.set k { o_row with idx := o_row.idx + dir }).set m
      { c_row with idx := c_row.idx - dir }).length = rows0.length := by simp
  obtain ⟨r1, a1, a2, a3, a4⟩ := editorUpdateSyntax_spec
    { cursor_x := cx, cursor_y := (k : Int), num_rows := (rows0.length : Int),
      row := (rows0.set k { o_row with idx := o_row.idx + dir }).set m
          { c_row with idx := c_row.idx - dir },
      dirty := d, copied_char_buffer := cp, syntax_ := sy, actions := ac } f
    hidx3 (by simp) (by simp; omega)
  simp only at a1 a3 a4
  have hl1 : r1.length = rows0.length := by
    have := congrArg List.length a3
    simpa [texts] using this
  obtain ⟨r2, b1, b2, b3, b4⟩ := editorUpdateSyntax_spec
    { cursor_x := cx, cursor_y := (k : Int), num_rows := (rows0.length : Int),
      row := r1, dirty := d, copied_char_buffer := cp, syntax_ := sy, actions := ac } (f + 1)
    a2 (by simp [hl1]) (by simp only [hl1]; omega)
  simp only at b1 b3 b4
  have hl2 : r2.length = rows0.length := by
    have := congrArg List.length b3
    simp only [texts, List.length_map] at this
    omega
  have hz : (0 : Int) ≤ (k : Int) := by omega
  have hz2 : (0 : Int) ≤ (k : Int) - dir := by omega
  have ht2 : ((k : Int) - dir).toNat = m := by omega
  have hnf : ¬ ((if dir = 1 then (k : Int) - 1 else (k : Int)) < 0) := by rw [hf1]; omega
  have htf : (if dir = 1 then (k : Int) - 1 else (k : Int)).toNat = f := by rw [hf1]; simp
  have htexts : texts ((rows0.set k { o_row with idx := o_row.idx + dir }).set m
      { c_row with idx := c_row.idx - dir })
      = ((texts rows0).set k o_row.chars).set m c_row.chars := by
    simp [texts, List.map_set]
  have hrenders : renders ((rows0.set k { o_row with idx := o_row.idx + dir }).set m
      { c_row with idx := c_row.idx - dir })
      = ((renders rows0).set k o_row.render).set m c_row.render := by
    simp [renders, List.map_set]
  by_cases h3 : (rows0.length : Int) - k > 2
  · obtain ⟨r3, c1, c2, c3, c4⟩ := editorUpdateSyntax_spec
      { cursor_x := cx, cursor_y := (k : Int), num_rows := (rows0.length : Int),
        row := r2, dirty := d, copied_char_buffer := cp, syntax_ := sy, actions := ac } (f + 2)
      b2 (by simp [hl2]) (by simp only [hl2]; exact hf3 h3)
    simp only at c1 c3 c4
    refine ⟨r3, ?_, c2, ?_, ?_⟩
    · simp only [editorFlipRow, rowAt, hz, hz2, if_true, Int.toNat_ofNat, ht2, hc, ho, hrows,
        hnf, if_false, htf, a1, b1, h3, c1]
    · rw [c3, b3, a3, htexts]
    · rw [c4, b4, a4, hrenders]
  · refine ⟨r2, ?_, b2, ?_, ?_⟩
    · simp only [editorFlipRow, rowAt, hz, hz2, if_true, Int.toNat_ofNat, ht2, hc, ho, hrows,
        hnf, if_false, htf, a1, b1, h3]
    · rw [b3, a3, htexts]
    · rw [b4, a4, hrenders]

theorem editorCut_cursor (e : editor_config) (k : Nat) (hy : e.cursor_y = k)
    (hn : e.num_rows = e.row.length) (hk : k ≤ e.row.length) :
    (if e.cursor_y = e.num_rows then some { e with cursor_x := 0 }
      else
        match rowAt e e.cursor_y with
        | none => none
        | some row => some { e with cursor_x := row.chars.length })
      = some { e with
          cursor_x := (((texts e.row)[k]?).map (fun t => (t.length : Int))).getD 0 } := by
  split_ifs with h
  · have : (texts e.row)[k]? = none := by
      apply List.getElem?_eq_none; simp [texts]; omega
    simp [this]
  · have hlt : k < e.row.length := by omega
    have hsome : e.row[k]? = some e.row[k] := List.getElem?_eq_getElem hlt
    simp only [rowAt_nat hy, hsome, texts, List.getElem?_map, Option.map_some', Option.getD_some]

theorem editorCut_spec (ec : editor_config) (k : Nat)
    (hidx : idxFrom 0 ec.row = true) (hlen : ec.num_rows = ec.row.length)
    (hy : ec.cursor_y = k) (hk : k < ec.row.length) :
    ∃ rows, editorCut ec
        = some { ec with row := rows, num_rows := ec.num_rows - 1, dirty := ec.dirty + 1,
                         cursor_x := (((texts ec.row)[k + 1]?).map
                            (fun t => (t.length : Int))).getD 0 } ∧
      idxFrom 0 rows = true ∧
      texts rows = (texts ec.row).take k ++ (texts ec.row).drop (k + 1) ∧
      renders rows = (renders ec.row).take k ++ (renders ec.row).drop (k + 1) := by
  obtain ⟨rows1, e1, e2, e3, e4⟩ := editorDelRow_spec ec ec.cursor_y k hidx hlen hy hk
  have hl1 : rows1.length = ec.row.length - 1 := by
    have := congrArg List.length e3
    simp only [texts, List.length_map, List.length_append, List.length_take,
      List.length_drop] at this
    omega
  have hz : ¬ (ec.cursor_y < 0) := by omega
  have hz1 : ¬ (ec.cursor_y + 1 < 0) := by omega
  have ht0 : ec.cursor_y.toNat = k := by omega
  have ht1 : (ec.cursor_y + 1).toNat = k + 1 := by omega
  have hget : ∀ rows : List editor_row, texts rows = texts rows1 →
      (texts rows)[k]? = (texts ec.row)[k + 1]? := by
    intro rows hrows
    rw [hrows, e3]
    rw [List.getElem?_append_right (by simp [texts])]
    simp [texts, Nat.min_eq_left (Nat.le_of_lt hk)]
  by_cases h1 : ec.num_rows - 1 - ec.cursor_y > 0
  · obtain ⟨r1, a1, a2, a3, a4⟩ := editorUpdateSyntax_spec
      { ec with row := rows1, num_rows := ec.num_rows - 1, dirty := ec.dirty + 1 } k
      e2 (by simp only [hl1]; omega) (by simp only [hl1]; omega)
    simp only at a1 a3 a4
    have hl2 : r1.length = ec.row.length - 1 := by
      have := congrArg List.length a3
      simp only [texts, List.length_map] at this
      omega
    by_cases h2 : ec.num_rows - 1 - ec.cursor_y > 1
    · obtain ⟨r2, b1, b2, b3, b4⟩ := editorUpdateSyntax_spec
        { ec with row := r1, num_rows := ec.num_rows - 1, dirty := ec.dirty + 1 }
        (k + 1) a2 (by simp only [hl2]; omega) (by simp only [hl2]; omega)
      simp only at b1 b3 b4
      have hl3 : r2.length = ec.row.length - 1 := by
        have := congrArg List.length b3
        simp only [texts, List.length_map] at this
        omega
      refine ⟨r2, ?_, b2, by rw [b3, a3, e3], by rw [b4, a4, e4]⟩
      simp only [editorCut, e1, h1, h2, if_true, hz, hz1, if_false, ht0, ht1, a1, b1]
      have := editorCut_cursor
        { ec with row := r2, num_rows := ec.num_rows - 1, dirty := ec.dirty + 1 } k hy
        (by simp only [hl3]; omega) (by simp only [hl3]; omega)
      simp only at this
      rw [this, hget r2 (by rw [b3, a3])]
    · refine ⟨r1, ?_, a2, by rw [a3, e3], by rw [a4, e4]⟩
      simp only [editorCut, e1, h1, h2, if_true, hz, if_false, ht0, a1]
      have := editorCut_cursor
        { ec with row := r1, num_rows := ec.num_rows - 1, dirty := ec.dirty + 1 } k hy
        (by simp only [hl2]; omega) (by simp only [hl2]; omega)
      simp only at this
      rw [this, hget r1 a3]
  · have h2 : ¬ (ec.num_rows - 1 - ec.cursor_y > 1) := by omega
    refine ⟨rows1, ?_, e2, e3, e4⟩
    simp only [editorCut, e1, h1, h2, if_false]
    have := editorCut_cursor
      { ec with row := rows1, num_rows := ec.num_rows - 1, dirty := ec.dirty + 1 } k hy
      (by simp only [hl1]; omega) (by simp only [hl1]; omega)
    simp only at this
    rw [this, hget rows1 rfl]

theorem editorPaste_spec_row (ec : editor_config) (k : Nat) (row : editor_row) (buf : List Int)
    (hidx : idxFrom 0 ec.row = true) (hlen : ec.num_rows = ec.row.length)
    (hy : ec.cursor_y = k) (hrow : ec.row[k]? = some row)
    (hb : ec.copied_char_buffer = some buf) :
    ∃ rows, editorPaste ec
        = some { ec with row := rows, dirty := ec.dirty + 1,
                         cursor_x := ec.cursor_x + buf.length } ∧
      idxFrom 0 rows = true ∧
      texts rows = (texts ec.row).set k (row.chars ++ buf) ∧
      renders rows = (renders ec.row).set k (renderOf (row.chars ++ buf)) := by
  have hk := lt_of_getElem? hrow
  obtain ⟨rows, e1, e2, e3, e4⟩ := editorRowAppendString_spec ec ec.cursor_y k row buf
    hidx hlen hy hrow
  refine ⟨rows, ?_, e2, e3, e4⟩
  have hne : ¬ ec.cursor_y = ec.num_rows := by omega
  simp only [editorPaste, hb, hne, if_false, e1]

theorem editorPaste_spec_tilde (ec : editor_config) (buf : List Int)
    (hidx : idxFrom 0 ec.row = true) (hlen : ec.num_rows = ec.row.length)
    (hy : ec.cursor_y = ec.num_rows) (hb : ec.copied_char_buffer = some buf) :
    ∃ rows, editorPaste ec
        = some { ec with row := rows, num_rows := ec.num_rows + 1, dirty := ec.dirty + 1,
                         cursor_x := ec.cursor_x + buf.length } ∧
      idxFrom 0 rows = true ∧
      texts rows = texts ec.row ++ [buf] ∧
      renders rows = renders ec.row ++ [renderOf buf] := by
  obtain ⟨rows, e1, e2, e3, e4⟩ := editorInsertRow_spec ec ec.cursor_y ec.row.length buf
    hidx hlen (by omega) (le_refl _)
  refine ⟨rows, ?_, e2, ?_, ?_⟩
  · simp only [editorPaste, hb, hy, if_true]
    rw [hy] at e1
    simp only [e1, hb]
  · rw [e3, List.take_of_length_le (by simp [texts]), List.drop_of_length_le (by simp [texts])]
  · rw [e4, List.take_of_length_le (by simp [renders]),
      List.drop_of_length_le (by simp [renders])]

/-! ## Execute followed by revert -/

@[simp] theorem texts_length (rows : List editor_row) : (texts rows).length = rows.length := by
  simp [texts]

@[simp] theorem renders_length (rows : List editor_row) : (renders rows).length = rows.length := by
  simp [renders]

theorem length_of_texts {rows : List editor_row} {T : List (List Int)} (h : texts rows = T) :
    rows.length = T.length := by
  rw [← h, texts_length]

theorem take_insert_drop {α : Type} (old s : List α) (a : Nat) (ha : a ≤ old.length) :
    (old.take a ++ s ++ old.drop a).take a
      ++ (old.take a ++ s ++ old.drop a).drop (a + s.length) = old := by
  have h1 : (old.take a).length = a := by simp [ha]
  rw [List.append_assoc, List.take_left' h1]
  rw [← List.append_assoc, List.drop_left' (by simp [h1])]
  exact List.take_append_drop a old

theorem InsertChar_row_roundtrip (ec : editor_config) (k a : Nat) (row : editor_row)
    (s : List Int) (hidx : idxFrom 0 ec.row = true) (hlen : ec.num_rows = ec.row.length)
    (hrow : ec.row[k]? = some row) (ha : a ≤ row.chars.length) :
    ∃ rows1 rows2,
      execute ec { t := ActionType.InsertChar, cpos_x := a, cpos_y := k,
                   cursor_on_tilde := false, string := some s }
        = some { ec with row := rows1, cursor_x := (a : Int) + s.length, cursor_y := k,
                         dirty := ec.dirty + s.length } ∧
      texts rows1 = (texts ec.row).set k (row.chars.take a ++ s ++ row.chars.drop a) ∧
      revert { ec with row := rows1, cursor_x := (a : Int) + s.length, cursor_y := k,
                       dirty := ec.dirty + s.length }
          { t := ActionType.InsertChar, cpos_x := a, cpos_y := k,
            cursor_on_tilde := false, string := some s }
        = some { ec with row := rows2, cursor_x := a, cursor_y := k,
                         dirty := ec.dirty + s.length + s.length } ∧
      idxFrom 0 rows2 = true ∧ texts rows2 = texts ec.row := by
  have hk := lt_of_getElem? hrow
  obtain ⟨cx, cy, n, rows0, d, cp, sy, ac⟩ := ec
  simp only at hidx hlen hrow hk
  subst hlen
  obtain ⟨rows1, e1, e2, e3, e4⟩ := editorRowInsertString_spec
    (editor_config.mk a k rows0.length rows0 d cp sy ac) k a k a row s hidx rfl rfl hrow rfl ha
  simp only at e1 e3
  have hget : (texts rows1)[k]? = some (row.chars.take a ++ s ++ row.chars.drop a) := by
    rw [e3]; simp [hk]
  obtain ⟨row1, hrow1, hch⟩ := texts_getElem? hget
  have hl1 : rows1.length = rows0.length := by simpa using length_of_texts e3
  obtain ⟨rows2, f1, f2, f3, f4⟩ := editorRowDelString_spec
    (editor_config.mk a k rows0.length rows1 (d + s.length) cp sy ac) k a s.length k a s.length
    row1 e2 (by simp [hl1]) rfl hrow1 rfl rfl
    (by rw [hch]; simp; omega)
  simp only at f1 f3
  refine ⟨rows1, rows2, ?_, e3, ?_, f2, ?_⟩
  · have hlt : (k : Int) < (rows0.length : Int) := by omega
    simp only [execute, hlt, if_true, e1]
  · simp only [revert, f1, Bool.false_eq_true, if_false]
  · rw [f3, e3, hch, List.set_set, take_insert_drop _ _ _ ha]
    exact set_self (getElem?_texts hrow)

theorem InsertChar_row_RoundTrip (ec : editor_config) (k a : Nat) (row : editor_row)
    (s : List Int) (hwf : WF ec)
    (hrow : ec.row[k]? = some row) (ha : a ≤ row.chars.length) :
    RoundTrip ec { t := ActionType.InsertChar, cpos_x := a, cpos_y := k,
                   cursor_on_tilde := false, string := some s } a k := by
  obtain ⟨rows1, rows2, h1, _, h2, h3, h4⟩ :=
    InsertChar_row_roundtrip ec k a row s hwf.2 hwf.1 hrow ha
  refine ⟨_, _, h1, h2, ⟨?_, h3⟩, h4, rfl, rfl, rfl⟩
  have := length_of_texts h4
  simp only [texts_length] at this
  simp only [this]
  exact hwf.1

theorem InsertChar_tilde_RoundTrip (ec : editor_config) (c : Int) (hwf : WF ec) (hc : 0 < c) :
    RoundTrip ec { t := ActionType.InsertChar, cpos_x := 0, cpos_y := ec.num_rows,
                   cursor_on_tilde := true, string := some [c] } 0 ec.num_rows := by
  obtain ⟨hlen, hidx⟩ := hwf
  obtain ⟨cx, cy, n, rows0, d, cp, sy, ac⟩ := ec
  simp only at hidx hlen
  subst hlen
  obtain ⟨rows1, e1, e2, e3, e4⟩ := editorInsertChar_spec_tilde
    (editor_config.mk 0 rows0.length rows0.length rows0 d cp sy ac) c hidx rfl hc rfl rfl
  simp only at e1 e3
  have hl1 : rows1.length = rows0.length + 1 := by simpa using length_of_texts e3
  have hget : (texts rows1)[rows0.length]? = some [c] := by
    rw [e3, List.getElem?_append_right (by simp)]; simp
  obtain ⟨row1, hrow1, hch⟩ := texts_getElem? hget
  obtain ⟨rows2, f1, f2, f3, f4⟩ := editorRowDelString_spec
    (editor_config.mk 0 rows0.length (rows0.length + 1) rows1 (d + 1 + 1) cp sy ac)
    rows0.length 0 1 rows0.length 0 1 row1 e2 (by simp [hl1]) rfl hrow1 rfl rfl
    (by rw [hch]; simp)
  simp only at f1 f3
  have hl2 : rows2.length = rows0.length + 1 := by
    have := length_of_texts f3
    simpa [hl1] using this
  obtain ⟨rows3, g1, g2, g3, g4⟩ := editorDelRow_spec
    (editor_config.mk 0 rows0.length (rows0.length + 1) rows2 (d + 1 + 1 + 1) cp sy ac)
    rows0.length rows0.length f2 (by simp [hl2]) rfl (by simp [hl2])
  simp only at g1 g3
  have ht3 : texts rows3 = texts rows0 := by
    rw [g3, f3, e3]
    have h0 : (texts rows0).length = rows0.length := texts_length rows0
    rw [List.set_append_right _ _ (by omega)]
    simp [h0]
  have hexec : execute (editor_config.mk cx cy rows0.length rows0 d cp sy ac)
      { t := ActionType.InsertChar, cpos_x := 0, cpos_y := rows0.length,
        cursor_on_tilde := true, string := some [c] }
      = some (editor_config.mk 1 rows0.length (rows0.length + 1) rows1 (d + 1 + 1) cp sy ac) := by
    have hlt : ¬ ((rows0.length : Int) < (rows0.length : Int)) := by omega
    simp only [execute, hlt, if_false, List.headD_cons]
    exact e1
  have hrev : revert (editor_config.mk 1 rows0.length (rows0.length + 1) rows1 (d + 1 + 1) cp sy ac)
      { t := ActionType.InsertChar, cpos_x := 0, cpos_y := rows0.length,
        cursor_on_tilde := true, string := some [c] }
      = some (editor_config.mk 0 rows0.length (rows0.length + 1 - 1) rows3
          (d + 1 + 1 + 1 + 1) cp sy ac) := by
    simp only [revert, List.length_singleton, Nat.cast_one, f1, if_true, g1]
  refine ⟨_, _, hexec, hrev, ⟨?_, g2⟩, ht3, ?_, rfl, rfl⟩
  · simp only
    have := length_of_texts ht3
    simp only [texts_length] at this
    omega
  · simp

theorem take_del_drop {α : Type} (old : List α) (a : Nat) (c : α) (h : old[a]? = some c) :
    (old.take a ++ old.drop (a + 1)).take a ++ c :: (old.take a ++ old.drop (a + 1)).drop a
      = old := by
  have hl := lt_of_getElem? h
  have h1 : (old.take a).length = a := by simp; omega
  rw [List.take_left' h1, List.drop_left' h1]
  exact take_cons_drop_self h

theorem DelChar_del_RoundTrip (ec : editor_config) (k a : Nat) (row : editor_row) (c : Int)
    (hwf : WF ec) (hrow : ec.row[k]? = some row) (hch : row.chars[a]? = some c) (hc : 0 < c) :
    RoundTrip ec { t := ActionType.DelChar, cpos_x := (a : Int) + 1, cpos_y := k,
                   cursor_on_tilde := false, string := some [c] } ((a : Int) + 1) k := by
  obtain ⟨hlen, hidx⟩ := hwf
  have hk := lt_of_getElem? hrow
  have ha := lt_of_getElem? hch
  obtain ⟨cx, cy, n, rows0, d, cp, sy, ac⟩ := ec
  simp only at hidx hlen hrow hk
  subst hlen
  obtain ⟨rows1, e1, e2, e3, e4⟩ := editorDelChar_spec_del
    (editor_config.mk ((a : Int) + 1) k rows0.length rows0 d cp sy ac) k a row hidx rfl rfl
    hrow rfl ha
  simp only at e1 e3
  have hl1 : rows1.length = rows0.length := by simpa using length_of_texts e3
  have hget : (texts rows1)[k]? = some (row.chars.take a ++ row.chars.drop (a + 1)) := by
    rw [e3]; simp [hk]
  obtain ⟨row1, hrow1, hch1⟩ := texts_getElem? hget
  obtain ⟨rows2, f1, f2, f3, f4⟩ := editorInsertChar_spec_row
    (editor_config.mk ((a : Int) + 1 - 1) k rows0.length rows1 (d + 1) cp sy ac) c k a row1
    e2 (by simp [hl1]) hc rfl hrow1 (by simp) (by rw [hch1]; simp; omega)
  simp only at f1 f3
  have ht2 : texts rows2 = texts rows0 := by
    rw [f3, e3, hch1, List.set_set, take_del_drop _ _ _ hch]
    exact set_self (getElem?_texts hrow)
  have hexec : execute (editor_config.mk cx cy rows0.length rows0 d cp sy ac)
      { t := ActionType.DelChar, cpos_x := (a : Int) + 1, cpos_y := k,
        cursor_on_tilde := false, string := some [c] }
      = some (editor_config.mk ((a : Int) + 1 - 1) k rows0.length rows1 (d + 1) cp sy ac) := by
    simp only [execute]
    exact e1
  have hrev : revert (editor_config.mk ((a : Int) + 1 - 1) k rows0.length rows1 (d + 1) cp sy ac)
      { t := ActionType.DelChar, cpos_x := (a : Int) + 1, cpos_y := k,
        cursor_on_tilde := false, string := some [c] }
      = some (editor_config.mk ((a : Int) + 1 - 1 + 1) k rows0.length rows2 (d + 1 + 1)
          cp sy ac) := by
    simp only [revert, List.headD_cons]
    exact f1
  refine ⟨_, _, hexec, hrev, ⟨?_, f2⟩, ht2, rfl, ?_, rfl⟩
  · simp only
    have := length_of_texts ht2
    simp only [texts_length] at this
    omega
  · simp

theorem drop_succ_append_cons {α : Type} (A B : List α) (v : α) (k : Nat) (h : A.length = k) :
    (A ++ v :: B).drop (k + 1) = B := by
  have : A ++ v :: B = (A ++ [v]) ++ B := by simp
  rw [this, List.drop_left' (by simp [h])]

theorem split_rejoin {α : Type} (T : List (List α)) (k : Nat) (p o : List α)
    (hp : T[k]? = some p) (ho : T[k + 1]? = some o) :
    T.take k ++ p :: o :: T.drop (k + 2) = T := by
  have h1 : T.drop (k + 1) = o :: T.drop (k + 2) := drop_of_getElem? ho
  rw [← h1]
  exact take_cons_drop_self hp

theorem DelChar_join_RoundTrip (ec : editor_config) (k : Nat) (row prev : editor_row)
    (hwf : WF ec) (hrow : ec.row[k + 1]? = some row) (hprev : ec.row[k]? = some prev) :
    RoundTrip ec { t := ActionType.DelChar, cpos_x := 0, cpos_y := (k : Int) + 1,
                   cursor_on_tilde := false, string := none } 0 ((k : Int) + 1) := by
  obtain ⟨hlen, hidx⟩ := hwf
  have hk := lt_of_getElem? hrow
  obtain ⟨cx, cy, n, rows0, d, cp, sy, ac⟩ := ec
  simp only at hidx hlen hrow hprev hk
  subst hlen
  obtain ⟨rows1, e1, e2, e3, e4⟩ := editorDelChar_spec_join
    (editor_config.mk 0 ((k : Int) + 1) rows0.length rows0 d cp sy ac) k row prev hidx rfl rfl
    hrow hprev rfl
  simp only at e1 e3
  have hl1 : rows1.length = rows0.length - 1 := by
    have := length_of_texts e3
    simp at this
    omega
  have hkT : k ≤ (texts rows0).length := by simp; omega
  have hA : ((texts rows0).take k).length = k := by simp; omega
  have hexec : execute (editor_config.mk cx cy rows0.length rows0 d cp sy ac)
      { t := ActionType.DelChar, cpos_x := 0, cpos_y := (k : Int) + 1,
        cursor_on_tilde := false, string := none }
      = some (editor_config.mk prev.chars.length ((k : Int) + 1 - 1) ((rows0.length : Int) - 1)
          rows1 (d + 1 + 1) cp sy ac) := by
    simp only [execute]
    exact e1
  have hget : (texts rows1)[k]? = some (prev.chars ++ row.chars) := by
    rw [e3, List.getElem?_append_right (by omega)]; simp [hA]
  obtain ⟨row1, hrow1, hch1⟩ := texts_getElem? hget
  have hfinal : ∀ rows2 : List editor_row,
      texts rows2 = (texts rows1).take k ++ prev.chars :: row.chars :: (texts rows1).drop (k + 1) →
      texts rows2 = texts rows0 := by
    intro rows2 h
    rw [h, e3, List.take_left' hA, drop_succ_append_cons _ _ _ _ hA]
    exact split_rejoin _ _ _ _ (getElem?_texts hprev) (getElem?_texts hrow)
  by_cases h0 : prev.chars.length = 0
  · obtain ⟨rows2, f1, f2, f3, f4⟩ := editorInsertNewline_spec_col0
      (editor_config.mk prev.chars.length ((k : Int) + 1 - 1) ((rows0.length : Int) - 1)
          rows1 (d + 1 + 1) cp sy ac) k e2 (by simp only [hl1]; omega) (by simp)
      (by simp only [hl1]; omega) (by simp [h0])
    simp only at f1 f3
    have hrev : revert (editor_config.mk prev.chars.length ((k : Int) + 1 - 1)
          ((rows0.length : Int) - 1) rows1 (d + 1 + 1) cp sy ac)
        { t := ActionType.DelChar, cpos_x := 0, cpos_y := (k : Int) + 1,
          cursor_on_tilde := false, string := none }
        = some (editor_config.mk 0 ((k : Int) + 1 - 1 + 1) ((rows0.length : Int) - 1 + 1)
            rows2 (d + 1 + 1 + 1) cp sy ac) := by
      simp only [revert]
      exact f1
    have ht2 : texts rows2 = texts rows0 := by
      apply hfinal
      rw [f3, drop_of_getElem? hget]
      have hp0 : prev.chars = [] := List.length_eq_zero.mp h0
      simp [hp0]
    refine ⟨_, _, hexec, hrev, ⟨?_, f2⟩, ht2, ?_, rfl, ?_⟩
    · simp only
      have := length_of_texts ht2
      simp only [texts_length] at this
      omega
    · simp
    · simp
  · obtain ⟨rows2, f1, f2, f3, f4⟩ := editorInsertNewline_spec_split
      (editor_config.mk prev.chars.length ((k : Int) + 1 - 1) ((rows0.length : Int) - 1)
          rows1 (d + 1 + 1) cp sy ac) k prev.chars.length row1 e2 (by simp only [hl1]; omega)
      (by simp) hrow1 rfl (by omega) (by rw [hch1]; simp)
    simp only at f1 f3
    have hrev : revert (editor_config.mk prev.chars.length ((k : Int) + 1 - 1)
          ((rows0.length : Int) - 1) rows1 (d + 1 + 1) cp sy ac)
        { t := ActionType.DelChar, cpos_x := 0, cpos_y := (k : Int) + 1,
          cursor_on_tilde := false, string := none }
        = some (editor_config.mk 0 ((k : Int) + 1 - 1 + 1) ((rows0.length : Int) - 1 + 1)
            rows2 (d + 1 + 1 + 1) cp sy ac) := by
      simp only [revert]
      exact f1
    have ht2 : texts rows2 = texts rows0 := by
      apply hfinal
      rw [f3, hch1]
      simp
    refine ⟨_, _, hexec, hrev, ⟨?_, f2⟩, ht2, ?_, rfl, ?_⟩
    · simp only
      have := length_of_texts ht2
      simp only [texts_length] at this
      omega
    · simp
    · simp

theorem NewLine_row_RoundTrip (ec : editor_config) (k a : Nat) (row : editor_row)
    (hwf : WF ec) (hrow : ec.row[k]? = some row) (ha : a ≤ row.chars.length) :
    RoundTrip ec { t := ActionType.NewLine, cpos_x := a, cpos_y := k,
                   cursor_on_tilde := false, string := none } a k := by
  obtain ⟨hlen, hidx⟩ := hwf
  have hk := lt_of_getElem? hrow
  obtain ⟨cx, cy, n, rows0, d, cp, sy, ac⟩ := ec
  simp only at hidx hlen hrow hk
  subst hlen
  have hA : ((texts rows0).take k).length = k := by simp; omega
  obtain ⟨rows1, e1, e2, e3⟩ : ∃ rows1,
      editorInsertNewline (editor_config.mk a k rows0.length rows0 d cp sy ac)
        = some (editor_config.mk 0 ((k : Int) + 1) ((rows0.length : Int) + 1) rows1 (d + 1)
            cp sy ac) ∧
      idxFrom 0 rows1 = true ∧
      texts rows1 = (texts rows0).take k ++
        row.chars.take a :: row.chars.drop a :: (texts rows0).drop (k + 1) := by
    by_cases h0 : a = 0
    · subst h0
      obtain ⟨rows1, e1, e2, e3, e4⟩ := editorInsertNewline_spec_col0
        (editor_config.mk (0 : Nat) k rows0.length rows0 d cp sy ac) k hidx rfl rfl
        (by simp only; omega) (by simp)
      simp only at e1 e3
      refine ⟨rows1, e1, e2, ?_⟩
      rw [e3, drop_of_getElem? (getElem?_texts hrow)]
      simp
    · obtain ⟨rows1, e1, e2, e3, e4⟩ := editorInsertNewline_spec_split
        (editor_config.mk a k rows0.length rows0 d cp sy ac) k a row hidx rfl rfl hrow rfl
        (by omega) ha
      exact ⟨rows1, e1, e2, e3⟩
  have hl1 : rows1.length = rows0.length + 1 := by
    have := length_of_texts e3
    simp at this
    omega
  have hgetk : (texts rows1)[k]? = some (row.chars.take a) := by
    rw [e3, List.getElem?_append_right (by omega)]; simp [hA]
  have hgetk1 : (texts rows1)[k + 1]? = some (row.chars.drop a) := by
    rw [e3, List.getElem?_append_right (by omega)]; simp [hA]
  obtain ⟨rowk, hrowk, hchk⟩ := texts_getElem? hgetk
  obtain ⟨rowk1, hrowk1, hchk1⟩ := texts_getElem? hgetk1
  obtain ⟨rows2, f1, f2, f3, f4⟩ := editorDelChar_spec_join
    (editor_config.mk 0 ((k : Int) + 1) ((rows0.length : Int) + 1) rows1 (d + 1) cp sy ac)
    k rowk1 rowk e2 (by simp [hl1]) rfl hrowk1 hrowk rfl
  simp only at f1 f3
  have hexec : execute (editor_config.mk cx cy rows0.length rows0 d cp sy ac)
      { t := ActionType.NewLine, cpos_x := a, cpos_y := k,
        cursor_on_tilde := false, string := none }
      = some (editor_config.mk 0 ((k : Int) + 1) ((rows0.length : Int) + 1) rows1 (d + 1)
          cp sy ac) := by
    simp only [execute]
    exact e1
  have hrev : revert (editor_config.mk 0 ((k : Int) + 1) ((rows0.length : Int) + 1) rows1
        (d + 1) cp sy ac)
      { t := ActionType.NewLine, cpos_x := a, cpos_y := k,
        cursor_on_tilde := false, string := none }
      = some (editor_config.mk rowk.chars.length ((k : Int) + 1 - 1)
          ((rows0.length : Int) + 1 - 1) rows2 (d + 1 + 1 + 1) cp sy ac) := by
    simp only [revert]
    exact f1
  have ht2 : texts rows2 = texts rows0 := by
    rw [f3, hchk, hchk1, e3, List.take_left' hA]
    have : (texts rows0).take k ++ row.chars.take a :: row.chars.drop a ::
        (texts rows0).drop (k + 1)
        = ((texts rows0).take k ++ [row.chars.take a, row.chars.drop a])
          ++ (texts rows0).drop (k + 1) := by simp
    rw [this, List.drop_left' (by simp [hA]), List.take_append_drop]
    exact take_cons_drop_self (getElem?_texts hrow)
  refine ⟨_, _, hexec, hrev, ⟨?_, f2⟩, ht2, ?_, ?_, ?_⟩
  · simp only
    have := length_of_texts ht2
    simp only [texts_length] at this
    omega
  · simp
  · simp only [hchk, List.length_take]
    omega
  · simp

theorem CutLine_RoundTrip (ec : editor_config) (k : Nat) (x : Int) (row : editor_row)
    (hwf : WF ec) (hrow : ec.row[k]? = some row) :
    RoundTrip ec { t := ActionType.CutLine, cpos_x := x, cpos_y := k,
                   cursor_on_tilde := false, string := some row.chars }
      row.chars.length k := by
  obtain ⟨hlen, hidx⟩ := hwf
  have hk := lt_of_getElem? hrow
  obtain ⟨cx, cy, n, rows0, d, cp, sy, ac⟩ := ec
  simp only at hidx hlen hrow hk
  subst hlen
  have hA : ((texts rows0).take k).length = k := by simp; omega
  obtain ⟨rows1, e1, e2, e3, e4⟩ := editorCut_spec
    (editor_config.mk x k rows0.length rows0 d cp sy ac) k hidx rfl rfl hk
  simp only at e1 e3
  have hl1 : rows1.length = rows0.length - 1 := by
    have := length_of_texts e3
    simp at this
    omega
  obtain ⟨rows2, f1, f2, f3, f4⟩ := editorInsertRow_spec
    (editor_config.mk 0 k ((rows0.length : Int) - 1) rows1 (d + 1) cp sy ac) k k []
    e2 (by simp only [hl1]; omega) rfl (by simp only [hl1]; omega)
  simp only at f1 f3
  have hl2 : rows2.length = rows0.length := by
    have := length_of_texts f3
    simp [hl1] at this
    omega
  have hA1 : ((texts rows1).take k).length = k := by simp [hl1]; omega
  have hget : (texts rows2)[k]? = some [] := by
    rw [f3, List.getElem?_append_right (by omega)]; simp [hA1]
  obtain ⟨row2, hrow2, hch2⟩ := texts_getElem? hget
  obtain ⟨rows3, g1, g2, g3, g4⟩ := editorPaste_spec_row
    (editor_config.mk 0 k ((rows0.length : Int) - 1 + 1) rows2 (d + 1 + 1) (some row.chars) sy ac)
    k row2 row.chars f2 (by simp only [hl2]; omega) rfl hrow2 rfl
  simp only at g1 g3
  have hexec : execute (editor_config.mk cx cy rows0.length rows0 d cp sy ac)
      { t := ActionType.CutLine, cpos_x := x, cpos_y := k,
        cursor_on_tilde := false, string := some row.chars }
      = some (editor_config.mk
          ((((texts rows0)[k + 1]?).map (fun t => (t.length : Int))).getD 0)
          k ((rows0.length : Int) - 1) rows1 (d + 1) cp sy ac) := by
    simp only [execute]
    exact e1
  have hrev : revert (editor_config.mk
          ((((texts rows0)[k + 1]?).map (fun t => (t.length : Int))).getD 0)
          k ((rows0.length : Int) - 1) rows1 (d + 1) cp sy ac)
      { t := ActionType.CutLine, cpos_x := x, cpos_y := k,
        cursor_on_tilde := false, string := some row.chars }
      = some (editor_config.mk ((0 : Int) + row.chars.length) k ((rows0.length : Int) - 1 + 1)
          rows3 (d + 1 + 1 + 1) cp sy ac) := by
    simp only [revert, f1, g1]
  have ht3 : texts rows3 = texts rows0 := by
    rw [g3, f3, hch2, List.set_append_right _ _ (by omega), hA1, e3, List.take_left' hA,
      List.drop_left' hA]
    simp only [Nat.sub_self, List.set_cons_zero, List.nil_append]
    exact take_cons_drop_self (getElem?_texts hrow)
  refine ⟨_, _, hexec, hrev, ⟨?_, g2⟩, ht3, ?_, ?_, rfl⟩
  · simp only
    have := length_of_texts ht3
    simp only [texts_length] at this
    omega
  · simp
  · simp

theorem PasteLine_none_RoundTrip (ec : editor_config) (x y : Int) (b : Bool) (hwf : WF ec) :
    RoundTrip ec { t := ActionType.PasteLine, cpos_x := x, cpos_y := y,
                   cursor_on_tilde := b, string := none } x y := by
  refine ⟨{ ec with cursor_x := x, cursor_y := y }, { ec with cursor_x := x, cursor_y := y },
    ?_, ?_, hwf, rfl, rfl, rfl, rfl⟩
  · simp [execute, editorPaste]
  · simp [revert]

theorem PasteLine_tilde_RoundTrip (ec : editor_config) (p : List Int) (hwf : WF ec) :
    RoundTrip ec { t := ActionType.PasteLine, cpos_x := 0, cpos_y := ec.num_rows,
                   cursor_on_tilde := true, string := some p } 0 ec.num_rows := by
  obtain ⟨hlen, hidx⟩ := hwf
  obtain ⟨cx, cy, n, rows0, d, cp, sy, ac⟩ := ec
  simp only at hidx hlen
  subst hlen
  obtain ⟨rows1, e1, e2, e3, e4⟩ := editorPaste_spec_tilde
    (editor_config.mk 0 rows0.length rows0.length rows0 d (some p) sy ac) p hidx rfl rfl rfl
  simp only at e1 e3
  have hl1 : rows1.length = rows0.length + 1 := by simpa using length_of_texts e3
  have hget : (texts rows1)[rows0.length]? = some p := by
    rw [e3, List.getElem?_append_right (by simp)]; simp
  obtain ⟨row1, hrow1, hch⟩ := texts_getElem? hget
  obtain ⟨rows2, f1, f2, f3, f4⟩ := editorRowDelString_spec
    (editor_config.mk 0 rows0.length ((rows0.length : Int) + 1) rows1 (d + 1) cp sy ac)
    rows0.length 0 p.length rows0.length 0 p.length row1 e2 (by simp [hl1]) rfl hrow1 rfl rfl
    (by rw [hch]; simp)
  simp only at f1 f3
  have hl2 : rows2.length = rows0.length + 1 := by
    have := length_of_texts f3
    simpa [hl1] using this
  obtain ⟨rows3, g1, g2, g3, g4⟩ := editorDelRow_spec
    (editor_config.mk 0 rows0.length ((rows0.length : Int) + 1) rows2 (d + 1 + p.length) cp sy ac)
    rows0.length rows0.length f2 (by simp [hl2]) rfl (by simp [hl2])
  simp only at g1 g3
  have ht3 : texts rows3 = texts rows0 := by
    rw [g3, f3, e3]
    have h0 : (texts rows0).length = rows0.length := texts_length rows0
    rw [List.set_append_right _ _ (by omega)]
    simp [h0]
  have hexec : execute (editor_config.mk cx cy rows0.length rows0 d cp sy ac)
      { t := ActionType.PasteLine, cpos_x := 0, cpos_y := rows0.length,
        cursor_on_tilde := true, string := some p }
      = some (editor_config.mk ((0 : Int) + p.length) rows0.length ((rows0.length : Int) + 1)
          rows1 (d + 1) cp sy ac) := by
    simp only [execute, e1]
  have hrev : revert (editor_config.mk ((0 : Int) + p.length) rows0.length
        ((rows0.length : Int) + 1) rows1 (d + 1) cp sy ac)
      { t := ActionType.PasteLine, cpos_x := 0, cpos_y := rows0.length,
        cursor_on_tilde := true, string := some p }
      = some (editor_config.mk 0 rows0.length ((rows0.length : Int) + 1 - 1) rows3
          (d + 1 + p.length + 1) cp sy ac) := by
    simp only [revert, f1, if_true, g1]
  refine ⟨_, _, hexec, hrev, ⟨?_, g2⟩, ht3, ?_, rfl, rfl⟩
  · simp only
    have := length_of_texts ht3
    simp only [texts_length] at this
    omega
  · simp

theorem PasteLine_end_RoundTrip (ec : editor_config) (k : Nat) (row : editor_row)
    (p : List Int) (hwf : WF ec) (hrow : ec.row[k]? = some row) :
    RoundTrip ec { t := ActionType.PasteLine, cpos_x := row.chars.length, cpos_y := k,
                   cursor_on_tilde := false, string := some p } row.chars.length k := by
  obtain ⟨hlen, hidx⟩ := hwf
  have hk := lt_of_getElem? hrow
  obtain ⟨cx, cy, n, rows0, d, cp, sy, ac⟩ := ec
  simp only at hidx hlen hrow hk
  subst hlen
  obtain ⟨rows1, e1, e2, e3, e4⟩ := editorPaste_spec_row
    (editor_config.mk row.chars.length k rows0.length rows0 d (some p) sy ac) k row p
    hidx rfl rfl hrow rfl
  simp only at e1 e3
  have hl1 : rows1.length = rows0.length := by simpa using length_of_texts e3
  have hget : (texts rows1)[k]? = some (row.chars ++ p) := by
    rw [e3]; simp [hk]
  obtain ⟨row1, hrow1, hch⟩ := texts_getElem? hget
  obtain ⟨rows2, f1, f2, f3, f4⟩ := editorRowDelString_spec
    (editor_config.mk row.chars.length k rows0.length rows1 (d + 1) cp sy ac)
    k row.chars.length p.length k row.chars.length p.length row1 e2 (by simp [hl1]) rfl hrow1
    rfl rfl (by rw [hch]; simp)
  simp only at f1 f3
  have ht2 : texts rows2 = texts rows0 := by
    rw [f3, e3, hch, List.set_set, List.take_left' rfl, List.drop_of_length_le (by simp)]
    simp only [List.append_nil]
    exact set_self (getElem?_texts hrow)
  have hexec : execute (editor_config.mk cx cy rows0.length rows0 d cp sy ac)
      { t := ActionType.PasteLine, cpos_x := row.chars.length, cpos_y := k,
        cursor_on_tilde := false, string := some p }
      = some (editor_config.mk ((row.chars.length : Int) + p.length) k rows0.length
          rows1 (d + 1) cp sy ac) := by
    simp only [execute, e1]
  have hrev : revert (editor_config.mk ((row.chars.length : Int) + p.length) k rows0.length
          rows1 (d + 1) cp sy ac)
      { t := ActionType.PasteLine, cpos_x := row.chars.length, cpos_y := k,
        cursor_on_tilde := false, string := some p }
      = some (editor_config.mk row.chars.length k rows0.length rows2
          (d + 1 + p.length) cp sy ac) := by
    simp only [revert, f1, Bool.false_eq_true, if_false]
  refine ⟨_, _, hexec, hrev, ⟨?_, f2⟩, ht2, rfl, rfl, rfl⟩
  simp only
  have := length_of_texts ht2
  simp only [texts_length] at this
  omega

theorem swap_back {α : Type} (T : List α) (k m : Nat) (c o : α) (hkm : k ≠ m)
    (hc : T[k]? = some c) (ho : T[m]? = some o) :
    (((T.set k o).set m c).set m o).set k c = T := by
  rw [List.set_set, List.set_comm _ _ _ hkm, List.set_set, set_self ho, set_self hc]

theorem Flip_roundtrip (ec : editor_config) (x dir : Int) (k m : Nat) (c_row o_row : editor_row)
    (hwf : WF ec) (hd : dir = 1 ∨ dir = -1) (hm : (k : Int) - dir = m)
    (hc : ec.row[k]? = some c_row) (ho : ec.row[m]? = some o_row) :
    ∃ rows1 rows2,
      editorFlipRow { ec with cursor_x := x, cursor_y := k } dir
        = some { ec with row := rows1, cursor_x := x, cursor_y := (k : Int) - dir,
                         dirty := ec.dirty + 1 } ∧
      editorFlipRow { ec with row := rows1, cursor_x := x, cursor_y := m,
                              dirty := ec.dirty + 1 } (-dir)
        = some { ec with row := rows2, cursor_x := x, cursor_y := (m : Int) - (-dir),
                         dirty := ec.dirty + 1 + 1 } ∧
      idxFrom 0 rows2 = true ∧ texts rows2 = texts ec.row := by
  obtain ⟨hlen, hidx⟩ := hwf
  have hkm : k ≠ m := by rcases hd with h | h <;> omega
  obtain ⟨rows1, e1, e2, e3, e4⟩ := editorFlipRow_spec
    { ec with cursor_x := x, cursor_y := k } dir k m c_row o_row hidx hlen hd rfl hm hc ho
  simp only at e1 e3
  have hl1 : rows1.length = ec.row.length := by simpa using length_of_texts e3
  have hk := lt_of_getElem? hc
  have hml := lt_of_getElem? ho
  have hgetk : (texts rows1)[k]? = some o_row.chars := by
    rw [e3, List.getElem?_set_ne (Ne.symm hkm)]; simp [hk]
  have hgetm : (texts rows1)[m]? = some c_row.chars := by
    rw [e3]; simp [hml]
  obtain ⟨rk, hrk, hchk⟩ := texts_getElem? hgetk
  obtain ⟨rm, hrm, hchm⟩ := texts_getElem? hgetm
  obtain ⟨rows2, f1, f2, f3, f4⟩ := editorFlipRow_spec
    { ec with row := rows1, cursor_x := x, cursor_y := m, dirty := ec.dirty + 1 } (-dir) m k
    rm rk e2 (by simp only [hl1]; exact hlen) (by omega) rfl (by simp only; omega) hrm hrk
  simp only at f1 f3
  refine ⟨rows1, rows2, e1, f1, f2, ?_⟩
  rw [f3, hchk, hchm, e3]
  exact swap_back _ _ _ _ _ hkm (getElem?_texts hc) (getElem?_texts ho)

theorem FlipUp_RoundTrip (ec : editor_config) (x : Int) (k : Nat) (c_row o_row : editor_row)
    (hwf : WF ec) (hc : ec.row[k + 1]? = some c_row) (ho : ec.row[k]? = some o_row) :
    RoundTrip ec { t := ActionType.FlipUp, cpos_x := x, cpos_y := (k : Int) + 1,
                   cursor_on_tilde := false, string := none } x ((k : Int) + 1) := by
  obtain ⟨rows1, rows2, h1, h2, h3, h4⟩ := Flip_roundtrip ec x 1 (k + 1) k c_row o_row hwf
    (Or.inl rfl) (by push_cast; omega) hc ho
  have hexec : execute ec
      { t := ActionType.FlipUp, cpos_x := x, cpos_y := (k : Int) + 1,
        cursor_on_tilde := false, string := none }
      = some { ec with row := rows1, cursor_x := x, cursor_y := ((k + 1 : Nat) : Int) - 1,
                         dirty := ec.dirty + 1 } := by
    simp only [execute]
    rw [← h1]
    simp
  have hrev : revert
      { ec with row := rows1, cursor_x := x, cursor_y := ((k + 1 : Nat) : Int) - 1,
                dirty := ec.dirty + 1 }
      { t := ActionType.FlipUp, cpos_x := x, cpos_y := (k : Int) + 1,
        cursor_on_tilde := false, string := none }
      = some { ec with row := rows2, cursor_x := x, cursor_y := (k : Int) - (-1),
                         dirty := ec.dirty + 1 + 1 } := by
    simp only [revert]
    rw [← h2]
    simp
  refine ⟨_, _, hexec, hrev, ⟨?_, h3⟩, h4, rfl, rfl, ?_⟩
  · simp only
    have := length_of_texts h4
    simp only [texts_length] at this
    rw [this]; exact hwf.1
  · simp

theorem FlipDown_RoundTrip (ec : editor_config) (x : Int) (k : Nat) (c_row o_row : editor_row)
    (hwf : WF ec) (hc : ec.row[k]? = some c_row) (ho : ec.row[k + 1]? = some o_row) :
    RoundTrip ec { t := ActionType.FlipDown, cpos_x := x, cpos_y := (k : Int),
                   cursor_on_tilde := false, string := none } x k := by
  obtain ⟨rows1, rows2, h1, h2, h3, h4⟩ := Flip_roundtrip ec x (-1) k (k + 1) c_row o_row hwf
    (Or.inr rfl) (by push_cast; omega) hc ho
  have hexec : execute ec
      { t := ActionType.FlipDown, cpos_x := x, cpos_y := (k : Int),
        cursor_on_tilde := false, string := none }
      = some { ec with row := rows1, cursor_x := x, cursor_y := (k : Int) - (-1),
                         dirty := ec.dirty + 1 } := by
    simp only [execute]
    rw [← h1]
  have hrev : revert
      { ec with row := rows1, cursor_x := x, cursor_y := (k : Int) - (-1),
                dirty := ec.dirty + 1 }
      { t := ActionType.FlipDown, cpos_x := x, cpos_y := (k : Int),
        cursor_on_tilde := false, string := none }
      = some { ec with row := rows2, cursor_x := x, cursor_y := ((k + 1 : Nat) : Int) - (- (-1)),
                         dirty := ec.dirty + 1 + 1 } := by
    simp only [revert]
    rw [← h2]
    simp
  refine ⟨_, _, hexec, hrev, ⟨?_, h3⟩, h4, rfl, rfl, ?_⟩
  · simp only
    have := length_of_texts h4
    simp only [texts_length] at this
    rw [this]; exact hwf.1
  · simp

/-! ## C1 -/

theorem rowAt_of_lt (ec : editor_config) (y : Int) (k : Nat) (hy : y = k)
    (hk : k < ec.row.length) : ∃ r, ec.row[k]? = some r ∧ rowAt ec y = some r := by
  refine ⟨ec.row[k], List.getElem?_eq_getElem hk, ?_⟩
  rw [rowAt_nat hy, List.getElem?_eq_getElem hk]

theorem createAction_row (ec : editor_config) (str : Option (List Int)) (t : ActionType)
    (x y : Int) (hx : ec.cursor_x = x) (hy : ec.cursor_y = y) (hlt : y < ec.num_rows) :
    createAction ec str t
      = { t := t, cpos_x := x, cpos_y := y, cursor_on_tilde := false, string := str } := by
  have hne : ¬ y = ec.num_rows := by omega
  simp only [createAction, hx, hy, hne, decide_False]

theorem RoundTrip_out {ec : editor_config} {a : Action} {x y : Int} (h : RoundTrip ec a x y) :
    ∃ ec1 ec2, execute ec a = some ec1 ∧ revert ec1 a = some ec2 ∧
      texts ec2.row = texts ec.row ∧ ec2.num_rows = ec.num_rows ∧ ec2.cursor_y = y ∧
      ec2.cursor_x = x := by
  obtain ⟨ec1, ec2, h1, h2, _, h4, h5, h6, h7⟩ := h
  exact ⟨ec1, ec2, h1, h2, h4, h5, h7, h6⟩

/-- C1. The execute/revert inverse law, on the actions for which it holds.  For every
well-formed buffer with a valid cursor and every action that the input layer creates there
and that lies in the domain `Revertible` (InsertChar with a one-character payload, of
positive code on the line after the last row; DelChar on an existing row, not at (0,0),
with the character before the cursor, of positive code, as payload, or no payload at
column 0; NewLine on an existing row; CutLine on an existing row with the row's content as
payload; PasteLine with no payload, on the line after the last row, or with the cursor at
the end of its row; FlipUp with 1 <= cursor_y <= num_rows-1; FlipDown with cursor_y <
num_rows-1), `execute` and then `revert` both succeed and leave every row's content, the
row count and cursor_y as before `execute`; cursor_x is as before too, except after
CutLine, where `revert` leaves it at the length of the restored row.  For the other
actions of the input layer (NewLine and DelChar recorded on the line after the last row,
PasteLine recorded before the end of its row) `revert` does not restore the rows or the
row count. -/
theorem C1_execute_revert_inverse (ec : editor_config) (t : ActionType)
    (str : Option (List Int)) (hwf : WF ec) (hcur : CursorOk ec) (ha : Revertible ec t str) :
    ∃ ec1 ec2, execute ec (createAction ec str t) = some ec1 ∧
      revert ec1 (createAction ec str t) = some ec2 ∧
      texts ec2.row = texts ec.row ∧ ec2.num_rows = ec.num_rows ∧
      ec2.cursor_y = ec.cursor_y ∧
      ec2.cursor_x =
        (if t = ActionType.CutLine then
          ((rowAt ec ec.cursor_y).map (fun r => (r.chars.length : Int))).getD 0
        else ec.cursor_x) := by
  obtain ⟨hx0, hy0, hyn, htx, hxr⟩ := hcur
  obtain ⟨k, hk⟩ := Int.eq_ofNat_of_zero_le hy0
  obtain ⟨a, ha0⟩ := Int.eq_ofNat_of_zero_le hx0
  have hlen := hwf.1
  cases t with
  | InsertChar =>
    obtain ⟨c, hs, hc⟩ := ha
    subst hs
    simp only [reduceCtorEq, if_false]
    by_cases hrow : ec.cursor_y = ec.num_rows
    · have hact : createAction ec (some [c]) ActionType.InsertChar
          = { t := ActionType.InsertChar, cpos_x := 0, cpos_y := ec.num_rows,
              cursor_on_tilde := true, string := some [c] } := by
        simp [createAction, hrow, htx hrow]
      rw [hact]
      have := RoundTrip_out (InsertChar_tilde_RoundTrip ec c hwf (hc hrow))
      rw [hrow, htx hrow]
      exact this
    · obtain ⟨r, hr1, hr2⟩ := rowAt_of_lt ec ec.cursor_y k hk (by omega)
      have hact : createAction ec (some [c]) ActionType.InsertChar
          = { t := ActionType.InsertChar, cpos_x := a, cpos_y := k,
              cursor_on_tilde := false, string := some [c] } := by
        simp [createAction, hrow, ← hk, ← ha0]
      rw [hact]
      have := RoundTrip_out (InsertChar_row_RoundTrip ec k a r [c] hwf hr1
        (by have := hxr r hr2; omega))
      rw [hk, ha0]
      exact this
  | DelChar =>
    obtain ⟨h1, h2, h3, h4⟩ := ha
    simp only [reduceCtorEq, if_false]
    by_cases hx : ec.cursor_x = 0
    · have hs := h3 hx
      subst hs
      have hk1 : 1 ≤ k := by omega
      obtain ⟨j, rfl⟩ : ∃ j, k = j + 1 := ⟨k - 1, by omega⟩
      obtain ⟨r, hr1, _⟩ := rowAt_of_lt ec ec.cursor_y (j + 1) hk (by omega)
      obtain ⟨p, hp1, _⟩ := rowAt_of_lt ec (j : Int) j rfl (by omega)
      have hact : createAction ec none ActionType.DelChar
          = { t := ActionType.DelChar, cpos_x := 0, cpos_y := (j : Int) + 1,
              cursor_on_tilde := false, string := none } :=
          createAction_row ec _ _ _ _ (by omega) (by omega) (by omega)
      rw [hact]
      have := RoundTrip_out (DelChar_join_RoundTrip ec j r p hwf hr1 hp1)
      rw [hk, hx]
      push_cast
      exact this
    · obtain ⟨r, c, hr, hch, hc, hs⟩ := h4 hx
      subst hs
      obtain ⟨r1, hr1, hr2⟩ := rowAt_of_lt ec ec.cursor_y k hk (by omega)
      have hrr : r1 = r := by rw [hr] at hr2; exact (Option.some.inj hr2).symm
      subst hrr
      obtain ⟨b, rfl⟩ : ∃ b, a = b + 1 := ⟨a - 1, by omega⟩
      have hb : (ec.cursor_x - 1).toNat = b := by omega
      rw [hb] at hch
      have hact : createAction ec (some [c]) ActionType.DelChar
          = { t := ActionType.DelChar, cpos_x := (b : Int) + 1, cpos_y := k,
              cursor_on_tilde := false, string := some [c] } :=
          createAction_row ec _ _ _ _ (by omega) (by omega) (by omega)
      rw [hact]
      have := RoundTrip_out (DelChar_del_RoundTrip ec k b r1 c hwf hr1 hch hc)
      rw [hk, ha0]
      push_cast
      exact this
  | NewLine =>
    obtain ⟨h1, hs⟩ := ha
    subst hs
    simp only [reduceCtorEq, if_false]
    obtain ⟨r, hr1, hr2⟩ := rowAt_of_lt ec ec.cursor_y k hk (by omega)
    have hact : createAction ec none ActionType.NewLine
        = { t := ActionType.NewLine, cpos_x := a, cpos_y := k,
            cursor_on_tilde := false, string := none } :=
        createAction_row ec _ _ _ _ (by omega) (by omega) (by omega)
    rw [hact]
    have := RoundTrip_out (NewLine_row_RoundTrip ec k a r hwf hr1
      (by have := hxr r hr2; omega))
    rw [hk, ha0]
    exact this
  | CutLine =>
    obtain ⟨r, hr, hs⟩ := ha
    subst hs
    simp only [if_true, hr, Option.map_some', Option.getD_some]
    have hklt : k < ec.row.length := by
      rcases Nat.lt_or_ge k ec.row.length with h | h
      · exact h
      · rw [rowAt_nat hk, List.getElem?_eq_none h] at hr; cases hr
    obtain ⟨r1, hr1, hr2⟩ := rowAt_of_lt ec ec.cursor_y k hk hklt
    have hrr : r1 = r := by rw [hr] at hr2; exact (Option.some.inj hr2).symm
    subst hrr
    have hact : createAction ec (some r1.chars) ActionType.CutLine
        = { t := ActionType.CutLine, cpos_x := ec.cursor_x, cpos_y := k,
            cursor_on_tilde := false, string := some r1.chars } :=
        createAction_row ec _ _ _ _ (by omega) (by omega) (by omega)
    rw [hact]
    have := RoundTrip_out (CutLine_RoundTrip ec k ec.cursor_x r1 hwf hr1)
    rw [hk]
    exact this
  | PasteLine =>
    simp only [reduceCtorEq, if_false]
    cases str with
    | none =>
      exact RoundTrip_out (PasteLine_none_RoundTrip ec ec.cursor_x ec.cursor_y _ hwf)
    | some p =>
      rcases ha with h | h | h
      · cases h
      · have hact : createAction ec (some p) ActionType.PasteLine
            = { t := ActionType.PasteLine, cpos_x := 0, cpos_y := ec.num_rows,
                cursor_on_tilde := true, string := some p } := by
          simp [createAction, h, htx h]
        rw [hact]
        have := RoundTrip_out (PasteLine_tilde_RoundTrip ec p hwf)
        rw [h, htx h]
        exact this
      · obtain ⟨r, hr, hxe⟩ := h
        have hklt : k < ec.row.length := by
          rcases Nat.lt_or_ge k ec.row.length with h | h
          · exact h
          · rw [rowAt_nat hk, List.getElem?_eq_none h] at hr; cases hr
        obtain ⟨r1, hr1, hr2⟩ := rowAt_of_lt ec ec.cursor_y k hk hklt
        have hrr : r1 = r := by rw [hr] at hr2; exact (Option.some.inj hr2).symm
        subst hrr
        have hact : createAction ec (some p) ActionType.PasteLine
            = { t := ActionType.PasteLine, cpos_x := r1.chars.length, cpos_y := k,
                cursor_on_tilde := false, string := some p } :=
            createAction_row ec _ _ _ _ (by omega) (by omega) (by omega)
        rw [hact]
        have := RoundTrip_out (PasteLine_end_RoundTrip ec k r1 p hwf hr1)
        rw [hk, hxe]
        exact this
  | FlipUp =>
    obtain ⟨h1, h2, hs⟩ := ha
    subst hs
    simp only [reduceCtorEq, if_false]
    obtain ⟨j, rfl⟩ : ∃ j, k = j + 1 := ⟨k - 1, by omega⟩
    obtain ⟨r, hr1, _⟩ := rowAt_of_lt ec ec.cursor_y (j + 1) hk (by omega)
    obtain ⟨o, ho1, _⟩ := rowAt_of_lt ec (j : Int) j rfl (by omega)
    have hact : createAction ec none ActionType.FlipUp
        = { t := ActionType.FlipUp, cpos_x := ec.cursor_x, cpos_y := (j : Int) + 1,
            cursor_on_tilde := false, string := none } :=
        createAction_row ec _ _ _ _ (by omega) (by omega) (by omega)
    rw [hact]
    have := RoundTrip_out (FlipUp_RoundTrip ec ec.cursor_x j r o hwf hr1 ho1)
    rw [hk]
    push_cast
    exact this
  | FlipDown =>
    obtain ⟨h1, hs⟩ := ha
    subst hs
    simp only [reduceCtorEq, if_false]
    obtain ⟨r, hr1, _⟩ := rowAt_of_lt ec ec.cursor_y k hk (by omega)
    obtain ⟨o, ho1, _⟩ := rowAt_of_lt ec ((k + 1 : Nat) : Int) (k + 1) rfl (by omega)
    have hact : createAction ec none ActionType.FlipDown
        = { t := ActionType.FlipDown, cpos_x := ec.cursor_x, cpos_y := (k : Int),
            cursor_on_tilde := false, string := none } :=
        createAction_row ec _ _ _ _ (by omega) (by omega) (by omega)
    rw [hact]
    have := RoundTrip_out (FlipDown_RoundTrip ec ec.cursor_x k r o hwf hr1 ho1)
    rw [hk]
    exact this

/-- C1, witness: a NewLine in the middle of the second of two rows is undone by `revert`.
The law fails on these inputs: the CutLine recorded at (0,0) on the buffer "ab" restores
the row and the row count and leaves the cursor at (2,0), not (0,0); the NewLine recorded
at (0,1) on the buffer "ab", on the line after the last row, leaves the rows "ab", "" and
the row count 2; the PasteLine recorded at (0,0) on the buffer "abc" with the payload "XY"
leaves the row "cXY"; the DelChar recorded at (0,1) on the buffer "ab", on the line after
the last row, leaves the rows "ab", "" and the row count 2. -/
theorem C1_execute_revert_inverse_witness :
    (∃ ec1 ec2,
      execute (plainBuffer ["ab", "cd"] 1 1)
        (createAction (plainBuffer ["ab", "cd"] 1 1) none ActionType.NewLine) = some ec1 ∧
      revert ec1 (createAction (plainBuffer ["ab", "cd"] 1 1) none ActionType.NewLine)
        = some ec2 ∧
      texts ec2.row = texts (plainBuffer ["ab", "cd"] 1 1).row ∧
      ec2.num_rows = (plainBuffer ["ab", "cd"] 1 1).num_rows ∧
      ec2.cursor_y = (plainBuffer ["ab", "cd"] 1 1).cursor_y ∧
      ec2.cursor_x =
        (if ActionType.NewLine = ActionType.CutLine then
          ((rowAt (plainBuffer ["ab", "cd"] 1 1) (plainBuffer ["ab", "cd"] 1 1).cursor_y).map
            (fun r => (r.chars.length : Int))).getD 0
        else (plainBuffer ["ab", "cd"] 1 1).cursor_x)) ∧
    ((execute (plainBuffer ["ab"] 0 0)
        (createAction (plainBuffer ["ab"] 0 0) (some (cs "ab")) ActionType.CutLine)).bind
      (fun e => revert e
        (createAction (plainBuffer ["ab"] 0 0) (some (cs "ab")) ActionType.CutLine))).map
        (fun e => (texts e.row, e.num_rows, e.cursor_x, e.cursor_y))
      = some ([cs "ab"], 1, 2, 0) ∧
    (plainBuffer ["ab"] 0 0).cursor_x = 0 ∧
    rowAt (plainBuffer ["ab"] 0 0) 0 = some (plainRow 0 "ab") ∧
    ((execute (plainBuffer ["ab"] 0 1)
        (createAction (plainBuffer ["ab"] 0 1) none ActionType.NewLine)).bind
      (fun e => revert e
        (createAction (plainBuffer ["ab"] 0 1) none ActionType.NewLine))).map
        (fun e => (texts e.row, e.num_rows))
      = some ([cs "ab", cs ""], 2) ∧
    ((execute (plainBuffer ["abc"] 0 0)
        (createAction (plainBuffer ["abc"] 0 0) (some (cs "XY")) ActionType.PasteLine)).bind
      (fun e => revert e
        (createAction (plainBuffer ["abc"] 0 0) (some (cs "XY")) ActionType.PasteLine))).map
        (fun e => (texts e.row, e.num_rows))
      = some ([cs "cXY"], 1) ∧
    ((execute (plainBuffer ["ab"] 0 1)
        (createAction (plainBuffer ["ab"] 0 1) none ActionType.DelChar)).bind
      (fun e => revert e
        (createAction (plainBuffer ["ab"] 0 1) none ActionType.DelChar))).map
        (fun e => (texts e.row, e.num_rows))
      = some ([cs "ab", cs ""], 2) :=
  ⟨C1_execute_revert_inverse (plainBuffer ["ab", "cd"] 1 1) ActionType.NewLine none
      (by decide) (by decide) ⟨by decide, rfl⟩,
   by decide, by decide, by decide, by decide, by decide, by decide⟩

/-! ## C2, C9: rows keep their indices -/

theorem idxFrom_of_forall {j : Int} {l : List editor_row}
    (h : ∀ (k : Nat) (r : editor_row), l[k]? = some r → r.idx = j + k) : idxFrom j l = true := by
  induction l generalizing j with
  | nil => rfl
  | cons a rs ih =>
    simp only [idxFrom, Bool.and_eq_true, decide_eq_true_eq]
    refine ⟨by simpa using h 0 a (by simp), ih ?_⟩
    intro k r hk
    have := h (k + 1) r (by simpa using hk)
    rw [this]; push_cast; ring

theorem forall_of_idxFrom {l : List editor_row} (h : idxFrom 0 l = true) :
    ∀ (j : Nat) (r : editor_row), l[j]? = some r → r.idx = j := by
  intro j r hj
  simpa using idxFrom_getElem? h hj

theorem idxFrom_map_idx {j : Int} {a b : List editor_row} (ha : idxFrom j a = true)
    (hb : idxFrom j b = true) (hl : a.length = b.length) :
    a.map (fun r => r.idx) = b.map (fun r => r.idx) := by
  induction a generalizing j b with
  | nil =>
    cases b with
    | nil => rfl
    | cons x xs => simp at hl
  | cons x xs ih =>
    cases b with
    | nil => simp at hl
    | cons y ys =>
      simp only [idxFrom, Bool.and_eq_true, decide_eq_true_eq] at ha hb
      simp only [List.length_cons, Nat.add_right_cancel_iff] at hl
      simp only [List.map_cons, ha.1, hb.1, ih ha.2 hb.2 hl]

/-- C2. In a buffer with `n` rows that carry the indices 0..n-1, for every `i` with
0 <= i <= n and every text `t`, `editorInsertRow(i, t)` succeeds and `editorDelRow(i)` after
it yields a buffer that has `n` rows again, with the content and the `idx` of every row as
before the two calls. -/
theorem C2_insert_then_delete_row (ec : editor_config) (i : Int) (t : List Int)
    (hlen : ec.num_rows = ec.row.length)
    (hidx : ∀ (j : Nat) (r : editor_row), ec.row[j]? = some r → r.idx = j)
    (h0 : 0 ≤ i) (h1 : i ≤ ec.num_rows) :
    ∃ ec1, editorInsertRow ec i t = some ec1 ∧
      (editorDelRow ec1 i).num_rows = ec.num_rows ∧
      (editorDelRow ec1 i).row.length = ec.row.length ∧
      (editorDelRow ec1 i).row.map (fun r => r.chars) = ec.row.map (fun r => r.chars) ∧
      (editorDelRow ec1 i).row.map (fun r => r.idx) = ec.row.map (fun r => r.idx) ∧
      ∀ (j : Nat) (r : editor_row), (editorDelRow ec1 i).row[j]? = some r → r.idx = j := by
  have hI : idxFrom 0 ec.row = true := idxFrom_of_forall (by simpa using hidx)
  obtain ⟨k, rfl⟩ := Int.eq_ofNat_of_zero_le h0
  have hk : k ≤ ec.row.length := by omega
  obtain ⟨rows1, e1, e2, e3, _⟩ := editorInsertRow_spec ec k k t hI hlen rfl hk
  have hl1 : rows1.length = ec.row.length + 1 := by
    have := length_of_texts e3
    simp at this
    omega
  obtain ⟨rows2, f1, f2, f3, _⟩ := editorDelRow_spec
    { ec with row := rows1, num_rows := ec.num_rows + 1, dirty := ec.dirty + 1 } k k e2
    (by simp only [hl1, hlen]; push_cast; rfl) rfl (by simp only [hl1]; omega)
  have hA : ((texts ec.row).take k).length = k := by simp; omega
  have ht : texts rows2 = texts ec.row := by
    rw [f3]
    simp only
    rw [e3, List.take_left' hA, drop_succ_append_cons _ _ _ _ hA, List.take_append_drop]
  have hl2 : rows2.length = ec.row.length := by simpa using length_of_texts ht
  refine ⟨_, e1, ?_, ?_, ?_, ?_, ?_⟩
  · rw [f1]; simp
  · rw [f1]; exact hl2
  · rw [f1]; exact ht
  · rw [f1]; exact idxFrom_map_idx f2 hI hl2
  · rw [f1]
    intro j r hj
    simpa using idxFrom_getElem? f2 hj

/-- C2, witness: a row inserted in front of the second of two rows and deleted again. -/
theorem C2_insert_then_delete_row_witness :
    ∃ ec1, editorInsertRow (plainBuffer ["ab", "cd"] 0 0) 1 (cs "x") = some ec1 ∧
      (editorDelRow ec1 1).num_rows = (plainBuffer ["ab", "cd"] 0 0).num_rows ∧
      (editorDelRow ec1 1).row.length = (plainBuffer ["ab", "cd"] 0 0).row.length ∧
      (editorDelRow ec1 1).row.map (fun r => r.chars)
        = (plainBuffer ["ab", "cd"] 0 0).row.map (fun r => r.chars) ∧
      (editorDelRow ec1 1).row.map (fun r => r.idx)
        = (plainBuffer ["ab", "cd"] 0 0).row.map (fun r => r.idx) ∧
      ∀ (j : Nat) (r : editor_row), (editorDelRow ec1 1).row[j]? = some r → r.idx = j :=
  C2_insert_then_delete_row (plainBuffer ["ab", "cd"] 0 0) 1 (cs "x") (by decide)
    (forall_of_idxFrom (by decide))
    (by decide) (by decide)

/-- C9. If `row[j].idx = j` for every row before the call, the same holds after
`editorInsertRow(at, s)` with 0 <= at <= num_rows, after `editorDelRow(at)` with
0 <= at < num_rows, after `editorFlipRow(1)` with 1 <= cursor_y < num_rows and after
`editorFlipRow(-1)` with 0 <= cursor_y < num_rows - 1; each of these calls succeeds and
leaves `num_rows` equal to the number of rows. -/
theorem C9_index_invariant (ec : editor_config)
    (hlen : ec.num_rows = ec.row.length)
    (hidx : ∀ (j : Nat) (r : editor_row), ec.row[j]? = some r → r.idx = j) :
    (∀ (at_ : Int) (s : List Int), 0 ≤ at_ → at_ ≤ ec.num_rows →
      ∃ ec1, editorInsertRow ec at_ s = some ec1 ∧ ec1.num_rows = ec1.row.length ∧
        ec1.num_rows = ec.num_rows + 1 ∧
        ∀ (j : Nat) (r : editor_row), ec1.row[j]? = some r → r.idx = j) ∧
    (∀ (at_ : Int), 0 ≤ at_ → at_ < ec.num_rows →
      (editorDelRow ec at_).num_rows = (editorDelRow ec at_).row.length ∧
        (editorDelRow ec at_).num_rows = ec.num_rows - 1 ∧
        ∀ (j : Nat) (r : editor_row), (editorDelRow ec at_).row[j]? = some r → r.idx = j) ∧
    (1 ≤ ec.cursor_y → ec.cursor_y < ec.num_rows →
      ∃ ec1, editorFlipRow ec 1 = some ec1 ∧ ec1.num_rows = ec1.row.length ∧
        ec1.num_rows = ec.num_rows ∧
        ∀ (j : Nat) (r : editor_row), ec1.row[j]? = some r → r.idx = j) ∧
    (0 ≤ ec.cursor_y → ec.cursor_y < ec.num_rows - 1 →
      ∃ ec1, editorFlipRow ec (-1) = some ec1 ∧ ec1.num_rows = ec1.row.length ∧
        ec1.num_rows = ec.num_rows ∧
        ∀ (j : Nat) (r : editor_row), ec1.row[j]? = some r → r.idx = j) := by
  have hI : idxFrom 0 ec.row = true := idxFrom_of_forall (by simpa using hidx)
  refine ⟨?_, ?_, ?_, ?_⟩
  · intro at_ s h0 h1
    obtain ⟨k, rfl⟩ := Int.eq_ofNat_of_zero_le h0
    obtain ⟨rows1, e1, e2, e3, _⟩ := editorInsertRow_spec ec k k s hI hlen rfl (by omega)
    have hl1 : rows1.length = ec.row.length + 1 := by
      have := length_of_texts e3
      simp at this
      omega
    refine ⟨_, e1, ?_, rfl, ?_⟩
    · simp only [hl1, hlen]; push_cast; rfl
    · intro j r hj
      simpa using idxFrom_getElem? e2 hj
  · intro at_ h0 h1
    obtain ⟨k, rfl⟩ := Int.eq_ofNat_of_zero_le h0
    obtain ⟨rows1, e1, e2, e3, _⟩ := editorDelRow_spec ec k k hI hlen rfl (by omega)
    have hl1 : rows1.length = ec.row.length - 1 := by
      have := length_of_texts e3
      simp at this
      omega
    rw [e1]
    refine ⟨?_, rfl, ?_⟩
    · simp only [hl1, hlen]; omega
    · intro j r hj
      simpa using idxFrom_getElem? e2 hj
  · intro h0 h1
    obtain ⟨k, hk⟩ := Int.eq_ofNat_of_zero_le (by omega : (0 : Int) ≤ ec.cursor_y)
    obtain ⟨c, hc, _⟩ := rowAt_of_lt ec ec.cursor_y k hk (by omega)
    obtain ⟨o, ho, _⟩ := rowAt_of_lt ec ((k - 1 : Nat) : Int) (k - 1) rfl (by omega)
    obtain ⟨rows1, e1, e2, e3, _⟩ := editorFlipRow_spec ec 1 k (k - 1) c o hI hlen (Or.inl rfl)
      hk (by omega) hc ho
    have hl1 : rows1.length = ec.row.length := by simpa using length_of_texts e3
    refine ⟨_, e1, ?_, rfl, ?_⟩
    · simp only [hl1, hlen]
    · intro j r hj
      simpa using idxFrom_getElem? e2 hj
  · intro h0 h1
    obtain ⟨k, hk⟩ := Int.eq_ofNat_of_zero_le h0
    obtain ⟨c, hc, _⟩ := rowAt_of_lt ec ec.cursor_y k hk (by omega)
    obtain ⟨o, ho, _⟩ := rowAt_of_lt ec ((k + 1 : Nat) : Int) (k + 1) rfl (by omega)
    obtain ⟨rows1, e1, e2, e3, _⟩ := editorFlipRow_spec ec (-1) k (k + 1) c o hI hlen
      (Or.inr rfl) hk (by omega) hc ho
    have hl1 : rows1.length = ec.row.length := by simpa using length_of_texts e3
    refine ⟨_, e1, ?_, rfl, ?_⟩
    · simp only [hl1, hlen]
    · intro j r hj
      simpa using idxFrom_getElem? e2 hj

/-! ## C3: column mapping -/

theorem cursorXToRenderXLoop_ge (l : List Int) (a : Nat) :
    a + l.length ≤ cursorXToRenderXLoop l a := by
  induction l generalizing a with
  | nil => simp [cursorXToRenderXLoop]
  | cons c rest ih =>
    simp only [cursorXToRenderXLoop, List.length_cons]
    split_ifs with h
    · have := ih (a + (MEL_TAB_STOP - 1 - a % MEL_TAB_STOP) + 1)
      omega
    · have := ih (a + 1)
      omega

theorem renderXToCursorXLoop_roundtrip (l1 l2 : List Int) (a x : Nat) :
    renderXToCursorXLoop ((cursorXToRenderXLoop l1 a : Nat) : Int) (l1 ++ l2) a x
      = x + l1.length := by
  induction l1 generalizing a x with
  | nil =>
    cases l2 with
    | nil => simp [renderXToCursorXLoop]
    | cons c rest =>
      simp only [List.nil_append, cursorXToRenderXLoop, renderXToCursorXLoop, List.length_nil,
        Nat.add_zero]
      split_ifs with h1 h2 h2
      all_goals first
        | rfl
        | (exfalso; push_cast at h2; omega)
  | cons c rest ih =>
    simp only [List.cons_append, cursorXToRenderXLoop, renderXToCursorXLoop, List.length_cons]
    split_ifs with h1 h2 h2
    · have := cursorXToRenderXLoop_ge rest (a + (MEL_TAB_STOP - 1 - a % MEL_TAB_STOP) + 1)
      exfalso; push_cast at h2; omega
    · simp only [List.append_eq, ih]; omega
    · have := cursorXToRenderXLoop_ge rest (a + 1)
      exfalso; push_cast at h2; omega
    · simp only [List.append_eq, ih]; omega

theorem renderX_cursorX_roundtrip (row : editor_row) (c : Int) (h0 : 0 ≤ c)
    (h1 : c ≤ row.chars.length) :
    editorRowRenderXToCursorX row (editorRowCursorXToRenderX row c) = c := by
  obtain ⟨k, rfl⟩ := Int.eq_ofNat_of_zero_le h0
  simp only [editorRowRenderXToCursorX, editorRowCursorXToRenderX, Int.toNat_ofNat]
  have h := renderXToCursorXLoop_roundtrip (row.chars.take k) (row.chars.drop k) 0 0
  rw [List.take_append_drop] at h
  rw [h]
  simp
  omega

/-- C3. For every row whose content has no tab and every column `c` with
0 <= c <= row.size, `editorRowRenderXToCursorX(row, editorRowCursorXToRenderX(row, c)) = c`. -/
theorem C3_column_roundtrip_no_tabs (row : editor_row) (c : Int)
    (_hnotab : (9 : Int) ∉ row.chars) (h0 : 0 ≤ c) (h1 : c ≤ row.chars.length) :
    editorRowRenderXToCursorX row (editorRowCursorXToRenderX row c) = c :=
  renderX_cursorX_roundtrip row c h0 h1

/-- C3, witness: column 2 of the row "abc". -/
theorem C3_column_roundtrip_no_tabs_witness :
    editorRowRenderXToCursorX (plainRow 0 "abc") (editorRowCursorXToRenderX (plainRow 0 "abc") 2)
      = 2 :=
  C3_column_roundtrip_no_tabs (plainRow 0 "abc") 2 (by decide) (by decide) (by decide)

/-! ## C10: the render buffer is the tab expansion of the content -/

theorem padTab_eq (cap : Nat) (m : Nat) (fuel : Nat) (out : List Int)
    (hm : (out.length + m) % MEL_TAB_STOP = 0)
    (hmin : ∀ j, j < m → (out.length + j) % MEL_TAB_STOP ≠ 0)
    (hf : m < fuel) (hb : out.length + m ≤ cap - 1) :
    padTab cap fuel out = out ++ List.replicate m 32 := by
  induction m generalizing fuel out with
  | zero =>
    cases fuel with
    | zero => omega
    | succ f =>
      have h0 : out.length % MEL_TAB_STOP = 0 := by simpa using hm
      simp [padTab, h0]
  | succ m ih =>
    cases fuel with
    | zero => omega
    | succ f =>
      have h0 : out.length % MEL_TAB_STOP ≠ 0 := by simpa using hmin 0 (by omega)
      have h1 : out.length < cap - 1 := by omega
      simp only [padTab, h0, h1, ne_eq, not_false_eq_true, and_self, if_true]
      rw [ih f (out ++ [32]) (by simp only [List.length_append, List.length_singleton]; rw [← hm]; congr 1; omega)
        (by
          intro j hj
          have := hmin (j + 1) (by omega)
          simp only [List.length_append, List.length_singleton]
          intro h; apply this; rw [← h]; congr 1; omega)
        (by omega) (by simp only [List.length_append, List.length_singleton]; omega)]
      simp [List.replicate_succ]

theorem renderLoop_eq (cap : Nat) (chars out : List Int)
    (h : out.length + (chars.length + 3 * chars.count 9) ≤ cap - 1) :
    renderLoop cap chars out = tabExpansionFrom out chars := by
  induction chars generalizing out with
  | nil => rfl
  | cons c rest ih =>
    by_cases hc : c = 9
    · subst hc
      simp only [List.length_cons, List.count_cons_self] at h
      simp only [renderLoop, tabExpansionFrom, if_true]
      have hpad : padTab cap MEL_TAB_STOP (out ++ [32])
          = out ++ List.replicate (MEL_TAB_STOP - out.length % MEL_TAB_STOP) 32 := by
        have hmod : out.length % 4 < 4 := Nat.mod_lt _ (by decide)
        rw [padTab_eq cap (MEL_TAB_STOP - out.length % MEL_TAB_STOP - 1) MEL_TAB_STOP (out ++ [32])]
        · rw [List.append_assoc]
          congr 1
          have : MEL_TAB_STOP - out.length % MEL_TAB_STOP
              = (MEL_TAB_STOP - out.length % MEL_TAB_STOP - 1) + 1 := by
            simp only [MEL_TAB_STOP]; omega
          rw [this, List.replicate_succ]
          simp
        · simp only [MEL_TAB_STOP, List.length_append, List.length_singleton]; omega
        · intro j hj
          simp only [MEL_TAB_STOP, List.length_append, List.length_singleton] at hj ⊢
          omega
        · simp only [MEL_TAB_STOP]; omega
        · simp only [MEL_TAB_STOP, List.length_append, List.length_singleton]; omega
      rw [hpad]
      apply ih
      have hmod : out.length % 4 < 4 := Nat.mod_lt _ (by decide)
      simp only [MEL_TAB_STOP, List.length_append, List.length_replicate]
      omega
    · have hcount : (c :: rest).count 9 = rest.count 9 := by
        rw [List.count_cons_of_ne]; exact fun h => hc h.symm
      simp only [List.length_cons, hcount] at h
      have hlt : out.length < cap - 1 := by omega
      simp only [renderLoop, tabExpansionFrom, hc, if_false, hlt, if_true]
      apply ih
      simp only [List.length_append, List.length_singleton]
      omega

theorem renderOf_eq (chars : List Int) : renderOf chars = tabExpansion chars := by
  unfold renderOf tabExpansion
  apply renderLoop_eq
  simp only [MEL_TAB_STOP, List.length_nil]
  omega

theorem tabExpansionFrom_no_tab (out chars : List Int) (h : (9 : Int) ∉ out) :
    (9 : Int) ∉ tabExpansionFrom out chars := by
  induction chars generalizing out with
  | nil => exact h
  | cons c rest ih =>
    simp only [tabExpansionFrom]
    split_ifs with hc
    · apply ih
      simp only [List.mem_append, not_or]
      refine ⟨h, ?_⟩
      intro hm
      have := List.eq_of_mem_replicate hm
      omega
    · apply ih
      simp only [List.mem_append, List.mem_singleton, not_or]
      exact ⟨h, fun h9 => hc h9.symm⟩

theorem tabExpansionFrom_of_no_tab (out chars : List Int) (h : (9 : Int) ∉ chars) :
    tabExpansionFrom out chars = out ++ chars := by
  induction chars generalizing out with
  | nil => simp [tabExpansionFrom]
  | cons c rest ih =>
    simp only [List.mem_cons, not_or] at h
    have hc : ¬ c = 9 := fun e => h.1 e.symm
    simp only [tabExpansionFrom, hc, if_false]
    rw [ih _ h.2]
    simp

theorem rowRendered_of_getElem? {ec1 : editor_config} {y : Int} {k : Nat} (new : List Int)
    (hy : y = k) (ht : (texts ec1.row)[k]? = some new)
    (hr : (renders ec1.row)[k]? = some (renderOf new)) : RowRendered ec1 y := by
  obtain ⟨r, hr1, hr2⟩ := texts_getElem? ht
  refine ⟨r, by rw [rowAt_nat hy]; exact hr1, ?_⟩
  simp only [renders, List.getElem?_map, hr1, Option.map_some', Option.some.injEq] at hr
  rw [hr, ← hr2, renderOf_eq]

theorem rowRendered_set {ec1 : editor_config} {y : Int} {k : Nat} {new : List Int}
    {T R : List (List Int)} (hy : y = k) (hT : k < T.length) (hR : k < R.length)
    (ht : texts ec1.row = T.set k new) (hr : renders ec1.row = R.set k (renderOf new)) :
    RowRendered ec1 y :=
  rowRendered_of_getElem? new hy (by rw [ht]; simp [hT]) (by rw [hr]; simp [hR])

theorem rowRendered_insert {ec1 : editor_config} {y : Int} {k : Nat} {new : List Int}
    {A B C D : List (List Int)} (hy : y = k) (hA : A.length = k) (hC : C.length = k)
    (ht : texts ec1.row = A ++ new :: B) (hr : renders ec1.row = C ++ renderOf new :: D) :
    RowRendered ec1 y :=
  rowRendered_of_getElem? new hy
    (by rw [ht, List.getElem?_append_right (by omega)]; simp [hA])
    (by rw [hr, List.getElem?_append_right (by omega)]; simp [hC])

/-- C10. In a well-formed buffer each content-changing row operation, called in range,
succeeds and leaves the render of the row it changed equal to the tab expansion of the
row's content (`RowRendered`): `editorInsertRow`, `editorRowInsertChar`, `editorRowDelChar`,
`editorRowDelString`, `editorRowInsertString`, `editorRowAppendString`, `editorInsertChar`,
`editorInsertNewline` (the row of the cursor, and the row after it when the line is split)
and `editorDelChar` (the row on which the cursor ends).  The tab expansion has no tab, and
it is the content itself when the content has no tab. -/
theorem C10_render_is_tab_expansion (ec : editor_config) (hwf : WF ec) :
    (∀ (at_ : Int) (s : List Int), 0 ≤ at_ → at_ ≤ ec.num_rows →
      ∃ ec1, editorInsertRow ec at_ s = some ec1 ∧ RowRendered ec1 at_) ∧
    (∀ (y : Int) (r : editor_row), rowAt ec y = some r →
      (∀ (at_ c : Int), 0 ≤ at_ → at_ ≤ r.chars.length →
        ∃ ec1, editorRowInsertChar ec y at_ c = some ec1 ∧ RowRendered ec1 y) ∧
      (∀ (at_ : Int), 0 ≤ at_ → at_ < r.chars.length →
        ∃ ec1, editorRowDelChar ec y at_ = some ec1 ∧ RowRendered ec1 y) ∧
      (∀ (at_ len : Int), 0 ≤ at_ → 0 ≤ len → at_ + len ≤ r.chars.length →
        ∃ ec1, editorRowDelString ec y at_ len = some ec1 ∧ RowRendered ec1 y) ∧
      (∀ (at_ : Int) (str : List Int), 0 ≤ at_ → at_ ≤ r.chars.length →
        ∃ ec1, editorRowInsertString ec y at_ str = some ec1 ∧ RowRendered ec1 y) ∧
      (∀ (s : List Int),
        ∃ ec1, editorRowAppendString ec y s = some ec1 ∧ RowRendered ec1 y)) ∧
    (CursorOk ec →
      (∀ (c : Int), 0 < c →
        ∃ ec1, editorInsertChar ec c = some ec1 ∧ RowRendered ec1 ec.cursor_y) ∧
      (∃ ec1, editorInsertNewline ec = some ec1 ∧ RowRendered ec1 ec.cursor_y ∧
        (ec.cursor_x ≠ 0 → RowRendered ec1 (ec.cursor_y + 1))) ∧
      (ec.cursor_y < ec.num_rows → ¬ (ec.cursor_x = 0 ∧ ec.cursor_y = 0) →
        ∃ ec1, editorDelChar ec = some ec1 ∧ RowRendered ec1 ec1.cursor_y)) ∧
    (∀ (s : List Int), (9 : Int) ∉ tabExpansion s) ∧
    (∀ (s : List Int), (9 : Int) ∉ s → tabExpansion s = s) := by
  obtain ⟨hlen, hidx⟩ := hwf
  refine ⟨?_, ?_, ?_, ?_, ?_⟩
  · intro at_ s h0 h1
    obtain ⟨k, rfl⟩ := Int.eq_ofNat_of_zero_le h0
    have hk : k ≤ ec.row.length := by omega
    obtain ⟨rows, e1, _, e3, e4⟩ := editorInsertRow_spec ec k k s hidx hlen rfl hk
    exact ⟨_, e1, rowRendered_insert rfl (by simp [hk]) (by simp [hk]) e3 e4⟩
  · intro y r hr
    have hy0 : 0 ≤ y := by
      by_contra h
      simp [rowAt, h] at hr
    obtain ⟨k, rfl⟩ := Int.eq_ofNat_of_zero_le hy0
    rw [rowAt_nat rfl] at hr
    have hk := lt_of_getElem? hr
    refine ⟨?_, ?_, ?_, ?_, ?_⟩
    · intro at_ c h0 h1
      obtain ⟨a, rfl⟩ := Int.eq_ofNat_of_zero_le h0
      obtain ⟨rows, e1, _, e3, e4⟩ := editorRowInsertChar_spec ec k a k a r c hidx hlen rfl hr rfl
        (by omega)
      exact ⟨_, e1, rowRendered_set rfl (by simpa using hk) (by simpa using hk) e3 e4⟩
    · intro at_ h0 h1
      obtain ⟨a, rfl⟩ := Int.eq_ofNat_of_zero_le h0
      obtain ⟨rows, e1, _, e3, e4⟩ := editorRowDelChar_spec ec k a k a r hidx hlen rfl hr rfl
        (by omega)
      exact ⟨_, e1, rowRendered_set rfl (by simpa using hk) (by simpa using hk) e3 e4⟩
    · intro at_ len h0 hl h1
      obtain ⟨a, rfl⟩ := Int.eq_ofNat_of_zero_le h0
      obtain ⟨n, rfl⟩ := Int.eq_ofNat_of_zero_le hl
      obtain ⟨rows, e1, _, e3, e4⟩ := editorRowDelString_spec ec k a n k a n r hidx hlen rfl hr
        rfl rfl (by omega)
      exact ⟨_, e1, rowRendered_set rfl (by simpa using hk) (by simpa using hk) e3 e4⟩
    · intro at_ str h0 h1
      obtain ⟨a, rfl⟩ := Int.eq_ofNat_of_zero_le h0
      obtain ⟨rows, e1, _, e3, e4⟩ := editorRowInsertString_spec ec k a k a r str hidx hlen rfl
        hr rfl (by omega)
      exact ⟨_, e1, rowRendered_set rfl (by simpa using hk) (by simpa using hk) e3 e4⟩
    · intro s
      obtain ⟨rows, e1, _, e3, e4⟩ := editorRowAppendString_spec ec k k r s hidx hlen rfl hr
      exact ⟨_, e1, rowRendered_set rfl (by simpa using hk) (by simpa using hk) e3 e4⟩
  · intro hcur
    obtain ⟨hx0, hy0, hyn, htx, hxr⟩ := hcur
    obtain ⟨k, hk⟩ := Int.eq_ofNat_of_zero_le hy0
    obtain ⟨a, ha0⟩ := Int.eq_ofNat_of_zero_le hx0
    refine ⟨?_, ?_, ?_⟩
    · intro c hc
      by_cases hrow : ec.cursor_y = ec.num_rows
      · obtain ⟨rows, e1, _, e3, e4⟩ := editorInsertChar_spec_tilde ec c hidx hlen hc hrow
          (htx hrow)
        refine ⟨_, e1, rowRendered_of_getElem? [c] hk ?_ ?_⟩
        · simp only [e3]
          rw [List.getElem?_append_right (by simp; omega)]
          have : k - ec.row.length = 0 := by omega
          simp [this]
        · simp only [e4]
          rw [List.getElem?_append_right (by simp; omega)]
          have : k - ec.row.length = 0 := by omega
          simp [this]
      · obtain ⟨r, hr1, hr2⟩ := rowAt_of_lt ec ec.cursor_y k hk (by omega)
        obtain ⟨rows, e1, _, e3, e4⟩ := editorInsertChar_spec_row ec c k a r hidx hlen hc hk hr1
          ha0 (by have := hxr r hr2; omega)
        have hkl := lt_of_getElem? hr1
        exact ⟨_, e1, rowRendered_set hk (by simpa using hkl) (by simpa using hkl) e3 e4⟩
    · by_cases hx : ec.cursor_x = 0
      · obtain ⟨rows, e1, _, e3, e4⟩ := editorInsertNewline_spec_col0 ec k hidx hlen hk
          (by omega) hx
        have hkl : k ≤ ec.row.length := by omega
        refine ⟨_, e1, rowRendered_insert hk (by simp [hkl]) (by simp [hkl]) e3 e4, ?_⟩
        intro h; exact absurd hx h
      · have hrow : ¬ ec.cursor_y = ec.num_rows := fun h => hx (htx h)
        obtain ⟨r, hr1, hr2⟩ := rowAt_of_lt ec ec.cursor_y k hk (by omega)
        have hkl := lt_of_getElem? hr1
        obtain ⟨rows, e1, _, e3, e4⟩ := editorInsertNewline_spec_split ec k a r hidx hlen hk hr1
          ha0 (by omega) (by have := hxr r hr2; omega)
        have hA : ((texts ec.row).take k).length = k := by simp; omega
        have hC : ((renders ec.row).take k).length = k := by simp; omega
        refine ⟨_, e1, rowRendered_insert hk hA hC e3 e4, ?_⟩
        intro _
        have e3b : texts rows = ((texts ec.row).take k ++ [r.chars.take a]) ++
            r.chars.drop a :: (texts ec.row).drop (k + 1) := by rw [e3]; simp
        have e4b : renders rows = ((renders ec.row).take k ++ [renderOf (r.chars.take a)]) ++
            renderOf (r.chars.drop a) :: (renders ec.row).drop (k + 1) := by rw [e4]; simp
        exact rowRendered_insert (k := k + 1) (by rw [hk]; push_cast; rfl) (by simp [hA])
          (by simp [hC]) e3b e4b
    · intro hlt hne
      obtain ⟨r, hr1, hr2⟩ := rowAt_of_lt ec ec.cursor_y k hk (by omega)
      have hkl := lt_of_getElem? hr1
      by_cases hx : ec.cursor_x = 0
      · obtain ⟨j, rfl⟩ : ∃ j, k = j + 1 := ⟨k - 1, by omega⟩
        obtain ⟨p, hp1, _⟩ := rowAt_of_lt ec (j : Int) j rfl (by omega)
        obtain ⟨rows, e1, _, e3, e4⟩ := editorDelChar_spec_join ec j r p hidx hlen
          (by rw [hk]; push_cast; rfl) hr1 hp1 hx
        have hA : ((texts ec.row).take j).length = j := by simp; omega
        have hC : ((renders ec.row).take j).length = j := by simp; omega
        exact ⟨_, e1, rowRendered_insert (k := j) (by simp only [hk]; push_cast; omega) hA hC e3 e4⟩
      · obtain ⟨b, rfl⟩ : ∃ b, a = b + 1 := ⟨a - 1, by omega⟩
        obtain ⟨rows, e1, _, e3, e4⟩ := editorDelChar_spec_del ec k b r hidx hlen hk hr1
          (by rw [ha0]; push_cast; rfl) (by have := hxr r hr2; omega)
        exact ⟨_, e1, rowRendered_set hk (by simpa using hkl) (by simpa using hkl) e3 e4⟩
  · intro s
    exact tabExpansionFrom_no_tab [] s (by simp)
  · intro s hs
    simpa [tabExpansion] using tabExpansionFrom_of_no_tab [] s hs

/-! ## The action log -/

theorem addActionLink_shape (l : ActionList) (A : Action) (hl : LogWF l) :
    addActionLink l A
      = ActionList.mk (keptChain l ++ [A]) (some (keptChain l).length)
          (((keptChain l).length : Int) + 1) := by
  obtain ⟨nodes, current, size⟩ := l
  obtain ⟨hs, hc⟩ := hl
  simp only at hs hc
  subst hs
  by_cases hn : nodes = []
  · subst hn
    have hcur : current = none := by
      cases current with
      | none => rfl
      | some c => exact absurd (hc c rfl) (by simp)
    subst hcur
    simp [addActionLink, keptChain]
  · have hlen : 0 < nodes.length := List.length_pos.mpr hn
    by_cases ht : current = some (nodes.length - 1)
    · subst ht
      have h1 : nodes.length - 1 + 1 = nodes.length := by omega
      simp [addActionLink, keptChain, hn, h1]
    · cases current with
      | none => simp [addActionLink, keptChain, hn, clearAlistFrom]
      | some c =>
        have hcl := hc c rfl
        have hc1 : c + 1 < nodes.length := by
          by_contra h
          apply ht
          congr 1
          omega
        have hmin : min (c + 1) nodes.length = c + 1 := by omega
        simp only [addActionLink, hn, ht, if_false, clearAlistFrom, keptChain, List.length_drop,
          List.length_take, hmin]
        congr 1
        omega

theorem addActionTruncate_shape (cap : Int) (K : List Action) (A : Action) (hcap : CapOk cap) :
    addActionTruncate cap (ActionList.mk (K ++ [A]) (some K.length) ((K.length : Int) + 1))
      = ActionList.mk (evictHead cap K ++ [A]) (some (evictHead cap K).length)
          (((evictHead cap K).length : Int) + 1) := by
  by_cases h : (K.length : Int) + 1 > cap ∧ cap ≠ -1
  · cases K with
    | nil => exfalso; simp at h; rcases hcap with h1 | h1 <;> omega
    | cons a t =>
      have hne : ¬ cap = -1 := h.2
      have hsz : ¬ ((t.length : Int) + 1 = 0) := by omega
      simp only [addActionTruncate, evictHead, h, and_self, if_true]
      simp [hne, hsz]
  · simp only [addActionTruncate, evictHead, h, if_false]

theorem addAction_shape (cap : Int) (l : ActionList) (A : Action) (hcap : CapOk cap)
    (hl : LogWF l) :
    addAction cap l A
      = ActionList.mk (evictHead cap (keptChain l) ++ [A])
          (some (evictHead cap (keptChain l)).length)
          (((evictHead cap (keptChain l)).length : Int) + 1) := by
  have hcap0 : ¬ cap = 0 := by rcases hcap with h | h <;> omega
  simp only [addAction, hcap0, if_false, addActionLink_shape l A hl,
    addActionTruncate_shape cap _ A hcap]

theorem addAction_LogWF (cap : Int) (l : ActionList) (A : Action) (hcap : CapOk cap)
    (hl : LogWF l) : LogWF (addAction cap l A) := by
  rw [addAction_shape cap l A hcap hl]
  refine ⟨by simp, ?_⟩
  intro c hc
  simp only [Option.some.injEq] at hc
  subst hc
  simp

theorem execute_InsertChar_row (ec : editor_config) (k a : Nat) (row : editor_row)
    (s : List Int) (hwf : WF ec) (hrow : ec.row[k]? = some row) (ha : a ≤ row.chars.length) :
    ∃ rows1, execute ec (insAction a k s)
        = some { ec with row := rows1, cursor_x := (a : Int) + s.length, cursor_y := k,
                         dirty := ec.dirty + s.length } ∧
      idxFrom 0 rows1 = true ∧
      texts rows1 = (texts ec.row).set k (row.chars.take a ++ s ++ row.chars.drop a) := by
  have hk := lt_of_getElem? hrow
  obtain ⟨hlen, hidx⟩ := hwf
  obtain ⟨rows1, e1, e2, e3, _⟩ := editorRowInsertString_spec
    { ec with cursor_x := a, cursor_y := k } k a k a row s hidx hlen rfl hrow rfl ha
  refine ⟨rows1, ?_, e2, e3⟩
  have hlt : (k : Int) < ec.num_rows := by omega
  simp only [execute, insAction, hlt, if_true, e1]

theorem revert_InsertChar_row (ec : editor_config) (k a : Nat) (row : editor_row)
    (s : List Int) (hwf : WF ec) (hrow : ec.row[k]? = some row)
    (ha : a + s.length ≤ row.chars.length) :
    ∃ rows1, revert ec (insAction a k s)
        = some { ec with row := rows1, cursor_x := (a : Int), cursor_y := k,
                         dirty := ec.dirty + s.length } ∧
      idxFrom 0 rows1 = true ∧
      texts rows1 = (texts ec.row).set k (row.chars.take a ++ row.chars.drop (a + s.length)) := by
  obtain ⟨hlen, hidx⟩ := hwf
  obtain ⟨rows1, e1, e2, e3, _⟩ := editorRowDelString_spec
    { ec with cursor_x := a, cursor_y := k } k a s.length k a s.length row hidx hlen rfl hrow
    rfl rfl ha
  refine ⟨rows1, ?_, e2, e3⟩
  simp only [revert, insAction, e1, Bool.false_eq_true, if_false]

theorem makeAction_InsertChar_new (cap : Int) (ec : editor_config) (k a : Nat)
    (row : editor_row) (s : List Int) (hwf : WF ec) (hcap : CapOk cap)
    (hy : ec.cursor_y = k) (hx : ec.cursor_x = a) (hrow : ec.row[k]? = some row)
    (ha : a ≤ row.chars.length)
    (hnc : concatWithLastAction cap ec ActionType.InsertChar (some s) = some (false, ec)) :
    ∃ rows1, makeAction cap ec ActionType.InsertChar (some s)
        = some { ec with row := rows1, cursor_x := (a : Int) + s.length, cursor_y := k,
                         dirty := ec.dirty + s.length,
                         actions := addAction cap ec.actions (insAction a k s) } ∧
      idxFrom 0 rows1 = true ∧
      texts rows1 = (texts ec.row).set k (row.chars.take a ++ s ++ row.chars.drop a) := by
  have hk := lt_of_getElem? hrow
  have hcap0 : cap ≠ 0 := by rcases hcap with h | h <;> omega
  have hact : createAction ec (some s) ActionType.InsertChar = insAction a k s :=
    createAction_row ec _ _ _ _ hx hy (by have := hwf.1; omega)
  obtain ⟨rows1, h1, h2, h3⟩ := execute_InsertChar_row
    { ec with actions := addAction cap ec.actions (insAction a k s) } k a row s hwf hrow ha
  refine ⟨rows1, ?_, h2, h3⟩
  simp only [makeAction, hnc, hact, hcap0, ne_eq, not_false_eq_true, if_true]
  exact h1

theorem makeAction_InsertChar_coalesce (cap : Int) (ec : editor_config) (k a : Nat)
    (row : editor_row) (s : List Int) (c : Int) (Q : List Action) (sz : Int)
    (hwf : WF ec) (hcap : CapOk cap) (hc : 0 < c)
    (hy : ec.cursor_y = k) (hx : ec.cursor_x = (a : Int) + s.length)
    (hrow : ec.row[k]? = some row) (ha : a + s.length ≤ row.chars.length)
    (hact : ec.actions = ActionList.mk (Q ++ [insAction a k s]) (some Q.length) sz) :
    ∃ rows1, makeAction cap ec ActionType.InsertChar (some [c])
        = some { ec with row := rows1, cursor_x := (a : Int) + s.length + 1,
                         dirty := ec.dirty + 1,
                         actions := ActionList.mk (Q ++ [insAction a k (s ++ [c])])
                           (some Q.length) sz } ∧
      idxFrom 0 rows1 = true ∧
      texts rows1 = (texts ec.row).set k
        (row.chars.take (a + s.length) ++ c :: row.chars.drop (a + s.length)) := by
  have hk := lt_of_getElem? hrow
  have hcap0 : cap ≠ 0 := by rcases hcap with h | h <;> omega
  obtain ⟨hlen, hidx⟩ := hwf
  obtain ⟨cx, cy, n, rows0, d, cp, sy, ac⟩ := ec
  simp only at hidx hlen hy hx hrow hk hact
  subst hy hx hlen hact
  obtain ⟨rows1, e1, e2, e3, _⟩ := editorInsertChar_spec_row
    (editor_config.mk ((a : Int) + s.length) k rows0.length rows0 d cp sy
      (ActionList.mk (Q ++ [insAction a k s]) (some Q.length) sz))
    c k (a + s.length) row hidx rfl hc rfl hrow (by push_cast; rfl) ha
  simp only at e1 e3
  refine ⟨rows1, ?_, e2, e3⟩
  have hget : (Q ++ [insAction a k s])[Q.length]? = some (insAction a k s) := by
    rw [List.getElem?_append_right (le_refl _)]; simp
  have hconcat : concatWithLastAction cap
      (editor_config.mk ((a : Int) + s.length) k rows0.length rows0 d cp sy
        (ActionList.mk (Q ++ [insAction a k s]) (some Q.length) sz))
      ActionType.InsertChar (some [c])
      = some (true, editor_config.mk ((a : Int) + s.length + 1) k rows0.length rows1 (d + 1)
          cp sy (ActionList.mk (Q ++ [insAction a k (s ++ [c])]) (some Q.length) sz)) := by
    simp only [insAction] at e1 hget
    simp only [concatWithLastAction, hcap0, ne_eq, not_false_eq_true, and_self, if_true,
      List.length_append, List.length_singleton, insAction, hget]
    simp only [true_and, if_true, List.length_singleton, le_refl, List.headD_cons, e1]
    simp
  simp only [makeAction, hconcat]

/-! ## C4: coalescing of contiguous typing -/

theorem take_ins_append {α : Type} (old s : List α) (c : α) (a : Nat) (ha : a ≤ old.length) :
    (old.take a ++ s ++ old.drop a).take (a + s.length)
        ++ c :: (old.take a ++ s ++ old.drop a).drop (a + s.length)
      = old.take a ++ (s ++ [c]) ++ old.drop a := by
  have h1 : (old.take a ++ s).length = a + s.length := by simp [ha]
  rw [List.take_left' h1, List.drop_left' h1]
  simp

theorem typeChars_coalesce (cap : Int) (rest : List Int) :
    ∀ (ec : editor_config) (k a : Nat) (old s : List Int) (Q : List Action) (sz : Int),
      WF ec → CapOk cap → (∀ c ∈ rest, 0 < c) → ec.cursor_y = k →
      ec.cursor_x = (a : Int) + s.length →
      (texts ec.row)[k]? = some (old.take a ++ s ++ old.drop a) → a ≤ old.length →
      ec.actions = ActionList.mk (Q ++ [insAction a k s]) (some Q.length) sz →
      ∃ ec1, typeChars cap ec rest = some ec1 ∧ WF ec1 ∧
        ec1.actions = ActionList.mk (Q ++ [insAction a k (s ++ rest)]) (some Q.length) sz ∧
        texts ec1.row = (texts ec.row).set k (old.take a ++ (s ++ rest) ++ old.drop a) ∧
        ec1.cursor_x = (a : Int) + s.length + rest.length ∧ ec1.cursor_y = k ∧
        ec1.num_rows = ec.num_rows := by
  induction rest with
  | nil =>
    intro ec k a old s Q sz hwf _ _ hy hx ht _ hact
    refine ⟨ec, rfl, hwf, by simpa using hact, ?_, by simpa using hx, hy, rfl⟩
    simp only [List.append_nil]
    exact (set_self ht).symm
  | cons c rest ih =>
    intro ec k a old s Q sz hwf hcap hpos hy hx ht ha hact
    obtain ⟨row, hrow, hch⟩ := texts_getElem? ht
    have hk := lt_of_getElem? hrow
    obtain ⟨rows1, e1, e2, e3⟩ := makeAction_InsertChar_coalesce cap ec k a row s c Q sz hwf hcap
      (hpos c (by simp)) hy hx hrow (by rw [hch]; simp; omega) hact
    rw [hch, take_ins_append _ _ _ _ ha] at e3
    have hl1 : rows1.length = ec.row.length := by simpa using length_of_texts e3
    obtain ⟨ec2, f1, f2, f3, f4, f5, f6, f7⟩ := ih
      { ec with row := rows1, cursor_x := (a : Int) + s.length + 1, dirty := ec.dirty + 1,
                actions := ActionList.mk (Q ++ [insAction a k (s ++ [c])]) (some Q.length) sz }
      k a old (s ++ [c]) Q sz
      ⟨by simp only [hl1]; exact hwf.1, e2⟩ hcap
      (fun x hx => hpos x (by simp [hx])) hy (by simp; omega)
      (by simp only [e3]; simp [hk]) ha rfl
    refine ⟨ec2, ?_, f2, ?_, ?_, ?_, f6, f7⟩
    · simp only [typeChars, e1, f1]
    · rw [f3]; simp
    · rw [f4]; simp only [e3, List.set_set]; simp
    · rw [f5]; simp; omega

/-- C4. Typing contiguously coalesces, for bytes of positive code.  In a well-formed
buffer with a consistent log and a recording capacity, with the cursor at `(x, y)` on an
existing row, let the characters `c0 :: rest`, all of positive code, be typed one after the
other through `makeAction(InsertChar, c)` with no cursor movement in between, the first of
them not being coalesced with the tail of the log.  Then all calls succeed and leave
exactly one new log entry: the chain is the retained old chain followed by one InsertChar
entry recorded at `(x, y)` whose payload is the typed characters in order, which is the
result of one `addAction` of that entry; `current` is that entry; the row holds the typed
characters at the columns from `x` on, and the cursor is at `(x + k, y)`.  For a byte of
code `<= 0` (a byte above 127 where `char` is signed) the coalescing path extends the
payload without inserting the byte in the row, and the cursor does not move, so the next
byte starts a second entry. -/
theorem C4_coalescing (cap : Int) (ec : editor_config) (c0 : Int) (rest : List Int)
    (hwf : WF ec) (hlog : LogWF ec.actions) (hcap : CapOk cap)
    (hpos : ∀ c ∈ c0 :: rest, 0 < c) (hcur : CursorOk ec) (hrow : ec.cursor_y < ec.num_rows)
    (hnc : concatWithLastAction cap ec ActionType.InsertChar (some [c0]) = some (false, ec)) :
    ∃ ec1 old, typeChars cap ec (c0 :: rest) = some ec1 ∧
      ec1.actions.nodes = evictHead cap (keptChain ec.actions)
        ++ [insAction ec.cursor_x ec.cursor_y (c0 :: rest)] ∧
      ec1.actions.current = some (evictHead cap (keptChain ec.actions)).length ∧
      ec1.actions = addAction cap ec.actions (insAction ec.cursor_x ec.cursor_y (c0 :: rest)) ∧
      (ec.actions.nodes = [] →
        ec1.actions.nodes = [insAction ec.cursor_x ec.cursor_y (c0 :: rest)]) ∧
      rowAt ec ec.cursor_y = some old ∧
      texts ec1.row = (texts ec.row).set ec.cursor_y.toNat
        (old.chars.take ec.cursor_x.toNat ++ (c0 :: rest) ++ old.chars.drop ec.cursor_x.toNat) ∧
      ec1.cursor_x = ec.cursor_x + ((c0 :: rest).length : Int) ∧
      ec1.cursor_y = ec.cursor_y ∧ ec1.num_rows = ec.num_rows := by
  obtain ⟨hx0, hy0, hyn, htx, hxr⟩ := hcur
  obtain ⟨k, hk⟩ := Int.eq_ofNat_of_zero_le hy0
  obtain ⟨a, ha0⟩ := Int.eq_ofNat_of_zero_le hx0
  obtain ⟨row, hr1, hr2⟩ := rowAt_of_lt ec ec.cursor_y k hk (by have := hwf.1; omega)
  have hkl := lt_of_getElem? hr1
  have ha : a ≤ row.chars.length := by have := hxr row hr2; omega
  obtain ⟨rows1, e1, e2, e3⟩ := makeAction_InsertChar_new cap ec k a row [c0] hwf hcap hk ha0
    hr1 ha hnc
  have hl1 : rows1.length = ec.row.length := by simpa using length_of_texts e3
  have hshape := addAction_shape cap ec.actions (insAction a k [c0]) hcap hlog
  obtain ⟨ec2, f1, f2, f3, f4, f5, f6, f7⟩ := typeChars_coalesce cap rest
    { ec with row := rows1, cursor_x := (a : Int) + ([c0] : List Int).length, cursor_y := k,
              dirty := ec.dirty + ([c0] : List Int).length,
              actions := addAction cap ec.actions (insAction a k [c0]) }
    k a row.chars [c0] (evictHead cap (keptChain ec.actions))
    (((evictHead cap (keptChain ec.actions)).length : Int) + 1)
    ⟨by simp only [hl1]; exact hwf.1, e2⟩ hcap (fun x hx => hpos x (by simp [hx])) rfl rfl
    (by simp only [e3]; simp [hkl]) ha hshape
  have hnodes : ec2.actions.nodes = evictHead cap (keptChain ec.actions)
      ++ [insAction ec.cursor_x ec.cursor_y (c0 :: rest)] := by
    rw [f3, hk, ha0]; rfl
  refine ⟨ec2, row, ?_, hnodes, ?_, ?_, ?_, hr2, ?_, ?_, ?_, f7⟩
  · simp only [typeChars, e1]
    exact f1
  · rw [f3]
  · rw [f3, addAction_shape cap ec.actions _ hcap hlog, hk, ha0]; rfl
  · intro hn
    have hq : evictHead cap (keptChain ec.actions) = [] := by
      have hkc : keptChain ec.actions = [] := by
        simp only [keptChain]
        cases hcu : ec.actions.current with
        | none => rfl
        | some c => simp [hn]
      simp [hkc, evictHead]
    rw [hnodes, hq]; rfl
  · rw [f4]
    simp only [e3, List.set_set, hk, ha0, Int.toNat_ofNat]
    rfl
  · rw [f5, ha0]; simp; omega
  · rw [f6, hk]

/-- C4, witness: 'a', 'b', 'c' typed at column 2 of the row "hello", with an empty log and
the capacity of the program, leave the one entry "abc" and the row "heabcllo".  The bytes
0xC3, 0xA9, 0xC3 (-61, -87, -61 as signed `char`) typed at the same place leave two
entries, [-61, -87] recorded at column 2 and [-61] recorded at column 3, and the row holds
only the first and the third byte, with the cursor at column 4. -/
theorem C4_coalescing_witness :
    (∃ ec1 old, typeChars ACTIONS_LIST_MAX_SIZE (plainBuffer ["hello"] 2 0) (cs "abc") = some ec1 ∧
      ec1.actions.nodes = evictHead ACTIONS_LIST_MAX_SIZE
          (keptChain (plainBuffer ["hello"] 2 0).actions) ++ [insAction 2 0 (cs "abc")] ∧
      ec1.actions.current = some (evictHead ACTIONS_LIST_MAX_SIZE
          (keptChain (plainBuffer ["hello"] 2 0).actions)).length ∧
      ec1.actions = addAction ACTIONS_LIST_MAX_SIZE (plainBuffer ["hello"] 2 0).actions
          (insAction 2 0 (cs "abc")) ∧
      ((plainBuffer ["hello"] 2 0).actions.nodes = [] →
        ec1.actions.nodes = [insAction 2 0 (cs "abc")]) ∧
      rowAt (plainBuffer ["hello"] 2 0) 0 = some old ∧
      texts ec1.row = (texts (plainBuffer ["hello"] 2 0).row).set 0
        (old.chars.take 2 ++ cs "abc" ++ old.chars.drop 2) ∧
      ec1.cursor_x = 2 + 3 ∧ ec1.cursor_y = 0 ∧ ec1.num_rows = 1) ∧
    (typeChars ACTIONS_LIST_MAX_SIZE (plainBuffer ["hello"] 2 0) (cs "abc")).map
        (fun e => (texts e.row, e.cursor_x, e.actions.nodes.map (fun a => (a.cpos_x, a.string))))
      = some ([cs "heabcllo"], 5, [(2, some (cs "abc"))]) ∧
    (typeChars ACTIONS_LIST_MAX_SIZE (plainBuffer ["hello"] 2 0) [-61, -87, -61]).map
        (fun e => (texts e.row, e.cursor_x, e.actions.nodes.map (fun a => (a.cpos_x, a.string))))
      = some ([[104, 101, -61, -61, 108, 108, 111]], 4,
          [(2, some [-61, -87]), (3, some [-61])]) :=
  ⟨C4_coalescing ACTIONS_LIST_MAX_SIZE (plainBuffer ["hello"] 2 0) 97 [98, 99]
      (by decide) (by decide) (by decide) (by decide) (by decide) (by decide) (by decide),
   by decide, by decide⟩

/-- C9, witness: on the buffer ["ab", "cd"] with the cursor on the second row, a row is
inserted at 1, row 0 is deleted, and the second row is flipped up. -/
theorem C9_index_invariant_witness :
    (∃ ec1, editorInsertRow (plainBuffer ["ab", "cd"] 0 1) 1 (cs "x") = some ec1 ∧
      ec1.num_rows = ec1.row.length ∧
      ec1.num_rows = (plainBuffer ["ab", "cd"] 0 1).num_rows + 1 ∧
      ∀ (j : Nat) (r : editor_row), ec1.row[j]? = some r → r.idx = j) ∧
    ((editorDelRow (plainBuffer ["ab", "cd"] 0 1) 0).num_rows
        = (editorDelRow (plainBuffer ["ab", "cd"] 0 1) 0).row.length ∧
      (editorDelRow (plainBuffer ["ab", "cd"] 0 1) 0).num_rows
        = (plainBuffer ["ab", "cd"] 0 1).num_rows - 1 ∧
      ∀ (j : Nat) (r : editor_row),
        (editorDelRow (plainBuffer ["ab", "cd"] 0 1) 0).row[j]? = some r → r.idx = j) ∧
    (∃ ec1, editorFlipRow (plainBuffer ["ab", "cd"] 0 1) 1 = some ec1 ∧
      ec1.num_rows = ec1.row.length ∧
      ec1.num_rows = (plainBuffer ["ab", "cd"] 0 1).num_rows ∧
      ∀ (j : Nat) (r : editor_row), ec1.row[j]? = some r → r.idx = j) :=
  ⟨(C9_index_invariant (plainBuffer ["ab", "cd"] 0 1) (by decide)
      (forall_of_idxFrom (by decide))).1 1 (cs "x") (by decide) (by decide),
   (C9_index_invariant (plainBuffer ["ab", "cd"] 0 1) (by decide)
      (forall_of_idxFrom (by decide))).2.1 0 (by decide) (by decide),
   (C9_index_invariant (plainBuffer ["ab", "cd"] 0 1) (by decide)
      (forall_of_idxFrom (by decide))).2.2.1 (by decide) (by decide)⟩

/-- C10, witness: a tab is inserted at column 1 of the row "ab", and the byte 'x' is typed
at the cursor on the same row. -/
theorem C10_render_is_tab_expansion_witness :
    (∃ ec1, editorRowInsertChar (plainBuffer ["ab"] 1 0) 0 1 9 = some ec1 ∧ RowRendered ec1 0) ∧
    (∃ ec1, editorInsertChar (plainBuffer ["ab"] 1 0) 120 = some ec1 ∧
      RowRendered ec1 (plainBuffer ["ab"] 1 0).cursor_y) :=
  ⟨((C10_render_is_tab_expansion (plainBuffer ["ab"] 1 0) (by decide)).2.1 0
      (plainRow 0 "ab") (by decide)).1 1 9 (by decide) (by decide),
   ((C10_render_is_tab_expansion (plainBuffer ["ab"] 1 0) (by decide)).2.2.1
      (by decide)).1 120 (by decide)⟩

/-! ## Typing at a position, and undoing it -/

theorem concat_not_contiguous (cap : Int) (ec : editor_config) (i : Nat) (A : Action)
    (s : List Int) (p : Option (List Int)) (hcur : ec.actions.current = some i)
    (hget : ec.actions.nodes[i]? = some A) (hs : A.string = some s)
    (hmove : ¬ (A.cpos_y = ec.cursor_y ∧ A.cpos_x + s.length = ec.cursor_x)) :
    concatWithLastAction cap ec ActionType.InsertChar p = some (false, ec) := by
  simp only [concatWithLastAction, hcur, hget, hs]
  split_ifs <;> first | rfl | (exfalso; apply hmove; constructor <;> tauto)

theorem concat_not_tail (cap : Int) (ec : editor_config) (i : Nat) (p : Option (List Int))
    (hcur : ec.actions.current = some i) (hnt : i + 1 ≠ ec.actions.nodes.length) :
    concatWithLastAction cap ec ActionType.InsertChar p = some (false, ec) := by
  simp only [concatWithLastAction, hcur, hnt, if_false]
  split_ifs <;> rfl

theorem concat_no_current (cap : Int) (ec : editor_config) (p : Option (List Int))
    (hcur : ec.actions.current = none) :
    concatWithLastAction cap ec ActionType.InsertChar p = some (false, ec) := by
  simp only [concatWithLastAction, hcur]
  split_ifs <;> rfl

theorem typeAt_new (cap : Int) (ec : editor_config) (x y : Int) (c : Int)
    (hwf : WF ec) (hcap : CapOk cap) (hon : OnRow ec x y)
    (hnc : concatWithLastAction cap { ec with cursor_x := x, cursor_y := y }
      ActionType.InsertChar (some [c]) = some (false, { ec with cursor_x := x, cursor_y := y })) :
    ∃ e1 row, typeAt cap ec x y c = some e1 ∧ WF e1 ∧ rowAt ec y = some row ∧
      e1.actions = addAction cap ec.actions (insAction x y [c]) ∧
      texts e1.row = (texts ec.row).set y.toNat
        (row.chars.take x.toNat ++ [c] ++ row.chars.drop x.toNat) ∧
      e1.num_rows = ec.num_rows ∧ e1.cursor_x = x + 1 ∧ e1.cursor_y = y := by
  obtain ⟨hx0, row, hr, hxl⟩ := hon
  have hy0 : 0 ≤ y := by
    by_contra h
    simp [rowAt, h] at hr
  obtain ⟨k, rfl⟩ := Int.eq_ofNat_of_zero_le hy0
  obtain ⟨a, rfl⟩ := Int.eq_ofNat_of_zero_le hx0
  rw [rowAt_nat rfl] at hr
  have hk := lt_of_getElem? hr
  obtain ⟨rows1, e1, e2, e3⟩ := makeAction_InsertChar_new cap
    { ec with cursor_x := (a : Int), cursor_y := (k : Int) } k a row [c] hwf hcap rfl rfl hr
    (by omega) hnc
  have hl1 : rows1.length = ec.row.length := by simpa using length_of_texts e3
  refine ⟨_, row, e1, ⟨?_, e2⟩, by rw [rowAt_nat rfl]; exact hr, rfl, ?_, rfl, ?_, rfl⟩
  · simp only [hl1]; exact hwf.1
  · simpa using e3
  · simp

theorem undo_InsertChar (cap : Int) (ec : editor_config) (i k a : Nat) (old s : List Int)
    (hwf : WF ec) (hcap : CapOk cap) (hcur : ec.actions.current = some i)
    (hget : ec.actions.nodes[i]? = some (insAction a k s))
    (ht : (texts ec.row)[k]? = some (old.take a ++ s ++ old.drop a)) (ha : a ≤ old.length) :
    ∃ e1, undo cap ec = some e1 ∧ WF e1 ∧ texts e1.row = (texts ec.row).set k old ∧
      e1.num_rows = ec.num_rows ∧
      e1.actions = { ec.actions with current := if i = 0 then none else some (i - 1) } := by
  have hcap0 : ¬ cap = 0 := by rcases hcap with h | h <;> omega
  obtain ⟨row, hrow, hch⟩ := texts_getElem? ht
  obtain ⟨rows1, e1, e2, e3⟩ := revert_InsertChar_row ec k a row s hwf hrow
    (by rw [hch]; simp; omega)
  rw [hch, take_insert_drop old s a ha] at e3
  have hl1 : rows1.length = ec.row.length := by simpa using length_of_texts e3
  by_cases hi : i = 0
  · subst hi
    have hu : undo cap ec = some (editor_config.mk a k ec.num_rows rows1 0
        ec.copied_char_buffer ec.syntax_
        (ActionList.mk ec.actions.nodes none ec.actions.size)) := by
      simp only [undo, hcap0, if_false, hcur, hget, e1, if_true]
    refine ⟨_, hu, ⟨?_, e2⟩, e3, rfl, ?_⟩
    · simp only [hl1]; exact hwf.1
    · simp
  · have hu : undo cap ec = some (editor_config.mk a k ec.num_rows rows1
        (ec.dirty + s.length) ec.copied_char_buffer ec.syntax_
        (ActionList.mk ec.actions.nodes (some (i - 1)) ec.actions.size)) := by
      simp only [undo, hcap0, if_false, hcur, hget, e1, hi]
      simp
    refine ⟨_, hu, ⟨?_, e2⟩, e3, rfl, ?_⟩
    · simp only [hl1]; exact hwf.1
    · simp [hi]

/-! ## C8: coalescing requires contiguity -/

theorem keptChain_tail (Q : List Action) (A : Action) (sz : Int) :
    keptChain (ActionList.mk (Q ++ [A]) (some Q.length) sz) = Q ++ [A] := by
  simp [keptChain]

theorem evictHead_snoc (cap : Int) (K : List Action) (A : Action) (h2 : 2 ≤ cap ∨ cap = -1) :
    ∃ Q, evictHead cap (K ++ [A]) = Q ++ [A] ∧ (K = [] → Q = []) ∧ Q.length ≤ K.length := by
  by_cases h : ((K ++ [A]).length : Int) + 1 > cap ∧ cap ≠ -1
  · cases K with
    | nil => exfalso; simp at h; omega
    | cons b t =>
      refine ⟨t, ?_, by simp, by simp⟩
      unfold evictHead
      rw [if_pos h]
      rfl
  · exact ⟨K, by simp only [evictHead, h, if_false], fun h => h, le_refl _⟩

/-- C8. Coalescing requires contiguity.  In a well-formed buffer with a consistent log and
a capacity of at least two entries (or no bound), let `ca` be typed through
`makeAction(InsertChar, ca)` with the cursor at `(x, y)` on an existing row, as a new entry
of the log.  The call succeeds and leaves the cursor at `(x + 1, y)`.  If the cursor is then
moved to any column `x2` of an existing row `y2` with `(x2, y2)` other than `(x + 1, y)`,
`makeAction(InsertChar, cb)` succeeds too and does not extend the previous entry: the chain
ends with the two InsertChar entries, the first recorded at `(x, y)` with payload `ca`, the
second at `(x2, y2)` with payload `cb`, and `current` is the second.  From the empty log the
chain is exactly these two entries. -/
theorem C8_coalescing_requires_contiguity (cap : Int) (ec : editor_config) (ca cb : Int)
    (hwf : WF ec) (hlog : LogWF ec.actions) (hcap : 2 ≤ cap ∨ cap = -1)
    (hon : OnRow ec ec.cursor_x ec.cursor_y)
    (hnc : concatWithLastAction cap ec ActionType.InsertChar (some [ca]) = some (false, ec)) :
    ∃ e1, makeAction cap ec ActionType.InsertChar (some [ca]) = some e1 ∧
      e1.cursor_x = ec.cursor_x + 1 ∧ e1.cursor_y = ec.cursor_y ∧
      ∀ (x2 y2 : Int), OnRow e1 x2 y2 → ¬ (x2 = ec.cursor_x + 1 ∧ y2 = ec.cursor_y) →
        ∃ e2 Q, typeAt cap e1 x2 y2 cb = some e2 ∧
          e2.actions.nodes
            = Q ++ [insAction ec.cursor_x ec.cursor_y [ca], insAction x2 y2 [cb]] ∧
          e2.actions.current = some (Q.length + 1) ∧
          e2.actions.size = ((Q.length + 2 : Nat) : Int) ∧
          (ec.actions.nodes = [] → Q = []) := by
  have hcap1 : CapOk cap := by rcases hcap with h | h; exact Or.inl (by omega); exact Or.inr h
  obtain ⟨e1, row, h1, hwf1, _, hact1, _, _, hx1, hy1⟩ :=
    typeAt_new cap ec ec.cursor_x ec.cursor_y ca hwf hcap1 hon hnc
  refine ⟨e1, h1, hx1, hy1, ?_⟩
  intro x2 y2 hon2 hmove
  rw [addAction_shape cap ec.actions _ hcap1 hlog] at hact1
  have hget : (evictHead cap (keptChain ec.actions)
      ++ [insAction ec.cursor_x ec.cursor_y [ca]])[(evictHead cap (keptChain ec.actions)).length]?
      = some (insAction ec.cursor_x ec.cursor_y [ca]) := by
    rw [List.getElem?_append_right (le_refl _)]; simp
  have hnc2 : concatWithLastAction cap { e1 with cursor_x := x2, cursor_y := y2 }
      ActionType.InsertChar (some [cb])
      = some (false, { e1 with cursor_x := x2, cursor_y := y2 }) := by
    apply concat_not_contiguous cap _ (evictHead cap (keptChain ec.actions)).length
      (insAction ec.cursor_x ec.cursor_y [ca]) [ca]
    · simp only [hact1]
    · simp only [hact1]; exact hget
    · rfl
    · intro hc
      apply hmove
      simp only [insAction, List.length_singleton, Nat.cast_one] at hc
      exact ⟨hc.2.symm, hc.1.symm⟩
  obtain ⟨e2, _, h2, _, _, hact2, _⟩ := typeAt_new cap e1 x2 y2 cb hwf1 hcap1 hon2 hnc2
  have hlog1 : LogWF e1.actions := by
    rw [hact1]
    refine ⟨by simp, ?_⟩
    intro c hc
    simp only [Option.some.injEq] at hc
    subst hc
    simp
  rw [addAction_shape cap e1.actions _ hcap1 hlog1, hact1, keptChain_tail] at hact2
  obtain ⟨Q, hQ, hQ0, _⟩ := evictHead_snoc cap (evictHead cap (keptChain ec.actions))
    (insAction ec.cursor_x ec.cursor_y [ca]) hcap
  rw [hQ] at hact2
  refine ⟨e2, Q, h2, ?_, ?_, ?_, ?_⟩
  · rw [hact2]; simp
  · rw [hact2]; simp
  · rw [hact2]; simp; omega
  · intro hn
    apply hQ0
    have hkc : keptChain ec.actions = [] := by
      simp only [keptChain]
      cases hcu : ec.actions.current with
      | none => rfl
      | some c => simp [hn]
    simp [hkc, evictHead]

/-- C8, witness: on the row "hello" with an empty log, 'a' is typed at column 2 and, after
the cursor is moved to column 0, 'b' is typed. -/
theorem C8_coalescing_requires_contiguity_witness :
    ∃ e1, makeAction ACTIONS_LIST_MAX_SIZE (plainBuffer ["hello"] 2 0) ActionType.InsertChar
        (some [97]) = some e1 ∧
      e1.cursor_x = (plainBuffer ["hello"] 2 0).cursor_x + 1 ∧
      e1.cursor_y = (plainBuffer ["hello"] 2 0).cursor_y ∧
      ∀ (x2 y2 : Int), OnRow e1 x2 y2 →
        ¬ (x2 = (plainBuffer ["hello"] 2 0).cursor_x + 1 ∧
            y2 = (plainBuffer ["hello"] 2 0).cursor_y) →
        ∃ e2 Q, typeAt ACTIONS_LIST_MAX_SIZE e1 x2 y2 98 = some e2 ∧
          e2.actions.nodes
            = Q ++ [insAction (plainBuffer ["hello"] 2 0).cursor_x
                (plainBuffer ["hello"] 2 0).cursor_y [97], insAction x2 y2 [98]] ∧
          e2.actions.current = some (Q.length + 1) ∧
          e2.actions.size = ((Q.length + 2 : Nat) : Int) ∧
          ((plainBuffer ["hello"] 2 0).actions.nodes = [] → Q = []) :=
  C8_coalescing_requires_contiguity ACTIONS_LIST_MAX_SIZE (plainBuffer ["hello"] 2 0) 97 98
    (by decide) (by decide) (by decide) (by decide) (by decide)

/-! ## C5: bounded history -/

theorem undo_after_typeAt (cap : Int) (ec e : editor_config) (x y c : Int) (i : Nat)
    (row : editor_row) (hcap : CapOk cap) (hx0 : 0 ≤ x) (hrow : rowAt ec y = some row)
    (hxl : x ≤ row.chars.length) (hwf : WF e)
    (ht : texts e.row = (texts ec.row).set y.toNat
      (row.chars.take x.toNat ++ [c] ++ row.chars.drop x.toNat))
    (hcur : e.actions.current = some i)
    (hget : e.actions.nodes[i]? = some (insAction x y [c])) :
    ∃ u, undo cap e = some u ∧ WF u ∧ texts u.row = texts ec.row ∧ u.num_rows = e.num_rows ∧
      u.actions = { e.actions with current := if i = 0 then none else some (i - 1) } := by
  have hy0 : 0 ≤ y := by
    by_contra h
    simp [rowAt, h] at hrow
  obtain ⟨k, rfl⟩ := Int.eq_ofNat_of_zero_le hy0
  obtain ⟨a, rfl⟩ := Int.eq_ofNat_of_zero_le hx0
  rw [rowAt_nat rfl] at hrow
  have hk := lt_of_getElem? hrow
  simp only [Int.toNat_ofNat] at ht
  obtain ⟨u, h1, h2, h3, h4, h5⟩ := undo_InsertChar cap e i k a row.chars [c] hwf hcap
    hcur hget (by rw [ht]; simp [texts, hk]) (by omega)
  refine ⟨u, h1, h2, ?_, h4, h5⟩
  rw [h3, ht, List.set_set]
  exact set_self (getElem?_texts hrow)

theorem evictHead_two (Q : List Action) (A : Action) (hQ : Q.length ≤ 1) :
    evictHead 2 (Q ++ [A]) = [A] := by
  cases Q with
  | nil => simp [evictHead]
  | cons b t =>
    have ht : t = [] := by
      cases t with
      | nil => rfl
      | cons _ _ => simp at hQ
    subst ht
    simp [evictHead]

theorem keptChain_length_le (l : ActionList) : (keptChain l).length ≤ l.nodes.length := by
  unfold keptChain
  cases l.current with
  | none => simp
  | some c => simp

theorem evictHead_two_length (K : List Action) (hK : K.length ≤ 2) :
    (evictHead 2 K).length ≤ 1 := by
  unfold evictHead
  split_ifs with h
  · simp; omega
  · simp only [not_and_or, not_lt] at h
    rcases h with h | h
    · omega
    · simp at h

theorem typeAt_after_entry (cap : Int) (ec : editor_config) (Q : List Action)
    (x0 y0 c0 x y c : Int) (hwf : WF ec) (hcap : CapOk cap)
    (hact : ec.actions = ActionList.mk (Q ++ [insAction x0 y0 [c0]]) (some Q.length)
      ((Q.length : Int) + 1))
    (hon : OnRow ec x y) (hmove : ¬ (x = x0 + 1 ∧ y = y0)) :
    ∃ e1 row, typeAt cap ec x y c = some e1 ∧ WF e1 ∧ rowAt ec y = some row ∧
      e1.actions = ActionList.mk (evictHead cap (Q ++ [insAction x0 y0 [c0]])
          ++ [insAction x y [c]])
        (some (evictHead cap (Q ++ [insAction x0 y0 [c0]])).length)
        (((evictHead cap (Q ++ [insAction x0 y0 [c0]])).length : Int) + 1) ∧
      texts e1.row = (texts ec.row).set y.toNat
        (row.chars.take x.toNat ++ [c] ++ row.chars.drop x.toNat) ∧
      e1.num_rows = ec.num_rows := by
  have hget : (Q ++ [insAction x0 y0 [c0]])[Q.length]? = some (insAction x0 y0 [c0]) := by
    rw [List.getElem?_append_right (le_refl _)]; simp
  have hnc : concatWithLastAction cap { ec with cursor_x := x, cursor_y := y }
      ActionType.InsertChar (some [c])
      = some (false, { ec with cursor_x := x, cursor_y := y }) := by
    apply concat_not_contiguous cap _ Q.length (insAction x0 y0 [c0]) [c0]
    · simp only [hact]
    · simp only [hact]; exact hget
    · rfl
    · intro hc
      apply hmove
      simp only [insAction, List.length_singleton, Nat.cast_one] at hc
      exact ⟨hc.2.symm, hc.1.symm⟩
  obtain ⟨e1, row, h1, hwf1, hr, ha, ht, hn, _, _⟩ := typeAt_new cap ec x y c hwf hcap hon hnc
  have hlog : LogWF ec.actions := by
    rw [hact]
    refine ⟨by simp, ?_⟩
    intro i hi
    simp only [Option.some.injEq] at hi
    subst hi
    simp
  rw [addAction_shape cap ec.actions _ hcap hlog, hact, keptChain_tail] at ha
  exact ⟨e1, row, h1, hwf1, hr, ha, ht, hn⟩

/-- C5. Bounded history.  First part, with capacity 2: in a well-formed buffer whose log is
consistent and holds at most 2 entries, three characters are typed through
`makeAction(InsertChar, _)` at columns of existing rows, each as a new entry (the first is
not coalesced with the tail of the log, the second and the third are typed away from the
position that follows the previous insertion).  All three calls succeed and the log retains
exactly the second and the third entry; two `undo()` calls succeed, the first restoring the
row contents that followed the second insertion and the second restoring the row contents
that followed the first insertion; `current` is then `NULL` and a third `undo()` changes no
row.  Second part, for every capacity `cap >= 1`: appending to a consistent log that holds
`cap` entries, none of them undone (`current` is the tail), removes exactly the head entry:
the chain becomes the old chain without its head, followed by the new node, and the log
holds `cap` entries again. -/
theorem C5_bounded_history :
    (∀ (ec : editor_config) (xa ya a : Int), WF ec → LogWF ec.actions →
      ec.actions.nodes.length ≤ 2 → OnRow ec xa ya →
      concatWithLastAction 2 { ec with cursor_x := xa, cursor_y := ya } ActionType.InsertChar
          (some [a]) = some (false, { ec with cursor_x := xa, cursor_y := ya }) →
      ∃ eA, typeAt 2 ec xa ya a = some eA ∧
        ∀ (xb yb b : Int), OnRow eA xb yb → ¬ (xb = xa + 1 ∧ yb = ya) →
          ∃ eB, typeAt 2 eA xb yb b = some eB ∧
            ∀ (xc yc c : Int), OnRow eB xc yc → ¬ (xc = xb + 1 ∧ yc = yb) →
              ∃ eC u1 u2 u3, typeAt 2 eB xc yc c = some eC ∧
                eC.actions.nodes = [insAction xb yb [b], insAction xc yc [c]] ∧
                eC.actions.current = some 1 ∧
                undo 2 eC = some u1 ∧ texts u1.row = texts eB.row ∧
                undo 2 u1 = some u2 ∧ texts u2.row = texts eA.row ∧
                u2.num_rows = eA.num_rows ∧ u2.actions.current = none ∧
                undo 2 u2 = some u3 ∧ u3.row = u2.row) ∧
    (∀ (cap : Int) (l : ActionList) (A : Action), 1 ≤ cap → LogWF l →
      (l.nodes.length : Int) = cap → l.current = some (l.nodes.length - 1) →
      (addAction cap l A).nodes = l.nodes.drop 1 ++ [A] ∧
        (addAction cap l A).current = some (l.nodes.length - 1) ∧
        (addAction cap l A).size = cap) := by
  constructor
  · intro ec xa ya a hwf hlog hsz honA hncA
    have hcap : CapOk 2 := Or.inl (by decide)
    obtain ⟨eA, rowA, hA, hwfA, hrA, haA, htA, hnA, _, _⟩ :=
      typeAt_new 2 ec xa ya a hwf hcap honA hncA
    rw [addAction_shape 2 ec.actions _ hcap hlog] at haA
    have hQA : (evictHead 2 (keptChain ec.actions)).length ≤ 1 :=
      evictHead_two_length _ (le_trans (keptChain_length_le _) hsz)
    refine ⟨eA, hA, ?_⟩
    intro xb yb b honB hmB
    obtain ⟨eB, rowB, hB, hwfB, hrB, haB, htB, hnB⟩ :=
      typeAt_after_entry 2 eA _ xa ya a xb yb b hwfA hcap haA honB hmB
    rw [evictHead_two _ _ hQA] at haB
    refine ⟨eB, hB, ?_⟩
    intro xc yc c honC hmC
    obtain ⟨eC, rowC, hC, hwfC, hrC, haC, htC, hnC⟩ :=
      typeAt_after_entry 2 eB [insAction xa ya [a]] xb yb b xc yc c hwfB hcap haB honC hmC
    have hev : evictHead 2 ([insAction xa ya [a]] ++ [insAction xb yb [b]])
        = [insAction xb yb [b]] := by
      simp [evictHead]
    rw [hev] at haC
    obtain ⟨u1, hu1, hwf1, ht1, hn1, ha1⟩ := undo_after_typeAt 2 eB eC xc yc c 1 rowC hcap
      honC.1 hrC (by obtain ⟨_, r, hr, hx⟩ := honC; rw [hrC] at hr; cases hr; exact hx)
      hwfC htC (by rw [haC]; rfl) (by rw [haC]; rfl)
    have hcur1 : u1.actions.current = some 0 := by rw [ha1]; rfl
    have hget1 : u1.actions.nodes[0]? = some (insAction xb yb [b]) := by
      rw [ha1, haC]; rfl
    obtain ⟨u2, hu2, hwf2, ht2, hn2, ha2⟩ := undo_after_typeAt 2 eA u1 xb yb b 0 rowB hcap
      honB.1 hrB (by obtain ⟨_, r, hr, hx⟩ := honB; rw [hrB] at hr; cases hr; exact hx)
      hwf1 (by rw [ht1]; exact htB) hcur1 hget1
    have hcur2 : u2.actions.current = none := by rw [ha2]; rfl
    have hu3 : undo 2 u2 = some { u2 with dirty := 0 } := by
      simp [undo, hcur2]
    refine ⟨eC, u1, u2, _, hC, by rw [haC]; rfl, by rw [haC]; rfl, hu1, ht1, hu2, ht2, ?_,
      hcur2, hu3, rfl⟩
    rw [hn2, hn1, hnC, hnB]
  · intro cap l A hcap hlog hlen hcur
    have hcapok : CapOk cap := Or.inl hcap
    have hpos : 0 < l.nodes.length := by omega
    have hk : keptChain l = l.nodes := by
      simp only [keptChain, hcur]
      rw [List.take_of_length_le (by omega)]
    have hev : evictHead cap l.nodes = l.nodes.drop 1 := by
      unfold evictHead
      rw [if_pos ⟨by omega, by omega⟩]
    rw [addAction_shape cap l A hcapok hlog, hk, hev]
    refine ⟨rfl, ?_, ?_⟩
    · simp
    · simp only [List.length_drop]
      omega

/-- C5, witness: on the rows "hello" and "world" with an empty log, 'a' is typed at column 2
of row 0, then 'b' at column 0 of row 1, then 'c' at column 5 of row 0 (the first part at
its first step), and a node is appended to a log of two entries with capacity 2. -/
theorem C5_bounded_history_witness :
    (∃ eA, typeAt 2 (plainBuffer ["hello", "world"] 0 0) 2 0 97 = some eA ∧
      ∀ (xb yb b : Int), OnRow eA xb yb → ¬ (xb = 2 + 1 ∧ yb = 0) →
        ∃ eB, typeAt 2 eA xb yb b = some eB ∧
          ∀ (xc yc c : Int), OnRow eB xc yc → ¬ (xc = xb + 1 ∧ yc = yb) →
            ∃ eC u1 u2 u3, typeAt 2 eB xc yc c = some eC ∧
              eC.actions.nodes = [insAction xb yb [b], insAction xc yc [c]] ∧
              eC.actions.current = some 1 ∧
              undo 2 eC = some u1 ∧ texts u1.row = texts eB.row ∧
              undo 2 u1 = some u2 ∧ texts u2.row = texts eA.row ∧
              u2.num_rows = eA.num_rows ∧ u2.actions.current = none ∧
              undo 2 u2 = some u3 ∧ u3.row = u2.row) ∧
    ((addAction 2 (ActionList.mk [insAction 0 0 [97], insAction 2 0 [98]] (some 1) 2)
        (insAction 4 0 [99])).nodes
        = [insAction 0 0 [97], insAction 2 0 [98]].drop 1 ++ [insAction 4 0 [99]] ∧
      (addAction 2 (ActionList.mk [insAction 0 0 [97], insAction 2 0 [98]] (some 1) 2)
        (insAction 4 0 [99])).current = some (2 - 1) ∧
      (addAction 2 (ActionList.mk [insAction 0 0 [97], insAction 2 0 [98]] (some 1) 2)
        (insAction 4 0 [99])).size = 2) :=
  ⟨C5_bounded_history.1 (plainBuffer ["hello", "world"] 0 0) 2 0 97 (by decide) (by decide)
      (by decide) (by decide) (by decide),
   C5_bounded_history.2 2 (ActionList.mk [insAction 0 0 [97], insAction 2 0 [98]] (some 1) 2)
      (insAction 4 0 [99]) (by decide) (by decide) (by decide) (by decide)⟩

/-! ## C6: redo truncation -/

theorem current_none_of_nil {l : ActionList} (hl : LogWF l) (hn : l.nodes = []) :
    l.current = none := by
  cases hc : l.current with
  | none => rfl
  | some c =>
    have := hl.2 c hc
    simp [hn] at this

theorem evictHead_of_le (cap : Int) (K : List Action)
    (h : cap = -1 ∨ (K.length : Int) + 1 ≤ cap) : evictHead cap K = K := by
  unfold evictHead
  rw [if_neg]
  intro hc
  rcases h with h | h
  · exact hc.2 h
  · omega

theorem keptChain_length_lt (l : ActionList) (hl : LogWF l) (hne : l.nodes ≠ [])
    (hnt : l.current ≠ some (l.nodes.length - 1)) : (keptChain l).length < l.nodes.length := by
  have hpos : 0 < l.nodes.length := List.length_pos.mpr hne
  unfold keptChain
  cases hc : l.current with
  | none => simpa using hpos
  | some c =>
    have h1 := hl.2 c hc
    have h2 : c + 1 < l.nodes.length := by
      by_contra h
      apply hnt
      rw [hc]
      congr 1
      omega
    simp only [List.length_take]
    omega

/-- C6. Redo truncation.  First part: let `addAction` be called on a consistent log that
holds at most `cap` entries (or `cap` is -1), with `current` other than the tail.  The
linking phase removes every node after `current` (every node when `current` is `NULL`) and
links the new node; the chain becomes the nodes from the head to `current` followed by the
new node, `current` is the new node, which is the tail, the counter is the length of the
chain, and the log holds at most `cap` entries again.  Second part, with a capacity of at
least two entries (or no bound) and an empty log: a character `a` is typed at a column of
an existing row, a character `b` is typed away from the position that follows `a`,
`undo()` is called, and a character `c` is typed at a column of an existing row.  All calls
succeed; the undo restores the row contents that followed the first insertion; the log is
then exactly the first and the third entry, with `current` the third, and `redo()` returns
the state unchanged: it executes nothing and changes no row. -/
theorem C6_redo_truncation :
    (∀ (cap : Int) (l : ActionList) (A : Action), CapOk cap → LogWF l →
      (cap = -1 ∨ (l.nodes.length : Int) ≤ cap) → l.nodes ≠ [] →
      l.current ≠ some (l.nodes.length - 1) →
      (∀ c, l.current = some c →
        (addActionLink l A).nodes = l.nodes.take (c + 1) ++ [A] ∧
        (addAction cap l A).nodes = l.nodes.take (c + 1) ++ [A] ∧
        (addAction cap l A).current = some (c + 1)) ∧
      (l.current = none →
        (addActionLink l A).nodes = [A] ∧ (addAction cap l A).nodes = [A] ∧
        (addAction cap l A).current = some 0) ∧
      (addAction cap l A).current = some ((addAction cap l A).nodes.length - 1) ∧
      (addAction cap l A).size = (addAction cap l A).nodes.length ∧
      (cap = -1 ∨ ((addAction cap l A).nodes.length : Int) ≤ cap)) ∧
    (∀ (cap : Int) (ec : editor_config) (xa ya a : Int), WF ec → LogWF ec.actions →
      ec.actions.nodes = [] → (2 ≤ cap ∨ cap = -1) → OnRow ec xa ya →
      ∃ eA, typeAt cap ec xa ya a = some eA ∧
        ∀ (xb yb b : Int), OnRow eA xb yb → ¬ (xb = xa + 1 ∧ yb = ya) →
          ∃ eB u, typeAt cap eA xb yb b = some eB ∧
            eB.actions.nodes = [insAction xa ya [a], insAction xb yb [b]] ∧
            undo cap eB = some u ∧ texts u.row = texts eA.row ∧
            ∀ (xc yc c : Int), OnRow u xc yc →
              ∃ eC, typeAt cap u xc yc c = some eC ∧
                eC.actions.nodes = [insAction xa ya [a], insAction xc yc [c]] ∧
                eC.actions.current = some 1 ∧ eC.actions.size = 2 ∧
                redo cap eC = some eC) := by
  constructor
  · intro cap l A hcap hlog hsz hne hnt
    have hlt := keptChain_length_lt l hlog hne hnt
    have hev : evictHead cap (keptChain l) = keptChain l :=
      evictHead_of_le cap _ (by rcases hsz with h | h; exact Or.inl h; exact Or.inr (by omega))
    have hsh := addAction_shape cap l A hcap hlog
    have hln := addActionLink_shape l A hlog
    rw [hev] at hsh
    refine ⟨?_, ?_, ?_, ?_, ?_⟩
    · intro c hc
      have hk : keptChain l = l.nodes.take (c + 1) := by simp only [keptChain, hc]
      have hc1 : c + 1 ≤ l.nodes.length := by have := hlog.2 c hc; omega
      rw [hsh, hln, hk]
      exact ⟨rfl, rfl, by simp [hc1]⟩
    · intro hc
      have hk : keptChain l = [] := by simp only [keptChain, hc]
      rw [hsh, hln, hk]
      exact ⟨rfl, rfl, rfl⟩
    · rw [hsh]; simp
    · rw [hsh]; simp
    · rw [hsh]
      rcases hsz with h | h
      · exact Or.inl h
      · right
        simp only [List.length_append, List.length_singleton]
        omega
  · intro cap ec xa ya a hwf hlog hnil hcap2 honA
    have hcap : CapOk cap := by
      rcases hcap2 with h | h
      · exact Or.inl (by omega)
      · exact Or.inr h
    have hcur0 := current_none_of_nil hlog hnil
    have hle : ∀ K : List Action, K.length ≤ 1 → (cap = -1 ∨ (K.length : Int) + 1 ≤ cap) := by
      intro K hK
      rcases hcap2 with h | h
      · right; omega
      · exact Or.inl h
    obtain ⟨eA, rowA, hA, hwfA, hrA, haA, htA, hnA, _, _⟩ :=
      typeAt_new cap ec xa ya a hwf hcap honA (concat_no_current cap _ _ hcur0)
    have hk0 : keptChain ec.actions = [] := by simp only [keptChain, hcur0]
    rw [addAction_shape cap ec.actions _ hcap hlog, hk0,
      evictHead_of_le cap [] (hle [] (by simp))]
      at haA
    refine ⟨eA, hA, ?_⟩
    intro xb yb b honB hmB
    obtain ⟨eB, rowB, hB, hwfB, hrB, haB, htB, hnB⟩ :=
      typeAt_after_entry cap eA [] xa ya a xb yb b hwfA hcap haA honB hmB
    rw [evictHead_of_le cap _ (hle _ (by simp))] at haB
    obtain ⟨u, hu, hwfu, htu, hnu, hau⟩ := undo_after_typeAt cap eA eB xb yb b 1 rowB hcap
      honB.1 hrB (by obtain ⟨_, r, hr, hx⟩ := honB; rw [hrB] at hr; cases hr; exact hx)
      hwfB htB (by rw [haB]; rfl) (by rw [haB]; rfl)
    refine ⟨eB, u, hB, by rw [haB]; rfl, hu, htu, ?_⟩
    intro xc yc c honC
    have hau2 : u.actions
        = ActionList.mk [insAction xa ya [a], insAction xb yb [b]] (some 0) 2 := by
      rw [hau, haB]; rfl
    have hlogu : LogWF u.actions := by
      rw [hau2]
      refine ⟨rfl, ?_⟩
      intro i hi
      simp only [Option.some.injEq] at hi
      subst hi
      simp
    obtain ⟨eC, rowC, hC, hwfC, hrC, haC, htC, hnC, _, _⟩ :=
      typeAt_new cap u xc yc c hwfu hcap honC
        (concat_not_tail cap _ 0 _ (by simp only [hau2]) (by simp only [hau2]; simp))
    have hkc : keptChain u.actions = [insAction xa ya [a]] := by rw [hau2]; rfl
    rw [addAction_shape cap u.actions _ hcap hlogu, hkc, evictHead_of_le cap _ (hle _ (by simp))] at haC
    have hcap0 : ¬ cap = 0 := by rcases hcap with h | h <;> omega
    refine ⟨eC, hC, by rw [haC]; rfl, by rw [haC]; rfl, by rw [haC]; rfl, ?_⟩
    simp [redo, hcap0, haC]

/-- C6, witness: a node is appended to a log of two entries whose `current` is the head,
and the second part is run on the rows "hello" and "world" with an empty log and the
capacity of the program, the first character being typed at column 2 of row 0. -/
theorem C6_redo_truncation_witness :
    ((∀ c, (ActionList.mk [insAction 0 0 [97], insAction 2 0 [98]] (some 0) 2).current = some c →
        (addActionLink (ActionList.mk [insAction 0 0 [97], insAction 2 0 [98]] (some 0) 2)
          (insAction 4 0 [99])).nodes
          = [insAction 0 0 [97], insAction 2 0 [98]].take (c + 1) ++ [insAction 4 0 [99]] ∧
        (addAction 2 (ActionList.mk [insAction 0 0 [97], insAction 2 0 [98]] (some 0) 2)
          (insAction 4 0 [99])).nodes
          = [insAction 0 0 [97], insAction 2 0 [98]].take (c + 1) ++ [insAction 4 0 [99]] ∧
        (addAction 2 (ActionList.mk [insAction 0 0 [97], insAction 2 0 [98]] (some 0) 2)
          (insAction 4 0 [99])).current = some (c + 1))) ∧
    (∃ eA, typeAt ACTIONS_LIST_MAX_SIZE (plainBuffer ["hello", "world"] 0 0) 2 0 97 = some eA ∧
      ∀ (xb yb b : Int), OnRow eA xb yb → ¬ (xb = 2 + 1 ∧ yb = 0) →
        ∃ eB u, typeAt ACTIONS_LIST_MAX_SIZE eA xb yb b = some eB ∧
          eB.actions.nodes = [insAction 2 0 [97], insAction xb yb [b]] ∧
          undo ACTIONS_LIST_MAX_SIZE eB = some u ∧ texts u.row = texts eA.row ∧
          ∀ (xc yc c : Int), OnRow u xc yc →
            ∃ eC, typeAt ACTIONS_LIST_MAX_SIZE u xc yc c = some eC ∧
              eC.actions.nodes = [insAction 2 0 [97], insAction xc yc [c]] ∧
              eC.actions.current = some 1 ∧ eC.actions.size = 2 ∧
              redo ACTIONS_LIST_MAX_SIZE eC = some eC) :=
  ⟨(C6_redo_truncation.1 2 (ActionList.mk [insAction 0 0 [97], insAction 2 0 [98]] (some 0) 2)
      (insAction 4 0 [99]) (by decide) (by decide) (by decide) (by decide) (by decide)).1,
   C6_redo_truncation.2 ACTIONS_LIST_MAX_SIZE (plainBuffer ["hello", "world"] 0 0) 2 0 97
      (by decide) (by decide) (by decide) (by decide) (by decide)⟩

/-! ## The scanner: what one pass keeps -/

theorem memset_length {α : Type} (l : List α) (i n : Nat) (v : α) :
    (memset l i n v).length = l.length := by
  induction l generalizing i n with
  | nil => simp [memset]
  | cons h t ih =>
    cases i with
    | zero =>
      cases n with
      | zero => simp [memset]
      | succ n => simp [memset, ih]
    | succ i => simp [memset, ih]

theorem memset_getElem?_lt {α : Type} (l : List α) (i n j : Nat) (v : α) (hj : j < i) :
    (memset l i n v)[j]? = l[j]? := by
  induction l generalizing i n j with
  | nil => simp [memset]
  | cons h t ih =>
    cases i with
    | zero => omega
    | succ i =>
      cases j with
      | zero => simp [memset]
      | succ j => simp [memset, ih i n j (by omega)]

theorem memset_getElem?_in {α : Type} (l : List α) (i n j : Nat) (v : α) (h1 : i ≤ j)
    (h2 : j < i + n) (h3 : j < l.length) : (memset l i n v)[j]? = some v := by
  induction l generalizing i n j with
  | nil => simp at h3
  | cons h t ih =>
    cases i with
    | zero =>
      cases n with
      | zero => omega
      | succ n =>
        cases j with
        | zero => simp [memset]
        | succ j =>
          simp only [memset, List.getElem?_cons_succ]
          cases n with
          | zero => omega
          | succ n => exact ih 0 (n + 1) j (by omega) (by omega) (by simpa using h3)
    | succ i =>
      cases j with
      | zero => omega
      | succ j =>
        simp only [memset, List.getElem?_cons_succ]
        exact ih i n j (by omega) (by omega) (by simpa using h3)

theorem StepInv_refl (st : scan_state) : StepInv st st := ⟨rfl, le_refl _, fun _ _ => rfl⟩

theorem StepInv_trans {a b c : scan_state} (h1 : StepInv a b) (h2 : StepInv b c) :
    StepInv a c :=
  ⟨h2.1.trans h1.1, le_trans h1.2.1 h2.2.1,
    fun j hj => (h2.2.2 j (lt_of_lt_of_le hj h1.2.1)).trans (h1.2.2 j hj)⟩

theorem StepInv_set (st : scan_state) (hl : List editor_highlight) (v : editor_highlight)
    (k i1 : Nat) (ps : Bool) (is : Int) (ic : Bool) (hk : st.i ≤ k) (hi : st.i ≤ i1)
    (h : StepInv st { st with highlight := hl }) :
    StepInv st { i := i1, prev_sep := ps, in_string := is, in_comment := ic,
                 highlight := hl.set k v } := by
  obtain ⟨h1, _, h3⟩ := h
  refine ⟨by simpa using h1, hi, ?_⟩
  intro j hj
  simp only [List.getElem?_set]
  rw [if_neg (by omega)]
  exact h3 j hj

theorem StepInv_memset (st : scan_state) (hl : List editor_highlight) (v : editor_highlight)
    (k n i1 : Nat) (ps : Bool) (is : Int) (ic : Bool) (hk : st.i ≤ k) (hi : st.i ≤ i1)
    (h : StepInv st { st with highlight := hl }) :
    StepInv st { i := i1, prev_sep := ps, in_string := is, in_comment := ic,
                 highlight := memset hl k n v } := by
  obtain ⟨h1, _, h3⟩ := h
  refine ⟨by simpa [memset_length] using h1, hi, ?_⟩
  intro j hj
  rw [memset_getElem?_lt _ _ _ _ _ (by omega)]
  exact h3 j hj

theorem stepKeyword_inv ( s : editor_syntax) (render : List Int) (st : scan_state) :
    StepInv st (stepKeyword s render st).1 ∧
      (stepKeyword s render st).1.in_comment = st.in_comment := by
  unfold stepKeyword
  simp only
  split_ifs
  · split
    · exact ⟨StepInv_memset st _ _ _ _ _ _ _ _ (le_refl _)
        (le_trans (Nat.le_add_right _ _) (Nat.le_add_right _ _)) (StepInv_refl st), rfl⟩
    · exact ⟨⟨rfl, Nat.le_add_right _ _, fun _ _ => rfl⟩, rfl⟩
  · exact ⟨⟨rfl, Nat.le_add_right _ _, fun _ _ => rfl⟩, rfl⟩

theorem stepNumber_inv ( s : editor_syntax) (render : List Int) (st : scan_state) :
    StepInv st (stepNumber s render st).1 ∧
      (stepNumber s render st).1.in_comment = st.in_comment := by
  unfold stepNumber
  simp only
  split_ifs
  all_goals first
    | exact stepKeyword_inv s render st
    | exact ⟨StepInv_set st _ _ _ _ _ _ _ (le_refl _) (Nat.le_add_right _ _) (StepInv_refl st),
        rfl⟩

theorem stepString_inv ( s : editor_syntax) (render : List Int) (st : scan_state) :
    StepInv st (stepString s render st).1 ∧
      (stepString s render st).1.in_comment = st.in_comment := by
  unfold stepString
  simp only
  split_ifs
  all_goals first
    | exact stepNumber_inv s render st
    | exact ⟨StepInv_set st _ _ _ _ _ _ _ (le_refl _) (Nat.le_add_right _ _) (StepInv_refl st),
        rfl⟩
    | exact ⟨StepInv_set st _ _ _ _ _ _ _ (Nat.le_add_right _ _) (Nat.le_add_right _ _)
        (StepInv_set st _ _ _ _ _ _ _ (le_refl _) (le_refl _) (StepInv_refl st)), rfl⟩

theorem stepMlComment_inv ( s : editor_syntax) (render : List Int) (st : scan_state) :
    StepInv st (stepMlComment s render st).1 ∧
      (st.in_comment = false →
        strncmpEq render st.i (s.multiline_comment_start.getD []) = false →
        (stepMlComment s render st).1.in_comment = false) := by
  have hs := stepString_inv s render st
  unfold stepMlComment
  simp only
  by_cases h1 : (s.multiline_comment_start.getD []).length ≠ 0 ∧
      (s.multiline_comment_end.getD []).length ≠ 0 ∧ st.in_string = 0
  · rw [if_pos h1]
    by_cases h2 : st.in_comment = true
    · rw [if_pos h2]
      by_cases h3 : strncmpEq render st.i (s.multiline_comment_end.getD []) = true
      · rw [if_pos h3]
        refine ⟨StepInv_memset st _ _ _ _ _ _ _ _ (le_refl _) (Nat.le_add_right _ _) ?_,
          fun _ _ => rfl⟩
        exact StepInv_set st _ _ _ _ _ _ _ (le_refl _) (le_refl _) (StepInv_refl st)
      · rw [if_neg h3]
        refine ⟨StepInv_set st _ _ _ _ _ _ _ (le_refl _) (Nat.le_add_right _ _)
          (StepInv_refl st), ?_⟩
        intro h; rw [h] at h2; cases h2
    · rw [if_neg h2]
      by_cases h4 : strncmpEq render st.i (s.multiline_comment_start.getD []) = true
      · rw [if_pos h4]
        refine ⟨StepInv_memset st _ _ _ _ _ _ _ _ (le_refl _) (Nat.le_add_right _ _)
          (StepInv_refl st), ?_⟩
        intro _ h; rw [h] at h4; cases h4
      · rw [if_neg h4]
        exact ⟨hs.1, fun h _ => hs.2.trans h⟩
  · rw [if_neg h1]
    exact ⟨hs.1, fun h _ => hs.2.trans h⟩

theorem scanStep_inv ( s : editor_syntax) (render : List Int) (st : scan_state) :
    StepInv st (scanStep s render st).1 ∧
      (st.in_comment = false →
        strncmpEq render st.i (s.multiline_comment_start.getD []) = false →
        (scanStep s render st).1.in_comment = false) := by
  unfold scanStep
  simp only
  split_ifs with h1
  · exact ⟨StepInv_memset st _ _ _ _ _ _ _ _ (le_refl _) (le_refl _) (StepInv_refl st),
      fun h _ => h⟩
  · exact stepMlComment_inv s render st

theorem scanLoop_inv ( s : editor_syntax) (render : List Int) (fuel : Nat) (st : scan_state)
    (hf : render.length - st.i ≤ fuel) :
    ∃ st1, scanLoop s render fuel st = some st1 ∧ StepInv st st1 ∧
      (st.in_comment = false →
        (∀ j, st.i ≤ j → strncmpEq render j (s.multiline_comment_start.getD []) = false) →
        st1.in_comment = false) := by
  induction fuel generalizing st with
  | zero =>
    simp only [scanLoop]
    split_ifs with h
    · omega
    · exact ⟨_, rfl, StepInv_refl st, fun h _ => h⟩
  | succ n ih =>
    simp only [scanLoop]
    split_ifs with h
    · have hinv := scanStep_inv s render st
      rcases hstep : scanStep s render st with ⟨st1, b⟩
      rw [hstep] at hinv
      cases b with
      | true => exact ⟨_, rfl, hinv.1, fun h1 h2 => hinv.2 h1 (h2 _ (le_refl _))⟩
      | false =>
        have hadv := scanStep_advances s render st st1 hstep
        obtain ⟨st2, e1, e2, e3⟩ := ih st1 (by omega)
        refine ⟨st2, e1, StepInv_trans hinv.1 e2, ?_⟩
        intro h1 h2
        exact e3 (hinv.2 h1 (h2 _ (le_refl _))) (fun j hj => h2 j (by omega))
    · exact ⟨_, rfl, StepInv_refl st, fun h _ => h⟩

/-! ## The scanner inside a block comment -/

theorem scanStep_in_comment ( s : editor_syntax) (render : List Int) (st : scan_state)
    (hmcs : (s.multiline_comment_start.getD []).length ≠ 0)
    (hmce : (s.multiline_comment_end.getD []).length ≠ 0)
    (hc : st.in_comment = true) (hs : st.in_string = 0)
    (hno : strncmpEq render st.i (s.multiline_comment_end.getD []) = false) :
    scanStep s render st
      = ({ st with highlight := st.highlight.set st.i HL_ML_COMMENT, i := st.i + 1 }, false) := by
  simp [scanStep, stepMlComment, hc, hs, hno, hmcs, hmce]

theorem scanStep_close ( s : editor_syntax) (render : List Int) (st : scan_state)
    (hmcs : (s.multiline_comment_start.getD []).length ≠ 0)
    (hmce : (s.multiline_comment_end.getD []).length ≠ 0)
    (hc : st.in_comment = true) (hs : st.in_string = 0)
    (hyes : strncmpEq render st.i (s.multiline_comment_end.getD []) = true) :
    scanStep s render st
      = ({ st with
           highlight := memset (st.highlight.set st.i HL_ML_COMMENT) st.i
             (s.multiline_comment_end.getD []).length HL_ML_COMMENT
           i := st.i + (s.multiline_comment_end.getD []).length
           in_comment := false
           prev_sep := true }, false) := by
  simp [scanStep, stepMlComment, hc, hs, hyes, hmcs, hmce]

theorem scanStep_open ( s : editor_syntax) (render : List Int) (st : scan_state)
    (hmcs : (s.multiline_comment_start.getD []).length ≠ 0)
    (hmce : (s.multiline_comment_end.getD []).length ≠ 0)
    (hc : st.in_comment = false) (hs : st.in_string = 0)
    (hscs : strncmpEq render st.i (s.singleline_comment_start.getD []) = false)
    (hyes : strncmpEq render st.i (s.multiline_comment_start.getD []) = true) :
    scanStep s render st
      = ({ st with
           highlight := memset st.highlight st.i
             (s.multiline_comment_start.getD []).length HL_ML_COMMENT
           i := st.i + (s.multiline_comment_start.getD []).length
           in_comment := true }, false) := by
  simp [scanStep, stepMlComment, hc, hs, hyes, hscs, hmcs, hmce]

theorem scanLoop_in_comment ( s : editor_syntax) (render : List Int)
    (hmcs : (s.multiline_comment_start.getD []).length ≠ 0)
    (hmce : (s.multiline_comment_end.getD []).length ≠ 0) (m : Nat) (hm : m ≤ render.length) :
    ∀ (d fuel : Nat) (st : scan_state), st.in_comment = true → st.in_string = 0 →
      st.i + d = m → d ≤ fuel → st.highlight.length = render.length →
      (∀ j, st.i ≤ j → j < m →
        strncmpEq render j (s.multiline_comment_end.getD []) = false) →
      ∃ hl, scanLoop s render fuel st
          = scanLoop s render (fuel - d) { st with i := m, highlight := hl } ∧
        hl.length = render.length ∧ (∀ j, j < st.i → hl[j]? = st.highlight[j]?) ∧
        (∀ j, st.i ≤ j → j < m → hl[j]? = some HL_ML_COMMENT) ∧
        (∀ j, m ≤ j → hl[j]? = st.highlight[j]?) := by
  intro d
  induction d with
  | zero =>
    intro fuel st hc hs hi hf hl hno
    refine ⟨st.highlight, ?_, hl, fun _ _ => rfl, ?_, fun _ _ => rfl⟩
    · have : st.i = m := by omega
      subst this
      rfl
    · intro j h1 h2; omega
  | succ d ih =>
    intro fuel st hc hs hi hf hl hno
    obtain ⟨f, rfl⟩ : ∃ f, fuel = f + 1 := ⟨fuel - 1, by omega⟩
    have hlt : st.i < render.length := by omega
    have hstep := scanStep_in_comment s render st hmcs hmce hc hs
      (hno st.i (le_refl _) (by omega))
    obtain ⟨hl2, e1, e2, e3, e4, e5⟩ := ih f
      { st with highlight := st.highlight.set st.i HL_ML_COMMENT, i := st.i + 1 } hc hs
      (by simp only; omega) (by omega) (by simpa using hl)
      (fun j h1 h2 => hno j (by simp only at h1; omega) h2)
    refine ⟨hl2, ?_, e2, ?_, ?_, ?_⟩
    · simp only [scanLoop, hlt, if_true, hstep]
      rw [e1]
      simp
    · intro j hj
      rw [e3 j (by simp only; omega)]
      simp only [List.getElem?_set]
      rw [if_neg (by omega)]
    · intro j h1 h2
      by_cases hj : j = st.i
      · subst hj
        rw [e3 _ (by simp)]
        simp only [List.getElem?_set, if_true]
        rw [if_pos (by omega)]
      · exact e4 j (by simp only; omega) h2
    · intro j hj
      rw [e5 j hj]
      simp only [List.getElem?_set]
      rw [if_neg (by omega)]

theorem eq_replicate_of_getElem? {α : Type} (l : List α) (n : Nat) (v : α)
    (hl : l.length = n) (h : ∀ j, j < n → l[j]? = some v) : l = List.replicate n v := by
  apply List.ext_getElem?
  intro j
  by_cases hj : j < n
  · rw [h j hj, List.getElem?_replicate, if_pos hj]
  · rw [List.getElem?_eq_none (by omega), List.getElem?_replicate, if_neg hj]

theorem scanLoop_done ( s : editor_syntax) (render : List Int) (fuel : Nat) (st : scan_state)
    (h : render.length ≤ st.i) : scanLoop s render fuel st = some st := by
  cases fuel with
  | zero => simp only [scanLoop]; rw [if_neg (by omega)]
  | succ n => simp only [scanLoop]; rw [if_neg (by omega)]

/-- A row entered inside a comment whose render has no comment end is a comment
throughout, and stays open. -/
theorem scanRow_all_comment ( s : editor_syntax) (render : List Int)
    (hmcs : (s.multiline_comment_start.getD []).length ≠ 0)
    (hmce : (s.multiline_comment_end.getD []).length ≠ 0)
    (hno : ∀ j, j < render.length →
      strncmpEq render j (s.multiline_comment_end.getD []) = false) :
    scanRow s render true
      = some { i := render.length, prev_sep := true, in_string := 0, in_comment := true,
               highlight := List.replicate render.length HL_ML_COMMENT } := by
  obtain ⟨hl, e1, e2, _, e4, _⟩ := scanLoop_in_comment s render hmcs hmce render.length
    (le_refl _) render.length render.length
    { i := 0, prev_sep := true, in_string := 0, in_comment := true,
      highlight := List.replicate render.length HL_NORMAL } rfl rfl (by simp) (le_refl _)
    (by simp) (fun j _ h => hno j h)
  have : hl = List.replicate render.length HL_ML_COMMENT :=
    eq_replicate_of_getElem? hl _ _ e2 (fun j hj => e4 j (Nat.zero_le _) hj)
  unfold scanRow
  rw [e1, scanLoop_done _ _ _ _ (le_refl _), this]

/-- A row entered outside a comment whose render starts with the comment start and has
no comment end after it is a comment throughout, and stays open. -/
theorem scanRow_opens ( s : editor_syntax) (render : List Int)
    (hmcs : (s.multiline_comment_start.getD []).length ≠ 0)
    (hmce : (s.multiline_comment_end.getD []).length ≠ 0)
    (hscs : strncmpEq render 0 (s.singleline_comment_start.getD []) = false)
    (hyes : strncmpEq render 0 (s.multiline_comment_start.getD []) = true)
    (hno : ∀ j, (s.multiline_comment_start.getD []).length ≤ j → j < render.length →
      strncmpEq render j (s.multiline_comment_end.getD []) = false) :
    ∃ st, scanRow s render false = some st ∧ st.in_comment = true ∧
      st.highlight = List.replicate render.length HL_ML_COMMENT := by
  have hpre : (s.multiline_comment_start.getD []).length ≤ render.length := by
    simp only [strncmpEq, List.drop_zero, List.isPrefixOf_iff_prefix] at hyes
    exact hyes.length_le
  have hpos : 0 < render.length := by omega
  obtain ⟨n, hn⟩ : ∃ n, render.length = n + 1 := ⟨render.length - 1, by omega⟩
  have hstep := scanStep_open s render
    { i := 0, prev_sep := true, in_string := 0, in_comment := false,
      highlight := List.replicate render.length HL_NORMAL } hmcs hmce rfl rfl hscs hyes
  obtain ⟨hl, e1, e2, e3, e4, _⟩ := scanLoop_in_comment s render hmcs hmce render.length
    (le_refl _) (render.length - (s.multiline_comment_start.getD []).length) n
    { i := 0 + (s.multiline_comment_start.getD []).length, prev_sep := true, in_string := 0,
      in_comment := true,
      highlight := memset (List.replicate render.length HL_NORMAL) 0
        (s.multiline_comment_start.getD []).length HL_ML_COMMENT }
    rfl rfl (by simp only; omega) (by omega) (by simp [memset_length])
    (fun j h1 h2 => hno j (by simp only at h1; omega) h2)
  simp only [Nat.zero_add] at hstep e1 e3 e4
  have hrun : scanRow s render false
      = some (scan_state.mk render.length true 0 true hl) := by
    unfold scanRow
    rw [hn]
    simp only [scanLoop, Nat.zero_lt_succ, if_true]
    rw [← hn, hstep]
    simp only
    rw [e1, scanLoop_done _ _ _ _ (le_refl _), if_pos hpos]
  refine ⟨_, hrun, rfl, ?_⟩
  apply eq_replicate_of_getElem? hl _ _ e2
  intro j hj
  by_cases hj2 : j < (s.multiline_comment_start.getD []).length
  · rw [e3 j hj2]
    exact memset_getElem?_in _ _ _ _ _ (Nat.zero_le _) (by omega) (by simpa using hj)
  · exact e4 j (by omega) hj

/-- A row entered inside a comment whose render has its first comment end at `m`: the
positions up to the end of that comment end are a comment; the row is left closed when no
comment start stands after it. -/
theorem scanRow_closes ( s : editor_syntax) (render : List Int)
    (hmcs : (s.multiline_comment_start.getD []).length ≠ 0)
    (hmce : (s.multiline_comment_end.getD []).length ≠ 0) (m : Nat)
    (hno : ∀ j, j < m → strncmpEq render j (s.multiline_comment_end.getD []) = false)
    (hyes : strncmpEq render m (s.multiline_comment_end.getD []) = true) :
    ∃ st, scanRow s render true = some st ∧ st.highlight.length = render.length ∧
      (∀ j, j < m + (s.multiline_comment_end.getD []).length →
        st.highlight[j]? = some HL_ML_COMMENT) ∧
      ((∀ j, m + (s.multiline_comment_end.getD []).length ≤ j →
          strncmpEq render j (s.multiline_comment_start.getD []) = false) →
        st.in_comment = false) := by
  have hm : m + (s.multiline_comment_end.getD []).length ≤ render.length := by
    simp only [strncmpEq, List.isPrefixOf_iff_prefix] at hyes
    have := hyes.length_le
    simp only [List.length_drop] at this
    omega
  obtain ⟨hl, e1, e2, _, e4, _⟩ := scanLoop_in_comment s render hmcs hmce m (by omega)
    m render.length
    { i := 0, prev_sep := true, in_string := 0, in_comment := true,
      highlight := List.replicate render.length HL_NORMAL } rfl rfl (by simp) (by omega)
    (by simp) (fun j _ h => hno j h)
  simp only at e1 e4
  obtain ⟨f, hf⟩ : ∃ f, render.length - m = f + 1 := ⟨render.length - m - 1, by omega⟩
  have hstep := scanStep_close s render (scan_state.mk m true 0 true hl) hmcs hmce rfl rfl hyes
  simp only at hstep
  obtain ⟨st3, g1, g2, g3⟩ := scanLoop_inv s render f
    (scan_state.mk (m + (s.multiline_comment_end.getD []).length) true 0 false
      (memset (hl.set m HL_ML_COMMENT) m (s.multiline_comment_end.getD []).length
        HL_ML_COMMENT))
    (by simp only; omega)
  have hrun : scanRow s render true = some st3 := by
    unfold scanRow
    rw [e1, hf]
    simp only [scanLoop]
    rw [if_pos (by omega), hstep]
    exact g1
  refine ⟨st3, hrun, ?_, ?_, ?_⟩
  · rw [g2.1]; simp [memset_length, e2]
  · intro j hj
    rw [g2.2.2 j hj]
    simp only
    by_cases hjm : j < m
    · rw [memset_getElem?_lt _ _ _ _ _ hjm, List.getElem?_set, if_neg (by omega)]
      exact e4 j (Nat.zero_le _) hjm
    · exact memset_getElem?_in _ _ _ _ _ (by omega) hj (by simp [e2]; omega)
  · intro h
    exact g3 rfl h

/-! ## Tab expansion and pairs of adjacent bytes -/

theorem tabExpansionFrom_append (out x y : List Int) :
    tabExpansionFrom out (x ++ y) = tabExpansionFrom (tabExpansionFrom out x) y := by
  induction x generalizing out with
  | nil => rfl
  | cons c rest ih =>
    simp only [List.cons_append, tabExpansionFrom]
    split_ifs <;> exact ih _

theorem tabExpansionFrom_prefix (out y : List Int) :
    ∃ e, tabExpansionFrom out y = out ++ e ∧ y.length ≤ e.length := by
  induction y generalizing out with
  | nil => exact ⟨[], by simp [tabExpansionFrom], le_refl _⟩
  | cons c rest ih =>
    simp only [tabExpansionFrom]
    split_ifs with h
    · obtain ⟨e, h1, h2⟩ :=
        ih (out ++ List.replicate (MEL_TAB_STOP - out.length % MEL_TAB_STOP) 32)
      refine ⟨List.replicate (MEL_TAB_STOP - out.length % MEL_TAB_STOP) 32 ++ e, ?_, ?_⟩
      · rw [h1, List.append_assoc]
      · have : 0 < MEL_TAB_STOP - out.length % MEL_TAB_STOP := by
          have := Nat.mod_lt out.length (show 0 < MEL_TAB_STOP by decide)
          omega
        simp only [List.length_append, List.length_replicate, List.length_cons]
        omega
    · obtain ⟨e, h1, h2⟩ := ih (out ++ [c])
      refine ⟨c :: e, ?_, by simpa using h2⟩
      rw [h1, List.append_assoc]; rfl

theorem tabExpansionFrom_getElem?_lt (out y : List Int) (j : Nat) (hj : j < out.length) :
    (tabExpansionFrom out y)[j]? = out[j]? := by
  obtain ⟨e, h1, _⟩ := tabExpansionFrom_prefix out y
  rw [h1, List.getElem?_append_left hj]

theorem tabExpansionFrom_length (out y : List Int) :
    out.length + y.length ≤ (tabExpansionFrom out y).length := by
  obtain ⟨e, h1, h2⟩ := tabExpansionFrom_prefix out y
  rw [h1, List.length_append]
  omega

theorem tabExpansionFrom_head (out : List Int) (c : Int) (rest : List Int) :
    (tabExpansionFrom out (c :: rest))[out.length]? = some (if c = 9 then 32 else c) := by
  simp only [tabExpansionFrom]
  split_ifs with h
  · have hpos : 0 < MEL_TAB_STOP - out.length % MEL_TAB_STOP := by
      have := Nat.mod_lt out.length (show 0 < MEL_TAB_STOP by decide)
      omega
    rw [tabExpansionFrom_getElem?_lt _ _ _ (by simp; omega),
      List.getElem?_append_right (le_refl _)]
    simp [List.getElem?_replicate, hpos]
  · rw [tabExpansionFrom_getElem?_lt _ _ _ (by simp), List.getElem?_append_right (le_refl _)]
    simp

/-- No pair `u v` of adjacent bytes of the content gives no such pair in the part of the
render that the content expands to. -/
theorem tabExpansionFrom_no_pair (u v : Int) (hu : u ≠ 32) (hv : v ≠ 32) (y : List Int) :
    ∀ (out : List Int), (∀ j, ¬ (y[j]? = some u ∧ y[j + 1]? = some v)) →
      ∀ j, out.length ≤ j →
        ¬ ((tabExpansionFrom out y)[j]? = some u ∧ (tabExpansionFrom out y)[j + 1]? = some v) := by
  induction y with
  | nil =>
    intro out _ j hj h
    simp only [tabExpansionFrom] at h
    rw [List.getElem?_eq_none hj] at h
    cases h.1
  | cons c rest ih =>
    intro out hno j hj h
    have hrest : ∀ j, ¬ (rest[j]? = some u ∧ rest[j + 1]? = some v) := by
      intro j hj
      exact hno (j + 1) (by simpa using hj)
    by_cases hc : c = 9
    · have hpos : 0 < MEL_TAB_STOP - out.length % MEL_TAB_STOP := by
        have := Nat.mod_lt out.length (show 0 < MEL_TAB_STOP by decide)
        omega
      have heq : tabExpansionFrom out (c :: rest) = tabExpansionFrom
          (out ++ List.replicate (MEL_TAB_STOP - out.length % MEL_TAB_STOP) 32) rest := by
        simp only [tabExpansionFrom, hc, if_true]
      rw [heq] at h
      by_cases hj2 : j < (out ++ List.replicate (MEL_TAB_STOP - out.length % MEL_TAB_STOP)
          32).length
      · have h1 := h.1
        rw [tabExpansionFrom_getElem?_lt _ _ _ hj2, List.getElem?_append_right hj,
          List.getElem?_replicate] at h1
        simp only [List.length_append, List.length_replicate] at hj2
        rw [if_pos (by omega)] at h1
        exact hu (Option.some.inj h1).symm
      · exact ih _ hrest j (by omega) h
    · have heq : tabExpansionFrom out (c :: rest) = tabExpansionFrom (out ++ [c]) rest := by
        simp only [tabExpansionFrom, hc, if_false]
      rw [heq] at h
      by_cases hj2 : j = out.length
      · subst hj2
        have h1 := h.1
        have h2 := h.2
        rw [tabExpansionFrom_getElem?_lt _ _ _ (by simp),
          List.getElem?_append_right (le_refl _)] at h1
        simp only [Nat.sub_self, List.getElem?_cons_zero, Option.some.injEq] at h1
        cases rest with
        | nil =>
          simp only [tabExpansionFrom] at h2
          rw [List.getElem?_eq_none (by simp)] at h2
          cases h2
        | cons c2 r2 =>
          have hh := tabExpansionFrom_head (out ++ [c]) c2 r2
          simp only [List.length_append, List.length_singleton] at hh
          rw [hh] at h2
          by_cases hc2 : c2 = 9
          · rw [if_pos hc2] at h2
            exact hv (Option.some.inj h2).symm
          · rw [if_neg hc2] at h2
            apply hno 0
            simp only [List.getElem?_cons_zero, Nat.zero_add, List.getElem?_cons_succ]
            exact ⟨by rw [h1], h2⟩
      · exact ih _ hrest j (by simp; omega) h

theorem pair_of_strncmpEq (render : List Int) (j : Nat) (u v : Int)
    (h : strncmpEq render j [u, v] = true) : render[j]? = some u ∧ render[j + 1]? = some v := by
  simp only [strncmpEq, List.isPrefixOf_iff_prefix] at h
  obtain ⟨t, ht⟩ := h
  have h0 : (render.drop j)[0]? = some u := by rw [← ht]; simp
  have h1 : (render.drop j)[1]? = some v := by rw [← ht]; simp
  rw [List.getElem?_drop] at h0 h1
  exact ⟨by simpa using h0, h1⟩

theorem strncmpEq_false_of_no_pair (render : List Int) (j : Nat) (u v : Int)
    (h : ¬ (render[j]? = some u ∧ render[j + 1]? = some v)) :
    strncmpEq render j [u, v] = false := by
  cases hs : strncmpEq render j [u, v] with
  | false => rfl
  | true => exact absurd (pair_of_strncmpEq render j u v hs) h

theorem strncmpEq_at_append (A p B : List Int) : strncmpEq (A ++ p ++ B) A.length p = true := by
  simp only [strncmpEq, List.isPrefixOf_iff_prefix, List.append_assoc,
    List.drop_left]
  exact List.prefix_append _ _

theorem no_pair_of_absent (u v : Int) (y : List Int) (h : ¬ [u, v] <:+: y) :
    ∀ j, ¬ (y[j]? = some u ∧ y[j + 1]? = some v) := by
  intro j hj
  apply h
  have hlt : j + 1 < y.length := lt_of_getElem? hj.2
  refine ⟨y.take j, y.drop (j + 2), ?_⟩
  have h1 : y.drop j = u :: y.drop (j + 1) := drop_of_getElem? hj.1
  have h2 : y.drop (j + 1) = v :: y.drop (j + 2) := drop_of_getElem? hj.2
  calc y.take j ++ [u, v] ++ y.drop (j + 2)
      = y.take j ++ (u :: v :: y.drop (j + 2)) := by simp
    _ = y.take j ++ y.drop j := by rw [h1, h2]
    _ = y := List.take_append_drop j y

/-! ## The rescan of all rows -/

theorem scanRow_some ( s : editor_syntax) (render : List Int) (p : Bool) :
    ∃ st, scanRow s render p = some st := by
  obtain ⟨st, h, _⟩ := scanLoop_inv s render render.length
    { i := 0, prev_sep := true, in_string := 0, in_comment := p,
      highlight := List.replicate render.length HL_NORMAL } (by simp)
  exact ⟨st, h⟩

theorem canonRows_cons ( s : editor_syntax) (p : Bool) (r : editor_row) (rest : List editor_row)
    (st : scan_state) (h : scanRow s r.render p = some st) :
    canonRows s p (r :: rest)
      = { r with highlight := st.highlight, hl_open_comment := st.in_comment }
          :: canonRows s st.in_comment rest := by
  simp only [canonRows, h]

theorem canonRows_strip ( s : editor_syntax) (p : Bool) (rows : List editor_row) :
    (canonRows s p rows).map strip = rows.map strip := by
  induction rows generalizing p with
  | nil => rfl
  | cons r rest ih =>
    obtain ⟨st, h⟩ := scanRow_some s r.render p
    rw [canonRows_cons s p r rest st h]
    simp only [List.map_cons, ih]
    rfl

theorem canonRows_congr ( s : editor_syntax) (p : Bool) (rows rows1 : List editor_row)
    (h : rows.map strip = rows1.map strip) : canonRows s p rows = canonRows s p rows1 := by
  induction rows generalizing p rows1 with
  | nil =>
    cases rows1 with
    | nil => rfl
    | cons a b => simp at h
  | cons r rest ih =>
    cases rows1 with
    | nil => simp at h
    | cons r1 rest1 =>
      simp only [List.map_cons, List.cons.injEq] at h
      obtain ⟨h1, h2⟩ := h
      have hr : r.render = r1.render := by
        have := congrArg editor_row.render h1
        simpa [strip] using this
      obtain ⟨st, hst⟩ := scanRow_some s r.render p
      rw [canonRows_cons s p r rest st hst, canonRows_cons s p r1 rest1 st (by rw [← hr]; exact hst),
        ih _ _ h2]
      congr 1
      have hi := congrArg editor_row.idx h1
      have hc := congrArg editor_row.chars h1
      simp only [strip] at hi hc
      cases r
      cases r1
      simp only at hi hc hr
      subst hi hc hr
      rfl

theorem canonRows_zero ( s : editor_syntax) (p : Bool) (rows : List editor_row)
    (row : editor_row) (h : rows[0]? = some row) :
    ∃ st, scanRow s row.render p = some st ∧
      (canonRows s p rows)[0]?
        = some { row with highlight := st.highlight, hl_open_comment := st.in_comment } := by
  cases rows with
  | nil => simp at h
  | cons r rest =>
    simp only [List.getElem?_cons_zero, Option.some.injEq] at h
    subst h
    obtain ⟨st, hst⟩ := scanRow_some s r.render p
    exact ⟨st, hst, by rw [canonRows_cons s p r rest st hst]; simp⟩

theorem canonRows_succ ( s : editor_syntax) (rows : List editor_row) :
    ∀ (p : Bool) (k : Nat) (row ck : editor_row), rows[k + 1]? = some row →
      (canonRows s p rows)[k]? = some ck →
      ∃ st, scanRow s row.render ck.hl_open_comment = some st ∧
        (canonRows s p rows)[k + 1]?
          = some { row with highlight := st.highlight, hl_open_comment := st.in_comment } := by
  induction rows with
  | nil => intro p k row ck h; simp at h
  | cons r rest ih =>
    intro p k row ck h hc
    obtain ⟨st0, hst0⟩ := scanRow_some s r.render p
    rw [canonRows_cons s p r rest st0 hst0] at hc ⊢
    simp only [List.getElem?_cons_succ] at h ⊢
    cases k with
    | zero =>
      simp only [List.getElem?_cons_zero, Option.some.injEq] at hc
      subst hc
      exact canonRows_zero s st0.in_comment rest row h
    | succ k =>
      simp only [List.getElem?_cons_succ] at hc
      exact ih st0.in_comment k row ck h hc

theorem editorUpdateSyntaxFuel_canon ( s : editor_syntax) (fuel : Nat) (ec : editor_config)
    (k : Nat) (hs : ec.syntax_ = some s) (hidx : idxFrom 0 ec.row = true)
    (hn : ec.num_rows = ec.row.length) (hne : ∀ r ∈ renders ec.row, r ≠ [])
    (hk : k < ec.row.length) (hf : ec.row.length - k ≤ fuel)
    (hpre : ∀ j, j < k → ec.row[j]? = (canonRows s false ec.row)[j]?) :
    ∃ rows, editorUpdateSyntaxFuel fuel ec k = some { ec with row := rows } ∧
      rows.map strip = ec.row.map strip ∧
      ∀ j, j < k + 1 → rows[j]? = (canonRows s false ec.row)[j]? := by
  induction fuel generalizing ec k with
  | zero => omega
  | succ n ih =>
    have hrow : ec.row[k]? = some ec.row[k] := List.getElem?_eq_getElem hk
    generalize ec.row[k] = row at hrow
    have hri : row.idx = k := by simpa using idxFrom_getElem? hidx hrow
    have hr : ¬ row.render.length = 0 := by
      intro h0
      apply hne row.render
      · simp only [renders, List.mem_map]
        exact ⟨row, List.mem_iff_getElem?.mpr ⟨k, hrow⟩, rfl⟩
      · exact List.length_eq_zero.mp h0
    have hscan : ∃ b st, (if row.idx > 0 then
          (rowAt ec (row.idx - 1)).map (fun r => r.hl_open_comment) else some false) = some b ∧
        scanRow s row.render b = some st ∧
        (canonRows s false ec.row)[k]?
          = some { row with highlight := st.highlight, hl_open_comment := st.in_comment } := by
      cases k with
      | zero =>
        obtain ⟨st, h1, h2⟩ := canonRows_zero s false ec.row row hrow
        refine ⟨false, st, ?_, h1, h2⟩
        rw [if_neg (by omega)]
      | succ k0 =>
        have hk0 : k0 < (canonRows s false ec.row).length := by
          have := congrArg List.length (canonRows_strip s false ec.row)
          simp only [List.length_map] at this
          omega
        have hck : (canonRows s false ec.row)[k0]? = some (canonRows s false ec.row)[k0] :=
          List.getElem?_eq_getElem hk0
        generalize (canonRows s false ec.row)[k0] = ck at hck
        obtain ⟨st, h1, h2⟩ := canonRows_succ s ec.row false k0 row ck hrow hck
        refine ⟨ck.hl_open_comment, st, ?_, h1, h2⟩
        rw [if_pos (by omega)]
        have h0 : 0 ≤ row.idx - 1 := by omega
        have ht : (row.idx - 1).toNat = k0 := by omega
        simp only [rowAt, h0, if_true, ht, hpre k0 (by omega), hck, Option.map_some']
    obtain ⟨b, st, hb, hst, hck⟩ := hscan
    simp only [editorUpdateSyntaxFuel, hrow, hr, if_false, hs, hb]
    unfold scanRow at hst
    rw [hst]
    simp only
    have hset : (ec.row.set k
        { row with highlight := st.highlight, hl_open_comment := st.in_comment }).map strip
        = ec.row.map strip := map_strip_set hrow rfl
    have hcan : ∀ j, j < k + 1 → (ec.row.set k
        { row with highlight := st.highlight, hl_open_comment := st.in_comment })[j]?
        = (canonRows s false ec.row)[j]? := by
      intro j hj
      rw [List.getElem?_set]
      by_cases hjk : k = j
      · subst hjk
        rw [if_pos rfl, if_pos hk, hck]
      · rw [if_neg hjk]
        exact hpre j (by omega)
    split_ifs with hc
    · have hk1 : (row.idx + 1).toNat = k + 1 := by omega
      rw [hk1]
      have hlen : (setRow ec k
          { row with highlight := st.highlight, hl_open_comment := st.in_comment }).row.length
          = ec.row.length := by
        simp [setRow]
      have hcg := canonRows_congr s false _ _ hset
      obtain ⟨rows, h1, h2, h3⟩ := ih
        (setRow ec k { row with highlight := st.highlight, hl_open_comment := st.in_comment })
        (k + 1) hs
        (by rw [← hidx]; exact idxFrom_congr (strip_idx hset))
        (by rw [hlen]; exact hn)
        (by
          simp only [setRow]
          rw [strip_renders hset]
          exact hne)
        (by rw [hlen]; have := hc.2; omega)
        (by rw [hlen]; omega)
        (by
          intro j hj
          simp only [setRow]
          rw [hcg]
          exact hcan j hj)
      refine ⟨rows, by rw [h1]; simp [setRow, hs], by rw [h2]; exact hset, ?_⟩
      intro j hj
      rw [h3 j (by omega)]
      simp only [setRow]
      rw [hcg]
    · exact ⟨ec.row.set k
        { row with highlight := st.highlight, hl_open_comment := st.in_comment },
        by simp [setRow, hs], hset, hcan⟩

theorem rescanFrom_canon ( s : editor_syntax) (n : Nat) :
    ∀ (k : Nat) (ec : editor_config), ec.syntax_ = some s → idxFrom 0 ec.row = true →
      ec.num_rows = ec.row.length → (∀ r ∈ renders ec.row, r ≠ []) →
      k + n = ec.row.length →
      (∀ j, j < k → ec.row[j]? = (canonRows s false ec.row)[j]?) →
      rescanFrom n k ec = some { ec with row := canonRows s false ec.row } := by
  induction n with
  | zero =>
    intro k ec hs hidx hn hne hkn hpre
    simp only [rescanFrom]
    have : ec.row = canonRows s false ec.row := by
      apply List.ext_getElem?
      intro j
      by_cases hj : j < k
      · exact hpre j hj
      · have hl : (canonRows s false ec.row).length = ec.row.length := by
          have := congrArg List.length (canonRows_strip s false ec.row)
          simpa using this
        rw [List.getElem?_eq_none (by omega), List.getElem?_eq_none (by omega)]
    rw [← this]
  | succ n ih =>
    intro k ec hs hidx hn hne hkn hpre
    have hk : k < ec.row.length := by omega
    obtain ⟨rows, h1, h2, h3⟩ := editorUpdateSyntaxFuel_canon s ec.row.length ec k hs hidx hn
      hne hk (by omega) hpre
    have hlt : (k : Int) < ec.num_rows := by omega
    have hcg := canonRows_congr s false _ _ h2
    have hlen : rows.length = ec.row.length := strip_length h2
    simp only [rescanFrom, hlt, if_true, editorUpdateSyntax, h1]
    rw [ih (k + 1) { ec with row := rows } hs
      (by rw [← hidx]; exact idxFrom_congr (strip_idx h2))
      (by simp only [hlen]; exact hn)
      (by simp only [strip_renders h2]; exact hne)
      (by simp only [hlen]; omega)
      (by
        intro j hj
        simp only
        rw [hcg]
        exact h3 j hj)]
    simp only [hcg]

/-! ## C7: the renders of the three rows -/

theorem cs_open : cs "/*" = [47, 42] := by decide

theorem cs_close : cs "*/" = [42, 47] := by decide

theorem cs_line : cs "//" = [47, 47] := by decide

theorem render_row0 (a : List Int) (ha : ¬ [42, 47] <:+: a) :
    strncmpEq (renderOf ([47, 42] ++ a)) 0 [47, 47] = false ∧
    strncmpEq (renderOf ([47, 42] ++ a)) 0 [47, 42] = true ∧
    (∀ j, 2 ≤ j → strncmpEq (renderOf ([47, 42] ++ a)) j [42, 47] = false) ∧
    renderOf ([47, 42] ++ a) ≠ [] := by
  have hR : renderOf ([47, 42] ++ a) = tabExpansionFrom [47, 42] a := by
    rw [renderOf_eq, tabExpansion, tabExpansionFrom_append]
    rfl
  obtain ⟨e, he, _⟩ := tabExpansionFrom_prefix [47, 42] a
  rw [hR]
  refine ⟨?_, ?_, ?_, ?_⟩
  · apply strncmpEq_false_of_no_pair
    rw [he]
    simp
  · rw [he]
    exact strncmpEq_at_append [] [47, 42] e
  · intro j hj
    apply strncmpEq_false_of_no_pair
    exact tabExpansionFrom_no_pair 42 47 (by decide) (by decide) a [47, 42]
      (no_pair_of_absent 42 47 a ha) j hj
  · rw [he]; simp

theorem render_row1 (b : List Int) (hb : ¬ [42, 47] <:+: b) (hbne : b ≠ []) :
    (∀ j, strncmpEq (renderOf b) j [42, 47] = false) ∧ renderOf b ≠ [] := by
  rw [renderOf_eq, tabExpansion]
  refine ⟨?_, ?_⟩
  · intro j
    apply strncmpEq_false_of_no_pair
    exact tabExpansionFrom_no_pair 42 47 (by decide) (by decide) b []
      (no_pair_of_absent 42 47 b hb) j (Nat.zero_le _)
  · have h1 := tabExpansionFrom_length [] b
    have h2 : 0 < b.length := List.length_pos.mpr hbne
    intro h
    rw [h] at h1
    simp only [List.length_nil] at h1
    omega

theorem render_row2 (c d : List Int) (hc : ¬ [42, 47] <:+: c) :
    ∃ m, c.length ≤ m ∧
      (∀ j, j < m → strncmpEq (renderOf (c ++ [42, 47] ++ d)) j [42, 47] = false) ∧
      strncmpEq (renderOf (c ++ [42, 47] ++ d)) m [42, 47] = true ∧
      (¬ [47, 42] <:+: d →
        ∀ j, m + 2 ≤ j → strncmpEq (renderOf (c ++ [42, 47] ++ d)) j [47, 42] = false) ∧
      renderOf (c ++ [42, 47] ++ d) ≠ [] := by
  have hR : renderOf (c ++ [42, 47] ++ d)
      = tabExpansionFrom (tabExpansionFrom [] c ++ [42, 47]) d := by
    rw [renderOf_eq, tabExpansion, tabExpansionFrom_append, tabExpansionFrom_append]
    congr 1
    simp [tabExpansionFrom]
  obtain ⟨e, he, _⟩ := tabExpansionFrom_prefix (tabExpansionFrom [] c ++ [42, 47]) d
  have hlen := tabExpansionFrom_length [] c
  rw [hR]
  refine ⟨(tabExpansionFrom [] c).length, by simpa using hlen, ?_, ?_, ?_, ?_⟩
  · intro j hj
    apply strncmpEq_false_of_no_pair
    intro hp
    rw [he, List.append_assoc, List.getElem?_append_left hj] at hp
    by_cases hj1 : j + 1 < (tabExpansionFrom [] c).length
    · rw [List.getElem?_append_left hj1] at hp
      exact tabExpansionFrom_no_pair 42 47 (by decide) (by decide) c []
        (no_pair_of_absent 42 47 c hc) j (Nat.zero_le _) hp
    · have h2 := hp.2
      rw [List.getElem?_append_right (by omega)] at h2
      have : j + 1 - (tabExpansionFrom [] c).length = 0 := by omega
      rw [this] at h2
      simp at h2
  · rw [he]
    exact strncmpEq_at_append _ [42, 47] e
  · intro hd j hj
    apply strncmpEq_false_of_no_pair
    exact tabExpansionFrom_no_pair 47 42 (by decide) (by decide) d _
      (no_pair_of_absent 47 42 d hd) j (by simpa using hj)
  · rw [he]; simp

/-! ## C7: the cascade of a block comment over three rows -/

theorem three_rows (rows : List editor_row) (t0 t1 t2 R0 R1 R2 : List Int)
    (ht : texts rows = [t0, t1, t2]) (hr : renders rows = [R0, R1, R2]) :
    ∃ x0 x1 x2, rows = [x0, x1, x2] ∧ x0.chars = t0 ∧ x1.chars = t1 ∧ x2.chars = t2 ∧
      x0.render = R0 ∧ x1.render = R1 ∧ x2.render = R2 := by
  match rows, ht, hr with
  | [x0, x1, x2], ht, hr =>
    simp only [texts, renders, List.map_cons, List.map_nil, List.cons.injEq, and_true] at ht hr
    exact ⟨x0, x1, x2, rfl, ht.1, ht.2.1, ht.2.2, hr.1, hr.2.1, hr.2.2⟩
  | [], ht, _ => simp [texts] at ht
  | [_], ht, _ => simp [texts] at ht
  | [_, _], ht, _ => simp [texts] at ht
  | _ :: _ :: _ :: _ :: _, ht, _ => simp [texts] at ht

theorem insert_three (sy0 : Option editor_syntax) (t0 t1 t2 : List Int) :
    ∃ rows,
      editorOpenRows (editor_config.mk 0 0 0 [] 0 none sy0 actionListInit) [t0, t1, t2]
        = some (editor_config.mk 0 0 3 rows 3 none sy0 actionListInit) ∧
      idxFrom 0 rows = true ∧ texts rows = [t0, t1, t2] ∧
      renders rows = [renderOf t0, renderOf t1, renderOf t2] := by
  obtain ⟨rows1, a1, a2, a3, a4⟩ := editorInsertRow_spec
    (editor_config.mk 0 0 0 [] 0 none sy0 actionListInit) 0 0 t0 rfl rfl (by simp) (le_refl _)
  have a1 : editorInsertRow (editor_config.mk 0 0 0 [] 0 none sy0 actionListInit) 0 t0
      = some (editor_config.mk 0 0 1 rows1 1 none sy0 actionListInit) := a1
  have a3 : texts rows1 = [t0] := a3
  have a4 : renders rows1 = [renderOf t0] := a4
  have hl1 : rows1.length = 1 := length_of_texts a3
  obtain ⟨rows2, b1, b2, b3, b4⟩ := editorInsertRow_spec
    (editor_config.mk 0 0 1 rows1 1 none sy0 actionListInit) 1 1 t1 a2
    (by simp [hl1]) (by simp) (by simp [hl1])
  have b1 : editorInsertRow (editor_config.mk 0 0 1 rows1 1 none sy0 actionListInit) 1 t1
      = some (editor_config.mk 0 0 2 rows2 2 none sy0 actionListInit) := b1
  have b3 : texts rows2 = [t0, t1] := by rw [b3]; simp only; rw [a3]; rfl
  have b4 : renders rows2 = [renderOf t0, renderOf t1] := by rw [b4]; simp only; rw [a4]; rfl
  have hl2 : rows2.length = 2 := length_of_texts b3
  obtain ⟨rows3, c1, c2, c3, c4⟩ := editorInsertRow_spec
    (editor_config.mk 0 0 2 rows2 2 none sy0 actionListInit) 2 2 t2 b2
    (by simp [hl2]) (by simp) (by simp [hl2])
  have c1 : editorInsertRow (editor_config.mk 0 0 2 rows2 2 none sy0 actionListInit) 2 t2
      = some (editor_config.mk 0 0 3 rows3 3 none sy0 actionListInit) := c1
  have c3 : texts rows3 = [t0, t1, t2] := by rw [c3]; simp only; rw [b3]; rfl
  have c4 : renders rows3 = [renderOf t0, renderOf t1, renderOf t2] := by
    rw [c4]; simp only; rw [b4]; rfl
  refine ⟨rows3, ?_, c2, c3, c4⟩
  simp only [editorOpenRows]
  rw [a1]
  simp only
  rw [b1]
  simp only
  rw [c1]

/-- C7 (amended). Multi-line comment cascade.  First part: under a profile whose line
comment starts with "//" and whose block comment is "/*" ... "*/", let `a`, `b`, `c` be
texts that do not contain "*/", `b` non-empty, and `d` any text.  The rows "/*" + a, b,
c + "*/" + d are inserted in order into the empty buffer (whatever profile is active
then), and the profile is selected, which rescans every row in order.  All calls succeed;
every position of rows 0 and 1 is tagged HL_ML_COMMENT, the highlight of row 2 is as long
as its render and its first |c| + 2 positions are tagged HL_ML_COMMENT; the continuation
flags of rows 0 and 1 are true, and the flag of row 2 is false when `d` does not contain
"/*".  Second part: for the rows "/* start", "middle", "end */ code" under the C profile,
rows 0 and 1 are HL_ML_COMMENT throughout, positions 0..5 of row 2 are HL_ML_COMMENT and
positions 6..10 are HL_NORMAL, and the flags are true, true, false. -/
theorem C7_comment_cascade :
    (∀ ( s : editor_syntax) (sy0 : Option editor_syntax) (a b c d : List Int),
      s.singleline_comment_start = some (cs "//") →
      s.multiline_comment_start = some (cs "/*") →
      s.multiline_comment_end = some (cs "*/") →
      ¬ cs "*/" <:+: a → ¬ cs "*/" <:+: b → ¬ cs "*/" <:+: c → b ≠ [] →
      ∃ e3 e4 r0 r1 r2,
        editorOpenRows { initEditor with syntax_ := sy0 }
          [cs "/*" ++ a, b, c ++ cs "*/" ++ d] = some e3 ∧
        editorSelectSyntaxHighlight e3 (some s) = some e4 ∧
        e4.row = [r0, r1, r2] ∧
        r0.chars = cs "/*" ++ a ∧ r1.chars = b ∧ r2.chars = c ++ cs "*/" ++ d ∧
        r0.render ≠ [] ∧ r1.render ≠ [] ∧
        r0.highlight = List.replicate r0.render.length HL_ML_COMMENT ∧
        r1.highlight = List.replicate r1.render.length HL_ML_COMMENT ∧
        r2.highlight.length = r2.render.length ∧
        (∀ j, j < c.length + 2 → r2.highlight[j]? = some HL_ML_COMMENT) ∧
        r0.hl_open_comment = true ∧ r1.hl_open_comment = true ∧
        (¬ cs "/*" <:+: d → r2.hl_open_comment = false)) ∧
    ((editorOpenRows initEditor [cs "/* start", cs "middle", cs "end */ code"]).bind
        (fun e => editorSelectSyntaxHighlight e (some HL_DB_c))).map
        (fun e => e.row.map (fun r => (r.highlight, r.hl_open_comment)))
      = some [(List.replicate 8 HL_ML_COMMENT, true), (List.replicate 6 HL_ML_COMMENT, true),
          (List.replicate 6 HL_ML_COMMENT ++ List.replicate 5 HL_NORMAL, false)] := by
  constructor
  · intro s sy0 a b c d hscs hmcs hmce ha hb hc hbne
    rw [cs_close] at ha hb hc
    rw [cs_open, cs_close]
    have hS : (s.singleline_comment_start.getD []) = [47, 47] := by rw [hscs, cs_line]; rfl
    have hM : (s.multiline_comment_start.getD []) = [47, 42] := by rw [hmcs, cs_open]; rfl
    have hE : (s.multiline_comment_end.getD []) = [42, 47] := by rw [hmce, cs_close]; rfl
    have hMl : (s.multiline_comment_start.getD []).length ≠ 0 := by rw [hM]; decide
    have hEl : (s.multiline_comment_end.getD []).length ≠ 0 := by rw [hE]; decide
    obtain ⟨rows, hopen, hidx, htx, hrd⟩ :=
      insert_three sy0 ([47, 42] ++ a) b (c ++ [42, 47] ++ d)
    obtain ⟨x0, x1, x2, hrows, hc0, hc1, hc2, hr0, hr1, hr2⟩ :=
      three_rows rows _ _ _ _ _ _ htx hrd
    obtain ⟨p1, p2, p3, p4⟩ := render_row0 a ha
    obtain ⟨q1, q2⟩ := render_row1 b hb hbne
    obtain ⟨m, m1, m2, m3, m4, m5⟩ := render_row2 c d hc
    rw [← hr0] at p1 p2 p3 p4
    rw [← hr1] at q1 q2
    rw [← hr2] at m2 m3 m4 m5
    obtain ⟨st0, hs0, hf0, hh0⟩ := scanRow_opens s x0.render hMl hEl (by rw [hS]; exact p1)
      (by rw [hM]; exact p2) (by rw [hM, hE]; exact fun j hj _ => p3 j hj)
    have hs1 := scanRow_all_comment s x1.render hMl hEl (by rw [hE]; exact fun j _ => q1 j)
    obtain ⟨st2, hs2, hl2, hh2, hf2⟩ := scanRow_closes s x2.render hMl hEl m
      (by rw [hE]; exact m2) (by rw [hE]; exact m3)
    rw [hE] at hh2 hf2
    rw [hM] at hf2
    have hcanon : canonRows s false rows
        = [{ x0 with highlight := st0.highlight, hl_open_comment := st0.in_comment },
           { x1 with highlight := List.replicate x1.render.length HL_ML_COMMENT,
                     hl_open_comment := true },
           { x2 with highlight := st2.highlight, hl_open_comment := st2.in_comment }] := by
      rw [hrows, canonRows_cons s false x0 _ st0 hs0, hf0, canonRows_cons s true x1 _ _ hs1,
        canonRows_cons s true x2 _ st2 hs2]
      rfl
    have hsel : editorSelectSyntaxHighlight
        (editor_config.mk 0 0 3 rows 3 none sy0 actionListInit) (some s)
        = some (editor_config.mk 0 0 3 (canonRows s false rows) 3 none (some s)
            actionListInit) := by
      have := rescanFrom_canon s 3 0
        (editor_config.mk 0 0 3 rows 3 none (some s) actionListInit) rfl hidx
        (by simp [hrows]) (by
          intro r hr
          simp only [renders, hrows, List.map_cons, List.map_nil, List.mem_cons,
            List.mem_singleton, List.not_mem_nil, or_false] at hr
          rcases hr with h | h | h
          · rw [h]; exact p4
          · rw [h]; exact q2
          · rw [h]; exact m5)
        (by simp [hrows]) (fun j hj => absurd hj (Nat.not_lt_zero j))
      exact this
    refine ⟨_, _, _, _, _, hopen, hsel, hcanon, hc0, hc1, hc2, p4, q2, ?_, rfl, hl2, ?_, hf0,
      rfl, ?_⟩
    · exact hh0
    · intro j hj
      exact hh2 j (by simp only [List.length_cons, List.length_nil]; omega)
    · intro hd
      exact hf2 (m4 (by rw [← cs_open]; exact hd))
  · decide

/-- C7, witness of the amended statement: the C profile and the texts " start", "middle",
"end " and " code". -/
theorem C7_comment_cascade_witness :
    ∃ e3 e4 r0 r1 r2,
      editorOpenRows { initEditor with syntax_ := none }
        [cs "/*" ++ cs " start", cs "middle", cs "end " ++ cs "*/" ++ cs " code"] = some e3 ∧
      editorSelectSyntaxHighlight e3 (some HL_DB_c) = some e4 ∧
      e4.row = [r0, r1, r2] ∧
      r0.chars = cs "/*" ++ cs " start" ∧ r1.chars = cs "middle" ∧
      r2.chars = cs "end " ++ cs "*/" ++ cs " code" ∧
      r0.render ≠ [] ∧ r1.render ≠ [] ∧
      r0.highlight = List.replicate r0.render.length HL_ML_COMMENT ∧
      r1.highlight = List.replicate r1.render.length HL_ML_COMMENT ∧
      r2.highlight.length = r2.render.length ∧
      (∀ j, j < (cs "end ").length + 2 → r2.highlight[j]? = some HL_ML_COMMENT) ∧
      r0.hl_open_comment = true ∧ r1.hl_open_comment = true ∧
      (¬ cs "/*" <:+: cs " code" → r2.hl_open_comment = false) :=
  C7_comment_cascade.1 HL_DB_c none (cs " start") (cs "middle") (cs "end ") (cs " code")
    (by decide) (by decide) (by decide) (by decide) (by decide) (by decide) (by decide)

/-- C7, counterexample to the statement with `d` unconstrained: with a = " start",
b = "middle", c = "end " (none contains "*/", b is not empty) and d = " /* again", the rows
"/* start", "middle", "end */ /* again" are inserted in order and rescanned under the C
profile; the continuation flags are true, true, true, not true, true, false. -/
theorem C7_counterexample :
    ¬ cs "*/" <:+: cs " start" ∧ ¬ cs "*/" <:+: cs "middle" ∧ ¬ cs "*/" <:+: cs "end " ∧
    cs "middle" ≠ [] ∧
    ((editorOpenRows initEditor
        [cs "/*" ++ cs " start", cs "middle", cs "end " ++ cs "*/" ++ cs " /* again"]).bind
        (fun e => editorSelectSyntaxHighlight e (some HL_DB_c))).map
        (fun e => e.row.map (fun r => r.hl_open_comment))
      = some [true, true, true] := by
  decide

/-! ## C13, C14: the column mapping with tabs -/

theorem cursorXToRenderXLoop_eq_length (l out : List Int) :
    cursorXToRenderXLoop l out.length = (tabExpansionFrom out l).length := by
  induction l generalizing out with
  | nil => rfl
  | cons c rest ih =>
    simp only [cursorXToRenderXLoop, tabExpansionFrom]
    split_ifs with h
    · rw [← ih]
      congr 1
      have := Nat.mod_lt out.length (show 0 < MEL_TAB_STOP by decide)
      simp only [List.length_append, List.length_replicate]
      omega
    · rw [← ih]
      simp

/-- C13. With or without tabs in the row, for every cursor column `c` with
0 <= c <= row.size, `editorRowRenderXToCursorX(row, editorRowCursorXToRenderX(row, c)) = c`,
and `editorRowCursorXToRenderX(row, c)` is the length of the tab expansion (stops of width
`MEL_TAB_STOP` = 4) of the first `c` bytes of the content. -/
theorem C13_column_mapping_inverse (row : editor_row) (c : Int) (h0 : 0 ≤ c)
    (h1 : c ≤ row.chars.length) :
    editorRowRenderXToCursorX row (editorRowCursorXToRenderX row c) = c ∧
    editorRowCursorXToRenderX row c = ((tabExpansion (row.chars.take c.toNat)).length : Int) := by
  refine ⟨renderX_cursorX_roundtrip row c h0 h1, ?_⟩
  simp only [editorRowCursorXToRenderX, tabExpansion]
  rw [← cursorXToRenderXLoop_eq_length]
  rfl

/-- C13, witness: the column after the tab of the row "a<TAB>b". -/
theorem C13_column_mapping_inverse_witness :
    editorRowRenderXToCursorX (editor_row.mk 0 [97, 9, 98] [97, 32, 32, 32, 98] [] false)
        (editorRowCursorXToRenderX (editor_row.mk 0 [97, 9, 98] [97, 32, 32, 32, 98] [] false) 2)
      = 2 ∧
    editorRowCursorXToRenderX (editor_row.mk 0 [97, 9, 98] [97, 32, 32, 32, 98] [] false) 2
      = ((tabExpansion ((editor_row.mk 0 [97, 9, 98] [97, 32, 32, 32, 98] [] false).chars.take
          (2 : Int).toNat)).length : Int) :=
  C13_column_mapping_inverse (editor_row.mk 0 [97, 9, 98] [97, 32, 32, 32, 98] [] false) 2
    (by decide) (by decide)

theorem renderXToCursorXLoop_snap (r : Int) (l : List Int) :
    ∀ (cur cx k : Nat), k < l.length →
      ((cursorXToRenderXLoop (l.take k) cur : Nat) : Int) ≤ r →
      r < ((cursorXToRenderXLoop (l.take (k + 1)) cur : Nat) : Int) →
      renderXToCursorXLoop r l cur cx = cx + k := by
  induction l with
  | nil => intro cur cx k hk; simp at hk
  | cons c rest ih =>
    intro cur cx k hk h1 h2
    cases k with
    | zero =>
      simp only [List.take_zero, cursorXToRenderXLoop, List.take_succ_cons] at h1 h2
      simp only [renderXToCursorXLoop]
      split_ifs at h2 ⊢ with hc hgt hgt
      all_goals rfl
    | succ k =>
      simp only [List.take_succ_cons, cursorXToRenderXLoop] at h1 h2
      simp only [renderXToCursorXLoop]
      simp only [List.length_cons] at hk
      split_ifs at h1 h2 ⊢ with hc hgt hgt
      · have := cursorXToRenderXLoop_ge (rest.take k)
          (cur + (MEL_TAB_STOP - 1 - cur % MEL_TAB_STOP) + 1)
        exfalso; push_cast at hgt h1; omega
      · rw [ih _ _ k (by omega) h1 h2]; omega
      · have := cursorXToRenderXLoop_ge (rest.take k) (cur + 1)
        exfalso; push_cast at hgt h1; omega
      · rw [ih _ _ k (by omega) h1 h2]; omega

theorem renderXToCursorXLoop_end (r : Int) (l : List Int) :
    ∀ (cur cx : Nat), ((cursorXToRenderXLoop l cur : Nat) : Int) ≤ r →
      renderXToCursorXLoop r l cur cx = cx + l.length := by
  induction l with
  | nil => intro cur cx _; rfl
  | cons c rest ih =>
    intro cur cx h1
    simp only [cursorXToRenderXLoop] at h1
    simp only [renderXToCursorXLoop, List.length_cons]
    split_ifs at h1 ⊢ with hc hgt hgt
    · have := cursorXToRenderXLoop_ge rest (cur + (MEL_TAB_STOP - 1 - cur % MEL_TAB_STOP) + 1)
      exfalso; push_cast at hgt h1; omega
    · rw [ih _ _ h1]; omega
    · have := cursorXToRenderXLoop_ge rest (cur + 1)
      exfalso; push_cast at hgt h1; omega
    · rw [ih _ _ h1]; omega

theorem renderXToCursorXLoop_least (r : Int) (l : List Int) :
    ∀ (cur cx : Nat),
      cx ≤ renderXToCursorXLoop r l cur cx ∧
      renderXToCursorXLoop r l cur cx ≤ cx + l.length ∧
      (∀ j, cx + j < renderXToCursorXLoop r l cur cx →
        ((cursorXToRenderXLoop (l.take (j + 1)) cur : Nat) : Int) ≤ r) ∧
      (renderXToCursorXLoop r l cur cx < cx + l.length →
        r < ((cursorXToRenderXLoop (l.take (renderXToCursorXLoop r l cur cx - cx + 1)) cur
          : Nat) : Int)) := by
  induction l with
  | nil =>
    intro cur cx
    simp [renderXToCursorXLoop]
  | cons c rest ih =>
    intro cur cx
    simp only [renderXToCursorXLoop, List.length_cons]
    by_cases hgt : (((if c = 9 then cur + (MEL_TAB_STOP - 1 - cur % MEL_TAB_STOP) else cur) + 1
        : Nat) : Int) > r
    · rw [if_pos hgt]
      refine ⟨le_refl _, by omega, fun j hj => by omega, fun _ => ?_⟩
      simp only [Nat.sub_self, Nat.zero_add, List.take_succ_cons, List.take_zero,
        cursorXToRenderXLoop]
      exact hgt
    · rw [if_neg hgt]
      obtain ⟨i1, i2, i3, i4⟩ :=
        ih ((if c = 9 then cur + (MEL_TAB_STOP - 1 - cur % MEL_TAB_STOP) else cur) + 1) (cx + 1)
      refine ⟨by omega, by omega, ?_, ?_⟩
      · intro j hj
        cases j with
        | zero =>
          simp only [Nat.zero_add, List.take_succ_cons, List.take_zero, cursorXToRenderXLoop]
          exact not_lt.mp hgt
        | succ j =>
          simp only [List.take_succ_cons, cursorXToRenderXLoop]
          exact i3 j (by omega)
      · intro hlt
        have h4 := i4 (by omega)
        have he : renderXToCursorXLoop r rest
            ((if c = 9 then cur + (MEL_TAB_STOP - 1 - cur % MEL_TAB_STOP) else cur) + 1) (cx + 1)
            - cx + 1
            = (renderXToCursorXLoop r rest
            ((if c = 9 then cur + (MEL_TAB_STOP - 1 - cur % MEL_TAB_STOP) else cur) + 1) (cx + 1)
            - (cx + 1) + 1) + 1 := by omega
        rw [he, List.take_succ_cons]
        simp only [cursorXToRenderXLoop]
        exact h4

/-- C14. Snapping.  With R(k) = `editorRowCursorXToRenderX(row, k)`: for every content
index `k < row.size` and every render column `r` with R(k) <= r < R(k+1),
`editorRowRenderXToCursorX(row, r) = k`; for every `r >= R(row.size)` the result is
`row.size`.  For every `r` the result `x` is between 0 and `row.size`, R(j+1) <= r for
every `j < x`, and `r < R(x+1)` when `x < row.size`: it is the smallest index `k` with
R(k+1) > r, or `row.size` if there is none. -/
theorem C14_snapping (row : editor_row) :
    (∀ (k : Nat) (r : Int), k < row.chars.length →
      editorRowCursorXToRenderX row k ≤ r → r < editorRowCursorXToRenderX row (k + 1) →
      editorRowRenderXToCursorX row r = k) ∧
    (∀ (r : Int), editorRowCursorXToRenderX row row.chars.length ≤ r →
      editorRowRenderXToCursorX row r = row.chars.length) ∧
    (∀ (r : Int), 0 ≤ editorRowRenderXToCursorX row r ∧
      editorRowRenderXToCursorX row r ≤ row.chars.length ∧
      (∀ (j : Nat), (j : Int) < editorRowRenderXToCursorX row r →
        editorRowCursorXToRenderX row (j + 1) ≤ r) ∧
      (editorRowRenderXToCursorX row r < row.chars.length →
        r < editorRowCursorXToRenderX row (editorRowRenderXToCursorX row r + 1))) := by
  refine ⟨?_, ?_, ?_⟩
  · intro k r hk h1 h2
    have e1 : ((k : Int) + 1).toNat = k + 1 := by omega
    simp only [editorRowCursorXToRenderX, Int.toNat_ofNat, e1] at h1 h2
    simp only [editorRowRenderXToCursorX]
    rw [renderXToCursorXLoop_snap r row.chars 0 0 k hk h1 h2]
    simp
  · intro r h1
    simp only [editorRowCursorXToRenderX, Int.toNat_ofNat, List.take_length] at h1
    simp only [editorRowRenderXToCursorX]
    rw [renderXToCursorXLoop_end r row.chars 0 0 h1]
    simp
  · intro r
    obtain ⟨i1, i2, i3, i4⟩ := renderXToCursorXLoop_least r row.chars 0 0
    simp only [editorRowRenderXToCursorX, editorRowCursorXToRenderX]
    refine ⟨by omega, by omega, ?_, ?_⟩
    · intro j hj
      have e1 : ((j : Int) + 1).toNat = j + 1 := by omega
      rw [e1]
      exact i3 j (by omega)
    · intro hlt
      have e1 : ((renderXToCursorXLoop r row.chars 0 0 : Nat) + 1 : Int).toNat
          = renderXToCursorXLoop r row.chars 0 0 - 0 + 1 := by omega
      rw [e1]
      exact i4 (by omega)

/-! ## C15: positions out of range -/

/-- C15. Out-of-range positional arguments are no-ops: `editorInsertRow(at, ..)` with
at < 0 or at > num_rows, `editorDelRow(at)` with at < 0 or at >= num_rows,
`editorRowInsertChar(row, at, ..)` and `editorRowInsertString(row, at, ..)` on an existing
row with at < 0 or at > row.size, and `editorRowDelChar(row, at)` on an existing row with
at < 0 or at >= row.size return with the whole editor state unchanged: the rows with
their content, render, highlight and idx, the row count, the dirty counter and every other
field. -/
theorem C15_out_of_range_noop (ec : editor_config) :
    (∀ (at_ : Int) (s : List Int), at_ < 0 ∨ at_ > ec.num_rows →
      editorInsertRow ec at_ s = some ec) ∧
    (∀ (at_ : Int), at_ < 0 ∨ at_ ≥ ec.num_rows → editorDelRow ec at_ = ec) ∧
    (∀ (y : Int) (row : editor_row), rowAt ec y = some row →
      (∀ (at_ c : Int), at_ < 0 ∨ at_ > row.chars.length →
        editorRowInsertChar ec y at_ c = some ec) ∧
      (∀ (at_ : Int) (str : List Int), at_ < 0 ∨ at_ > row.chars.length →
        editorRowInsertString ec y at_ str = some ec) ∧
      (∀ (at_ : Int), at_ < 0 ∨ at_ ≥ row.chars.length →
        editorRowDelChar ec y at_ = some ec)) := by
  refine ⟨?_, ?_, ?_⟩
  · intro at_ s h
    simp only [editorInsertRow, h, if_true]
  · intro at_ h
    simp only [editorDelRow, h, if_true]
  · intro y row hrow
    refine ⟨?_, ?_, ?_⟩
    · intro at_ c h
      simp only [editorRowInsertChar, hrow, h, if_true]
    · intro at_ str h
      simp only [editorRowInsertString, hrow, h, if_true]
    · intro at_ h
      simp only [editorRowDelChar, hrow, h, if_true]

/-! ## The editing operations do not touch the log -/

theorem editorUpdateSyntaxFuel_actions (fuel : Nat) :
    ∀ (ec ec1 : editor_config) (k : Nat), editorUpdateSyntaxFuel fuel ec k = some ec1 →
      ec1.actions = ec.actions := by
  induction fuel with
  | zero => intro ec ec1 k h; simp [editorUpdateSyntaxFuel] at h
  | succ n ih =>
    intro ec ec1 k h
    simp only [editorUpdateSyntaxFuel] at h
    repeat' split at h
    all_goals first
      | (cases h; rfl)
      | cases h
      | (have hx := ih _ _ _ h; exact hx)

theorem editorUpdateSyntax_actions {ec ec1 : editor_config} {k : Nat}
    (h : editorUpdateSyntax ec k = some ec1) : ec1.actions = ec.actions :=
  editorUpdateSyntaxFuel_actions _ _ _ _ h

theorem editorUpdateRow_actions {ec ec1 : editor_config} {k : Nat}
    (h : editorUpdateRow ec k = some ec1) : ec1.actions = ec.actions := by
  simp only [editorUpdateRow] at h
  split at h
  · cases h
  · have := editorUpdateSyntax_actions h
    exact this

theorem editorInsertRow_actions {ec ec1 : editor_config} {at_ : Int} {s : List Int}
    (h : editorInsertRow ec at_ s = some ec1) : ec1.actions = ec.actions := by
  simp only [editorInsertRow] at h
  split_ifs at h with h1
  · cases h; rfl
  · split at h
    · cases h
    · rename_i ec2 h2
      cases h
      have := editorUpdateRow_actions h2
      exact this

theorem editorDelRow_actions (ec : editor_config) (at_ : Int) :
    (editorDelRow ec at_).actions = ec.actions := by
  simp only [editorDelRow]
  split_ifs <;> rfl

theorem editorFlipRow_tail_actions {ecA ec1 : editor_config} {f : Nat} {dir : Int}
    (h : (match editorUpdateSyntax ecA f with
      | none => none
      | some ec2 =>
        match editorUpdateSyntax ec2 (f + 1) with
        | none => none
        | some ec3 =>
          match (if ec3.num_rows - ec3.cursor_y > 2 then editorUpdateSyntax ec3 (f + 2)
              else some ec3) with
          | none => none
          | some ec5 =>
            some { ec5 with cursor_y := ec5.cursor_y - dir, dirty := ec5.dirty + 1 })
      = some ec1) : ec1.actions = ecA.actions := by
  split at h
  · cases h
  · rename_i ec2 h2
    split at h
    · cases h
    · rename_i ec3 h3
      split at h
      · cases h
      · rename_i ec5 h5
        cases h
        have e2 := editorUpdateSyntax_actions h2
        have e3 := editorUpdateSyntax_actions h3
        have e5 : ec5.actions = ec3.actions := by
          split_ifs at h5 with h6
          · exact editorUpdateSyntax_actions h5
          · cases h5; rfl
        simp only [e5, e3, e2]

theorem editorFlipRow_actions {ec ec1 : editor_config} {dir : Int}
    (h : editorFlipRow ec dir = some ec1) : ec1.actions = ec.actions := by
  simp only [editorFlipRow] at h
  split at h
  · split_ifs at h
    all_goals first
      | cases h
      | (have hx := editorFlipRow_tail_actions h; exact hx)
  · cases h

theorem editorRowAppendString_actions {ec ec1 : editor_config} {y : Int} {s : List Int}
    (h : editorRowAppendString ec y s = some ec1) : ec1.actions = ec.actions := by
  simp only [editorRowAppendString] at h
  split at h
  · cases h
  · split at h
    · cases h
    · rename_i ec2 h2
      cases h
      have := editorUpdateRow_actions h2
      exact this

theorem editorRowInsertChar_actions {ec ec1 : editor_config} {y at_ c : Int}
    (h : editorRowInsertChar ec y at_ c = some ec1) : ec1.actions = ec.actions := by
  simp only [editorRowInsertChar] at h
  split at h
  · cases h
  · split_ifs at h with h1
    · cases h; rfl
    · have := editorUpdateRow_actions h
      exact this

theorem editorRowDelChar_actions {ec ec1 : editor_config} {y at_ : Int}
    (h : editorRowDelChar ec y at_ = some ec1) : ec1.actions = ec.actions := by
  simp only [editorRowDelChar] at h
  split at h
  · cases h
  · split_ifs at h with h1
    · cases h; rfl
    · split at h
      · cases h
      · rename_i ec2 h2
        cases h
        have := editorUpdateRow_actions h2
        exact this

theorem editorRowDelString_actions {ec ec1 : editor_config} {y at_ len : Int}
    (h : editorRowDelString ec y at_ len = some ec1) : ec1.actions = ec.actions := by
  simp only [editorRowDelString] at h
  split at h
  · cases h
  · split_ifs at h with h1 h2
    · cases h; rfl
    · split at h
      · cases h
      · rename_i ec2 h3
        cases h
        have := editorUpdateRow_actions h3
        exact this

theorem editorRowInsertString_actions {ec ec1 : editor_config} {y at_ : Int} {str : List Int}
    (h : editorRowInsertString ec y at_ str = some ec1) : ec1.actions = ec.actions := by
  simp only [editorRowInsertString] at h
  split at h
  · cases h
  · split_ifs at h with h1
    · cases h; rfl
    · split at h
      · cases h
      · rename_i ec2 h2
        cases h
        have := editorUpdateRow_actions h2
        exact this

theorem editorCut_actions {ec ec1 : editor_config} (h : editorCut ec = some ec1) :
    ec1.actions = ec.actions := by
  simp only [editorCut] at h
  split at h
  · cases h
  · rename_i ec3 h3
    split at h
    · cases h
    · rename_i ec5 h5
      have e3 : ec3.actions = ec.actions := by
        split_ifs at h3
        all_goals first
          | (cases h3; exact editorDelRow_actions _ _)
          | rw [editorUpdateSyntax_actions h3, editorDelRow_actions]
      have e5 : ec5.actions = ec3.actions := by
        split_ifs at h5
        all_goals first
          | (cases h5; rfl)
          | exact editorUpdateSyntax_actions h5
      split_ifs at h
      · cases h; simp only [e5, e3]
      · split at h
        · cases h
        · cases h; simp only [e5, e3]

theorem editorPaste_actions {ec ec1 : editor_config} (h : editorPaste ec = some ec1) :
    ec1.actions = ec.actions := by
  simp only [editorPaste] at h
  cases hb : ec.copied_char_buffer with
  | none => simp only [hb] at h; cases h; rfl
  | some buf =>
    simp only [hb] at h
    by_cases hy : ec.cursor_y = ec.num_rows
    · rw [if_pos hy] at h
      cases h2 : editorInsertRow ec ec.cursor_y buf with
      | none => simp only [h2] at h; cases h
      | some e2 =>
        simp only [h2, Option.some.injEq] at h
        rw [← h]
        have := editorInsertRow_actions h2
        exact this
    · rw [if_neg hy] at h
      cases h2 : editorRowAppendString ec ec.cursor_y buf with
      | none => simp only [h2] at h; cases h
      | some e2 =>
        simp only [h2, Option.some.injEq] at h
        rw [← h]
        have := editorRowAppendString_actions h2
        exact this

theorem editorInsertNewline_actions {ec ec1 : editor_config}
    (h : editorInsertNewline ec = some ec1) : ec1.actions = ec.actions := by
  simp only [editorInsertNewline] at h
  by_cases hx : ec.cursor_x = 0
  · rw [if_pos hx] at h
    cases h2 : editorInsertRow ec ec.cursor_y [] with
    | none => simp only [h2] at h; cases h
    | some e2 =>
      simp only [h2, Option.some.injEq] at h
      rw [← h]
      have := editorInsertRow_actions h2
      exact this
  · rw [if_neg hx] at h
    cases hr : rowAt ec ec.cursor_y with
    | none => simp only [hr] at h; cases h
    | some row =>
      simp only [hr] at h
      by_cases hg : ec.cursor_x < 0 ∨ ec.cursor_x > row.chars.length
      · rw [if_pos hg] at h; cases h
      · rw [if_neg hg] at h
        cases h2 : editorInsertRow ec (ec.cursor_y + 1) (row.chars.drop ec.cursor_x.toNat) with
        | none => simp only [h2] at h; cases h
        | some e2 =>
          have e2a := editorInsertRow_actions h2
          simp only [h2] at h
          by_cases hc : e2.cursor_y + 1 < e2.num_rows
          · rw [if_pos hc] at h
            cases hr2 : rowAt e2 e2.cursor_y with
            | none => simp only [hr2] at h; cases h
            | some row1 =>
              simp only [hr2] at h
              cases h3 : editorUpdateRow (setRow e2 e2.cursor_y.toNat
                  { row1 with chars := row1.chars.take e2.cursor_x.toNat }) e2.cursor_y.toNat with
              | none => simp only [h3] at h; cases h
              | some e3 =>
                simp only [h3, Option.some.injEq] at h
                rw [← h, ← e2a]
                have := editorUpdateRow_actions h3
                exact this
          · rw [if_neg hc] at h
            simp only [Option.some.injEq] at h
            rw [← h]
            exact e2a

theorem editorInsertChar_actions {ec ec1 : editor_config} {c : Int}
    (h : editorInsertChar ec c = some ec1) : ec1.actions = ec.actions := by
  simp only [editorInsertChar] at h
  by_cases hc : c ≤ 0
  · rw [if_pos hc] at h; cases h; rfl
  · rw [if_neg hc] at h
    have key : ∀ e2 : editor_config, e2.actions = ec.actions →
        (if ec.cursor_y = ec.num_rows ∧ e2.cursor_y ≠ e2.num_rows - 1 then some e2
          else
            match rowAt e2 e2.cursor_y with
            | none => none
            | some row =>
              if e2.cursor_x < 0 ∨ e2.cursor_x > row.chars.length then none
              else
                match editorUpdateRow
                    (setRow e2 e2.cursor_y.toNat
                      { row with
                        chars := row.chars.take e2.cursor_x.toNat ++
                          c :: row.chars.drop e2.cursor_x.toNat })
                    e2.cursor_y.toNat with
                | none => none
                | some ec2 =>
                  some { ec2 with cursor_x := ec2.cursor_x + 1, dirty := ec2.dirty + 1 })
          = some ec1 → ec1.actions = ec.actions := by
      intro e2 e2a hh
      by_cases hg : ec.cursor_y = ec.num_rows ∧ e2.cursor_y ≠ e2.num_rows - 1
      · rw [if_pos hg] at hh; cases hh; exact e2a
      · rw [if_neg hg] at hh
        cases hr : rowAt e2 e2.cursor_y with
        | none => simp only [hr] at hh; cases hh
        | some row =>
          simp only [hr] at hh
          by_cases hb : e2.cursor_x < 0 ∨ e2.cursor_x > row.chars.length
          · rw [if_pos hb] at hh; cases hh
          · rw [if_neg hb] at hh
            cases h3 : editorUpdateRow (setRow e2 e2.cursor_y.toNat
                { row with chars := row.chars.take e2.cursor_x.toNat ++
                    c :: row.chars.drop e2.cursor_x.toNat }) e2.cursor_y.toNat with
            | none => simp only [h3] at hh; cases hh
            | some e3 =>
              simp only [h3, Option.some.injEq] at hh
              rw [← hh, ← e2a]
              have := editorUpdateRow_actions h3
              exact this
    by_cases hy : ec.cursor_y = ec.num_rows
    · rw [if_pos hy] at h
      cases h2 : editorInsertRow ec ec.num_rows [] with
      | none => simp only [h2] at h; cases h
      | some e2 =>
        simp only [h2] at h
        exact key e2 (editorInsertRow_actions h2) h
    · rw [if_neg hy] at h
      exact key ec rfl h

theorem editorDelChar_actions {ec ec1 : editor_config} (h : editorDelChar ec = some ec1) :
    ec1.actions = ec.actions := by
  simp only [editorDelChar] at h
  by_cases h1 : ec.cursor_y = ec.num_rows
  · rw [if_pos h1] at h; cases h; rfl
  · rw [if_neg h1] at h
    by_cases h2 : ec.cursor_x = 0 ∧ ec.cursor_y = 0
    · rw [if_pos h2] at h; cases h; rfl
    · rw [if_neg h2] at h
      by_cases h3 : ec.cursor_x > 0
      · rw [if_pos h3] at h
        cases h4 : editorRowDelChar ec ec.cursor_y (ec.cursor_x - 1) with
        | none => simp only [h4] at h; cases h
        | some e2 =>
          simp only [h4, Option.some.injEq] at h
          rw [← h]
          have := editorRowDelChar_actions h4
          exact this
      · rw [if_neg h3] at h
        cases hr : rowAt ec ec.cursor_y with
        | none => simp only [hr] at h; cases h
        | some row =>
          cases hp : rowAt ec (ec.cursor_y - 1) with
          | none => simp only [hr, hp] at h; cases h
          | some prev =>
            simp only [hr, hp] at h
            cases h4 : editorRowAppendString { ec with cursor_x := prev.chars.length }
                (ec.cursor_y - 1) row.chars with
            | none => simp only [h4] at h; cases h
            | some e2 =>
              simp only [h4, Option.some.injEq] at h
              rw [← h]
              have := editorRowAppendString_actions h4
              simp only [editorDelRow_actions]
              exact this

theorem execute_actions {ec ec1 : editor_config} {a : Action} (h : execute ec a = some ec1) :
    ec1.actions = ec.actions := by
  simp only [execute] at h
  cases ht : a.t with
  | InsertChar =>
    simp only [ht] at h
    cases hs : a.string with
    | none => simp only [hs] at h; cases h
    | some s =>
      simp only [hs] at h
      by_cases hy : a.cpos_y < ec.num_rows
      · rw [if_pos hy] at h
        cases h2 : editorRowInsertString { ec with cursor_x := a.cpos_x, cursor_y := a.cpos_y }
            a.cpos_y a.cpos_x s with
        | none => simp only [h2] at h; cases h
        | some e2 =>
          simp only [h2, Option.some.injEq] at h
          rw [← h]
          have := editorRowInsertString_actions h2
          exact this
      · rw [if_neg hy] at h
        have := editorInsertChar_actions h
        exact this
  | DelChar =>
    simp only [ht] at h
    have := editorDelChar_actions h
    exact this
  | PasteLine =>
    simp only [ht] at h
    cases h2 : editorPaste (editor_config.mk a.cpos_x a.cpos_y ec.num_rows ec.row ec.dirty
        a.string ec.syntax_ ec.actions) with
    | none => simp only [h2] at h; cases h
    | some e2 =>
      simp only [h2, Option.some.injEq] at h
      rw [← h]
      have := editorPaste_actions h2
      exact this
  | CutLine =>
    simp only [ht] at h
    have := editorCut_actions h
    exact this
  | FlipUp =>
    simp only [ht] at h
    have := editorFlipRow_actions h
    exact this
  | FlipDown =>
    simp only [ht] at h
    have := editorFlipRow_actions h
    exact this
  | NewLine =>
    simp only [ht] at h
    have := editorInsertNewline_actions h
    exact this

theorem revert_del_actions {ec ec1 : editor_config} {a : Action}
    (h : (match a.string with
      | none => none
      | some s =>
        match editorRowDelString { ec with cursor_x := a.cpos_x, cursor_y := a.cpos_y }
            a.cpos_y a.cpos_x s.length with
        | none => none
        | some e1 => if a.cursor_on_tilde then some (editorDelRow e1 e1.cursor_y) else some e1)
      = some ec1) : ec1.actions = ec.actions := by
  cases hs : a.string with
  | none => simp only [hs] at h; cases h
  | some s =>
    simp only [hs] at h
    cases h2 : editorRowDelString { ec with cursor_x := a.cpos_x, cursor_y := a.cpos_y }
        a.cpos_y a.cpos_x s.length with
    | none => simp only [h2] at h; cases h
    | some e2 =>
      have e2a := editorRowDelString_actions h2
      simp only [h2] at h
      by_cases hc : a.cursor_on_tilde = true
      · rw [if_pos hc] at h
        cases h
        rw [editorDelRow_actions]
        exact e2a
      · rw [if_neg hc] at h
        cases h
        exact e2a

theorem revert_actions {ec ec1 : editor_config} {a : Action} (h : revert ec a = some ec1) :
    ec1.actions = ec.actions := by
  simp only [revert] at h
  cases ht : a.t with
  | InsertChar =>
    simp only [ht] at h
    exact revert_del_actions h
  | DelChar =>
    simp only [ht] at h
    cases hs : a.string with
    | none =>
      simp only [hs] at h
      exact editorInsertNewline_actions h
    | some s =>
      simp only [hs] at h
      have := editorInsertChar_actions h
      exact this
  | PasteLine =>
    simp only [ht] at h
    cases hs : a.string with
    | none => simp only [hs] at h; cases h; rfl
    | some s =>
      have h0 := h
      simp only [hs] at h
      exact revert_del_actions (a := a) (by simp only [hs]; exact h)
  | CutLine =>
    simp only [ht] at h
    cases h2 : editorInsertRow { ec with cursor_x := 0, cursor_y := a.cpos_y } a.cpos_y [] with
    | none => simp only [h2] at h; cases h
    | some e2 =>
      have e2a := editorInsertRow_actions h2
      simp only [h2] at h
      cases h3 : editorPaste { e2 with copied_char_buffer := a.string } with
      | none => simp only [h3] at h; cases h
      | some e3 =>
        simp only [h3, Option.some.injEq] at h
        rw [← h]
        have := editorPaste_actions h3
        simp only
        rw [this]
        exact e2a
  | FlipUp =>
    simp only [ht] at h
    have := editorFlipRow_actions h
    exact this
  | FlipDown =>
    simp only [ht] at h
    have := editorFlipRow_actions h
    exact this
  | NewLine =>
    simp only [ht] at h
    have := editorDelChar_actions h
    exact this

/-! ## C19, C20: undo and redo -/

theorem undo_eq_revert (cap : Int) (ec : editor_config) (i : Nat) (a : Action) (hcap : cap ≠ 0)
    (hcur : ec.actions.current = some i) (hget : ec.actions.nodes[i]? = some a) :
    undo cap ec = (revert ec a).map (fun e1 =>
      { e1 with
        actions := ActionList.mk ec.actions.nodes (if i = 0 then none else some (i - 1))
          ec.actions.size
        dirty := if i = 0 then 0 else e1.dirty }) := by
  simp only [undo, hcap, if_false, hcur, hget]
  cases hr : revert ec a with
  | none => rfl
  | some e1 =>
    have ha := revert_actions hr
    simp only [Option.map_some']
    by_cases hi : i = 0
    · simp only [hi, if_true, ha]
    · simp only [hi, if_false, ha]
      simp

/-- C19. For a log whose `current` is the node `i` of the chain, holding the action `a`,
and a history that is enabled (`cap` is not 0): `undo()` reverts exactly `a`, that is, it
has a result exactly when `revert(a)` has one, and then the buffer and the cursor are those
left by `revert(a)`; `current` becomes the predecessor of node `i` (`NULL` for the head);
the chain with every stored action (so `head` and `tail`) and the counter `size` are
unchanged; `ec.dirty` is 0 when the predecessor is `NULL`, and is the value left by
`revert(a)` otherwise. -/
theorem C19_undo (cap : Int) (ec : editor_config) (i : Nat) (a : Action) (hcap : cap ≠ 0)
    (hcur : ec.actions.current = some i) (hget : ec.actions.nodes[i]? = some a) :
    undo cap ec = (revert ec a).map (fun e1 =>
      { e1 with
        actions := ActionList.mk ec.actions.nodes (if i = 0 then none else some (i - 1))
          ec.actions.size
        dirty := if i = 0 then 0 else e1.dirty }) :=
  undo_eq_revert cap ec i a hcap hcur hget

/-- C19, witness: the log holds one InsertChar entry, recorded at (0, 0) with payload "a",
on the row "abc"; the capacity is that of the program. -/
theorem C19_undo_witness :
    undo ACTIONS_LIST_MAX_SIZE
        { plainBuffer ["abc"] 1 0 with actions := ActionList.mk [insAction 0 0 [97]] (some 0) 1 }
      = (revert
          { plainBuffer ["abc"] 1 0 with actions := ActionList.mk [insAction 0 0 [97]] (some 0) 1 }
          (insAction 0 0 [97])).map (fun e1 =>
        { e1 with
          actions := ActionList.mk [insAction 0 0 [97]] (if 0 = 0 then none else some (0 - 1)) 1
          dirty := if 0 = 0 then 0 else e1.dirty }) :=
  C19_undo ACTIONS_LIST_MAX_SIZE
    { plainBuffer ["abc"] 1 0 with actions := ActionList.mk [insAction 0 0 [97]] (some 0) 1 }
    0 (insAction 0 0 [97]) (by decide) rfl rfl

/-- C20. `redo()` executes at most one action.  With the history enabled (`cap` is not 0):
if `current` is the node `i` and has a successor holding `a`, `redo()` has a result exactly
when `execute(a)` has one, and then the buffer and the cursor are those left by
`execute(a)`, `current` is the successor, and the chain and the counter are unchanged; if
`current` is `NULL` and the head holds `a`, `current` is set to the head and `a` is
executed, after which `current` is the head and the chain and the counter are unchanged;
if `current` is the tail, or the log is empty, `redo()` returns the state unchanged.  With
the history disabled `redo()` returns the state unchanged. -/
theorem C20_redo (cap : Int) (ec : editor_config) :
    (cap ≠ 0 → ∀ (i : Nat) (a : Action), ec.actions.current = some i →
      ec.actions.nodes[i + 1]? = some a →
      redo cap ec = (execute ec a).map (fun e1 =>
        { e1 with actions := ActionList.mk ec.actions.nodes (some (i + 1)) ec.actions.size })) ∧
    (cap ≠ 0 → ∀ (a : Action), ec.actions.current = none → ec.actions.nodes[0]? = some a →
      redo cap ec
          = execute { ec with actions := { ec.actions with current := some 0 } } a ∧
        ∀ e1, redo cap ec = some e1 →
          e1.actions = ActionList.mk ec.actions.nodes (some 0) ec.actions.size) ∧
    (∀ (i : Nat), ec.actions.current = some i → ec.actions.nodes[i + 1]? = none →
      redo cap ec = some ec) ∧
    (ec.actions.current = none → ec.actions.nodes = [] → redo cap ec = some ec) ∧
    (cap = 0 → redo cap ec = some ec) := by
  refine ⟨?_, ?_, ?_, ?_, ?_⟩
  · intro hcap i a hcur hget
    simp only [redo, hcap, if_false, hcur, hget]
    cases hr : execute ec a with
    | none => rfl
    | some e1 =>
      have ha := execute_actions hr
      simp only [Option.map_some', ha]
  · intro hcap a hcur hget
    have hredo : redo cap ec
        = execute { ec with actions := { ec.actions with current := some 0 } } a := by
      simp only [redo, hcap, if_false, hcur, hget]
      cases hr : execute { ec with actions := { ec.actions with current := some 0 } } a with
      | none => rfl
      | some e1 => rfl
    refine ⟨hredo, ?_⟩
    intro e1 he
    rw [hredo] at he
    exact execute_actions he
  · intro i hcur hget
    by_cases hcap : cap = 0
    · simp only [redo, hcap, if_true]
    · simp only [redo, hcap, if_false, hcur, hget]
  · intro hcur hn
    by_cases hcap : cap = 0
    · simp only [redo, hcap, if_true]
    · simp only [redo, hcap, if_false, hcur, hn, List.getElem?_nil]
  · intro hcap
    simp only [redo, hcap, if_true]

/-! ## C12: the invariant of the log -/

theorem LogInv_LogWF {cap : Int} {l : ActionList} (h : LogInv cap l) : LogWF l :=
  ⟨h.1, h.2.2⟩

theorem addAction_LogInv (cap : Int) (l : ActionList) (A : Action) (hcap : 1 ≤ cap)
    (h : LogInv cap l) : LogInv cap (addAction cap l A) := by
  have hwf := LogInv_LogWF h
  rw [addAction_shape cap l A (Or.inl hcap) hwf]
  have hk := keptChain_length_le l
  have hlen : ((evictHead cap (keptChain l)).length : Int) + 1 ≤ cap := by
    unfold evictHead
    split_ifs with hc
    · have := h.2.1
      simp only [List.length_drop]
      omega
    · simp only [not_and_or, not_lt, ne_eq, not_not] at hc
      rcases hc with hc | hc
      · omega
      · omega
  refine ⟨by simp, by simpa using hlen, ?_⟩
  intro i hi
  simp only [Option.some.injEq] at hi
  subst hi
  simp

theorem undo_LogInv (cap : Int) (ec ec1 : editor_config) (h : LogInv cap ec.actions)
    (hu : undo cap ec = some ec1) : LogInv cap ec1.actions := by
  by_cases hcap : cap = 0
  · simp only [undo, hcap, if_true, Option.some.injEq] at hu
    rw [← hu]
    exact h
  · cases hcur : ec.actions.current with
    | none =>
      simp only [undo, hcap, if_false, hcur, Option.some.injEq] at hu
      rw [← hu]
      exact h
    | some i =>
      have hi := h.2.2 i hcur
      have hget : ec.actions.nodes[i]? = some ec.actions.nodes[i] := List.getElem?_eq_getElem hi
      rw [undo_eq_revert cap ec i _ hcap hcur hget] at hu
      cases hr : revert ec ec.actions.nodes[i] with
      | none => rw [hr] at hu; cases hu
      | some e1 =>
        rw [hr] at hu
        simp only [Option.map_some', Option.some.injEq] at hu
        rw [← hu]
        refine ⟨h.1, h.2.1, ?_⟩
        intro j hj
        simp only at hj
        by_cases h0 : i = 0
        · rw [if_pos h0] at hj; cases hj
        · rw [if_neg h0] at hj
          simp only [Option.some.injEq] at hj
          show j < ec.actions.nodes.length
          omega

theorem redo_LogInv (cap : Int) (ec ec1 : editor_config) (h : LogInv cap ec.actions)
    (hu : redo cap ec = some ec1) : LogInv cap ec1.actions := by
  by_cases hcap : cap = 0
  · simp only [redo, hcap, if_true, Option.some.injEq] at hu
    rw [← hu]
    exact h
  · cases hcur : ec.actions.current with
    | none =>
      cases hget : ec.actions.nodes[0]? with
      | none =>
        simp only [redo, hcap, if_false, hcur, hget, Option.some.injEq] at hu
        rw [← hu]
        exact h
      | some a =>
        have hlt := lt_of_getElem? hget
        have hx : execute { ec with actions := { ec.actions with current := some 0 } } a
            = some ec1 := by
          simp only [redo, hcap, if_false, hcur, hget] at hu
          cases hr : execute { ec with actions := { ec.actions with current := some 0 } } a with
          | none => rw [hr] at hu; cases hu
          | some e1 => rw [hr] at hu; exact hu
        rw [execute_actions hx]
        refine ⟨h.1, h.2.1, ?_⟩
        intro j hj
        simp only [Option.some.injEq] at hj
        subst hj
        exact hlt
    | some i =>
      cases hget : ec.actions.nodes[i + 1]? with
      | none =>
        simp only [redo, hcap, if_false, hcur, hget, Option.some.injEq] at hu
        rw [← hu]
        exact h
      | some a =>
        have hlt := lt_of_getElem? hget
        simp only [redo, hcap, if_false, hcur, hget] at hu
        cases hr : execute ec a with
        | none => rw [hr] at hu; cases hu
        | some e1 =>
          rw [hr] at hu
          simp only [Option.some.injEq] at hu
          rw [← hu]
          simp only [execute_actions hr]
          refine ⟨h.1, h.2.1, ?_⟩
          intro j hj
          simp only [Option.some.injEq] at hj
          subst hj
          exact hlt

theorem runLogCalls_LogInv (cap : Int) (hcap : 1 ≤ cap) (calls : List LogCall) :
    ∀ (ec ec1 : editor_config), LogInv cap ec.actions → runLogCalls cap ec calls = some ec1 →
      LogInv cap ec1.actions := by
  induction calls with
  | nil =>
    intro ec ec1 h hr
    simp only [runLogCalls, Option.some.injEq] at hr
    rw [← hr]; exact h
  | cons c rest ih =>
    intro ec ec1 h hr
    cases c with
    | add a =>
      simp only [runLogCalls] at hr
      exact ih _ _ (addAction_LogInv cap ec.actions a hcap h) hr
    | undo =>
      simp only [runLogCalls] at hr
      cases hu : undo cap ec with
      | none => rw [hu] at hr; cases hr
      | some e1 =>
        rw [hu] at hr
        exact ih _ _ (undo_LogInv cap ec e1 h hu) hr
    | redo =>
      simp only [runLogCalls] at hr
      cases hu : redo cap ec with
      | none => rw [hu] at hr; cases hr
      | some e1 =>
        rw [hu] at hr
        exact ih _ _ (redo_LogInv cap ec e1 h hu) hr

/-- C12. The invariant of the log.  The chain from `head` to `tail` is the list `nodes` of
the embedding.  Starting from the empty log (`nodes` empty, `current` `NULL`, `size` 0), with
a capacity `cap >= 1`, after every sequence of `addAction`, `undo` and `redo` calls that
have a result, `size` is the number of nodes of the chain, `size <= cap`, and `current` is
either `NULL` or one of the nodes of the chain.  The invariant holds at the start and each
single call keeps it. -/
theorem C12_log_invariant (cap : Int) (hcap : 1 ≤ cap) :
    LogInv cap actionListInit ∧
    (∀ (l : ActionList) (a : Action), LogInv cap l → LogInv cap (addAction cap l a)) ∧
    (∀ (ec ec1 : editor_config), LogInv cap ec.actions → undo cap ec = some ec1 →
      LogInv cap ec1.actions) ∧
    (∀ (ec ec1 : editor_config), LogInv cap ec.actions → redo cap ec = some ec1 →
      LogInv cap ec1.actions) ∧
    (∀ (ec : editor_config) (calls : List LogCall) (ec1 : editor_config),
      ec.actions = actionListInit → runLogCalls cap ec calls = some ec1 →
      ec1.actions.size = ec1.actions.nodes.length ∧ ec1.actions.size ≤ cap ∧
      (ec1.actions.current = none ∨
        ∃ i, ec1.actions.current = some i ∧ i < ec1.actions.nodes.length)) := by
  have h0 : LogInv cap actionListInit := by
    refine ⟨rfl, ?_, ?_⟩
    · simp only [actionListInit, List.length_nil, Nat.cast_zero]; omega
    · intro i hi; cases hi
  refine ⟨h0, fun l a h => addAction_LogInv cap l a hcap h,
    fun ec ec1 h hu => undo_LogInv cap ec ec1 h hu,
    fun ec ec1 h hu => redo_LogInv cap ec ec1 h hu, ?_⟩
  intro ec calls ec1 hinit hr
  obtain ⟨i1, i2, i3⟩ := runLogCalls_LogInv cap hcap calls ec ec1 (by rw [hinit]; exact h0) hr
  refine ⟨i1, by rw [i1]; exact i2, ?_⟩
  cases hc : ec1.actions.current with
  | none => exact Or.inl rfl
  | some i => exact Or.inr ⟨i, rfl, i3 i hc⟩

/-- C12, witness: capacity 2; three actions are appended to the empty log on the row "abc",
then `undo()` and `redo()` are called; the run has a result. -/
theorem C12_log_invariant_witness :
    (runLogCalls 2 (plainBuffer ["abc"] 0 0)
      [LogCall.add (insAction 0 0 [97]), LogCall.add (insAction 0 0 [98]),
        LogCall.add (insAction 0 0 [99]), LogCall.undo, LogCall.redo]).isSome = true ∧
    ∀ ec1, runLogCalls 2 (plainBuffer ["abc"] 0 0)
      [LogCall.add (insAction 0 0 [97]), LogCall.add (insAction 0 0 [98]),
        LogCall.add (insAction 0 0 [99]), LogCall.undo, LogCall.redo] = some ec1 →
      ec1.actions.size = ec1.actions.nodes.length ∧ ec1.actions.size ≤ 2 ∧
      (ec1.actions.current = none ∨
        ∃ i, ec1.actions.current = some i ∧ i < ec1.actions.nodes.length) :=
  ⟨by decide, fun ec1 h =>
    (C12_log_invariant 2 (by decide)).2.2.2.2 (plainBuffer ["abc"] 0 0) _ ec1 rfl h⟩

/-! ## C16: the position of a flip -/

/-- C16 (amended). The position of a flip is validated by the key handler, not by
`editorFlipRow`: the flip-up key with `cursor_y <= 0` or `cursor_y >= num_rows`, and the
flip-down key with `cursor_y >= num_rows - 1`, have no adjacent row to swap with and return
the whole state unchanged: the rows and their idx values, the row count, the cursor, the
dirty counter and the log.  In the other cases the key records and executes the flip
through `makeAction`. -/
theorem C16_flip_position (cap : Int) (ec : editor_config) :
    (ec.cursor_y ≤ 0 ∨ ec.cursor_y ≥ ec.num_rows →
      editorProcessKeypressFlipUp cap ec = some ec) ∧
    (ec.cursor_y ≥ ec.num_rows - 1 → editorProcessKeypressFlipDown cap ec = some ec) ∧
    (1 ≤ ec.cursor_y → ec.cursor_y ≤ ec.num_rows - 1 →
      editorProcessKeypressFlipUp cap ec = makeAction cap ec ActionType.FlipUp none) ∧
    (ec.cursor_y < ec.num_rows - 1 →
      editorProcessKeypressFlipDown cap ec = makeAction cap ec ActionType.FlipDown none) := by
  refine ⟨?_, ?_, ?_, ?_⟩
  · intro h
    have : ¬ (ec.cursor_y > 0 ∧ ec.cursor_y ≤ ec.num_rows - 1) := by omega
    simp only [editorProcessKeypressFlipUp, this, if_false]
  · intro h
    have : ¬ (ec.cursor_y < ec.num_rows - 1) := by omega
    simp only [editorProcessKeypressFlipDown, this, if_false]
  · intro h1 h2
    have : ec.cursor_y > 0 ∧ ec.cursor_y ≤ ec.num_rows - 1 := ⟨by omega, h2⟩
    simp only [editorProcessKeypressFlipUp, this, and_self, if_true]
  · intro h
    simp only [editorProcessKeypressFlipDown, h, if_true]

/-- C16, counterexample to the statement for `editorFlipRow` itself: on the rows "ab", "cd"
with the cursor on row 0, `editorFlipRow(1)` does not return the state unchanged; it reads
and writes `ec.row[-1]`, outside the row array, and has no defined result.  The same holds
for `editorFlipRow(-1)` with the cursor on the last row, which uses `ec.row[2]`. -/
theorem C16_counterexample :
    (plainBuffer ["ab", "cd"] 0 0).cursor_y = 0 ∧
    editorFlipRow (plainBuffer ["ab", "cd"] 0 0) 1 = none ∧
    editorFlipRow (plainBuffer ["ab", "cd"] 0 0) 1 ≠ some (plainBuffer ["ab", "cd"] 0 0) ∧
    (plainBuffer ["ab", "cd"] 0 1).cursor_y ≥ (plainBuffer ["ab", "cd"] 0 1).num_rows - 1 ∧
    editorFlipRow (plainBuffer ["ab", "cd"] 0 1) (-1) = none := by
  decide

/-! ## C17: deleting a range of a row -/

/-- C17. `editorRowDelString(row, at, len)` on an existing row of a well-formed buffer.
With 0 <= at, 0 <= len and at + len <= row.size the content becomes content[0..at)
followed by content[at+len..size), the size decreases by `len` and `ec.dirty` increases by
`len`.  With at < 0 or at + len > row.size, whatever the sign of `len`, the call returns
the state unchanged.  The remaining case is a negative `len` with 0 <= at and
at + len <= row.size: the guard of the function lets it through, and the call is not a
no-op; the bytes from `at + len` on are moved to `at`, which writes past the terminator of
the row, and the embedding gives it no result. -/
theorem C17_row_delete_range (ec : editor_config) (hwf : WF ec) (y : Int) (row : editor_row)
    (hrow : rowAt ec y = some row) :
    (∀ (at_ len : Int), 0 ≤ at_ → 0 ≤ len → at_ + len ≤ row.chars.length →
      ∃ ec1 row1, editorRowDelString ec y at_ len = some ec1 ∧ rowAt ec1 y = some row1 ∧
        row1.chars = row.chars.take at_.toNat ++ row.chars.drop (at_.toNat + len.toNat) ∧
        (row1.chars.length : Int) = row.chars.length - len ∧
        ec1.dirty = ec.dirty + len ∧
        texts ec1.row = (texts ec.row).set y.toNat row1.chars) ∧
    (∀ (at_ len : Int), at_ < 0 ∨ at_ + len > row.chars.length →
      editorRowDelString ec y at_ len = some ec) ∧
    (∀ (at_ len : Int), 0 ≤ at_ → len < 0 → at_ + len ≤ row.chars.length →
      editorRowDelString ec y at_ len = none) := by
  have hy0 : 0 ≤ y := by
    by_contra h
    simp [rowAt, h] at hrow
  obtain ⟨k, rfl⟩ := Int.eq_ofNat_of_zero_le hy0
  have hrow2 := hrow
  rw [rowAt_nat rfl] at hrow2
  have hk := lt_of_getElem? hrow2
  refine ⟨?_, ?_, ?_⟩
  · intro at_ len h0 hl h1
    obtain ⟨a, rfl⟩ := Int.eq_ofNat_of_zero_le h0
    obtain ⟨n, rfl⟩ := Int.eq_ofNat_of_zero_le hl
    obtain ⟨rows, e1, e2, e3, _⟩ := editorRowDelString_spec ec k a n k a n row hwf.2 hwf.1 rfl
      hrow2 rfl rfl (by omega)
    have hl1 : rows.length = ec.row.length := by simpa using length_of_texts e3
    have hget : (texts rows)[k]? = some (row.chars.take a ++ row.chars.drop (a + n)) := by
      rw [e3]; simp [hk]
    obtain ⟨row1, hr1, hc1⟩ := texts_getElem? hget
    refine ⟨_, row1, e1, ?_, ?_, ?_, rfl, ?_⟩
    · rw [rowAt_nat rfl]; exact hr1
    · simpa using hc1
    · rw [hc1]
      simp only [List.length_append, List.length_take, List.length_drop]
      omega
    · simp only [Int.toNat_ofNat, e3, hc1]
  · intro at_ len h
    have hg : at_ < 0 ∨ at_ + len - 1 ≥ row.chars.length := by omega
    simp only [editorRowDelString, hrow, hg, if_true]
  · intro at_ len h0 hl h1
    have hg : ¬ (at_ < 0 ∨ at_ + len - 1 ≥ row.chars.length) := by omega
    simp only [editorRowDelString, hrow, hg, if_false, hl, if_true]

/-- C17, witness: the row "hello"; two bytes are deleted at column 1; a deletion of one
byte at column 5 is out of range; a deletion of -1 bytes at column 2 passes the guard. -/
theorem C17_row_delete_range_witness :
    (∃ ec1 row1, editorRowDelString (plainBuffer ["hello"] 0 0) 0 1 2 = some ec1 ∧
      rowAt ec1 0 = some row1 ∧
      row1.chars = (plainRow 0 "hello").chars.take (1 : Int).toNat
        ++ (plainRow 0 "hello").chars.drop ((1 : Int).toNat + (2 : Int).toNat) ∧
      (row1.chars.length : Int) = (plainRow 0 "hello").chars.length - 2 ∧
      ec1.dirty = (plainBuffer ["hello"] 0 0).dirty + 2 ∧
      texts ec1.row = (texts (plainBuffer ["hello"] 0 0).row).set (0 : Int).toNat row1.chars) ∧
    editorRowDelString (plainBuffer ["hello"] 0 0) 0 5 1 = some (plainBuffer ["hello"] 0 0) ∧
    editorRowDelString (plainBuffer ["hello"] 0 0) 0 2 (-1) = none :=
  ⟨(C17_row_delete_range (plainBuffer ["hello"] 0 0) (by decide) 0 (plainRow 0 "hello")
      (by decide)).1 1 2 (by decide) (by decide) (by decide),
   (C17_row_delete_range (plainBuffer ["hello"] 0 0) (by decide) 0 (plainRow 0 "hello")
      (by decide)).2.1 5 1 (by decide),
   (C17_row_delete_range (plainBuffer ["hello"] 0 0) (by decide) 0 (plainRow 0 "hello")
      (by decide)).2.2 2 (-1) (by decide) (by decide) (by decide)⟩

/-! ## C18: the modified counter -/

/-- C18. The modified counter on the in-range calls of the row operations of a well-formed
buffer.  `editorInsertRow`, `editorDelRow`, `editorFlipRow` (both directions),
`editorRowDelChar` and `editorRowAppendString` add 1 to `ec.dirty`; `editorRowInsertString`
adds the length of the string and `editorRowDelString` adds `len`, so the counter is
strictly greater when the string is not empty, respectively `len > 0`.
`editorRowInsertChar` inserts the byte and leaves `ec.dirty` as it was: it has no
`ec.dirty++`. -/
theorem C18_dirty_counter (ec : editor_config) (hwf : WF ec) :
    (∀ (at_ : Int) (s : List Int), 0 ≤ at_ → at_ ≤ ec.num_rows →
      ∃ ec1, editorInsertRow ec at_ s = some ec1 ∧ ec1.dirty = ec.dirty + 1) ∧
    (∀ (at_ : Int), 0 ≤ at_ → at_ < ec.num_rows →
      (editorDelRow ec at_).dirty = ec.dirty + 1) ∧
    (1 ≤ ec.cursor_y → ec.cursor_y < ec.num_rows →
      ∃ ec1, editorFlipRow ec 1 = some ec1 ∧ ec1.dirty = ec.dirty + 1) ∧
    (0 ≤ ec.cursor_y → ec.cursor_y < ec.num_rows - 1 →
      ∃ ec1, editorFlipRow ec (-1) = some ec1 ∧ ec1.dirty = ec.dirty + 1) ∧
    (∀ (y : Int) (row : editor_row), rowAt ec y = some row →
      (∀ (at_ c : Int), 0 ≤ at_ → at_ ≤ row.chars.length →
        ∃ ec1 row1, editorRowInsertChar ec y at_ c = some ec1 ∧ rowAt ec1 y = some row1 ∧
          row1.chars = row.chars.take at_.toNat ++ c :: row.chars.drop at_.toNat ∧
          ec1.dirty = ec.dirty) ∧
      (∀ (at_ : Int), 0 ≤ at_ → at_ < row.chars.length →
        ∃ ec1, editorRowDelChar ec y at_ = some ec1 ∧ ec1.dirty = ec.dirty + 1) ∧
      (∀ (s : List Int),
        ∃ ec1, editorRowAppendString ec y s = some ec1 ∧ ec1.dirty = ec.dirty + 1) ∧
      (∀ (at_ : Int) (str : List Int), 0 ≤ at_ → at_ ≤ row.chars.length →
        ∃ ec1, editorRowInsertString ec y at_ str = some ec1 ∧
          ec1.dirty = ec.dirty + str.length ∧ (str ≠ [] → ec1.dirty > ec.dirty)) ∧
      (∀ (at_ len : Int), 0 ≤ at_ → 0 ≤ len → at_ + len ≤ row.chars.length →
        ∃ ec1, editorRowDelString ec y at_ len = some ec1 ∧ ec1.dirty = ec.dirty + len ∧
          (len > 0 → ec1.dirty > ec.dirty))) := by
  obtain ⟨hlen, hidx⟩ := hwf
  refine ⟨?_, ?_, ?_, ?_, ?_⟩
  · intro at_ s h0 h1
    obtain ⟨k, rfl⟩ := Int.eq_ofNat_of_zero_le h0
    obtain ⟨rows1, e1, _⟩ := editorInsertRow_spec ec k k s hidx hlen rfl (by omega)
    exact ⟨_, e1, rfl⟩
  · intro at_ h0 h1
    obtain ⟨k, rfl⟩ := Int.eq_ofNat_of_zero_le h0
    obtain ⟨rows1, e1, _⟩ := editorDelRow_spec ec k k hidx hlen rfl (by omega)
    rw [e1]
  · intro h0 h1
    obtain ⟨k, hk⟩ := Int.eq_ofNat_of_zero_le (by omega : (0 : Int) ≤ ec.cursor_y)
    obtain ⟨c, hc, _⟩ := rowAt_of_lt ec ec.cursor_y k hk (by omega)
    obtain ⟨o, ho, _⟩ := rowAt_of_lt ec ((k - 1 : Nat) : Int) (k - 1) rfl (by omega)
    obtain ⟨rows1, e1, _⟩ := editorFlipRow_spec ec 1 k (k - 1) c o hidx hlen (Or.inl rfl)
      hk (by omega) hc ho
    exact ⟨_, e1, rfl⟩
  · intro h0 h1
    obtain ⟨k, hk⟩ := Int.eq_ofNat_of_zero_le h0
    obtain ⟨c, hc, _⟩ := rowAt_of_lt ec ec.cursor_y k hk (by omega)
    obtain ⟨o, ho, _⟩ := rowAt_of_lt ec ((k + 1 : Nat) : Int) (k + 1) rfl (by omega)
    obtain ⟨rows1, e1, _⟩ := editorFlipRow_spec ec (-1) k (k + 1) c o hidx hlen
      (Or.inr rfl) hk (by omega) hc ho
    exact ⟨_, e1, rfl⟩
  · intro y row hrow
    have hy0 : 0 ≤ y := by
      by_contra h
      simp [rowAt, h] at hrow
    obtain ⟨k, rfl⟩ := Int.eq_ofNat_of_zero_le hy0
    rw [rowAt_nat rfl] at hrow
    have hk := lt_of_getElem? hrow
    refine ⟨?_, ?_, ?_, ?_, ?_⟩
    · intro at_ c h0 h1
      obtain ⟨a, rfl⟩ := Int.eq_ofNat_of_zero_le h0
      obtain ⟨rows, e1, _, e3, _⟩ := editorRowInsertChar_spec ec k a k a row c hidx hlen rfl hrow
        rfl (by omega)
      have hget : (texts rows)[k]? = some (row.chars.take a ++ c :: row.chars.drop a) := by
        rw [e3]; simp [hk]
      obtain ⟨row1, hr1, hc1⟩ := texts_getElem? hget
      refine ⟨_, row1, e1, ?_, ?_, rfl⟩
      · rw [rowAt_nat rfl]; exact hr1
      · simpa using hc1
    · intro at_ h0 h1
      obtain ⟨a, rfl⟩ := Int.eq_ofNat_of_zero_le h0
      obtain ⟨rows, e1, _⟩ := editorRowDelChar_spec ec k a k a row hidx hlen rfl hrow rfl
        (by omega)
      exact ⟨_, e1, rfl⟩
    · intro s
      obtain ⟨rows, e1, _⟩ := editorRowAppendString_spec ec k k row s hidx hlen rfl hrow
      exact ⟨_, e1, rfl⟩
    · intro at_ str h0 h1
      obtain ⟨a, rfl⟩ := Int.eq_ofNat_of_zero_le h0
      obtain ⟨rows, e1, _⟩ := editorRowInsertString_spec ec k a k a row str hidx hlen rfl hrow
        rfl (by omega)
      refine ⟨_, e1, rfl, ?_⟩
      intro hne
      have : 0 < str.length := List.length_pos.mpr hne
      simp only
      omega
    · intro at_ len h0 hl h1
      obtain ⟨a, rfl⟩ := Int.eq_ofNat_of_zero_le h0
      obtain ⟨n, rfl⟩ := Int.eq_ofNat_of_zero_le hl
      obtain ⟨rows, e1, _⟩ := editorRowDelString_spec ec k a n k a n row hidx hlen rfl hrow
        rfl rfl (by omega)
      refine ⟨_, e1, rfl, ?_⟩
      intro hpos
      simp only
      omega

/-- C18, witness: on the row "ab" with the counter at 0, `editorRowInsertChar(row, 1, 'x')`
makes the row "axb" and leaves the counter at 0, while `editorRowDelChar(row, 1)` makes the
counter 1. -/
theorem C18_dirty_counter_witness :
    (∃ ec1 row1, editorRowInsertChar (plainBuffer ["ab"] 0 0) 0 1 120 = some ec1 ∧
      rowAt ec1 0 = some row1 ∧
      row1.chars = (plainRow 0 "ab").chars.take (1 : Int).toNat
        ++ 120 :: (plainRow 0 "ab").chars.drop (1 : Int).toNat ∧
      ec1.dirty = (plainBuffer ["ab"] 0 0).dirty) ∧
    (∃ ec1, editorRowDelChar (plainBuffer ["ab"] 0 0) 0 1 = some ec1 ∧
      ec1.dirty = (plainBuffer ["ab"] 0 0).dirty + 1) ∧
    (editorRowInsertChar (plainBuffer ["ab"] 0 0) 0 1 120).map
        (fun e => (texts e.row, e.dirty)) = some ([cs "axb"], 0) :=
  ⟨((C18_dirty_counter (plainBuffer ["ab"] 0 0) (by decide)).2.2.2.2 0 (plainRow 0 "ab")
      (by decide)).1 1 120 (by decide) (by decide),
   ((C18_dirty_counter (plainBuffer ["ab"] 0 0) (by decide)).2.2.2.2 0 (plainRow 0 "ab")
      (by decide)).2.1 1 (by decide) (by decide),
   by decide⟩

/-! ## C11: the scanner writes tags of its own, inside the buffer -/

theorem mem_memset {α : Type} (l : List α) (i n : Nat) (v x : α) (h : x ∈ memset l i n v) :
    x ∈ l ∨ x = v := by
  induction l generalizing i n with
  | nil => simp [memset] at h
  | cons a t ih =>
    cases i with
    | zero =>
      cases n with
      | zero => simp only [memset] at h; exact Or.inl h
      | succ n =>
        simp only [memset, List.mem_cons] at h
        rcases h with h | h
        · exact Or.inr h
        · rcases ih 0 n h with h1 | h1
          · exact Or.inl (List.mem_cons_of_mem _ h1)
          · exact Or.inr h1
    | succ i =>
      simp only [memset, List.mem_cons] at h
      rcases h with h | h
      · exact Or.inl (by simp [h])
      · rcases ih i n h with h1 | h1
        · exact Or.inl (List.mem_cons_of_mem _ h1)
        · exact Or.inr h1

theorem tags_set (hl : List editor_highlight) (i : Nat) (v : editor_highlight)
    (hv : v ∈ scannerTags) (h : ∀ x ∈ hl, x ∈ scannerTags) :
    ∀ x ∈ hl.set i v, x ∈ scannerTags := by
  intro x hx
  rcases List.mem_or_eq_of_mem_set hx with h1 | h1
  · exact h x h1
  · rw [h1]; exact hv

theorem tags_memset (hl : List editor_highlight) (i n : Nat) (v : editor_highlight)
    (hv : v ∈ scannerTags) (h : ∀ x ∈ hl, x ∈ scannerTags) :
    ∀ x ∈ memset hl i n v, x ∈ scannerTags := by
  intro x hx
  rcases mem_memset hl i n v x hx with h1 | h1
  · exact h x h1
  · rw [h1]; exact hv

theorem stepKeyword_tags ( s : editor_syntax) (render : List Int) (st : scan_state)
    (h : ∀ x ∈ st.highlight, x ∈ scannerTags) :
    ∀ x ∈ (stepKeyword s render st).1.highlight, x ∈ scannerTags := by
  unfold stepKeyword
  simp only
  split_ifs
  · split
    · rename_i klen kw_flag _
      apply tags_memset _ _ _ _ _ h
      cases kw_flag <;> decide
    · exact h
  · exact h

theorem stepNumber_tags ( s : editor_syntax) (render : List Int) (st : scan_state)
    (h : ∀ x ∈ st.highlight, x ∈ scannerTags) :
    ∀ x ∈ (stepNumber s render st).1.highlight, x ∈ scannerTags := by
  unfold stepNumber
  simp only
  split_ifs
  all_goals first
    | exact stepKeyword_tags s render st h
    | exact tags_set _ _ _ (by decide) h

theorem stepString_tags ( s : editor_syntax) (render : List Int) (st : scan_state)
    (h : ∀ x ∈ st.highlight, x ∈ scannerTags) :
    ∀ x ∈ (stepString s render st).1.highlight, x ∈ scannerTags := by
  unfold stepString
  simp only
  split_ifs
  all_goals first
    | exact stepNumber_tags s render st h
    | exact tags_set _ _ _ (by decide) h
    | exact tags_set _ _ _ (by decide) (tags_set _ _ _ (by decide) h)

theorem stepMlComment_tags ( s : editor_syntax) (render : List Int) (st : scan_state)
    (h : ∀ x ∈ st.highlight, x ∈ scannerTags) :
    ∀ x ∈ (stepMlComment s render st).1.highlight, x ∈ scannerTags := by
  unfold stepMlComment
  simp only
  split_ifs
  all_goals first
    | exact stepString_tags s render st h
    | exact tags_set _ _ _ (by decide) h
    | exact tags_memset _ _ _ _ (by decide) h
    | exact tags_memset _ _ _ _ (by decide) (tags_set _ _ _ (by decide) h)

theorem scanStep_tags ( s : editor_syntax) (render : List Int) (st : scan_state)
    (h : ∀ x ∈ st.highlight, x ∈ scannerTags) :
    ∀ x ∈ (scanStep s render st).1.highlight, x ∈ scannerTags := by
  unfold scanStep
  simp only
  split_ifs
  · exact tags_memset _ _ _ _ (by decide) h
  · exact stepMlComment_tags s render st h

theorem scanLoop_tags ( s : editor_syntax) (render : List Int) (fuel : Nat) :
    ∀ (st st1 : scan_state), (∀ x ∈ st.highlight, x ∈ scannerTags) →
      scanLoop s render fuel st = some st1 → ∀ x ∈ st1.highlight, x ∈ scannerTags := by
  induction fuel with
  | zero =>
    intro st st1 h hs
    simp only [scanLoop] at hs
    split_ifs at hs
    cases hs
    exact h
  | succ n ih =>
    intro st st1 h hs
    simp only [scanLoop] at hs
    split_ifs at hs with hlt
    · have ht := scanStep_tags s render st h
      rcases hstep : scanStep s render st with ⟨st2, b⟩
      rw [hstep] at hs ht
      cases b with
      | true =>
        simp only [Option.some.injEq] at hs
        rw [← hs]; exact ht
      | false => exact ih st2 st1 ht hs
    · cases hs
      exact h

theorem scanRow_HlOk ( s : editor_syntax) (render : List Int) (p : Bool) :
    ∃ st, scanRow s render p = some st ∧ st.highlight.length = render.length ∧
      ∀ x ∈ st.highlight, x ∈ scannerTags := by
  obtain ⟨st, h1, h2, _⟩ := scanLoop_inv s render render.length
    { i := 0, prev_sep := true, in_string := 0, in_comment := p,
      highlight := List.replicate render.length HL_NORMAL } (by simp)
  refine ⟨st, h1, by simpa using h2.1, ?_⟩
  apply scanLoop_tags s render render.length _ st _ h1
  intro x hx
  simp only [List.mem_replicate] at hx
  rw [hx.2]
  decide

theorem memset_append {α : Type} (l e : List α) (i n : Nat) (v : α) (h : i + n ≤ l.length) :
    memset (l ++ e) i n v = memset l i n v ++ e := by
  induction l generalizing i n with
  | nil =>
    have hi : i = 0 := by simp at h; omega
    have hn : n = 0 := by simp at h; omega
    subst hi hn
    cases e <;> rfl
  | cons a t ih =>
    cases i with
    | zero =>
      cases n with
      | zero => rfl
      | succ n =>
        show v :: memset (t ++ e) 0 n v = v :: (memset t 0 n v ++ e)
        rw [ih 0 n (by simp at h; omega)]
    | succ i =>
      show a :: memset (t ++ e) i n v = a :: (memset t i n v ++ e)
      rw [ih i n (by simp at h; omega)]

theorem strncmpEq_range (render : List Int) (i : Nat) (pat : List Int) (hi : i ≤ render.length)
    (h : strncmpEq render i pat = true) : i + pat.length ≤ render.length := by
  simp only [strncmpEq, List.isPrefixOf_iff_prefix] at h
  have := h.length_le
  simp only [List.length_drop] at this
  omega

theorem findKeyword_range (render : List Int) (i : Nat) (hi : i ≤ render.length)
    (kws : List (List Int)) (klen : Nat) (f : Bool)
    (h : findKeyword render i kws = some (klen, f)) : i + klen ≤ render.length := by
  induction kws with
  | nil => simp [findKeyword] at h
  | cons kw rest ih =>
    simp only [findKeyword] at h
    generalize hK : (if (kw.getLast? == some 124) = true then kw.length - 1 else kw.length) = K
      at h
    have hKle : K ≤ kw.length := by rw [← hK]; split_ifs <;> omega
    by_cases h1 : (strncmpEq render i (kw.take K) && isSeparator (render.getD (i + K) 0)) = true
    · rw [if_pos h1] at h
      simp only [Option.some.injEq, Prod.mk.injEq] at h
      simp only [Bool.and_eq_true] at h1
      have hr := strncmpEq_range render i _ hi h1.1
      rw [← h.1]
      simp only [List.length_take] at hr
      omega
    · rw [if_neg h1] at h
      exact ih h

theorem stepKeyword_pad ( s : editor_syntax) (render : List Int) (st : scan_state)
    (e : List editor_highlight) (hlen : st.highlight.length = render.length)
    (hi : st.i < render.length) :
    stepKeyword s render (padHl st e)
      = (padHl (stepKeyword s render st).1 e, (stepKeyword s render st).2) := by
  unfold stepKeyword
  simp only [padHl]
  by_cases hp : st.prev_sep = true
  · simp only [hp, if_true]
    cases hf : findKeyword render st.i s.keywords with
    | none => rfl
    | some r =>
      obtain ⟨klen, f⟩ := r
      have := findKeyword_range render st.i (by omega) s.keywords klen f hf
      simp only
      rw [memset_append _ _ _ _ _ (by omega)]
  · simp only [hp]
    rfl

theorem stepNumber_pad ( s : editor_syntax) (render : List Int) (st : scan_state)
    (e : List editor_highlight) (hlen : st.highlight.length = render.length)
    (hi : st.i < render.length) :
    stepNumber s render (padHl st e)
      = (padHl (stepNumber s render st).1 e, (stepNumber s render st).2) := by
  have hk := stepKeyword_pad s render st e hlen hi
  have hprev : (if st.i > 0 then (st.highlight ++ e).getD (st.i - 1) HL_NORMAL else HL_NORMAL)
      = (if st.i > 0 then st.highlight.getD (st.i - 1) HL_NORMAL else HL_NORMAL) := by
    split_ifs with h0
    · exact List.getD_append _ _ _ _ (by omega)
    · rfl
  unfold stepNumber
  simp only [padHl] at hk ⊢
  rw [hprev]
  split_ifs
  all_goals first
    | exact hk
    | (simp only [Prod.mk.injEq, and_true]
       rw [List.set_append_left _ _ (by omega)])

theorem stepString_pad ( s : editor_syntax) (render : List Int) (st : scan_state)
    (e : List editor_highlight) (hlen : st.highlight.length = render.length)
    (hi : st.i < render.length) :
    stepString s render (padHl st e)
      = (padHl (stepString s render st).1 e, (stepString s render st).2) := by
  have hk := stepNumber_pad s render st e hlen hi
  unfold stepString
  simp only [padHl] at hk ⊢
  split_ifs
  all_goals first
    | exact hk
    | (simp only [Prod.mk.injEq, and_true]
       rw [List.set_append_left _ _ (by omega),
         List.set_append_left _ _ (by rw [List.length_set]; omega)])
    | (simp only [Prod.mk.injEq, and_true]
       rw [List.set_append_left _ _ (by omega)])

theorem stepMlComment_pad ( s : editor_syntax) (render : List Int) (st : scan_state)
    (e : List editor_highlight) (hlen : st.highlight.length = render.length)
    (hi : st.i < render.length) :
    stepMlComment s render (padHl st e)
      = (padHl (stepMlComment s render st).1 e, (stepMlComment s render st).2) := by
  have hk := stepString_pad s render st e hlen hi
  have hr : ∀ pat, strncmpEq render st.i pat = true → st.i + pat.length ≤ render.length :=
    fun pat h => strncmpEq_range render st.i pat (by omega) h
  unfold stepMlComment
  simp only [padHl] at hk ⊢
  split_ifs with h1 h2 h3 h4
  all_goals first
    | exact hk
    | (have hx := hr _ h3
       simp only [Prod.mk.injEq, and_true]
       rw [List.set_append_left _ _ (by omega),
         memset_append _ _ _ _ _ (by rw [List.length_set]; omega)])
    | (have hx := hr _ h4
       simp only [Prod.mk.injEq, and_true]
       rw [memset_append _ _ _ _ _ (by omega)])
    | (simp only [Prod.mk.injEq, and_true]
       rw [List.set_append_left _ _ (by omega)])

theorem scanStep_pad ( s : editor_syntax) (render : List Int) (st : scan_state)
    (e : List editor_highlight) (hlen : st.highlight.length = render.length)
    (hi : st.i < render.length) :
    scanStep s render (padHl st e)
      = (padHl (scanStep s render st).1 e, (scanStep s render st).2) := by
  have hk := stepMlComment_pad s render st e hlen hi
  unfold scanStep
  simp only [padHl] at hk ⊢
  split_ifs
  all_goals first
    | exact hk
    | (simp only [Prod.mk.injEq, and_true]
       rw [memset_append _ _ _ _ _ (by omega)])

theorem scanLoop_pad ( s : editor_syntax) (render : List Int) (e : List editor_highlight)
    (fuel : Nat) :
    ∀ (st : scan_state), st.highlight.length = render.length →
      scanLoop s render fuel (padHl st e)
        = (scanLoop s render fuel st).map (fun st1 => padHl st1 e) := by
  induction fuel with
  | zero =>
    intro st hlen
    simp only [scanLoop]
    have : (padHl st e).i = st.i := rfl
    rw [this]
    split_ifs <;> rfl
  | succ n ih =>
    intro st hlen
    simp only [scanLoop]
    have : (padHl st e).i = st.i := rfl
    rw [this]
    split_ifs with hlt
    · rw [scanStep_pad s render st e hlen hlt]
      have hinv := (scanStep_inv s render st).1
      rcases hstep : scanStep s render st with ⟨st2, b⟩
      rw [hstep] at hinv
      cases b with
      | true => rfl
      | false =>
        simp only
        exact ih st2 (by rw [hinv.1]; exact hlen)
    · rfl
theorem set_unchanged_or {α : Type} (P : α → Prop) (l : List α) (k : Nat) (a : α) (hP : P a)
    (j : Nat) (r : α) (h : (l.set k a)[j]? = some r) : l[j]? = some r ∨ P r := by
  by_cases hj : k = j
  · subst hj
    by_cases hk : k < l.length
    · rw [List.getElem?_set_self hk] at h
      cases h
      exact Or.inr hP
    · rw [List.set_eq_of_length_le (by omega)] at h
      exact Or.inl h
  · rw [List.getElem?_set_ne hj] at h
    exact Or.inl h

theorem editorUpdateSyntaxFuel_HlOk (fuel : Nat) (ec : editor_config) (k : Nat)
    (hidx : idxFrom 0 ec.row = true) (hn : ec.num_rows ≤ ec.row.length)
    (hk : k < ec.row.length) (hf : ec.row.length - k ≤ fuel) :
    ∃ ec1, editorUpdateSyntaxFuel fuel ec k = some ec1 ∧
      ec1.row.length = ec.row.length ∧
      (∀ r, ec1.row[k]? = some r → HlOk r) ∧
      (∀ (j : Nat) (r : editor_row), ec1.row[j]? = some r → ec.row[j]? = some r ∨ HlOk r) := by
  induction fuel generalizing ec k with
  | zero => omega
  | succ n ih =>
    have hrow : ec.row[k]? = some ec.row[k] := List.getElem?_eq_getElem hk
    generalize ec.row[k] = row at hrow
    have hri : row.idx = k := by simpa using idxFrom_getElem? hidx hrow
    have hfin : ∀ row1 : editor_row, HlOk row1 →
        (setRow ec k row1).row.length = ec.row.length ∧
        (∀ r, (setRow ec k row1).row[k]? = some r → HlOk r) ∧
        (∀ (j : Nat) (r : editor_row), (setRow ec k row1).row[j]? = some r → ec.row[j]? = some r ∨ HlOk r) := by
      intro row1 h1
      refine ⟨by simp [setRow], ?_, ?_⟩
      · intro r hr
        simp only [setRow] at hr
        rw [List.getElem?_set_self hk] at hr
        cases hr
        exact h1
      · intro j r hr
        exact set_unchanged_or HlOk ec.row k row1 h1 j r hr
    simp only [editorUpdateSyntaxFuel, hrow]
    by_cases hr : row.render.length = 0
    · simp only [hr, if_true]
      exact ⟨_, rfl, hfin _ ⟨by simp [hr], by simp⟩⟩
    · simp only [hr, if_false]
      cases hs : ec.syntax_ with
      | none =>
        simp only
        refine ⟨_, rfl, hfin _ ⟨by simp, ?_⟩⟩
        intro x hx
        simp only [List.mem_replicate] at hx
        rw [hx.2]
        decide
      | some s =>
        simp only
        have hprev : ∃ b, (if row.idx > 0 then
            (rowAt ec (row.idx - 1)).map (fun r => r.hl_open_comment) else some false) = some b := by
          split_ifs with h0
          · have h1 : (row.idx - 1).toNat < ec.row.length := by omega
            have h2 : 0 ≤ row.idx - 1 := by omega
            simp only [rowAt, h2, if_true, List.getElem?_eq_getElem h1]
            exact ⟨_, rfl⟩
          · exact ⟨_, rfl⟩
        obtain ⟨b, hb⟩ := hprev
        rw [hb]
        simp only
        obtain ⟨st, hst, hl1, hl2⟩ := scanRow_HlOk s row.render b
        have hst1 : scanLoop s row.render row.render.length
            { i := 0, prev_sep := true, in_string := 0, in_comment := b,
              highlight := List.replicate row.render.length HL_NORMAL } = some st := hst
        rw [hst1]
        simp only
        have hok : HlOk { row with highlight := st.highlight, hl_open_comment := st.in_comment } :=
          ⟨hl1, hl2⟩
        obtain ⟨g1, g2, g3⟩ := hfin _ hok
        have hset : (ec.row.set k
            { row with highlight := st.highlight, hl_open_comment := st.in_comment }).map strip
            = ec.row.map strip := map_strip_set hrow rfl
        split_ifs with hc
        · have hk1 : (row.idx + 1).toNat = k + 1 := by omega
          rw [hk1]
          obtain ⟨ec1, h1, h2, h3, h4⟩ := ih
            (setRow ec k { row with highlight := st.highlight, hl_open_comment := st.in_comment })
            (k + 1)
            (by rw [← hidx]; exact idxFrom_congr (strip_idx hset))
            (by rw [g1]; exact hn)
            (by rw [g1]; have := hc.2; omega)
            (by rw [g1]; omega)
          refine ⟨ec1, h1, h2.trans g1, ?_, ?_⟩
          · intro r hr1
            rcases h4 k r hr1 with h5 | h5
            · exact g2 r h5
            · exact h5
          · intro j r hr1
            rcases h4 j r hr1 with h5 | h5
            · exact g3 j r h5
            · exact Or.inr h5
        · exact ⟨_, rfl, g1, g2, g3⟩

theorem editorUpdateSyntax_HlOk (ec : editor_config) (k : Nat)
    (hidx : idxFrom 0 ec.row = true) (hn : ec.num_rows ≤ ec.row.length)
    (hk : k < ec.row.length) :
    ∃ ec1, editorUpdateSyntax ec k = some ec1 ∧
      ec1.row.length = ec.row.length ∧
      (∀ r, ec1.row[k]? = some r → HlOk r) ∧
      (∀ (j : Nat) (r : editor_row), ec1.row[j]? = some r → ec.row[j]? = some r ∨ HlOk r) :=
  editorUpdateSyntaxFuel_HlOk ec.row.length ec k hidx hn hk (by omega)

theorem editorUpdateRow_HlOk (ec : editor_config) (k : Nat)
    (hidx : idxFrom 0 ec.row = true) (hn : ec.num_rows ≤ ec.row.length)
    (hk : k < ec.row.length) :
    ∃ ec1, editorUpdateRow ec k = some ec1 ∧
      ec1.row.length = ec.row.length ∧
      (∀ r, ec1.row[k]? = some r → HlOk r) ∧
      (∀ (j : Nat) (r : editor_row), ec1.row[j]? = some r → ec.row[j]? = some r ∨ HlOk r) := by
  have hrow : ec.row[k]? = some ec.row[k] := List.getElem?_eq_getElem hk
  generalize ec.row[k] = row at hrow
  simp only [editorUpdateRow, hrow]
  generalize hrow1 : editor_row.mk row.idx row.chars
    (renderLoop (row.chars.length + List.count 9 row.chars * (MEL_TAB_STOP - 1) + 1) row.chars [])
    row.highlight row.hl_open_comment = row1
  have hstrip : (ec.row.set k row1).map (fun r => r.idx) = ec.row.map (fun r => r.idx) := by
    rw [List.map_set]
    have : row1.idx = row.idx := by rw [← hrow1]
    rw [this]
    apply List.ext_getElem?
    intro j
    rw [List.getElem?_set]
    split_ifs with h1 h2
    · subst h1
      simp [hrow]
    · simp at h2
      omega
    · rfl
  have hlen : (setRow ec k row1).row.length = ec.row.length := by simp [setRow]
  obtain ⟨ec1, h1, h2, h3, h4⟩ := editorUpdateSyntax_HlOk (setRow ec k row1) k
    (by rw [← hidx]; exact idxFrom_congr hstrip) (by rw [hlen]; exact hn) (by rw [hlen]; exact hk)
  refine ⟨ec1, h1, h2.trans hlen, h3, ?_⟩
  intro j r hr
  rcases h4 j r hr with h5 | h5
  · by_cases hj : j = k
    · subst hj
      exact Or.inr (h3 r hr)
    · simp only [setRow] at h5
      rw [List.getElem?_set_ne (fun h => hj h.symm)] at h5
      exact Or.inl h5
  · exact Or.inr h5
/-- C11: on a buffer whose rows carry their positions, `editorUpdateSyntax(&ec.row[k])` and
`editorUpdateRow(&ec.row[k])` return, with or without a profile.  The row `k` then has a
highlight of exactly `render_size` entries, each one of the tags `HL_NORMAL`,
`HL_SL_COMMENT`, `HL_ML_COMMENT`, `HL_KEYWORD_1`, `HL_KEYWORD_2`, `HL_STRING`, `HL_NUMBER`
(`HlOk`), and every other row either is the row it was before the call or, reached by the
continuation cascade, has such a highlight too.  No write of the scanner falls outside
`0..render_size-1`: the scan of a row returns, and run on a highlight buffer that is
followed by further cells `extra` it gives the same result followed by the same cells. -/
theorem C11_highlight_length (ec : editor_config) (hidx : idxFrom 0 ec.row = true)
    (hn : ec.num_rows ≤ ec.row.length) (k : Nat) (hk : k < ec.row.length) :
    (∃ ec1, editorUpdateSyntax ec k = some ec1 ∧ ec1.row.length = ec.row.length ∧
      (∀ r, ec1.row[k]? = some r → HlOk r) ∧
      (∀ (j : Nat) (r : editor_row), ec1.row[j]? = some r → ec.row[j]? = some r ∨ HlOk r)) ∧
    (∃ ec1, editorUpdateRow ec k = some ec1 ∧ ec1.row.length = ec.row.length ∧
      (∀ r, ec1.row[k]? = some r → HlOk r) ∧
      (∀ (j : Nat) (r : editor_row), ec1.row[j]? = some r → ec.row[j]? = some r ∨ HlOk r)) ∧
    (∀ ( s : editor_syntax) (render : List Int) (p : Bool) (extra : List editor_highlight),
      ∃ st, scanRow s render p = some st ∧ st.highlight.length = render.length ∧
        scanLoop s render render.length
          (padHl (scan_state.mk 0 true 0 p (List.replicate render.length HL_NORMAL)) extra)
          = some (padHl st extra)) := by
  refine ⟨editorUpdateSyntax_HlOk ec k hidx hn hk, editorUpdateRow_HlOk ec k hidx hn hk, ?_⟩
  intro s render p extra
  obtain ⟨st, h1, h2, _⟩ := scanRow_HlOk s render p
  refine ⟨st, h1, h2, ?_⟩
  rw [scanLoop_pad s render extra render.length _ (by simp)]
  have h3 : scanLoop s render render.length
      (scan_state.mk 0 true 0 p (List.replicate render.length HL_NORMAL)) = some st := h1
  rw [h3]
  rfl

/-- C11, witness: the rows "/* a" and "b" under the C profile, not scanned yet.
`editorUpdateRow` on row 0 opens a comment, the cascade reaches row 1, and both rows end
with a highlight of as many `HL_ML_COMMENT` entries as their render has bytes. -/
theorem C11_highlight_length_witness :
    idxFrom 0 (profiledBuffer HL_DB_c ["/* a", "b"] 0 0).row = true ∧
    (∃ ec1, editorUpdateRow (profiledBuffer HL_DB_c ["/* a", "b"] 0 0) 0 = some ec1 ∧
      ec1.row.length = (profiledBuffer HL_DB_c ["/* a", "b"] 0 0).row.length ∧
      (∀ r, ec1.row[0]? = some r → HlOk r) ∧
      (∀ (j : Nat) (r : editor_row), ec1.row[j]? = some r →
        (profiledBuffer HL_DB_c ["/* a", "b"] 0 0).row[j]? = some r ∨ HlOk r)) ∧
    (editorUpdateRow (profiledBuffer HL_DB_c ["/* a", "b"] 0 0) 0).map
        (fun e => e.row.map (fun r => (r.render.length, r.highlight)))
      = some [(4, [HL_ML_COMMENT, HL_ML_COMMENT, HL_ML_COMMENT, HL_ML_COMMENT]),
          (1, [HL_ML_COMMENT])] :=
  ⟨by decide,
   (C11_highlight_length (profiledBuffer HL_DB_c ["/* a", "b"] 0 0) (by decide) (by decide) 0
      (by decide)).2.1,
   by decide⟩
/-! ## Instances of C14, C15, C16 and C20 -/

/-- C14, witness: on the row "a\tb" the tab at index 1 is rendered in columns 1..3, so the
render column 2 maps to index 1, and the column 9, past the end of the render, maps to
the size 3. -/
theorem C14_snapping_witness :
    editorRowRenderXToCursorX (editor_row.mk 0 [97, 9, 98] [97, 32, 32, 32, 98] [] false) 2
      = ((1 : Nat) : Int) ∧
    editorRowRenderXToCursorX (editor_row.mk 0 [97, 9, 98] [97, 32, 32, 32, 98] [] false) 9
      = (((editor_row.mk 0 [97, 9, 98] [97, 32, 32, 32, 98] [] false).chars.length : Nat) : Int) :=
  ⟨(C14_snapping (editor_row.mk 0 [97, 9, 98] [97, 32, 32, 32, 98] [] false)).1 1 2
      (by decide) (by decide) (by decide),
   (C14_snapping (editor_row.mk 0 [97, 9, 98] [97, 32, 32, 32, 98] [] false)).2.1 9
      (by decide)⟩

/-- C15, witness: on the buffer "ab", inserting a row at 5, deleting the row -1, and on
row 0 inserting a byte at 3, inserting a string at -1 and deleting the byte at 2 all return
the state unchanged. -/
theorem C15_out_of_range_noop_witness :
    editorInsertRow (plainBuffer ["ab"] 0 0) 5 (cs "x") = some (plainBuffer ["ab"] 0 0) ∧
    editorDelRow (plainBuffer ["ab"] 0 0) (-1) = plainBuffer ["ab"] 0 0 ∧
    editorRowInsertChar (plainBuffer ["ab"] 0 0) 0 3 120 = some (plainBuffer ["ab"] 0 0) ∧
    editorRowInsertString (plainBuffer ["ab"] 0 0) 0 (-1) (cs "x")
      = some (plainBuffer ["ab"] 0 0) ∧
    editorRowDelChar (plainBuffer ["ab"] 0 0) 0 2 = some (plainBuffer ["ab"] 0 0) :=
  ⟨(C15_out_of_range_noop (plainBuffer ["ab"] 0 0)).1 5 (cs "x") (by decide),
   (C15_out_of_range_noop (plainBuffer ["ab"] 0 0)).2.1 (-1) (by decide),
   ((C15_out_of_range_noop (plainBuffer ["ab"] 0 0)).2.2 0 (plainRow 0 "ab") (by decide)).1
      3 120 (by decide),
   ((C15_out_of_range_noop (plainBuffer ["ab"] 0 0)).2.2 0 (plainRow 0 "ab") (by decide)).2.1
      (-1) (cs "x") (by decide),
   ((C15_out_of_range_noop (plainBuffer ["ab"] 0 0)).2.2 0 (plainRow 0 "ab") (by decide)).2.2
      2 (by decide)⟩

/-- C16, witness: on the rows "ab", "cd" the flip-up key with the cursor on row 0 and the
flip-down key with the cursor on row 1 return the state unchanged. -/
theorem C16_flip_position_witness :
    editorProcessKeypressFlipUp ACTIONS_LIST_MAX_SIZE (plainBuffer ["ab", "cd"] 0 0)
      = some (plainBuffer ["ab", "cd"] 0 0) ∧
    editorProcessKeypressFlipDown ACTIONS_LIST_MAX_SIZE (plainBuffer ["ab", "cd"] 0 1)
      = some (plainBuffer ["ab", "cd"] 0 1) :=
  ⟨(C16_flip_position ACTIONS_LIST_MAX_SIZE (plainBuffer ["ab", "cd"] 0 0)).1 (by decide),
   (C16_flip_position ACTIONS_LIST_MAX_SIZE (plainBuffer ["ab", "cd"] 0 1)).2.1 (by decide)⟩

/-- C20, witness: on the buffer "abc" with the one-node log [InsertChar "a" at (0,0)],
`redo()` with `current` on that node (the tail) returns the state unchanged; with
`current` equal to `NULL` it executes the head, which makes the row "aabc", and sets
`current` to the head. -/
theorem C20_redo_witness :
    redo ACTIONS_LIST_MAX_SIZE
        { plainBuffer ["abc"] 1 0 with actions := ActionList.mk [insAction 0 0 [97]] (some 0) 1 }
      = some
        { plainBuffer ["abc"] 1 0 with actions := ActionList.mk [insAction 0 0 [97]] (some 0) 1 } ∧
    (∀ e1, redo ACTIONS_LIST_MAX_SIZE
        { plainBuffer ["abc"] 0 0 with actions := ActionList.mk [insAction 0 0 [97]] none 1 }
        = some e1 →
      e1.actions = ActionList.mk [insAction 0 0 [97]] (some 0) 1) ∧
    (redo ACTIONS_LIST_MAX_SIZE
        { plainBuffer ["abc"] 0 0 with actions := ActionList.mk [insAction 0 0 [97]] none 1 }).map
        (fun e => (texts e.row, e.cursor_x, e.actions.current))
      = some ([cs "aabc"], 1, some 0) :=
  ⟨(C20_redo ACTIONS_LIST_MAX_SIZE
      { plainBuffer ["abc"] 1 0 with actions := ActionList.mk [insAction 0 0 [97]] (some 0) 1 }).2.2.1
      0 rfl rfl,
   ((C20_redo ACTIONS_LIST_MAX_SIZE
      { plainBuffer ["abc"] 0 0 with actions := ActionList.mk [insAction 0 0 [97]] none 1 }).2.1
      (by decide) (insAction 0 0 [97]) rfl rfl).2,
   by decide⟩
/-! ## C21: serialization -/

theorem flatten_terminated (l : List (List Int)) (h : l ≠ []) :
    (l.map (fun t => t ++ [10])).flatten = List.intercalate [10] l ++ [10] := by
  induction l with
  | nil => exact absurd rfl h
  | cons a t ih =>
    cases t with
    | nil => simp [List.intercalate]
    | cons b t =>
      have := ih (by simp)
      simp only [List.map_cons, List.flatten_cons] at this ⊢
      rw [this]
      simp [List.intercalate, List.intersperse]

theorem sum_length_succ (l : List editor_row) :
    (l.map (fun r => (r.chars.length : Int) + 1)).sum
      = ((texts l).map (fun t => (t.length : Int))).sum + l.length := by
  induction l with
  | nil => rfl
  | cons a t ih =>
    simp only [List.map_cons, List.sum_cons, texts, List.length_cons] at ih ⊢
    rw [ih]
    push_cast
    ring

theorem length_flatten_terminated (l : List editor_row) :
    (((l.map (fun r => r.chars ++ [10])).flatten.length : Nat) : Int)
      = (l.map (fun r => (r.chars.length : Int) + 1)).sum := by
  induction l with
  | nil => rfl
  | cons a t ih =>
    simp only [List.map_cons, List.flatten_cons, List.length_append, List.sum_cons,
      List.length_cons, List.length_nil] at ih ⊢
    rw [← ih]
    push_cast
    ring

/-- C21 (amended). Serialization: for every buffer whose row count is the number of its
rows, `editorRowsToString` returns every row's content followed by one newline, in order.
With n >= 1 rows this is the contents joined by a single newline, followed by one more
newline after the last row.  The reported length is the sum of the row sizes plus n, and
it is the length of the returned buffer. -/
theorem C21_serialization (ec : editor_config) (hlen : ec.num_rows = ec.row.length) :
    (editorRowsToString ec).1 = ((texts ec.row).map (fun t => t ++ [10])).flatten ∧
    (ec.row ≠ [] →
      (editorRowsToString ec).1 = List.intercalate [10] (texts ec.row) ++ [10]) ∧
    (editorRowsToString ec).2
      = ((texts ec.row).map (fun t => (t.length : Int))).sum + ec.num_rows ∧
    (editorRowsToString ec).2 = ((editorRowsToString ec).1.length : Int) := by
  have htake : ec.row.take ec.num_rows.toNat = ec.row := by
    rw [hlen]
    simp
  have h1 : (editorRowsToString ec).1 = ((texts ec.row).map (fun t => t ++ [10])).flatten := by
    simp only [editorRowsToString, htake, texts, List.map_map, Function.comp_def]
  have h2 : (editorRowsToString ec).2 = (ec.row.map (fun r => (r.chars.length : Int) + 1)).sum := by
    simp only [editorRowsToString, htake]
  refine ⟨h1, ?_, ?_, ?_⟩
  · intro hne
    rw [h1]
    exact flatten_terminated (texts ec.row) (by simpa [texts] using hne)
  · rw [h2, sum_length_succ, hlen]
  · rw [h2, ← length_flatten_terminated]
    simp only [editorRowsToString, htake]

/-- C21, witness: the buffer with the rows "ab" and "c" is serialized as "ab\nc\n", of
length 5. -/
theorem C21_serialization_witness :
    (editorRowsToString (plainBuffer ["ab", "c"] 0 0)).1
      = List.intercalate [10] (texts (plainBuffer ["ab", "c"] 0 0).row) ++ [10] ∧
    (editorRowsToString (plainBuffer ["ab", "c"] 0 0)).1 = cs "ab\nc\n" ∧
    (editorRowsToString (plainBuffer ["ab", "c"] 0 0)).2 = 5 :=
  ⟨(C21_serialization (plainBuffer ["ab", "c"] 0 0) (by decide)).2.1 (by decide),
   by decide, by decide⟩

/-- C21, counterexample to the newline being a separator only: for the rows "ab" and "c"
the result is not "ab\nc" and the reported length is not 2 + 1 + (2 - 1) = 4; a newline
follows the last row as well. -/
theorem C21_counterexample :
    (plainBuffer ["ab", "c"] 0 0).num_rows = 2 ∧
    (editorRowsToString (plainBuffer ["ab", "c"] 0 0)).1
      ≠ List.intercalate [10] (texts (plainBuffer ["ab", "c"] 0 0).row) ∧
    (editorRowsToString (plainBuffer ["ab", "c"] 0 0)).2 ≠ (2 + 1) + (2 - 1) ∧
    editorRowsToString (plainBuffer ["ab", "c"] 0 0) = ([97, 98, 10, 99, 10], 5) := by
  decide
/-! ## C23: the forward effect of InsertChar -/

/-- The InsertChar action recorded with the cursor on the line after the last row. -/
theorem execute_InsertChar_tilde (ec : editor_config) (c : Int) (rest : List Int)
    (hwf : WF ec) (hc : 0 < c) :
    ∃ rows, execute ec (Action.mk ActionType.InsertChar 0 ec.num_rows true (some (c :: rest)))
        = some { ec with row := rows, num_rows := ec.num_rows + 1, cursor_x := 1,
                         cursor_y := ec.num_rows, dirty := ec.dirty + 1 + 1 } ∧
      idxFrom 0 rows = true ∧ texts rows = texts ec.row ++ [[c]] := by
  obtain ⟨hlen, hidx⟩ := hwf
  obtain ⟨cx, cy, n, rows0, d, cp, sy, ac⟩ := ec
  simp only at hidx hlen
  subst hlen
  obtain ⟨rows, e1, e2, e3, _⟩ := editorInsertChar_spec_tilde
    (editor_config.mk 0 rows0.length rows0.length rows0 d cp sy ac) c hidx rfl hc rfl rfl
  simp only at e1
  refine ⟨rows, ?_, e2, e3⟩
  simp only [execute, lt_self_iff_false, if_false, List.headD_cons, e1]

/-- C23. `execute` of an InsertChar action with payload `s` on a well-formed buffer.
Recorded at `(x, y)` on an existing row with `0 <= x <= size`: the content of row `y`
becomes `content[0..x) + s + content[x..size)`, the other rows and the row count are
unchanged, and the cursor becomes `(x + |s|, y)`.  Recorded on the line after the last
row (`y = num_rows`, `x = 0`): only the first byte `c` of the payload is passed to
`editorInsertChar`; when `c > 0` a new last row with the content `[c]` is appended and
the cursor becomes `(1, y)`, whatever follows `c` in the payload, and when `c <= 0` no row
is appended. -/
theorem C23_execute_InsertChar (ec : editor_config) (hwf : WF ec) :
    (∀ (k a : Nat) (row : editor_row) (s : List Int),
      ec.row[k]? = some row → a ≤ row.chars.length →
      ∃ ec1, execute ec (insAction a k s) = some ec1 ∧
        texts ec1.row = (texts ec.row).set k (row.chars.take a ++ s ++ row.chars.drop a) ∧
        ec1.num_rows = ec.num_rows ∧ ec1.cursor_x = (a : Int) + s.length ∧
        ec1.cursor_y = k) ∧
    (∀ (c : Int) (rest : List Int), 0 < c →
      ∃ ec1, execute ec
          (Action.mk ActionType.InsertChar 0 ec.num_rows true (some (c :: rest))) = some ec1 ∧
        texts ec1.row = texts ec.row ++ [[c]] ∧ ec1.num_rows = ec.num_rows + 1 ∧
        ec1.cursor_x = 1 ∧ ec1.cursor_y = ec.num_rows) ∧
    (∀ (c : Int) (rest : List Int), c ≤ 0 →
      execute ec (Action.mk ActionType.InsertChar 0 ec.num_rows true (some (c :: rest)))
        = some { ec with cursor_x := 0, cursor_y := ec.num_rows }) := by
  refine ⟨?_, ?_, ?_⟩
  · intro k a row s hrow ha
    obtain ⟨rows1, h1, _, h3⟩ := execute_InsertChar_row ec k a row s hwf hrow ha
    exact ⟨_, h1, h3, rfl, rfl, rfl⟩
  · intro c rest hc
    obtain ⟨rows, h1, _, h3⟩ := execute_InsertChar_tilde ec c rest hwf hc
    exact ⟨_, h1, h3, rfl, rfl, rfl⟩
  · intro c rest hc
    simp only [execute, lt_self_iff_false, if_false, List.headD_cons, editorInsertChar, hc,
      if_true]

/-- C23, witness: on the buffer "x", the InsertChar action recorded at (0, 1) on the
line after the last row with the payload "ab" appends the row "a", not "ab", and leaves
the cursor at (1, 1), not (2, 1). -/
theorem C23_execute_InsertChar_witness :
    (∃ ec1, execute (plainBuffer ["x"] 0 0)
        (Action.mk ActionType.InsertChar 0 (plainBuffer ["x"] 0 0).num_rows true
          (some (97 :: [98]))) = some ec1 ∧
      texts ec1.row = texts (plainBuffer ["x"] 0 0).row ++ [[97]] ∧
      ec1.num_rows = (plainBuffer ["x"] 0 0).num_rows + 1 ∧
      ec1.cursor_x = 1 ∧ ec1.cursor_y = (plainBuffer ["x"] 0 0).num_rows) ∧
    (execute (plainBuffer ["x"] 0 0)
        (Action.mk ActionType.InsertChar 0 1 true (some (cs "ab")))).map
        (fun e => (texts e.row, e.cursor_x, e.cursor_y)) = some ([cs "x", cs "a"], 1, 1) :=
  ⟨(C23_execute_InsertChar (plainBuffer ["x"] 0 0) (by decide)).2.1 97 [98] (by decide),
   by decide⟩
/-! ## C25, C26, C27, C30: inverses on an existing row -/

/-- C25. InsertChar inverse on a well-formed buffer: for every existing row `y`, every
column `x` with `0 <= x <= size` and every payload `s`, `execute` of the InsertChar action
recorded at `(x, y)` makes row `y` equal to `content[0..x) + s + content[x..size)`, and
`revert` right after it deletes the span `[x, x + |s|)` of that row, which restores the
content of row `y`, leaves every other row and the row count unchanged, and puts the
cursor back at `(x, y)`. -/
theorem C25_InsertChar_inverse (ec : editor_config) (hwf : WF ec) (k a : Nat)
    (row : editor_row) (s : List Int) (hrow : ec.row[k]? = some row)
    (ha : a ≤ row.chars.length) :
    ∃ ec1 ec2 row1, execute ec (insAction a k s) = some ec1 ∧
      texts ec1.row = (texts ec.row).set k (row.chars.take a ++ s ++ row.chars.drop a) ∧
      ec1.num_rows = ec.num_rows ∧
      ec1.row[k]? = some row1 ∧
      revert ec1 (insAction a k s) = some ec2 ∧
      texts ec2.row
        = (texts ec1.row).set k (row1.chars.take a ++ row1.chars.drop (a + s.length)) ∧
      texts ec2.row = texts ec.row ∧ ec2.num_rows = ec.num_rows ∧
      ec2.cursor_x = a ∧ ec2.cursor_y = k := by
  have hk := lt_of_getElem? hrow
  obtain ⟨rows1, e1, e2, e3⟩ := execute_InsertChar_row ec k a row s hwf hrow ha
  have hget : (texts rows1)[k]? = some (row.chars.take a ++ s ++ row.chars.drop a) := by
    rw [e3]
    simp [hk]
  obtain ⟨row1, hrow1, hch⟩ := texts_getElem? hget
  have hl1 : rows1.length = ec.row.length := by simpa using length_of_texts e3
  have hwf1 : WF (editor_config.mk ((a : Int) + s.length) k ec.num_rows rows1
      (ec.dirty + s.length) ec.copied_char_buffer ec.syntax_ ec.actions) :=
    ⟨by simp only [hl1]; exact hwf.1, e2⟩
  obtain ⟨rows2, f1, f2, f3⟩ := revert_InsertChar_row _ k a row1 s hwf1 hrow1
    (by rw [hch]; simp; omega)
  simp only at f1 f3
  refine ⟨_, _, row1, e1, e3, rfl, hrow1, f1, f3, ?_, rfl, rfl, rfl⟩
  simp only
  rw [f3, e3, hch, List.set_set, take_insert_drop _ _ _ ha]
  exact set_self (getElem?_texts hrow)

/-- C25, witness: on the buffer "hello", inserting "XY" at (2, 0) gives "heXYllo" and the
revert gives "hello" again with the cursor at (2, 0). -/
theorem C25_InsertChar_inverse_witness :
    (∃ ec1 ec2 row1, execute (plainBuffer ["hello"] 0 0) (insAction (2 : Nat) (0 : Nat) (cs "XY"))
        = some ec1 ∧
      texts ec1.row = (texts (plainBuffer ["hello"] 0 0).row).set 0
        ((plainRow 0 "hello").chars.take 2 ++ cs "XY" ++ (plainRow 0 "hello").chars.drop 2) ∧
      ec1.num_rows = (plainBuffer ["hello"] 0 0).num_rows ∧
      ec1.row[0]? = some row1 ∧
      revert ec1 (insAction (2 : Nat) (0 : Nat) (cs "XY")) = some ec2 ∧
      texts ec2.row
        = (texts ec1.row).set 0 (row1.chars.take 2 ++ row1.chars.drop (2 + (cs "XY").length)) ∧
      texts ec2.row = texts (plainBuffer ["hello"] 0 0).row ∧
      ec2.num_rows = (plainBuffer ["hello"] 0 0).num_rows ∧
      ec2.cursor_x = (2 : Nat) ∧ ec2.cursor_y = (0 : Nat)) ∧
    (execute (plainBuffer ["hello"] 0 0) (insAction 2 0 (cs "XY"))).map
        (fun e => texts e.row) = some [cs "heXYllo"] :=
  ⟨C25_InsertChar_inverse (plainBuffer ["hello"] 0 0) (by decide) 0 2 (plainRow 0 "hello")
      (cs "XY") (by decide) (by decide),
   by decide⟩

theorem execute_DelChar_del (ec : editor_config) (k a : Nat) (row : editor_row)
    (str : Option (List Int)) (b : Bool) (hwf : WF ec) (hrow : ec.row[k]? = some row)
    (ha : a < row.chars.length) :
    ∃ ec1, execute ec (Action.mk ActionType.DelChar ((a : Int) + 1) k b str) = some ec1 ∧
      texts ec1.row = (texts ec.row).set k (row.chars.take a ++ row.chars.drop (a + 1)) ∧
      ec1.num_rows = ec.num_rows := by
  obtain ⟨hlen, hidx⟩ := hwf
  obtain ⟨rows, e1, _, e3, _⟩ := editorDelChar_spec_del
    (editor_config.mk ((a : Int) + 1) k ec.num_rows ec.row ec.dirty ec.copied_char_buffer
      ec.syntax_ ec.actions) k a row hidx hlen rfl hrow rfl ha
  simp only [execute]
  rw [e1]
  exact ⟨_, rfl, e3, rfl⟩

theorem execute_DelChar_join (ec : editor_config) (k : Nat) (row prev : editor_row)
    (str : Option (List Int)) (b : Bool) (hwf : WF ec) (hrow : ec.row[k + 1]? = some row)
    (hprev : ec.row[k]? = some prev) :
    ∃ ec1, execute ec (Action.mk ActionType.DelChar 0 ((k : Int) + 1) b str) = some ec1 ∧
      texts ec1.row = (texts ec.row).take k ++ (prev.chars ++ row.chars) ::
        (texts ec.row).drop (k + 2) ∧
      ec1.num_rows = ec.num_rows - 1 := by
  obtain ⟨hlen, hidx⟩ := hwf
  obtain ⟨rows, e1, _, e3, _⟩ := editorDelChar_spec_join
    (editor_config.mk 0 ((k : Int) + 1) ec.num_rows ec.row ec.dirty ec.copied_char_buffer
      ec.syntax_ ec.actions) k row prev hidx hlen rfl hrow hprev rfl
  simp only [execute]
  rw [e1]
  exact ⟨_, rfl, e3, rfl⟩

/-- C26. DelChar inverse on an existing row of a well-formed buffer.  With the cursor at
`(x, y)`, `x > 0`, and the payload equal to the byte at column `x - 1`, of positive code:
`execute` deletes that byte, and `revert` right after it restores every row's content,
the row count and the cursor `(x, y)`.  With the cursor at `(0, y)`, `y > 0`, and no
payload: `execute` joins row `y` onto the end of row `y - 1`, the row count decreasing by
one, and `revert` right after it restores every row's content, the row count and the
cursor `(0, y)`. -/
theorem C26_DelChar_inverse (ec : editor_config) (hwf : WF ec) :
    (∀ (k a : Nat) (row : editor_row) (c : Int), ec.row[k]? = some row →
      row.chars[a]? = some c → 0 < c →
      ∃ ec1 ec2,
        execute ec (Action.mk ActionType.DelChar ((a : Int) + 1) k false (some [c]))
          = some ec1 ∧
        texts ec1.row = (texts ec.row).set k (row.chars.take a ++ row.chars.drop (a + 1)) ∧
        ec1.num_rows = ec.num_rows ∧
        revert ec1 (Action.mk ActionType.DelChar ((a : Int) + 1) k false (some [c]))
          = some ec2 ∧
        texts ec2.row = texts ec.row ∧ ec2.num_rows = ec.num_rows ∧
        ec2.cursor_x = (a : Int) + 1 ∧ ec2.cursor_y = k) ∧
    (∀ (k : Nat) (row prev : editor_row), ec.row[k + 1]? = some row →
      ec.row[k]? = some prev →
      ∃ ec1 ec2,
        execute ec (Action.mk ActionType.DelChar 0 ((k : Int) + 1) false none) = some ec1 ∧
        texts ec1.row = (texts ec.row).take k ++ (prev.chars ++ row.chars) ::
          (texts ec.row).drop (k + 2) ∧
        ec1.num_rows = ec.num_rows - 1 ∧
        revert ec1 (Action.mk ActionType.DelChar 0 ((k : Int) + 1) false none) = some ec2 ∧
        texts ec2.row = texts ec.row ∧ ec2.num_rows = ec.num_rows ∧
        ec2.cursor_x = 0 ∧ ec2.cursor_y = (k : Int) + 1) := by
  refine ⟨?_, ?_⟩
  · intro k a row c hrow hch hc
    obtain ⟨ec1, ec2, h1, h2, h3, h4, h5, h6⟩ :=
      RoundTrip_out (DelChar_del_RoundTrip ec k a row c hwf hrow hch hc)
    obtain ⟨ec3, g1, g2, g3⟩ := execute_DelChar_del ec k a row (some [c]) false hwf hrow
      (lt_of_getElem? hch)
    have he : ec3 = ec1 := Option.some.inj (g1.symm.trans h1)
    subst he
    exact ⟨_, _, h1, g2, g3, h2, h3, h4, h6, h5⟩
  · intro k row prev hrow hprev
    obtain ⟨ec1, ec2, h1, h2, h3, h4, h5, h6⟩ :=
      RoundTrip_out (DelChar_join_RoundTrip ec k row prev hwf hrow hprev)
    obtain ⟨ec3, g1, g2, g3⟩ := execute_DelChar_join ec k row prev none false hwf hrow hprev
    have he : ec3 = ec1 := Option.some.inj (g1.symm.trans h1)
    subst he
    exact ⟨_, _, h1, g2, g3, h2, h3, h4, h6, h5⟩

/-- C26, witness: on the rows "ab", "cd", deleting the byte before (1, 0) gives "b", "cd",
and joining at (0, 1) gives "abcd"; the revert gives "ab", "cd" again in both cases. -/
theorem C26_DelChar_inverse_witness :
    (∃ ec1 ec2,
      execute (plainBuffer ["ab", "cd"] 0 0)
        (Action.mk ActionType.DelChar (((0 : Nat) : Int) + 1) (0 : Nat) false (some [97]))
        = some ec1 ∧
      texts ec1.row = (texts (plainBuffer ["ab", "cd"] 0 0).row).set 0
        ((plainRow 0 "ab").chars.take 0 ++ (plainRow 0 "ab").chars.drop (0 + 1)) ∧
      ec1.num_rows = (plainBuffer ["ab", "cd"] 0 0).num_rows ∧
      revert ec1
        (Action.mk ActionType.DelChar (((0 : Nat) : Int) + 1) (0 : Nat) false (some [97]))
        = some ec2 ∧
      texts ec2.row = texts (plainBuffer ["ab", "cd"] 0 0).row ∧
      ec2.num_rows = (plainBuffer ["ab", "cd"] 0 0).num_rows ∧
      ec2.cursor_x = ((0 : Nat) : Int) + 1 ∧ ec2.cursor_y = (0 : Nat)) ∧
    (∃ ec1 ec2,
      execute (plainBuffer ["ab", "cd"] 0 0)
        (Action.mk ActionType.DelChar 0 (((0 : Nat) : Int) + 1) false none) = some ec1 ∧
      texts ec1.row = (texts (plainBuffer ["ab", "cd"] 0 0).row).take 0 ++
        ((plainRow 0 "ab").chars ++ (plainRow 1 "cd").chars) ::
          (texts (plainBuffer ["ab", "cd"] 0 0).row).drop (0 + 2) ∧
      ec1.num_rows = (plainBuffer ["ab", "cd"] 0 0).num_rows - 1 ∧
      revert ec1 (Action.mk ActionType.DelChar 0 (((0 : Nat) : Int) + 1) false none)
        = some ec2 ∧
      texts ec2.row = texts (plainBuffer ["ab", "cd"] 0 0).row ∧
      ec2.num_rows = (plainBuffer ["ab", "cd"] 0 0).num_rows ∧
      ec2.cursor_x = 0 ∧ ec2.cursor_y = ((0 : Nat) : Int) + 1) ∧
    (execute (plainBuffer ["ab", "cd"] 0 0)
        (Action.mk ActionType.DelChar 1 0 false (some [97]))).map (fun e => texts e.row)
      = some [cs "b", cs "cd"] ∧
    (execute (plainBuffer ["ab", "cd"] 0 0)
        (Action.mk ActionType.DelChar 0 1 false none)).map (fun e => texts e.row)
      = some [cs "abcd"] :=
  ⟨(C26_DelChar_inverse (plainBuffer ["ab", "cd"] 0 0) (by decide)).1 0 0 (plainRow 0 "ab") 97
      (by decide) (by decide) (by decide),
   (C26_DelChar_inverse (plainBuffer ["ab", "cd"] 0 0) (by decide)).2 0 (plainRow 1 "cd")
      (plainRow 0 "ab") (by decide) (by decide),
   by decide, by decide⟩
/-! ## C27, C30 -/

theorem execute_NewLine_row (ec : editor_config) (k a : Nat) (row : editor_row)
    (str : Option (List Int)) (b : Bool) (hwf : WF ec) (hrow : ec.row[k]? = some row)
    (ha : a ≤ row.chars.length) :
    ∃ ec1, execute ec (Action.mk ActionType.NewLine a k b str) = some ec1 ∧
      texts ec1.row = (texts ec.row).take k ++
        row.chars.take a :: row.chars.drop a :: (texts ec.row).drop (k + 1) ∧
      ec1.num_rows = ec.num_rows + 1 := by
  obtain ⟨hlen, hidx⟩ := hwf
  have hk := lt_of_getElem? hrow
  by_cases ha0 : a = 0
  · subst ha0
    obtain ⟨rows, e1, _, e3, _⟩ := editorInsertNewline_spec_col0
      (editor_config.mk ((0 : Nat) : Int) k ec.num_rows ec.row ec.dirty ec.copied_char_buffer
        ec.syntax_ ec.actions) k hidx hlen rfl (by simp only; omega) rfl
    simp only [execute]
    rw [e1]
    refine ⟨_, rfl, ?_, rfl⟩
    simp only [] at e3 ⊢
    rw [e3, List.take_zero, List.drop_zero]
    have := drop_of_getElem? (getElem?_texts hrow)
    rw [this]
  · obtain ⟨rows, e1, _, e3, _⟩ := editorInsertNewline_spec_split
      (editor_config.mk (a : Int) k ec.num_rows ec.row ec.dirty ec.copied_char_buffer
        ec.syntax_ ec.actions) k a row hidx hlen rfl hrow rfl (by omega) ha
    simp only [execute]
    rw [e1]
    exact ⟨_, rfl, e3, rfl⟩

/-- C27. NewLine inverse on an existing row of a well-formed buffer: for every cursor
`(x, y)` with `y < num_rows` and `0 <= x <= size`, `execute` of the NewLine action
recorded at `(x, y)` splits row `y` at column `x` into two rows, and `revert` right after
it restores every row's content, the row count and the cursor `(x, y)`. -/
theorem C27_NewLine_inverse (ec : editor_config) (hwf : WF ec) (k a : Nat) (row : editor_row)
    (hrow : ec.row[k]? = some row) (ha : a ≤ row.chars.length) :
    ∃ ec1 ec2, execute ec (Action.mk ActionType.NewLine a k false none) = some ec1 ∧
      texts ec1.row = (texts ec.row).take k ++
        row.chars.take a :: row.chars.drop a :: (texts ec.row).drop (k + 1) ∧
      ec1.num_rows = ec.num_rows + 1 ∧
      revert ec1 (Action.mk ActionType.NewLine a k false none) = some ec2 ∧
      texts ec2.row = texts ec.row ∧ ec2.num_rows = ec.num_rows ∧
      ec2.cursor_x = a ∧ ec2.cursor_y = k := by
  obtain ⟨ec1, ec2, h1, h2, h3, h4, h5, h6⟩ :=
    RoundTrip_out (NewLine_row_RoundTrip ec k a row hwf hrow ha)
  obtain ⟨ec3, g1, g2, g3⟩ := execute_NewLine_row ec k a row none false hwf hrow ha
  have he : ec3 = ec1 := Option.some.inj (g1.symm.trans h1)
  subst he
  exact ⟨_, _, h1, g2, g3, h2, h3, h4, h6, h5⟩

/-- C27, witness: on the rows "hello", "x", the NewLine at (2, 0) gives "he", "llo", "x",
and the revert gives "hello", "x" again with the cursor at (2, 0). -/
theorem C27_NewLine_inverse_witness :
    (∃ ec1 ec2,
      execute (plainBuffer ["hello", "x"] 0 0)
        (Action.mk ActionType.NewLine (2 : Nat) (0 : Nat) false none) = some ec1 ∧
      texts ec1.row = (texts (plainBuffer ["hello", "x"] 0 0).row).take 0 ++
        (plainRow 0 "hello").chars.take 2 :: (plainRow 0 "hello").chars.drop 2 ::
          (texts (plainBuffer ["hello", "x"] 0 0).row).drop (0 + 1) ∧
      ec1.num_rows = (plainBuffer ["hello", "x"] 0 0).num_rows + 1 ∧
      revert ec1 (Action.mk ActionType.NewLine (2 : Nat) (0 : Nat) false none) = some ec2 ∧
      texts ec2.row = texts (plainBuffer ["hello", "x"] 0 0).row ∧
      ec2.num_rows = (plainBuffer ["hello", "x"] 0 0).num_rows ∧
      ec2.cursor_x = (2 : Nat) ∧ ec2.cursor_y = (0 : Nat)) ∧
    (execute (plainBuffer ["hello", "x"] 0 0)
        (Action.mk ActionType.NewLine 2 0 false none)).map (fun e => texts e.row)
      = some [cs "he", cs "llo", cs "x"] :=
  ⟨C27_NewLine_inverse (plainBuffer ["hello", "x"] 0 0) (by decide) 0 2 (plainRow 0 "hello")
      (by decide) (by decide),
   by decide⟩

theorem execute_CutLine_row (ec : editor_config) (k : Nat) (x : Int)
    (str : Option (List Int)) (b : Bool) (hwf : WF ec) (hk : k < ec.row.length) :
    ∃ ec1, execute ec (Action.mk ActionType.CutLine x k b str) = some ec1 ∧
      texts ec1.row = (texts ec.row).take k ++ (texts ec.row).drop (k + 1) ∧
      ec1.num_rows = ec.num_rows - 1 := by
  obtain ⟨hlen, hidx⟩ := hwf
  obtain ⟨rows, e1, _, e3, _⟩ := editorCut_spec
    (editor_config.mk x k ec.num_rows ec.row ec.dirty ec.copied_char_buffer
      ec.syntax_ ec.actions) k hidx hlen rfl hk
  simp only [execute]
  rw [e1]
  exact ⟨_, rfl, e3, rfl⟩

/-- C30. CutLine inverse on contents, on a well-formed buffer: for every existing row `y`
and every cursor column `x`, `execute` of the CutLine action recorded on row `y` with the
content of row `y` as payload removes row `y` (the row count decreases by one and the
later rows move up), and `revert` right after it restores the row count and the content
of every row, row `y` being the payload again; the cursor is left on row `y`. -/
theorem C30_CutLine_inverse (ec : editor_config) (hwf : WF ec) (k : Nat) (x : Int)
    (row : editor_row) (hrow : ec.row[k]? = some row) :
    ∃ ec1 ec2,
      execute ec (Action.mk ActionType.CutLine x k false (some row.chars)) = some ec1 ∧
      texts ec1.row = (texts ec.row).take k ++ (texts ec.row).drop (k + 1) ∧
      ec1.num_rows = ec.num_rows - 1 ∧
      revert ec1 (Action.mk ActionType.CutLine x k false (some row.chars)) = some ec2 ∧
      texts ec2.row = texts ec.row ∧ ec2.num_rows = ec.num_rows ∧
      (texts ec2.row)[k]? = some row.chars ∧ ec2.cursor_y = k := by
  obtain ⟨ec1, ec2, h1, h2, h3, h4, h5, h6⟩ :=
    RoundTrip_out (CutLine_RoundTrip ec k x row hwf hrow)
  obtain ⟨ec3, g1, g2, g3⟩ := execute_CutLine_row ec k x (some row.chars) false hwf
    (lt_of_getElem? hrow)
  have he : ec3 = ec1 := Option.some.inj (g1.symm.trans h1)
  subst he
  refine ⟨_, _, h1, g2, g3, h2, h3, h4, ?_, h5⟩
  rw [h3]
  exact getElem?_texts hrow

/-- C30, witness: on the rows "ab", "cd", "ef" with the cursor column 1, cutting row 1
gives "ab", "ef" and the revert gives "ab", "cd", "ef" again. -/
theorem C30_CutLine_inverse_witness :
    (∃ ec1 ec2,
      execute (plainBuffer ["ab", "cd", "ef"] 0 0)
        (Action.mk ActionType.CutLine 1 (1 : Nat) false (some (plainRow 1 "cd").chars))
        = some ec1 ∧
      texts ec1.row = (texts (plainBuffer ["ab", "cd", "ef"] 0 0).row).take 1 ++
        (texts (plainBuffer ["ab", "cd", "ef"] 0 0).row).drop (1 + 1) ∧
      ec1.num_rows = (plainBuffer ["ab", "cd", "ef"] 0 0).num_rows - 1 ∧
      revert ec1
        (Action.mk ActionType.CutLine 1 (1 : Nat) false (some (plainRow 1 "cd").chars))
        = some ec2 ∧
      texts ec2.row = texts (plainBuffer ["ab", "cd", "ef"] 0 0).row ∧
      ec2.num_rows = (plainBuffer ["ab", "cd", "ef"] 0 0).num_rows ∧
      (texts ec2.row)[1]? = some (plainRow 1 "cd").chars ∧ ec2.cursor_y = (1 : Nat)) ∧
    (execute (plainBuffer ["ab", "cd", "ef"] 0 0)
        (Action.mk ActionType.CutLine 1 1 false (some (cs "cd")))).map
        (fun e => (texts e.row, e.num_rows)) = some ([cs "ab", cs "ef"], 2) :=
  ⟨C30_CutLine_inverse (plainBuffer ["ab", "cd", "ef"] 0 0) (by decide) 1 1 (plainRow 1 "cd")
      (by decide),
   by decide⟩
/-! ## C28, C29: reverts that do not restore -/

/-- C28. NewLine on the line after the last row of a well-formed buffer: for the NewLine
action recorded at `(0, num_rows)` with `cursor_on_tilde` set, `execute` appends one
empty row, and `revert` right after it removes nothing: it puts the cursor at
`(0, cpos_y + 1)`, which is the line after the last row again, where `editorDelChar`
returns at once.  The rows after `revert` are the rows after `execute`, one more than
before `execute`. -/
theorem C28_NewLine_on_tilde (ec : editor_config) (hwf : WF ec) :
    ∃ ec1 ec2,
      execute ec (Action.mk ActionType.NewLine 0 ec.num_rows true none) = some ec1 ∧
      texts ec1.row = texts ec.row ++ [[]] ∧ ec1.num_rows = ec.num_rows + 1 ∧
      revert ec1 (Action.mk ActionType.NewLine 0 ec.num_rows true none) = some ec2 ∧
      ec2.row = ec1.row ∧ texts ec2.row = texts ec.row ++ [[]] ∧
      ec2.num_rows = ec.num_rows + 1 ∧ ec2.num_rows ≠ ec.num_rows := by
  obtain ⟨hlen, hidx⟩ := hwf
  obtain ⟨rows, e1, _, e3, _⟩ := editorInsertNewline_spec_col0
    (editor_config.mk 0 ec.num_rows ec.num_rows ec.row ec.dirty ec.copied_char_buffer
      ec.syntax_ ec.actions) ec.row.length hidx hlen hlen (Nat.le_refl _) rfl
  have ht : texts rows = texts ec.row ++ [[]] := by
    simp only [] at e3
    rw [e3, List.take_of_length_le (by simp [texts]), List.drop_of_length_le (by simp [texts])]
  simp only [execute]
  rw [e1]
  refine ⟨_, _, rfl, ht, rfl, ?_, rfl, ht, rfl, ?_⟩
  · simp only [revert, editorDelChar, if_true]
  · simp only
    omega

/-- C28, witness: on the buffer "ab", the NewLine recorded at (0, 1) gives the rows "ab",
"" and the revert leaves the rows "ab", "": the row count is 2, not 1. -/
theorem C28_NewLine_on_tilde_witness :
    (∃ ec1 ec2,
      execute (plainBuffer ["ab"] 0 1)
        (Action.mk ActionType.NewLine 0 (plainBuffer ["ab"] 0 1).num_rows true none)
        = some ec1 ∧
      texts ec1.row = texts (plainBuffer ["ab"] 0 1).row ++ [[]] ∧
      ec1.num_rows = (plainBuffer ["ab"] 0 1).num_rows + 1 ∧
      revert ec1
        (Action.mk ActionType.NewLine 0 (plainBuffer ["ab"] 0 1).num_rows true none)
        = some ec2 ∧
      ec2.row = ec1.row ∧ texts ec2.row = texts (plainBuffer ["ab"] 0 1).row ++ [[]] ∧
      ec2.num_rows = (plainBuffer ["ab"] 0 1).num_rows + 1 ∧
      ec2.num_rows ≠ (plainBuffer ["ab"] 0 1).num_rows) ∧
    createAction (plainBuffer ["ab"] 0 1) none ActionType.NewLine
      = Action.mk ActionType.NewLine 0 1 true none ∧
    ((execute (plainBuffer ["ab"] 0 1) (Action.mk ActionType.NewLine 0 1 true none)).bind
        (fun e => revert e (Action.mk ActionType.NewLine 0 1 true none))).map
        (fun e => (texts e.row, e.num_rows)) = some ([cs "ab", cs ""], 2) :=
  ⟨C28_NewLine_on_tilde (plainBuffer ["ab"] 0 1) (by decide), by decide, by decide⟩

/-- C29. PasteLine on an existing row of a well-formed buffer, recorded at `(x, y)` with
`0 <= x <= size` and the payload `p`: `execute` appends `p` to the end of row `y`,
whatever the column, and `revert` right after it deletes the span `[x, x + |p|)` of the
row.  Row `y` is then the first `x` bytes of `content + p` followed by its bytes from
`x + |p|` on; the other rows and the row count are unchanged.  This is the content
before `execute` when `x = size`, where the deleted span is the pasted one. -/
theorem C29_PasteLine_revert (ec : editor_config) (hwf : WF ec) (k a : Nat)
    (row : editor_row) (p : List Int) (hrow : ec.row[k]? = some row)
    (ha : a ≤ row.chars.length) :
    ∃ ec1 ec2,
      execute ec (Action.mk ActionType.PasteLine a k false (some p)) = some ec1 ∧
      texts ec1.row = (texts ec.row).set k (row.chars ++ p) ∧
      revert ec1 (Action.mk ActionType.PasteLine a k false (some p)) = some ec2 ∧
      texts ec2.row = (texts ec.row).set k
        ((row.chars ++ p).take a ++ (row.chars ++ p).drop (a + p.length)) ∧
      ec2.num_rows = ec.num_rows ∧
      (a = row.chars.length → texts ec2.row = texts ec.row) := by
  obtain ⟨hlen, hidx⟩ := hwf
  have hk := lt_of_getElem? hrow
  obtain ⟨cx, cy, n, rows0, d, cp, sy, ac⟩ := ec
  simp only at hidx hlen hrow hk
  subst hlen
  obtain ⟨rows1, e1, e2, e3, e4⟩ := editorPaste_spec_row
    (editor_config.mk a k rows0.length rows0 d (some p) sy ac) k row p
    hidx rfl rfl hrow rfl
  simp only at e1 e3
  have hl1 : rows1.length = rows0.length := by simpa using length_of_texts e3
  have hget : (texts rows1)[k]? = some (row.chars ++ p) := by
    rw [e3]; simp [hk]
  obtain ⟨row1, hrow1, hch⟩ := texts_getElem? hget
  obtain ⟨rows2, f1, f2, f3, f4⟩ := editorRowDelString_spec
    (editor_config.mk a k rows0.length rows1 (d + 1) cp sy ac)
    k a p.length k a p.length row1 e2 (by simp [hl1]) rfl hrow1
    rfl rfl (by rw [hch]; simp; omega)
  simp only at f1 f3
  have ht2 : texts rows2 = (texts rows0).set k
      ((row.chars ++ p).take a ++ (row.chars ++ p).drop (a + p.length)) := by
    rw [f3, e3, hch, List.set_set]
  have hexec : execute (editor_config.mk cx cy rows0.length rows0 d cp sy ac)
      (Action.mk ActionType.PasteLine a k false (some p))
      = some (editor_config.mk ((a : Int) + p.length) k rows0.length rows1 (d + 1) cp sy ac) := by
    simp only [execute, e1]
  have hrev : revert (editor_config.mk ((a : Int) + p.length) k rows0.length rows1 (d + 1) cp sy ac)
      (Action.mk ActionType.PasteLine a k false (some p))
      = some (editor_config.mk a k rows0.length rows2 (d + 1 + p.length) cp sy ac) := by
    simp only [revert, f1, Bool.false_eq_true, if_false]
  refine ⟨_, _, hexec, e3, hrev, ht2, rfl, ?_⟩
  intro hae
  simp only
  rw [ht2, hae, List.take_left' rfl, List.drop_of_length_le (by simp)]
  simp only [List.append_nil]
  exact set_self (getElem?_texts hrow)

/-- C29, witness: on the buffer "abc", the PasteLine recorded at (0, 0) with the payload
"XY" gives "abcXY", and the revert deletes the columns 0 and 1: the row is "cXY", not
"abc". -/
theorem C29_PasteLine_revert_witness :
    (∃ ec1 ec2,
      execute (plainBuffer ["abc"] 0 0)
        (Action.mk ActionType.PasteLine (0 : Nat) (0 : Nat) false (some (cs "XY"))) = some ec1 ∧
      texts ec1.row = (texts (plainBuffer ["abc"] 0 0).row).set 0
        ((plainRow 0 "abc").chars ++ cs "XY") ∧
      revert ec1
        (Action.mk ActionType.PasteLine (0 : Nat) (0 : Nat) false (some (cs "XY"))) = some ec2 ∧
      texts ec2.row = (texts (plainBuffer ["abc"] 0 0).row).set 0
        (((plainRow 0 "abc").chars ++ cs "XY").take 0 ++
          ((plainRow 0 "abc").chars ++ cs "XY").drop (0 + (cs "XY").length)) ∧
      ec2.num_rows = (plainBuffer ["abc"] 0 0).num_rows ∧
      (0 = (plainRow 0 "abc").chars.length →
        texts ec2.row = texts (plainBuffer ["abc"] 0 0).row)) ∧
    ((execute (plainBuffer ["abc"] 0 0)
        (Action.mk ActionType.PasteLine 0 0 false (some (cs "XY")))).bind
        (fun e => revert e (Action.mk ActionType.PasteLine 0 0 false (some (cs "XY"))))).map
        (fun e => texts e.row) = some [cs "cXY"] ∧
    cs "cXY" ≠ cs "abc" :=
  ⟨C29_PasteLine_revert (plainBuffer ["abc"] 0 0) (by decide) 0 0 (plainRow 0 "abc") (cs "XY")
      (by decide) (by decide),
   by decide, by decide⟩
/-! ## C24: the cascade is bounded -/

theorem editorUpdateSyntaxCalls_fst (fuel : Nat) (ec : editor_config) (k : Nat) :
    (editorUpdateSyntaxCalls fuel ec k).map Prod.fst = editorUpdateSyntaxFuel fuel ec k := by
  induction fuel generalizing ec k with
  | zero => rfl
  | succ n ih =>
    simp only [editorUpdateSyntaxCalls, editorUpdateSyntaxFuel]
    cases ec.row[k]? with
    | none => rfl
    | some row =>
      simp only
      by_cases hr : row.render.length = 0
      · simp only [hr, if_true, Option.map_some']
      · simp only [hr, if_false]
        cases ec.syntax_ with
        | none => rfl
        | some s =>
          simp only
          cases (if row.idx > 0 then (rowAt ec (row.idx - 1)).map (fun r => r.hl_open_comment)
              else some false) with
          | none => rfl
          | some b =>
            simp only
            cases scanLoop s row.render row.render.length
                { i := 0, prev_sep := true, in_string := 0, in_comment := b,
                  highlight := List.replicate row.render.length HL_NORMAL } with
            | none => rfl
            | some st =>
              simp only
              by_cases hc : (row.hl_open_comment != st.in_comment) = true ∧
                  row.idx + 1 < ec.num_rows
              · rw [if_pos hc, if_pos hc, ← ih]
                cases editorUpdateSyntaxCalls n
                    (setRow ec k
                      { row with highlight := st.highlight, hl_open_comment := st.in_comment })
                    (row.idx + 1).toNat with
                | none => rfl
                | some p => rfl
              · rw [if_neg hc, if_neg hc]
                rfl

theorem flagAt_set_ne (rows : List editor_row) (k j : Nat) (r : editor_row) (h : k ≠ j) :
    flagAt (rows.set k r) j = flagAt rows j := by
  simp only [flagAt, List.getElem?_set_ne h]

theorem editorUpdateSyntaxCalls_trace (fuel : Nat) (ec : editor_config) (k : Nat)
    (hidx : idxFrom 0 ec.row = true) (hn : ec.num_rows ≤ ec.row.length)
    (hk : k < ec.row.length) (hf : ec.row.length - k ≤ fuel) :
    ∃ ec1 m, editorUpdateSyntaxCalls fuel ec k = some (ec1, List.range' k m) ∧
      1 ≤ m ∧ (m = 1 ∨ ((k + m : Nat) : Int) ≤ ec.num_rows) ∧
      (∀ (j : Nat), k ≤ j → j + 1 < k + m → flagAt ec1.row j ≠ flagAt ec.row j) ∧
      (flagAt ec1.row (k + m - 1) = flagAt ec.row (k + m - 1) ∨
        ec.num_rows ≤ ((k + m : Nat) : Int)) ∧
      (∀ (j : Nat), j < k ∨ k + m ≤ j → ec1.row[j]? = ec.row[j]?) ∧
      ec1.num_rows = ec.num_rows := by
  induction fuel generalizing ec k with
  | zero => omega
  | succ n ih =>
    have hrow : ec.row[k]? = some ec.row[k] := List.getElem?_eq_getElem hk
    generalize ec.row[k] = row at hrow
    have hri : row.idx = k := by simpa using idxFrom_getElem? hidx hrow
    have hfin : ∀ row1 : editor_row,
        (row1.hl_open_comment = row.hl_open_comment ∨ ec.num_rows ≤ ((k + 1 : Nat) : Int)) →
        ∃ ec1 m, some (setRow ec k row1, [k]) = some (ec1, List.range' k m) ∧
          1 ≤ m ∧ (m = 1 ∨ ((k + m : Nat) : Int) ≤ ec.num_rows) ∧
          (∀ (j : Nat), k ≤ j → j + 1 < k + m → flagAt ec1.row j ≠ flagAt ec.row j) ∧
          (flagAt ec1.row (k + m - 1) = flagAt ec.row (k + m - 1) ∨
            ec.num_rows ≤ ((k + m : Nat) : Int)) ∧
          (∀ (j : Nat), j < k ∨ k + m ≤ j → ec1.row[j]? = ec.row[j]?) ∧
          ec1.num_rows = ec.num_rows := by
      intro row1 h1
      refine ⟨setRow ec k row1, 1, rfl, Nat.le_refl _, Or.inl rfl, ?_, ?_, ?_, rfl⟩
      · intro j h2 h3
        omega
      · rcases h1 with h1 | h1
        · left
          simp only [Nat.add_sub_cancel, flagAt, setRow, List.getElem?_set_self hk, hrow,
            Option.map_some', h1]
        · right
          exact h1
      · intro j hj
        simp only [setRow]
        rw [List.getElem?_set_ne (by omega)]
    simp only [editorUpdateSyntaxCalls, hrow]
    by_cases hr : row.render.length = 0
    · simp only [hr, if_true]
      exact hfin _ (Or.inl rfl)
    · simp only [hr, if_false]
      cases hs : ec.syntax_ with
      | none =>
        simp only
        exact hfin _ (Or.inl rfl)
      | some s =>
        simp only
        have hprev : ∃ b, (if row.idx > 0 then
            (rowAt ec (row.idx - 1)).map (fun r => r.hl_open_comment) else some false) = some b := by
          split_ifs with h0
          · have h1 : (row.idx - 1).toNat < ec.row.length := by omega
            have h2 : 0 ≤ row.idx - 1 := by omega
            simp only [rowAt, h2, if_true, List.getElem?_eq_getElem h1]
            exact ⟨_, rfl⟩
          · exact ⟨_, rfl⟩
        obtain ⟨b, hb⟩ := hprev
        rw [hb]
        simp only
        obtain ⟨st, hst⟩ := scanLoop_some s row.render row.render.length
          { i := 0, prev_sep := true, in_string := 0, in_comment := b,
            highlight := List.replicate row.render.length HL_NORMAL } (by simp)
        rw [hst]
        simp only
        generalize hrow1 : editor_row.mk row.idx row.chars row.render st.highlight st.in_comment
          = row1
        have hflag1 : row1.hl_open_comment = st.in_comment := by rw [← hrow1]
        have hset : (ec.row.set k row1).map strip = ec.row.map strip :=
          map_strip_set hrow (by rw [← hrow1]; rfl)
        by_cases hc : (row.hl_open_comment != st.in_comment) = true ∧ row.idx + 1 < ec.num_rows
        · rw [if_pos hc]
          have hk1 : (row.idx + 1).toNat = k + 1 := by omega
          rw [hk1]
          have hlen : (setRow ec k row1).row.length = ec.row.length := by simp [setRow]
          obtain ⟨ec2, m, h1, h2, h3, h4, h5, h6, h7⟩ := ih (setRow ec k row1) (k + 1)
            (by rw [← hidx]; exact idxFrom_congr (strip_idx hset))
            (by rw [hlen]; exact hn)
            (by rw [hlen]; have := hc.2; omega)
            (by rw [hlen]; omega)
          rw [h1]
          simp only
          have hnum : (setRow ec k row1).num_rows = ec.num_rows := rfl
          rw [hnum] at h3 h5
          refine ⟨ec2, m + 1, rfl, by omega, Or.inr ?_, ?_, ?_, ?_, h7⟩
          · have := hc.2
            rcases h3 with h3 | h3
            · subst h3
              push_cast
              omega
            · push_cast at h3 ⊢
              omega
          · intro j hj1 hj2
            by_cases hjk : j = k
            · subst hjk
              have e1 : ec2.row[j]? = (setRow ec j row1).row[j]? := h6 j (Or.inl (by omega))
              have hne : row.hl_open_comment ≠ st.in_comment := by simpa using hc.1
              simp only [flagAt, e1, setRow, List.getElem?_set_self hk, hrow, Option.map_some',
                hflag1]
              intro hcon
              exact hne (Option.some.inj hcon).symm
            · have := h4 j (by omega) (by omega)
              simp only [setRow] at this
              rw [flagAt_set_ne _ _ _ _ (fun h => hjk h.symm)] at this
              exact this
          · have e0 : k + (m + 1) - 1 = k + 1 + m - 1 := by omega
            have e1 : ((k + (m + 1) : Nat) : Int) = ((k + 1 + m : Nat) : Int) := by
              push_cast
              omega
            rw [e0, e1]
            rcases h5 with h5 | h5
            · left
              simp only [setRow] at h5
              rw [flagAt_set_ne _ _ _ _ (by omega)] at h5
              exact h5
            · right
              exact h5
          · intro j hj
            have := h6 j (by omega)
            rw [this]
            simp only [setRow]
            rw [List.getElem?_set_ne (by omega)]
        · rw [if_neg hc]
          apply hfin
          by_cases hch : (row.hl_open_comment != st.in_comment) = true
          · right
            have : ¬ row.idx + 1 < ec.num_rows := fun h => hc ⟨hch, h⟩
            push_cast
            omega
          · left
            rw [hflag1]
            simp only [bne_iff_ne, ne_eq, not_not] at hch
            exact hch.symm
/-- C24. The continuation cascade terminates and is bounded.  On a well-formed buffer
with `n` rows, `editorUpdateSyntax(&ec.row[i])` returns, and the rows on which the
function is entered (and so the rows it scans) are `i, i+1, ..., i+m-1` in this order,
each once, with `1 <= m <= n - i`.  Every row before the last one of these had its
`hl_open_comment` changed, and the last one either kept its flag or is the last row of
the buffer: the cascade stops at the first row whose flag does not change.  The rows
outside `i..i+m-1` are left as they were. -/
theorem C24_cascade_bounded (ec : editor_config) (hwf : WF ec) (k : Nat)
    (hk : k < ec.row.length) :
    ∃ ec1 m, editorUpdateSyntaxCalls ec.row.length ec k = some (ec1, List.range' k m) ∧
      editorUpdateSyntax ec k = some ec1 ∧
      1 ≤ m ∧ m ≤ ec.row.length - k ∧
      (∀ (j : Nat), k ≤ j → j + 1 < k + m → flagAt ec1.row j ≠ flagAt ec.row j) ∧
      (flagAt ec1.row (k + m - 1) = flagAt ec.row (k + m - 1) ∨ k + m = ec.row.length) ∧
      (∀ (j : Nat), j < k ∨ k + m ≤ j → ec1.row[j]? = ec.row[j]?) := by
  obtain ⟨hlen, hidx⟩ := hwf
  obtain ⟨ec1, m, h1, h2, h3, h4, h5, h6, _⟩ := editorUpdateSyntaxCalls_trace ec.row.length ec k
    hidx (by omega) hk (by omega)
  have hm : k + m ≤ ec.row.length := by
    rcases h3 with h3 | h3
    · omega
    · omega
  refine ⟨ec1, m, h1, ?_, h2, by omega, h4, ?_, h6⟩
  · have := editorUpdateSyntaxCalls_fst ec.row.length ec k
    rw [h1] at this
    exact this.symm
  · rcases h5 with h5 | h5
    · exact Or.inl h5
    · right
      omega

/-- C24, witness: under the C profile, on the rows "/* a", "b", "c" not scanned yet, the
call on row 0 opens a comment and the cascade enters the rows 0, 1, 2; on the rows
"/* a */", "b", "c" the flag of row 0 does not change and only row 0 is entered. -/
theorem C24_cascade_bounded_witness :
    (∃ ec1 m, editorUpdateSyntaxCalls (profiledBuffer HL_DB_c ["/* a", "b", "c"] 0 0).row.length
        (profiledBuffer HL_DB_c ["/* a", "b", "c"] 0 0) 0 = some (ec1, List.range' 0 m) ∧
      editorUpdateSyntax (profiledBuffer HL_DB_c ["/* a", "b", "c"] 0 0) 0 = some ec1 ∧
      1 ≤ m ∧ m ≤ (profiledBuffer HL_DB_c ["/* a", "b", "c"] 0 0).row.length - 0 ∧
      (∀ (j : Nat), 0 ≤ j → j + 1 < 0 + m →
        flagAt ec1.row j ≠ flagAt (profiledBuffer HL_DB_c ["/* a", "b", "c"] 0 0).row j) ∧
      (flagAt ec1.row (0 + m - 1)
          = flagAt (profiledBuffer HL_DB_c ["/* a", "b", "c"] 0 0).row (0 + m - 1) ∨
        0 + m = (profiledBuffer HL_DB_c ["/* a", "b", "c"] 0 0).row.length) ∧
      (∀ (j : Nat), j < 0 ∨ 0 + m ≤ j →
        ec1.row[j]? = (profiledBuffer HL_DB_c ["/* a", "b", "c"] 0 0).row[j]?)) ∧
    (editorUpdateSyntaxCalls 3 (profiledBuffer HL_DB_c ["/* a", "b", "c"] 0 0) 0).map
        (fun p => (p.2, p.1.row.map (fun r => r.hl_open_comment)))
      = some ([0, 1, 2], [true, true, true]) ∧
    (editorUpdateSyntaxCalls 3 (profiledBuffer HL_DB_c ["/* a */", "b", "c"] 0 0) 0).map
        (fun p => (p.2, p.1.row.map (fun r => r.hl_open_comment)))
      = some ([0], [false, false, false]) :=
  ⟨C24_cascade_bounded (profiledBuffer HL_DB_c ["/* a", "b", "c"] 0 0) (by decide) 0
      (by decide),
   by decide, by decide⟩

/-! ## C22: the continuation flag -/

/-- C22. The continuation flag under a profile `s`, on a well-formed buffer.  When no row
has an empty render, the rescan of every row in order 0..n-1 leaves in each row the
highlight and the flag of the sequential scan (`canonRows`): the flag of row `i` is the
state of the scanner at the end of row `i`, the scan of each row being entered with the
flag of the row above.  On a row with an empty render `editorUpdateSyntax` returns before
the scan: it frees the highlight and leaves `hl_open_comment` as it was, so the flag of
an empty row is not the state at the end of the row above. -/
theorem C22_continuation_flag (ec : editor_config) ( s : editor_syntax)
    (hs : ec.syntax_ = some s) (hwf : WF ec) :
    ((∀ r ∈ renders ec.row, r ≠ []) →
      rescanFrom ec.row.length 0 ec = some { ec with row := canonRows s false ec.row }) ∧
    (∀ (k : Nat) (row : editor_row), ec.row[k]? = some row → row.render = [] →
      editorUpdateSyntax ec k = some (setRow ec k { row with highlight := [] }) ∧
      flagAt (setRow ec k { row with highlight := [] }).row k = some row.hl_open_comment) := by
  obtain ⟨hlen, hidx⟩ := hwf
  refine ⟨?_, ?_⟩
  · intro hne
    exact rescanFrom_canon s ec.row.length 0 ec hs hidx hlen hne (by omega)
      (fun j hj => absurd hj (Nat.not_lt_zero j))
  · intro k row hrow hr
    have hk := lt_of_getElem? hrow
    have hpos : ec.row.length = (ec.row.length - 1) + 1 := by omega
    refine ⟨?_, ?_⟩
    · rw [editorUpdateSyntax, hpos]
      simp only [editorUpdateSyntaxFuel, hrow, hr, List.length_nil, if_true]
    · simp only [flagAt, setRow, List.getElem?_set_self hk, Option.map_some']

/-- C22, witness: the rows "/* a", "", "b */" under the C profile.  Row 1 has an empty
render and its flag stays false through the call on it; after the file is opened and
every row is rescanned in order the flags are true, false, false and the four positions
of row 2 are tagged `HL_NORMAL`. -/
theorem C22_continuation_flag_witness :
    (editorUpdateSyntax (profiledBuffer HL_DB_c ["/* a", "", "b */"] 0 0) 1
        = some (setRow (profiledBuffer HL_DB_c ["/* a", "", "b */"] 0 0) 1
            { plainRow 1 "" with highlight := [] }) ∧
      flagAt (setRow (profiledBuffer HL_DB_c ["/* a", "", "b */"] 0 0) 1
          { plainRow 1 "" with highlight := [] }).row 1
        = some (plainRow 1 "").hl_open_comment) ∧
    ((editorOpenRows initEditor [cs "/* a", cs "", cs "b */"]).bind
        (fun e => editorSelectSyntaxHighlight e (some HL_DB_c))).map
        (fun e => e.row.map (fun r => (r.hl_open_comment, r.highlight)))
      = some [(true, [HL_ML_COMMENT, HL_ML_COMMENT, HL_ML_COMMENT, HL_ML_COMMENT]),
          (false, []), (false, [HL_NORMAL, HL_NORMAL, HL_NORMAL, HL_NORMAL])] :=
  ⟨(C22_continuation_flag (profiledBuffer HL_DB_c ["/* a", "", "b */"] 0 0) HL_DB_c rfl
      (by decide)).2 1 (plainRow 1 "") (by decide) (by decide),
   by decide⟩
/-! ## C40, C35, C39 -/

/-- C40. `undo()` with nothing to undo: with the history enabled (`cap` is not 0, as for
`ACTIONS_LIST_MAX_SIZE`) and `current` equal to `NULL`, whether the log is empty or every
retained action is undone, `undo()` returns the state with `dirty` set to 0, whatever its
value was, and every other field as it was: the rows, the row count, the cursor and the
log with its chain, `current` and `size`. -/
theorem C40_undo_nothing (cap : Int) (ec : editor_config) (hcap : cap ≠ 0)
    (hcur : ec.actions.current = none) :
    undo cap ec = some { ec with dirty := 0 } ∧ ACTIONS_LIST_MAX_SIZE ≠ 0 := by
  refine ⟨?_, by decide⟩
  simp only [undo, hcap, if_false, hcur]

/-- C40, witness: on the buffer "ab" with `dirty` equal to 5 and a log whose only action
is undone, `undo()` changes `dirty` to 0 and nothing else. -/
theorem C40_undo_nothing_witness :
    undo ACTIONS_LIST_MAX_SIZE
        (editor_config.mk 0 0 1 [plainRow 0 "ab"] 5 none none
          (ActionList.mk [insAction 0 0 [97]] none 1))
      = some { (editor_config.mk 0 0 1 [plainRow 0 "ab"] 5 none none
          (ActionList.mk [insAction 0 0 [97]] none 1)) with dirty := 0 } ∧
    ACTIONS_LIST_MAX_SIZE ≠ 0 :=
  C40_undo_nothing ACTIONS_LIST_MAX_SIZE
    (editor_config.mk 0 0 1 [plainRow 0 "ab"] 5 none none
      (ActionList.mk [insAction 0 0 [97]] none 1)) (by decide) rfl

theorem editorInsertNewline_row (ec : editor_config) (k a : Nat) (row : editor_row)
    (hwf : WF ec) (hy : ec.cursor_y = k) (hx : ec.cursor_x = a)
    (hrow : ec.row[k]? = some row) (ha : a ≤ row.chars.length) :
    ∃ ec1, editorInsertNewline ec = some ec1 ∧
      texts ec1.row = (texts ec.row).take k ++
        row.chars.take a :: row.chars.drop a :: (texts ec.row).drop (k + 1) ∧
      ec1.num_rows = ec.num_rows + 1 ∧ ec1.cursor_x = 0 ∧ ec1.cursor_y = (k : Int) + 1 := by
  obtain ⟨hlen, hidx⟩ := hwf
  have hk := lt_of_getElem? hrow
  by_cases ha0 : a = 0
  · subst ha0
    obtain ⟨rows, e1, _, e3, _⟩ := editorInsertNewline_spec_col0 ec k hidx hlen hy (by omega) hx
    rw [e1]
    refine ⟨_, rfl, ?_, rfl, rfl, ?_⟩
    · simp only [] at e3 ⊢
      rw [e3, List.take_zero, List.drop_zero]
      have := drop_of_getElem? (getElem?_texts hrow)
      rw [this]
    · simp only [hy]
  · obtain ⟨rows, e1, _, e3, _⟩ := editorInsertNewline_spec_split ec k a row hidx hlen hy hrow hx
      (by omega) ha
    rw [e1]
    refine ⟨_, rfl, e3, rfl, rfl, ?_⟩
    simp only [hy]

/-- C35. Splitting a row: on a well-formed buffer with the cursor at `(x, y)` on an
existing row, `0 <= x <= size`, `editorInsertNewline` makes row `y` the old
`content[0..x)` and row `y + 1` the old `content[x..size)`; the rows before `y` are
unchanged, the old rows after `y` follow one position further down, `num_rows` has grown
by one and the cursor is `(0, y + 1)`.  The rows `y` and `y + 1` concatenated are the old
row `y`. -/
theorem C35_split_row (ec : editor_config) (hwf : WF ec) (k a : Nat) (row : editor_row)
    (hy : ec.cursor_y = k) (hx : ec.cursor_x = a) (hrow : ec.row[k]? = some row)
    (ha : a ≤ row.chars.length) :
    ∃ ec1, editorInsertNewline ec = some ec1 ∧
      (texts ec1.row)[k]? = some (row.chars.take a) ∧
      (texts ec1.row)[k + 1]? = some (row.chars.drop a) ∧
      (∀ (j : Nat), j < k → (texts ec1.row)[j]? = (texts ec.row)[j]?) ∧
      (∀ (j : Nat), k < j → (texts ec1.row)[j + 1]? = (texts ec.row)[j]?) ∧
      (texts ec1.row).length = (texts ec.row).length + 1 ∧
      ec1.num_rows = ec.num_rows + 1 ∧ ec1.cursor_x = 0 ∧ ec1.cursor_y = (k : Int) + 1 ∧
      row.chars.take a ++ row.chars.drop a = row.chars := by
  have hk := lt_of_getElem? hrow
  have hkt : k < (texts ec.row).length := by simpa [texts] using hk
  have hA : ((texts ec.row).take k).length = k := by
    rw [List.length_take]
    omega
  obtain ⟨ec1, h1, h2, h3, h4, h5⟩ := editorInsertNewline_row ec k a row hwf hy hx hrow ha
  refine ⟨ec1, h1, ?_, ?_, ?_, ?_, ?_, h3, h4, h5, List.take_append_drop a row.chars⟩
  · rw [h2, List.getElem?_append_right (by omega), hA]
    simp
  · rw [h2, List.getElem?_append_right (by omega), hA]
    simp
  · intro j hj
    rw [h2, List.getElem?_append_left (by omega), List.getElem?_take_of_lt hj]
  · intro j hj
    rw [h2, List.getElem?_append_right (by omega), hA]
    have e : j + 1 - k = (j - k - 1) + 2 := by omega
    rw [e]
    simp only [List.getElem?_cons_succ, List.getElem?_drop]
    congr 1
    omega
  · rw [h2]
    simp only [List.length_append, List.length_cons, List.length_take, List.length_drop]
    omega

/-- C35, witness: on the rows "hello", "x" with the cursor at (2, 0), the newline gives
the rows "he", "llo", "x" and the cursor (0, 1). -/
theorem C35_split_row_witness :
    (∃ ec1, editorInsertNewline (plainBuffer ["hello", "x"] 2 0) = some ec1 ∧
      (texts ec1.row)[0]? = some ((plainRow 0 "hello").chars.take 2) ∧
      (texts ec1.row)[0 + 1]? = some ((plainRow 0 "hello").chars.drop 2) ∧
      (∀ (j : Nat), j < 0 →
        (texts ec1.row)[j]? = (texts (plainBuffer ["hello", "x"] 2 0).row)[j]?) ∧
      (∀ (j : Nat), 0 < j →
        (texts ec1.row)[j + 1]? = (texts (plainBuffer ["hello", "x"] 2 0).row)[j]?) ∧
      (texts ec1.row).length = (texts (plainBuffer ["hello", "x"] 2 0).row).length + 1 ∧
      ec1.num_rows = (plainBuffer ["hello", "x"] 2 0).num_rows + 1 ∧
      ec1.cursor_x = 0 ∧ ec1.cursor_y = ((0 : Nat) : Int) + 1 ∧
      (plainRow 0 "hello").chars.take 2 ++ (plainRow 0 "hello").chars.drop 2
        = (plainRow 0 "hello").chars) ∧
    (editorInsertNewline (plainBuffer ["hello", "x"] 2 0)).map
        (fun e => (texts e.row, e.num_rows, e.cursor_x, e.cursor_y))
      = some ([cs "he", cs "llo", cs "x"], 3, 0, 1) :=
  ⟨C35_split_row (plainBuffer ["hello", "x"] 2 0) (by decide) 0 2 (plainRow 0 "hello")
      (by decide) (by decide) (by decide) (by decide),
   by decide⟩

/-- C39. `revert` of a DelChar action with no payload splits the row under the cursor at
the column of the cursor: it is `editorInsertNewline()` on the state as it is, and the
position `(0, y)` recorded in the action is not used.  On a well-formed buffer with the
cursor at `(a, k)` on an existing row the result has the rows `content[0..a)` and
`content[a..size)` in place of row `k`, so the two joined rows come back only when the
cursor is where `execute` left it. -/
theorem C39_revert_join (ec : editor_config) (hwf : WF ec) (k a : Nat) (row : editor_row)
    (hy : ec.cursor_y = k) (hx : ec.cursor_x = a) (hrow : ec.row[k]? = some row)
    (ha : a ≤ row.chars.length) (x y : Int) (b : Bool) :
    revert ec (Action.mk ActionType.DelChar x y b none) = editorInsertNewline ec ∧
    ∃ ec1, revert ec (Action.mk ActionType.DelChar x y b none) = some ec1 ∧
      texts ec1.row = (texts ec.row).take k ++
        row.chars.take a :: row.chars.drop a :: (texts ec.row).drop (k + 1) := by
  have h0 : revert ec (Action.mk ActionType.DelChar x y b none) = editorInsertNewline ec := by
    simp only [revert]
  obtain ⟨ec1, h1, h2, _⟩ := editorInsertNewline_row ec k a row hwf hy hx hrow ha
  exact ⟨h0, ec1, h0.trans h1, h2⟩

/-- C39, witness: the rows "ab", "cd" are joined by the DelChar recorded at (0, 1), which
gives "abcd" with the cursor at (2, 0).  With the cursor moved to (0, 0) before the
revert, the rows are "", "abcd" and not "ab", "cd"; with the cursor left at (2, 0) they
are "ab", "cd". -/
theorem C39_revert_join_witness :
    (revert (plainBuffer ["abcd"] 0 0) (Action.mk ActionType.DelChar 0 1 false none)
        = editorInsertNewline (plainBuffer ["abcd"] 0 0) ∧
      ∃ ec1, revert (plainBuffer ["abcd"] 0 0) (Action.mk ActionType.DelChar 0 1 false none)
          = some ec1 ∧
        texts ec1.row = (texts (plainBuffer ["abcd"] 0 0).row).take 0 ++
          (plainRow 0 "abcd").chars.take 0 :: (plainRow 0 "abcd").chars.drop 0 ::
            (texts (plainBuffer ["abcd"] 0 0).row).drop (0 + 1)) ∧
    (execute (plainBuffer ["ab", "cd"] 0 1) (Action.mk ActionType.DelChar 0 1 false none)).map
        (fun e => (texts e.row, e.cursor_x, e.cursor_y)) = some ([cs "abcd"], 2, 0) ∧
    ((execute (plainBuffer ["ab", "cd"] 0 1) (Action.mk ActionType.DelChar 0 1 false none)).bind
        (fun e => revert { e with cursor_x := 0 }
          (Action.mk ActionType.DelChar 0 1 false none))).map (fun e => texts e.row)
      = some [cs "", cs "abcd"] ∧
    ((execute (plainBuffer ["ab", "cd"] 0 1) (Action.mk ActionType.DelChar 0 1 false none)).bind
        (fun e => revert e (Action.mk ActionType.DelChar 0 1 false none))).map
        (fun e => texts e.row)
      = some [cs "ab", cs "cd"] :=
  ⟨C39_revert_join (plainBuffer ["abcd"] 0 0) (by decide) 0 0 (plainRow 0 "abcd")
      (by decide) (by decide) (by decide) (by decide) 0 1 false,
   by decide, by decide, by decide⟩
/-! ## The highlight after a flip -/

theorem undo_redo_head (cap : Int) (ec : editor_config) (a : Action) (hcap : cap ≠ 0)
    (hcur : ec.actions.current = some 0) (hget : ec.actions.nodes[0]? = some a) :
    (undo cap ec).bind (redo cap)
      = (revert ec a).bind (fun e1 =>
          execute { withCurrent e1 ec.actions (some 0) with dirty := 0 } a) := by
  rw [undo_eq_revert cap ec 0 a hcap hcur hget]
  cases hr : revert ec a with
  | none => rfl
  | some e1 =>
    simp only [Option.map_some', Option.some_bind, if_true]
    simp only [redo, hcap, if_false, hget, withCurrent]
    cases execute (editor_config.mk e1.cursor_x e1.cursor_y e1.num_rows e1.row 0
        e1.copied_char_buffer e1.syntax_
        (ActionList.mk ec.actions.nodes (some 0) ec.actions.size)) a with
    | none => rfl
    | some e2 => rfl

theorem undo_redo_inner (cap : Int) (ec : editor_config) (i : Nat) (a : Action)
    (hcap : cap ≠ 0) (hcur : ec.actions.current = some (i + 1))
    (hget : ec.actions.nodes[i + 1]? = some a) :
    (undo cap ec).bind (redo cap)
      = (revert ec a).bind (fun e1 =>
          (execute (withCurrent e1 ec.actions (some i)) a).map
            (fun e2 => withCurrent e2 ec.actions (some (i + 1)))) := by
  rw [undo_eq_revert cap ec (i + 1) a hcap hcur hget]
  cases hr : revert ec a with
  | none => rfl
  | some e1 =>
    have hne : ¬ i + 1 = 0 := by omega
    simp only [Option.map_some', Option.some_bind, hne, if_false, Nat.add_sub_cancel]
    simp only [redo, hcap, if_false, hget, withCurrent]
    cases he : execute (editor_config.mk e1.cursor_x e1.cursor_y e1.num_rows e1.row e1.dirty
        e1.copied_char_buffer e1.syntax_
        (ActionList.mk ec.actions.nodes (some i) ec.actions.size)) a with
    | none => rfl
    | some e2 =>
      have h2 := execute_actions he
      simp only [Option.map_some', h2]

/-- C38. `undo()` followed by `redo()`, with the history enabled and `current` on the node
`i` that holds the action `a`: the two calls revert `a` and then execute `a` again on the
state that `revert` left, and `current` is the node `i` again, the chain and the counter
being unchanged.  The rows after the two calls are therefore those of `execute(a)` after
`revert(a)`, which are the rows before `undo()` only for the actions that `execute`
replays in full. -/
theorem C38_undo_redo (cap : Int) (ec : editor_config) (i : Nat) (a : Action)
    (hcap : cap ≠ 0) (hcur : ec.actions.current = some i)
    (hget : ec.actions.nodes[i]? = some a) :
    (i = 0 → (undo cap ec).bind (redo cap)
      = (revert ec a).bind (fun e1 =>
          execute { withCurrent e1 ec.actions (some 0) with dirty := 0 } a)) ∧
    (∀ (j : Nat), i = j + 1 → (undo cap ec).bind (redo cap)
      = (revert ec a).bind (fun e1 =>
          (execute (withCurrent e1 ec.actions (some j)) a).map
            (fun e2 => withCurrent e2 ec.actions (some (j + 1))))) ∧
    (∀ e3, (undo cap ec).bind (redo cap) = some e3 →
      e3.actions = ActionList.mk ec.actions.nodes (some i) ec.actions.size) := by
  have h0 : i = 0 → (undo cap ec).bind (redo cap)
      = (revert ec a).bind (fun e1 =>
          execute { withCurrent e1 ec.actions (some 0) with dirty := 0 } a) := by
    intro hi
    subst hi
    exact undo_redo_head cap ec a hcap hcur hget
  have h1 : ∀ (j : Nat), i = j + 1 → (undo cap ec).bind (redo cap)
      = (revert ec a).bind (fun e1 =>
          (execute (withCurrent e1 ec.actions (some j)) a).map
            (fun e2 => withCurrent e2 ec.actions (some (j + 1)))) := by
    intro j hj
    subst hj
    exact undo_redo_inner cap ec j a hcap hcur hget
  refine ⟨h0, h1, ?_⟩
  intro e3 he3
  cases i with
  | zero =>
    rw [h0 rfl] at he3
    cases hr : revert ec a with
    | none => simp only [hr, Option.none_bind] at he3; cases he3
    | some e1 =>
      simp only [hr, Option.some_bind] at he3
      have := execute_actions he3
      rw [this]
      rfl
  | succ j =>
    rw [h1 j rfl] at he3
    cases hr : revert ec a with
    | none => simp only [hr, Option.none_bind] at he3; cases he3
    | some e1 =>
      simp only [hr, Option.some_bind] at he3
      cases he : execute (withCurrent e1 ec.actions (some j)) a with
      | none => simp only [he, Option.map_none'] at he3; cases he3
      | some e2 =>
        simp only [he, Option.map_some', Option.some.injEq] at he3
        rw [← he3]
        rfl

/-- C38, witness: on the buffer "x", the bytes 'a' and 'b' typed on the line after the
last row are coalesced into one InsertChar entry recorded at (0, 1) with the payload
"ab", and the rows are "x", "ab".  `undo()` gives the row "x"; `redo()` right after it
gives the rows "x", "a": `current` is the entry again, but the row "ab" is not
restored. -/
theorem C38_undo_redo_witness :
    ((undo ACTIONS_LIST_MAX_SIZE
        (editor_config.mk 2 1 2 [plainRow 0 "x", plainRow 1 "ab"] 3 none none
          (ActionList.mk [Action.mk ActionType.InsertChar 0 1 true (some (cs "ab"))]
            (some 0) 1))).bind (redo ACTIONS_LIST_MAX_SIZE)
      = (revert
          (editor_config.mk 2 1 2 [plainRow 0 "x", plainRow 1 "ab"] 3 none none
            (ActionList.mk [Action.mk ActionType.InsertChar 0 1 true (some (cs "ab"))]
              (some 0) 1))
          (Action.mk ActionType.InsertChar 0 1 true (some (cs "ab")))).bind (fun e1 =>
            execute
              { withCurrent e1
                  (editor_config.mk 2 1 2 [plainRow 0 "x", plainRow 1 "ab"] 3 none none
                    (ActionList.mk [Action.mk ActionType.InsertChar 0 1 true (some (cs "ab"))]
                      (some 0) 1)).actions (some 0) with dirty := 0 }
              (Action.mk ActionType.InsertChar 0 1 true (some (cs "ab"))))) ∧
    ((makeAction ACTIONS_LIST_MAX_SIZE (plainBuffer ["x"] 0 1) ActionType.InsertChar
        (some [97])).bind
      (fun e => makeAction ACTIONS_LIST_MAX_SIZE e ActionType.InsertChar (some [98])))
      = some (editor_config.mk 2 1 2 [plainRow 0 "x", plainRow 1 "ab"] 3 none none
          (ActionList.mk [Action.mk ActionType.InsertChar 0 1 true (some (cs "ab"))]
            (some 0) 1)) ∧
    ((undo ACTIONS_LIST_MAX_SIZE
        (editor_config.mk 2 1 2 [plainRow 0 "x", plainRow 1 "ab"] 3 none none
          (ActionList.mk [Action.mk ActionType.InsertChar 0 1 true (some (cs "ab"))]
            (some 0) 1))).bind (redo ACTIONS_LIST_MAX_SIZE)).map
        (fun e => (texts e.row, e.num_rows, e.actions.current))
      = some ([cs "x", cs "a"], 2, some 0) :=
  ⟨(C38_undo_redo ACTIONS_LIST_MAX_SIZE
      (editor_config.mk 2 1 2 [plainRow 0 "x", plainRow 1 "ab"] 3 none none
        (ActionList.mk [Action.mk ActionType.InsertChar 0 1 true (some (cs "ab"))]
          (some 0) 1))
      0 (Action.mk ActionType.InsertChar 0 1 true (some (cs "ab"))) (by decide) rfl rfl).1 rfl,
   by decide, by decide⟩
/-! ## C37: the coalesced payload and the row -/

theorem typeChars_then_undo (cap : Int) (ec : editor_config) (c0 : Int) (rest : List Int)
    (hwf : WF ec) (hlog : LogWF ec.actions) (hcap : CapOk cap)
    (hpos : ∀ c ∈ c0 :: rest, 0 < c) (hcur : CursorOk ec) (hrow : ec.cursor_y < ec.num_rows)
    (hnc : concatWithLastAction cap ec ActionType.InsertChar (some [c0]) = some (false, ec)) :
    ∃ ec1 old u i, typeChars cap ec (c0 :: rest) = some ec1 ∧
      rowAt ec ec.cursor_y = some old ∧
      ec1.actions.current = some i ∧ i + 1 = ec1.actions.nodes.length ∧
      ec1.actions.nodes[i]? = some (insAction ec.cursor_x ec.cursor_y (c0 :: rest)) ∧
      texts ec1.row = (texts ec.row).set ec.cursor_y.toNat
        (old.chars.take ec.cursor_x.toNat ++ (c0 :: rest) ++ old.chars.drop ec.cursor_x.toNat) ∧
      undo cap ec1 = some u ∧ texts u.row = texts ec.row ∧ u.num_rows = ec.num_rows ∧
      u.cursor_x = ec.cursor_x ∧ u.cursor_y = ec.cursor_y := by
  have hcap0 : cap ≠ 0 := by rcases hcap with h | h <;> omega
  obtain ⟨hx0, hy0, hyn, htx, hxr⟩ := hcur
  obtain ⟨k, hk⟩ := Int.eq_ofNat_of_zero_le hy0
  obtain ⟨a, ha0⟩ := Int.eq_ofNat_of_zero_le hx0
  obtain ⟨row, hr1, hr2⟩ := rowAt_of_lt ec ec.cursor_y k hk (by have := hwf.1; omega)
  have hkl := lt_of_getElem? hr1
  have ha : a ≤ row.chars.length := by have := hxr row hr2; omega
  obtain ⟨rows1, e1, e2, e3⟩ := makeAction_InsertChar_new cap ec k a row [c0] hwf hcap hk ha0
    hr1 ha hnc
  have hl1 : rows1.length = ec.row.length := by simpa using length_of_texts e3
  have hshape := addAction_shape cap ec.actions (insAction a k [c0]) hcap hlog
  obtain ⟨ec2, f1, f2, f3, f4, f5, f6, f7⟩ := typeChars_coalesce cap rest
    { ec with row := rows1, cursor_x := (a : Int) + ([c0] : List Int).length, cursor_y := k,
              dirty := ec.dirty + ([c0] : List Int).length,
              actions := addAction cap ec.actions (insAction a k [c0]) }
    k a row.chars [c0] (evictHead cap (keptChain ec.actions))
    (((evictHead cap (keptChain ec.actions)).length : Int) + 1)
    ⟨by simp only [hl1]; exact hwf.1, e2⟩ hcap (fun x hx => hpos x (by simp [hx])) rfl rfl
    (by simp only [e3]; simp [hkl]) ha hshape
  have ht2 : texts ec2.row = (texts ec.row).set k
      (row.chars.take a ++ (c0 :: rest) ++ row.chars.drop a) := by
    rw [f4]
    simp only [e3, List.set_set]
    rfl
  have hget2 : (texts ec2.row)[k]? = some (row.chars.take a ++ (c0 :: rest) ++ row.chars.drop a) := by
    rw [ht2]
    simp [texts, hkl]
  obtain ⟨row2, hrow2, hch2⟩ := texts_getElem? hget2
  have hcur2 : ec2.actions.current = some (evictHead cap (keptChain ec.actions)).length := by
    rw [f3]
  have hnode2 : ec2.actions.nodes[(evictHead cap (keptChain ec.actions)).length]?
      = some (insAction a k (c0 :: rest)) := by
    rw [f3]
    simp only
    rw [List.getElem?_append_right (le_refl _)]
    simp
  obtain ⟨rows3, g1, g2, g3⟩ := revert_InsertChar_row ec2 k a row2 (c0 :: rest) f2 hrow2
    (by rw [hch2]; simp; omega)
  have hundo := undo_eq_revert cap ec2 _ _ hcap0 hcur2 hnode2
  rw [g1] at hundo
  simp only [Option.map_some'] at hundo
  refine ⟨ec2, row, _, _, ?_, hr2, hcur2, ?_, ?_, ?_, hundo, ?_, ?_, ?_, ?_⟩
  · simp only [typeChars, e1]
    exact f1
  · rw [f3]
    simp
  · rw [hnode2, hk, ha0]
  · rw [ht2, hk, ha0]
    simp only [Int.toNat_ofNat]
  · simp only
    rw [g3, ht2, hch2, List.set_set, take_insert_drop _ _ _ ha]
    exact set_self (getElem?_texts hr1)
  · simp only
    exact f7
  · simp only
    exact ha0.symm
  · simp only
    exact hk.symm

theorem makeAction_coalesce_nonpositive (cap : Int) (e : editor_config) (Q : List Action)
    (x y : Int) (s : List Int) (sz : Int) (c : Int) (hcap : cap ≠ 0)
    (hact : e.actions = ActionList.mk (Q ++ [insAction x y s]) (some Q.length) sz)
    (hy : e.cursor_y = y) (hx : e.cursor_x = x + s.length) (hc : c ≤ 0) :
    makeAction cap e ActionType.InsertChar (some [c])
      = some { e with
          actions := ActionList.mk (Q ++ [insAction x y (s ++ [c])]) (some Q.length) sz } := by
  have hget : (Q ++ [insAction x y s])[Q.length]? = some (insAction x y s) := by
    rw [List.getElem?_append_right (le_refl _)]
    simp
  have hset : (Q ++ [insAction x y s]).set Q.length
      { insAction x y s with string := some (s ++ [c]) } = Q ++ [insAction x y (s ++ [c])] := by
    rw [List.set_append_right _ _ (le_refl _)]
    simp [insAction]
  have hcc : concatWithLastAction cap e ActionType.InsertChar (some [c])
      = some (true, { e with
          actions := ActionList.mk (Q ++ [insAction x y (s ++ [c])]) (some Q.length) sz }) := by
    simp only [insAction] at hset hget
    simp only [concatWithLastAction, hcap, ne_eq, not_false_eq_true, and_self, if_true, hact,
      List.length_append, List.length_cons, List.length_nil, insAction, hget, hy, hx,
      List.length_singleton, le_refl, List.headD_cons, editorInsertChar, hc, hset]
  simp only [makeAction, hcc]

/-- C37. Typing through `makeAction(InsertChar, c)` on a well-formed buffer with a
recording capacity.  For bytes of positive code `c1..ck` typed contiguously from column
`x` of an existing row `y`, the first of them not being coalesced with an older entry:
the log ends with one entry recorded at `(x, y)` with the payload `c1..ck`, on which
`current` stands, row `y` holds `c1..ck` at the columns `[x, x + k)`, and one `undo()`
restores every row's content and the row count and puts the cursor at `(x, y)`.  For a
byte `c <= 0` (a byte above 127 where `char` is signed) on the coalescing path:
`editorInsertChar` returns without inserting it, so the rows and the cursor are
unchanged, while the payload of the entry is extended by `c`. -/
theorem C37_coalesced_payload (cap : Int) (hcap : CapOk cap) :
    (∀ (ec : editor_config) (c0 : Int) (rest : List Int), WF ec → LogWF ec.actions →
      (∀ c ∈ c0 :: rest, 0 < c) → CursorOk ec → ec.cursor_y < ec.num_rows →
      concatWithLastAction cap ec ActionType.InsertChar (some [c0]) = some (false, ec) →
      ∃ ec1 old u i, typeChars cap ec (c0 :: rest) = some ec1 ∧
        rowAt ec ec.cursor_y = some old ∧
        ec1.actions.current = some i ∧ i + 1 = ec1.actions.nodes.length ∧
        ec1.actions.nodes[i]? = some (insAction ec.cursor_x ec.cursor_y (c0 :: rest)) ∧
        texts ec1.row = (texts ec.row).set ec.cursor_y.toNat
          (old.chars.take ec.cursor_x.toNat ++ (c0 :: rest) ++
            old.chars.drop ec.cursor_x.toNat) ∧
        undo cap ec1 = some u ∧ texts u.row = texts ec.row ∧ u.num_rows = ec.num_rows ∧
        u.cursor_x = ec.cursor_x ∧ u.cursor_y = ec.cursor_y) ∧
    (∀ (e : editor_config) (Q : List Action) (x y : Int) (s : List Int) (sz : Int) (c : Int),
      e.actions = ActionList.mk (Q ++ [insAction x y s]) (some Q.length) sz →
      e.cursor_y = y → e.cursor_x = x + s.length → c ≤ 0 →
      makeAction cap e ActionType.InsertChar (some [c])
        = some { e with
            actions := ActionList.mk (Q ++ [insAction x y (s ++ [c])]) (some Q.length) sz }) := by
  have hcap0 : cap ≠ 0 := by rcases hcap with h | h <;> omega
  refine ⟨?_, ?_⟩
  · intro ec c0 rest hwf hlog hpos hcur hrow hnc
    exact typeChars_then_undo cap ec c0 rest hwf hlog hcap hpos hcur hrow hnc
  · intro e Q x y s sz c hact hy hx hc
    exact makeAction_coalesce_nonpositive cap e Q x y s sz c hcap0 hact hy hx hc

/-- C37, witness: on the buffer "xy" with the cursor at (1, 0), the bytes 'a', 'b' are
coalesced into the entry "ab" and the row is "xaby".  The bytes 0xC3, 0xA9 (-61 and -87 as
signed `char`) give the entry [-61, -87] while the row is [120, -61, 121]: the second byte
is in the payload and not in the row, and `undo()` then deletes the columns 1 and 2,
which leaves "x" and not "xy". -/
theorem C37_coalesced_payload_witness :
    (∃ ec1 old u i, typeChars ACTIONS_LIST_MAX_SIZE (plainBuffer ["xy"] 1 0) (97 :: [98])
        = some ec1 ∧
      rowAt (plainBuffer ["xy"] 1 0) (plainBuffer ["xy"] 1 0).cursor_y = some old ∧
      ec1.actions.current = some i ∧ i + 1 = ec1.actions.nodes.length ∧
      ec1.actions.nodes[i]? = some (insAction (plainBuffer ["xy"] 1 0).cursor_x
        (plainBuffer ["xy"] 1 0).cursor_y (97 :: [98])) ∧
      texts ec1.row = (texts (plainBuffer ["xy"] 1 0).row).set
        (plainBuffer ["xy"] 1 0).cursor_y.toNat
        (old.chars.take (plainBuffer ["xy"] 1 0).cursor_x.toNat ++ (97 :: [98]) ++
          old.chars.drop (plainBuffer ["xy"] 1 0).cursor_x.toNat) ∧
      undo ACTIONS_LIST_MAX_SIZE ec1 = some u ∧
      texts u.row = texts (plainBuffer ["xy"] 1 0).row ∧
      u.num_rows = (plainBuffer ["xy"] 1 0).num_rows ∧
      u.cursor_x = (plainBuffer ["xy"] 1 0).cursor_x ∧
      u.cursor_y = (plainBuffer ["xy"] 1 0).cursor_y) ∧
    (typeChars ACTIONS_LIST_MAX_SIZE (plainBuffer ["xy"] 1 0) [-61, -87]).map
        (fun e => (texts e.row, e.cursor_x, e.actions.nodes.map (fun a => a.string)))
      = some ([[120, -61, 121]], 2, [some [-61, -87]]) ∧
    ((typeChars ACTIONS_LIST_MAX_SIZE (plainBuffer ["xy"] 1 0) [-61, -87]).bind
        (undo ACTIONS_LIST_MAX_SIZE)).map (fun e => (texts e.row, e.cursor_x, e.cursor_y))
      = some ([[120]], 1, 0) :=
  ⟨(C37_coalesced_payload ACTIONS_LIST_MAX_SIZE (by decide)).1 (plainBuffer ["xy"] 1 0) 97 [98]
      (by decide) (by decide) (by decide) (by decide) (by decide) (by decide),
   by decide, by decide⟩
/-! ## C31: the cascade after the insertion of a row -/

theorem setIdxFrom_getElem? (j : Int) (l : List editor_row) (i : Nat) :
    (setIdxFrom j l)[i]? = (l[i]?).map (fun r => { r with idx := j + i }) := by
  induction l generalizing j i with
  | nil => simp [setIdxFrom]
  | cons a t ih =>
    cases i with
    | zero => simp [setIdxFrom]
    | succ i =>
      simp only [setIdxFrom, List.getElem?_cons_succ, ih]
      congr 1
      funext r
      congr 1
      push_cast
      omega

theorem editorUpdateSyntax_beyond (ec : editor_config) (k : Nat)
    (hidx : idxFrom 0 ec.row = true) (hn : ec.num_rows ≤ ec.row.length)
    (hk : k < ec.row.length) :
    ∃ ec2, editorUpdateSyntax ec k = some ec2 ∧ ec2.num_rows = ec.num_rows ∧
      ∀ (j : Nat), k < j → ec.num_rows ≤ (j : Int) → ec2.row[j]? = ec.row[j]? := by
  obtain ⟨ec2, m, h1, h2, h3, _, _, h6, h7⟩ := editorUpdateSyntaxCalls_trace ec.row.length ec k
    hidx hn hk (by omega)
  refine ⟨ec2, ?_, h7, ?_⟩
  · have := editorUpdateSyntaxCalls_fst ec.row.length ec k
    rw [h1] at this
    exact this.symm
  · intro j hj1 hj2
    apply h6 j
    right
    rcases h3 with h3 | h3
    · omega
    · omega

theorem editorUpdateRow_beyond (ec : editor_config) (k : Nat)
    (hidx : idxFrom 0 ec.row = true) (hn : ec.num_rows ≤ ec.row.length)
    (hk : k < ec.row.length) :
    ∃ ec2, editorUpdateRow ec k = some ec2 ∧ ec2.num_rows = ec.num_rows ∧
      ec2.dirty = ec.dirty ∧
      ∀ (j : Nat), k < j → ec.num_rows ≤ (j : Int) → ec2.row[j]? = ec.row[j]? := by
  have hrow : ec.row[k]? = some ec.row[k] := List.getElem?_eq_getElem hk
  generalize ec.row[k] = row at hrow
  obtain ⟨rows, e1, _, _, _⟩ := editorUpdateRow_spec0 ec k row hidx hn hrow
  simp only [editorUpdateRow, hrow] at e1 ⊢
  generalize hrow1 : editor_row.mk row.idx row.chars
    (renderLoop (row.chars.length + List.count 9 row.chars * (MEL_TAB_STOP - 1) + 1) row.chars [])
    row.highlight row.hl_open_comment = row1 at e1 ⊢
  have hstrip : (ec.row.set k row1).map (fun r => r.idx) = ec.row.map (fun r => r.idx) := by
    rw [List.map_set]
    have : row1.idx = row.idx := by rw [← hrow1]
    rw [this]
    apply List.ext_getElem?
    intro j
    by_cases hj : k = j
    · subst hj
      rw [List.getElem?_set_self (by simpa using hk)]
      simp [hrow]
    · rw [List.getElem?_set_ne hj]
  have hlen : (setRow ec k row1).row.length = ec.row.length := by simp [setRow]
  obtain ⟨ec2, h1, h2, h3⟩ := editorUpdateSyntax_beyond (setRow ec k row1) k
    (by rw [← hidx]; exact idxFrom_congr hstrip) (by rw [hlen]; exact hn) (by rw [hlen]; exact hk)
  refine ⟨ec2, h1, h2, ?_, ?_⟩
  · rw [e1] at h1
    have := Option.some.inj h1
    rw [← this]
  · intro j hj1 hj2
    rw [h3 j hj1 hj2]
    simp only [setRow]
    rw [List.getElem?_set_ne (by omega)]

/-- C31. `editorInsertRow(at, text)` on a well-formed buffer with `n >= 1` rows, for
every `at` with `0 <= at < n`: the call returns with `n + 1` rows, and the row that was
the last one before the call is moved to index `n` with its `idx` set to `n` and nothing
else changed: it keeps its highlight and its `hl_open_comment`.  The row is updated while
`num_rows` is still `n`, so the cascade, which goes on only while `idx + 1 < num_rows`,
never reaches index `n`; for `at = n - 1` this is the row `at + 1` that follows the new
row. -/
theorem C31_insert_row_cascade (ec : editor_config) (hwf : WF ec) (k : Nat) (s : List Int)
    (last : editor_row) (hk : k < ec.row.length)
    (hlast : ec.row[ec.row.length - 1]? = some last) :
    ∃ ec1, editorInsertRow ec k s = some ec1 ∧ ec1.num_rows = ec.num_rows + 1 ∧
      ec1.row[ec.row.length]? = some { last with idx := ec.row.length } := by
  obtain ⟨hlen, hidx⟩ := hwf
  have hg : ¬ ((k : Int) < 0 ∨ (k : Int) > ec.num_rows) := by omega
  obtain ⟨h1, h2⟩ := idxFrom_take_drop hidx k (by omega)
  have hlt : (ec.row.take k).length = k := by
    rw [List.length_take]
    omega
  generalize hnew : editor_row.mk (k : Int) s [] [] false = new_row
  have hni : new_row.idx = (k : Int) := by rw [← hnew]
  have hidx1 : idxFrom 0 (ec.row.take k ++
      new_row :: setIdxFrom ((k : Int) + 1) (ec.row.drop k)) = true := by
    rw [idxFrom_append, h1]
    simp [idxFrom, hlt, idxFrom_setIdxFrom, hni]
  have hl1 : (ec.row.take k ++
      new_row :: setIdxFrom ((k : Int) + 1) (ec.row.drop k)).length = ec.row.length + 1 := by
    simp only [List.length_append, List.length_cons, setIdxFrom_length, List.length_take,
      List.length_drop]
    omega
  obtain ⟨ec2, e1, e2, e3, e4⟩ := editorUpdateRow_beyond
    (editor_config.mk ec.cursor_x ec.cursor_y ec.num_rows
      (ec.row.take k ++ new_row :: setIdxFrom ((k : Int) + 1) (ec.row.drop k))
      ec.dirty ec.copied_char_buffer ec.syntax_ ec.actions) k hidx1
    (by simp only [hl1]; omega) (by simp only [hl1]; omega)
  simp only at e2 e3 e4
  refine ⟨{ ec2 with num_rows := ec2.num_rows + 1, dirty := ec2.dirty + 1 }, ?_, ?_, ?_⟩
  · simp only [editorInsertRow, hg, if_false, Int.toNat_ofNat, hnew, e1]
  · simp only [e2]
  · simp only
    rw [e4 ec.row.length hk (by omega), List.getElem?_append_right (by omega), hlt]
    have e : ec.row.length - k = (ec.row.length - k - 1) + 1 := by omega
    rw [e, List.getElem?_cons_succ, setIdxFrom_getElem?, List.getElem?_drop]
    have e5 : k + (ec.row.length - k - 1) = ec.row.length - 1 := by omega
    rw [e5, hlast]
    simp only [Option.map_some', Option.some.injEq]
    congr 1
    omega

/-- C31, witness: under the C profile, inserting "/* x" at index 1 of the rows "a", "b"
gives the rows "a", "/* x", "b" in which "/* x" is a comment with the flag true, and the
row "b" at index 2 is still tagged `HL_NORMAL` with the flag false: it has not been
rescanned. -/
theorem C31_insert_row_cascade_witness :
    (∃ ec1, editorInsertRow (profiledBuffer HL_DB_c ["a", "b"] 0 0) (1 : Nat) (cs "/* x")
        = some ec1 ∧
      ec1.num_rows = (profiledBuffer HL_DB_c ["a", "b"] 0 0).num_rows + 1 ∧
      ec1.row[(profiledBuffer HL_DB_c ["a", "b"] 0 0).row.length]?
        = some { plainRow 1 "b" with
            idx := (profiledBuffer HL_DB_c ["a", "b"] 0 0).row.length }) ∧
    (editorInsertRow (profiledBuffer HL_DB_c ["a", "b"] 0 0) 1 (cs "/* x")).map
        (fun e => e.row.map (fun r => (r.chars, r.hl_open_comment, r.highlight)))
      = some [(cs "a", false, [HL_NORMAL]),
          (cs "/* x", true, [HL_ML_COMMENT, HL_ML_COMMENT, HL_ML_COMMENT, HL_ML_COMMENT]),
          (cs "b", false, [HL_NORMAL])] :=
  ⟨C31_insert_row_cascade (profiledBuffer HL_DB_c ["a", "b"] 0 0) (by decide) 1 (cs "/* x")
      (plainRow 1 "b") (by decide) (by decide),
   by decide⟩
/-! ## C34: the keyword that is matched -/

theorem memset_getElem? {α : Type} (l : List α) (i n : Nat) (v : α) (j : Nat) :
    (memset l i n v)[j]? = if i ≤ j ∧ j < i + n then (l[j]?).map (fun _ => v) else l[j]? := by
  induction l generalizing i n j with
  | nil =>
    cases i <;> cases n <;> simp [memset]
  | cons a t ih =>
    cases i with
    | zero =>
      cases n with
      | zero => simp [memset]
      | succ n =>
        cases j with
        | zero => simp [memset]
        | succ j =>
          simp only [memset, List.getElem?_cons_succ, ih 0 n j]
          by_cases h : j < n
          · have h1 : 0 ≤ j ∧ j < 0 + n := ⟨Nat.zero_le _, by omega⟩
            have h2 : 0 ≤ j + 1 ∧ j + 1 < 0 + (n + 1) := ⟨Nat.zero_le _, by omega⟩
            rw [if_pos h1, if_pos h2]
          · have h1 : ¬ (0 ≤ j ∧ j < 0 + n) := by omega
            have h2 : ¬ (0 ≤ j + 1 ∧ j + 1 < 0 + (n + 1)) := by omega
            rw [if_neg h1, if_neg h2]
    | succ i =>
      cases j with
      | zero =>
        have h2 : ¬ (i + 1 ≤ 0 ∧ 0 < i + 1 + n) := by omega
        simp only [memset, List.getElem?_cons_zero]
        rw [if_neg h2]
      | succ j =>
        simp only [memset, List.getElem?_cons_succ, ih i n j]
        by_cases h : i ≤ j ∧ j < i + n
        · have h2 : i + 1 ≤ j + 1 ∧ j + 1 < i + 1 + n := by omega
          rw [if_pos h, if_pos h2]
        · have h2 : ¬ (i + 1 ≤ j + 1 ∧ j + 1 < i + 1 + n) := by omega
          rw [if_neg h, if_neg h2]

theorem findKeyword_cons (render : List Int) (i : Nat) (kw : List Int) (rest : List (List Int)) :
    findKeyword render i (kw :: rest)
      = if kwMatches render i kw = true then
          some ((kwText kw).length, kw.getLast? == some 124)
        else findKeyword render i rest := by
  simp only [findKeyword, kwMatches, kwText]
  by_cases hf : (kw.getLast? == some 124) = true
  · simp only [hf, if_true, List.length_take]
    have : min (kw.length - 1) kw.length = kw.length - 1 := by omega
    rw [this]
  · simp only [hf, if_false, List.take_length]
    simp

theorem findKeyword_none (render : List Int) (i : Nat) (kws : List (List Int)) :
    findKeyword render i kws = none ↔ ∀ kw ∈ kws, kwMatches render i kw = false := by
  induction kws with
  | nil => simp [findKeyword]
  | cons kw rest ih =>
    rw [findKeyword_cons]
    by_cases h : kwMatches render i kw = true
    · rw [if_pos h]
      simp [h]
    · rw [if_neg h, ih]
      simp only [Bool.not_eq_true] at h
      simp [h]

theorem findKeyword_first (render : List Int) (i : Nat) (kws : List (List Int)) (klen : Nat)
    (f : Bool) (h : findKeyword render i kws = some (klen, f)) :
    ∃ pre kw post, kws = pre ++ kw :: post ∧ (∀ k ∈ pre, kwMatches render i k = false) ∧
      kwMatches render i kw = true ∧ klen = (kwText kw).length ∧
      f = (kw.getLast? == some 124) := by
  induction kws with
  | nil => simp [findKeyword] at h
  | cons kw rest ih =>
    rw [findKeyword_cons] at h
    by_cases hm : kwMatches render i kw = true
    · rw [if_pos hm] at h
      simp only [Option.some.injEq, Prod.mk.injEq] at h
      exact ⟨[], kw, rest, rfl, by simp, hm, h.1.symm, h.2.symm⟩
    · rw [if_neg hm] at h
      obtain ⟨pre, k1, post, h1, h2, h3, h4, h5⟩ := ih h
      refine ⟨kw :: pre, k1, post, by rw [h1]; rfl, ?_, h3, h4, h5⟩
      intro k hk
      rcases List.mem_cons.mp hk with hk1 | hk1
      · rw [hk1]
        simpa using hm
      · exact h2 k hk1

/-- C34 (amended). Keyword selection, for every keyword table and every position `i`.
The keyword loop returns no match exactly when no entry of the table matches at `i` (its
text without the marker '|' stands there and is followed by a separator or the end of the
row).  When it returns a match, this is the first entry of the table, in the order of the
table, that matches: no entry before it matches, the matched length is the length of its
text without the marker, and the class is that of the entry.  Where the rule is attempted
(`prev_sep` set), exactly the positions `i .. i + klen - 1` are tagged, with
`HL_KEYWORD_2` if the entry ends with '|' and `HL_KEYWORD_1` otherwise, and every other
position keeps its tag. -/
theorem C34_keyword_selection (render : List Int) (i : Nat) (kws : List (List Int)) :
    (findKeyword render i kws = none ↔ ∀ kw ∈ kws, kwMatches render i kw = false) ∧
    (∀ (klen : Nat) (f : Bool), findKeyword render i kws = some (klen, f) →
      ∃ pre kw post, kws = pre ++ kw :: post ∧ (∀ k ∈ pre, kwMatches render i k = false) ∧
        kwMatches render i kw = true ∧ klen = (kwText kw).length ∧
        f = (kw.getLast? == some 124)) ∧
    (∀ ( s : editor_syntax) (st : scan_state) (klen : Nat) (f : Bool),
      s.keywords = kws → st.i = i → st.prev_sep = true →
      findKeyword render i kws = some (klen, f) →
      ∀ (j : Nat), (stepKeyword s render st).1.highlight[j]?
        = if i ≤ j ∧ j < i + klen then
            (st.highlight[j]?).map (fun _ => if f = true then HL_KEYWORD_2 else HL_KEYWORD_1)
          else st.highlight[j]?) := by
  refine ⟨findKeyword_none render i kws, findKeyword_first render i kws, ?_⟩
  intro s st klen f hs hi hp hf j
  subst hs hi
  simp only [stepKeyword, hp, if_true, hf]
  exact memset_getElem? _ _ _ _ _

/-- C34, witness: under the C profile the row "if (x)" has the keyword "if" at position
0: the positions 0 and 1 are tagged `HL_KEYWORD_1`; in "int x" the entry "int|" matches
with the length 3 and the class of the marker. -/
theorem C34_keyword_selection_witness :
    (∃ pre kw post, C_HL_keywords = pre ++ kw :: post ∧
      (∀ k ∈ pre, kwMatches (cs "if (x)") 0 k = false) ∧
      kwMatches (cs "if (x)") 0 kw = true ∧ 2 = (kwText kw).length ∧
      false = (kw.getLast? == some 124)) ∧
    findKeyword (cs "int x") 0 C_HL_keywords = some (3, true) ∧
    (scanRow HL_DB_c (cs "if (x)") false).map (fun st => st.highlight)
      = some [HL_KEYWORD_1, HL_KEYWORD_1, HL_NORMAL, HL_NORMAL, HL_NORMAL, HL_NORMAL] :=
  ⟨(C34_keyword_selection (cs "if (x)") 0 C_HL_keywords).2.1 2 false (by decide),
   by decide, by decide⟩

/-- C34, counterexample to the longest keyword being the one matched: with the table
"a", "a.b" and the row "a.b ", both entries match at position 0 (the '.' after "a" is a
separator), the longest is "a.b", and the loop returns the first, "a", of length 1; only
position 0 is tagged. -/
theorem C34_counterexample :
    kwMatches (cs "a.b ") 0 (cs "a") = true ∧ kwMatches (cs "a.b ") 0 (cs "a.b") = true ∧
    (kwText (cs "a")).length < (kwText (cs "a.b")).length ∧
    findKeyword (cs "a.b ") 0 [cs "a", cs "a.b"] = some (1, false) ∧
    (scanRow { HL_DB_c with keywords := [cs "a", cs "a.b"] } (cs "a.b ") false).map
        (fun st => st.highlight)
      = some [HL_KEYWORD_1, HL_NORMAL, HL_NORMAL, HL_NORMAL] := by
  decide
/-! ## C33: what is tagged as a number -/

theorem NumOk_set_other (render : List Int) (hl : List editor_highlight) (i : Nat)
    (v : editor_highlight) (hv : v ≠ HL_NUMBER) (h : NumOk render hl) :
    NumOk render (hl.set i v) := by
  intro j hj
  by_cases hij : i = j
  · subst hij
    by_cases hi : i < hl.length
    · rw [List.getElem?_set_self hi] at hj
      exact absurd (Option.some.inj hj) hv
    · rw [List.set_eq_of_length_le (by omega)] at hj
      exact h i hj
  · rw [List.getElem?_set_ne hij] at hj
    exact h j hj

theorem NumOk_set_number (render : List Int) (hl : List editor_highlight) (i : Nat)
    (hc : isdigit (render.getD i 0) = true ∨ render.getD i 0 = 46) (h : NumOk render hl) :
    NumOk render (hl.set i HL_NUMBER) := by
  intro j hj
  by_cases hij : i = j
  · subst hij
    exact hc
  · rw [List.getElem?_set_ne hij] at hj
    exact h j hj

theorem NumOk_memset_other (render : List Int) (hl : List editor_highlight) (i n : Nat)
    (v : editor_highlight) (hv : v ≠ HL_NUMBER) (h : NumOk render hl) :
    NumOk render (memset hl i n v) := by
  intro j hj
  rw [memset_getElem?] at hj
  by_cases hc : i ≤ j ∧ j < i + n
  · rw [if_pos hc] at hj
    cases hg : hl[j]? with
    | none => rw [hg] at hj; cases hj
    | some x =>
      rw [hg] at hj
      exact absurd (Option.some.inj hj) hv
  · rw [if_neg hc] at hj
    exact h j hj

theorem stepKeyword_NumOk ( s : editor_syntax) (render : List Int) (st : scan_state)
    (h : NumOk render st.highlight) : NumOk render (stepKeyword s render st).1.highlight := by
  unfold stepKeyword
  simp only
  split_ifs
  · split
    · rename_i klen kw_flag _
      apply NumOk_memset_other _ _ _ _ _ _ h
      cases kw_flag <;> decide
    · exact h
  · exact h

theorem stepNumber_NumOk ( s : editor_syntax) (render : List Int) (st : scan_state)
    (h : NumOk render st.highlight) : NumOk render (stepNumber s render st).1.highlight := by
  unfold stepNumber
  simp only
  by_cases hc : s.flags &&& HL_HIGHLIGHT_NUMBERS ≠ 0 ∧
      ((isdigit (render.getD st.i 0) = true ∧
          (st.prev_sep = true ∨
            (if st.i > 0 then st.highlight.getD (st.i - 1) HL_NORMAL else HL_NORMAL)
              = HL_NUMBER)) ∨
        (render.getD st.i 0 = 46 ∧
          (if st.i > 0 then st.highlight.getD (st.i - 1) HL_NORMAL else HL_NORMAL)
            = HL_NUMBER))
  · rw [if_pos hc]
    apply NumOk_set_number _ _ _ _ h
    rcases hc.2 with h1 | h1
    · exact Or.inl h1.1
    · exact Or.inr h1.1
  · rw [if_neg hc]
    exact stepKeyword_NumOk s render st h

theorem stepString_NumOk ( s : editor_syntax) (render : List Int) (st : scan_state)
    (h : NumOk render st.highlight) : NumOk render (stepString s render st).1.highlight := by
  unfold stepString
  simp only
  split_ifs
  all_goals first
    | exact stepNumber_NumOk s render st h
    | exact NumOk_set_other _ _ _ _ (by decide)
        (NumOk_set_other _ _ _ _ (by decide) h)
    | exact NumOk_set_other _ _ _ _ (by decide) h

theorem stepMlComment_NumOk ( s : editor_syntax) (render : List Int) (st : scan_state)
    (h : NumOk render st.highlight) :
    NumOk render (stepMlComment s render st).1.highlight := by
  unfold stepMlComment
  simp only
  split_ifs
  all_goals first
    | exact stepString_NumOk s render st h
    | exact NumOk_memset_other _ _ _ _ _ (by decide)
        (NumOk_set_other _ _ _ _ (by decide) h)
    | exact NumOk_memset_other _ _ _ _ _ (by decide) h
    | exact NumOk_set_other _ _ _ _ (by decide) h

theorem scanStep_NumOk ( s : editor_syntax) (render : List Int) (st : scan_state)
    (h : NumOk render st.highlight) : NumOk render (scanStep s render st).1.highlight := by
  unfold scanStep
  simp only
  split_ifs
  · exact NumOk_memset_other _ _ _ _ _ (by decide) h
  · exact stepMlComment_NumOk s render st h

theorem scanLoop_NumOk ( s : editor_syntax) (render : List Int) (fuel : Nat) :
    ∀ (st st1 : scan_state), NumOk render st.highlight →
      scanLoop s render fuel st = some st1 → NumOk render st1.highlight := by
  induction fuel with
  | zero =>
    intro st st1 h hs
    simp only [scanLoop] at hs
    by_cases hlt : st.i < render.length
    · rw [if_pos hlt] at hs
      cases hs
    · rw [if_neg hlt] at hs
      cases hs
      exact h
  | succ n ih =>
    intro st st1 h hs
    simp only [scanLoop] at hs
    by_cases hlt : st.i < render.length
    · rw [if_pos hlt] at hs
      have ht := scanStep_NumOk s render st h
      rcases hstep : scanStep s render st with ⟨st2, b⟩
      rw [hstep] at hs ht
      cases b with
      | true =>
        simp only [Option.some.injEq] at hs
        rw [← hs]
        exact ht
      | false =>
        simp only at hs
        exact ih st2 st1 ht hs
    · rw [if_neg hlt] at hs
      cases hs
      exact h

/-- C33. What the scanner tags as a number, for every profile, every row and every
carried-in comment state: the scan returns, and every position tagged `HL_NUMBER` holds a
decimal digit or a '.'.  A byte among x, a, b, c, d, e, f is therefore never tagged
`HL_NUMBER`, also when it follows a number-tagged position: `isAlsoNumber`, which accepts
these bytes, is not called by the scanner. -/
theorem C33_number_continuation ( s : editor_syntax) (render : List Int) (p : Bool) :
    ∃ st, scanRow s render p = some st ∧
      (∀ (j : Nat), st.highlight[j]? = some HL_NUMBER →
        isdigit (render.getD j 0) = true ∨ render.getD j 0 = 46) ∧
      (∀ (j : Nat) (c : Int), render[j]? = some c →
        c = 120 ∨ c = 97 ∨ c = 98 ∨ c = 99 ∨ c = 100 ∨ c = 101 ∨ c = 102 →
        isAlsoNumber c = true ∧ st.highlight[j]? ≠ some HL_NUMBER) := by
  obtain ⟨st, h1, _, _⟩ := scanRow_HlOk s render p
  have hnum : NumOk render st.highlight := by
    apply scanLoop_NumOk s render render.length _ st _ h1
    intro j hj
    rw [List.getElem?_replicate] at hj
    split_ifs at hj
    cases hj
  refine ⟨st, h1, hnum, ?_⟩
  intro j c hc hx
  have hget : render.getD j 0 = c := by
    simp only [List.getD_eq_getElem?_getD, hc, Option.getD_some]
  refine ⟨?_, ?_⟩
  · rcases hx with h | h | h | h | h | h | h <;> subst h <;> decide
  · intro hn
    have := hnum j hn
    rw [hget] at this
    rcases hx with h | h | h | h | h | h | h <;> subst h <;> revert this <;> decide

/-- C33, witness: under the C profile, which highlights numbers, in "0x1f" only position
0 is tagged `HL_NUMBER`; the 'x', the '1' after it and the 'f' are tagged `HL_NORMAL`,
although `isAlsoNumber` accepts 'x' and 'f'.  In "1.5e" the positions 0, 1, 2 are tagged
`HL_NUMBER` and the 'e' is not. -/
theorem C33_number_continuation_witness :
    (∃ st, scanRow HL_DB_c (cs "0x1f") false = some st ∧
      (∀ (j : Nat), st.highlight[j]? = some HL_NUMBER →
        isdigit ((cs "0x1f").getD j 0) = true ∨ (cs "0x1f").getD j 0 = 46) ∧
      (∀ (j : Nat) (c : Int), (cs "0x1f")[j]? = some c →
        c = 120 ∨ c = 97 ∨ c = 98 ∨ c = 99 ∨ c = 100 ∨ c = 101 ∨ c = 102 →
        isAlsoNumber c = true ∧ st.highlight[j]? ≠ some HL_NUMBER)) ∧
    (scanRow HL_DB_c (cs "0x1f") false).map (fun st => st.highlight)
      = some [HL_NUMBER, HL_NORMAL, HL_NORMAL, HL_NORMAL] ∧
    isAlsoNumber 120 = true ∧ isAlsoNumber 102 = true ∧
    HL_DB_c.flags &&& HL_HIGHLIGHT_NUMBERS ≠ 0 ∧
    (scanRow HL_DB_c (cs "1.5e") false).map (fun st => st.highlight)
      = some [HL_NUMBER, HL_NUMBER, HL_NUMBER, HL_NORMAL] :=
  ⟨C33_number_continuation HL_DB_c (cs "0x1f") false, by decide, by decide, by decide,
   by decide, by decide⟩
/-! ## C32: a digit after a separator -/

theorem scanStep_digit_at_start (c : Int) (rest : List Int) (hc : isdigit c = true)
    (hl : List editor_highlight) :
    scanStep HL_DB_c (c :: rest) (scan_state.mk 0 true 0 false hl)
      = (scan_state.mk 1 false 0 false (hl.set 0 HL_NUMBER), false) := by
  simp only [isdigit, Bool.and_eq_true, decide_eq_true_eq] at hc
  have h47 : (47 == c) = false := by
    rw [beq_eq_false_iff_ne]
    omega
  have h34 : ¬ c = 34 := by omega
  have h39 : ¬ c = 39 := by omega
  have hd : isdigit c = true := by
    simp only [isdigit, Bool.and_eq_true, decide_eq_true_eq]
    exact hc
  have hs1 : strncmpEq (c :: rest) 0 [47, 47] = false := by
    simp [strncmpEq, List.isPrefixOf, h47]
  have hs2 : strncmpEq (c :: rest) 0 [47, 42] = false := by
    simp [strncmpEq, List.isPrefixOf, h47]
  have e1 : HL_DB_c.singleline_comment_start.getD [] = [47, 47] := by decide
  have e2 : HL_DB_c.multiline_comment_start.getD [] = [47, 42] := by decide
  have e3 : HL_DB_c.multiline_comment_end.getD [] = [42, 47] := by decide
  have e4 : HL_DB_c.flags &&& HL_HIGHLIGHT_STRINGS ≠ 0 := by decide
  have e5 : HL_DB_c.flags &&& HL_HIGHLIGHT_NUMBERS ≠ 0 := by decide
  simp only [scanStep, e1, hs1, stepMlComment, e2, e3, hs2, stepString, e4, stepNumber, e5,
    List.getD_cons_zero, h34, h39, hd]
  simp only [ne_eq] at e5
  simp [e5]

/-- C32. The number rule at the start of a row, under the C profile: a row that starts
with a decimal digit and is entered outside a comment has its position 0 tagged
`HL_NUMBER`.  After a keyword the rule does not see the separator: when the keyword rule
matches at position `i` with the length `klen`, the loop body goes on to its last two
statements, so the next position examined is `i + klen + 1`, the byte at `i + klen` is
stepped over, and `prev_sep` is the separator test of the first byte of the keyword. -/
theorem C32_number_rule (c : Int) (rest : List Int) (hc : isdigit c = true) :
    (∃ st, scanRow HL_DB_c (c :: rest) false = some st ∧
      st.highlight[0]? = some HL_NUMBER) ∧
    (∀ ( s : editor_syntax) (render : List Int) (st : scan_state) (klen : Nat) (f : Bool),
      st.prev_sep = true → findKeyword render st.i s.keywords = some (klen, f) →
      (stepKeyword s render st).1.i = st.i + klen + 1 ∧
      (stepKeyword s render st).1.prev_sep = isSeparator (render.getD st.i 0)) := by
  refine ⟨?_, ?_⟩
  · have hstep := scanStep_digit_at_start c rest hc
      (List.replicate (c :: rest).length HL_NORMAL)
    obtain ⟨st1, h1, h2, _⟩ := scanLoop_inv HL_DB_c (c :: rest) rest.length
      (scan_state.mk 1 false 0 false
        ((List.replicate (c :: rest).length HL_NORMAL).set 0 HL_NUMBER))
      (by simp)
    refine ⟨st1, ?_, ?_⟩
    · simp only [scanRow, List.length_cons, scanLoop, Nat.zero_lt_succ, if_true]
      simp only [List.length_cons] at hstep h1
      rw [hstep]
      exact h1
    · have := h2.2.2 0 (by simp)
      rw [this]
      simp
  · intro s render st klen f hp hf
    simp only [stepKeyword, hp, if_true, hf]
    exact ⟨trivial, trivial⟩

/-- C32, witness: under the C profile, "1 + 2" has the positions 0 and 4 tagged
`HL_NUMBER`.  In "return 1" the keyword covers the positions 0..5, the space at position
6 is stepped over, and the digit at position 7 is tagged `HL_NORMAL`, not `HL_NUMBER`,
although the byte before it is a separator. -/
theorem C32_number_rule_witness :
    ((∃ st, scanRow HL_DB_c (49 :: cs " + 2") false = some st ∧
        st.highlight[0]? = some HL_NUMBER) ∧
      (∀ ( s : editor_syntax) (render : List Int) (st : scan_state) (klen : Nat) (f : Bool),
        st.prev_sep = true → findKeyword render st.i s.keywords = some (klen, f) →
        (stepKeyword s render st).1.i = st.i + klen + 1 ∧
        (stepKeyword s render st).1.prev_sep = isSeparator (render.getD st.i 0))) ∧
    (scanRow HL_DB_c (cs "1 + 2") false).map (fun st => st.highlight)
      = some [HL_NUMBER, HL_NORMAL, HL_NORMAL, HL_NORMAL, HL_NUMBER] ∧
    isdigit ((cs "return 1").getD 7 0) = true ∧
    isSeparator ((cs "return 1").getD 6 0) = true ∧
    (scanRow HL_DB_c (cs "return 1") false).map (fun st => st.highlight)
      = some [HL_KEYWORD_1, HL_KEYWORD_1, HL_KEYWORD_1, HL_KEYWORD_1, HL_KEYWORD_1,
          HL_KEYWORD_1, HL_NORMAL, HL_NORMAL] :=
  ⟨C32_number_rule 49 (cs " + 2") (by decide), by decide, by decide, by decide, by decide⟩

end Mel
